import Mathlib

/-!
Host-steal scheduler policy

A shallow embedding of `src/main/core/scheduler/scheduler_policy_host_steal.c`.

Modelling conventions.

* Hosts (`Host*`) and threads (`pthread_t`) are opaque handles compared by
  identity; they are natural numbers here.
* The three `GHashTable`s are finite maps, written as functions into `Option`.
* A `HostStealThreadData*` is the position of the object in `threadList`: every
  thread-data object is appended to `threadList` by the call that allocates it
  and is never removed.
* Every operation is one atomic step (the quiescent, lock-protected view).  The
  spin loop of the steal protocol cannot make progress without another thread,
  so in this sequential view a `pop` that enters it is reported as `spinning`.
* `utility_assert` failures and NULL dereferences are fatal: `none` for the
  operations returning `Option`, `PopResult.aborted` for the pop family.
* `SimulationTime` (a 64-bit count of nanoseconds) is `Nat`: it is only compared
  and copied, never added to, and the `gsize`
  and `guint` counters only count calls, so they are unbounded naturals.
-/

namespace HostSteal

abbrev Host := Nat
abbrev Thread := Nat

/-- The record behind `Event*` (`event_new_(task, time, srcHost, dstHost)`). -/
structure Event where
  task : Nat
  time : Nat
  srcHost : Host
  dstHost : Host
deriving DecidableEq, Repr

def event_getTime (event : Event) : Nat := event.time

def event_setTime (event : Event) (time : Nat) : Event :=
  { event with time := time }

/-- Modelled from the spec: `main/utility/priority_queue.c` and `event_compare`
are not among the sources.  The spec describes a priority queue ordered by
`(time, insertion_sequence)` with a stable tie-break; the queue is kept as the
list of its events in pop order. -/
abbrev PriorityQueue := List Event

/-- Modelled from the spec: `priorityqueue_push` puts the event behind every
queued event whose time is not larger (stable on equal times). -/
def priorityqueue_push : PriorityQueue → Event → PriorityQueue
  | [], event => [event]
  | x :: xs, event =>
    if x.time ≤ event.time then x :: priorityqueue_push xs event else event :: x :: xs

/-- Modelled from the spec: `priorityqueue_peek` is the minimum event, NULL when
the queue is empty. -/
def priorityqueue_peek (pq : PriorityQueue) : Option Event := pq.head?

/-- Modelled from the spec: `priorityqueue_pop` removes and returns the
minimum event. -/
def priorityqueue_pop (pq : PriorityQueue) : Option Event × PriorityQueue :=
  (pq.head?, pq.tail)

/-- Modelled from the spec: `SIMTIME_MAX` of `definitions.h`, the spec's `∞`
(the largest valid 64-bit simulation time). -/
def SIMTIME_MAX : Nat := 2 ^ 64 - 2

structure HostStealQueueData where
  pq : PriorityQueue
  lastEventTime : Nat
  nPushed : Nat
  nPopped : Nat
deriving DecidableEq, Repr

structure HostStealThreadData where
  allHosts : Option (List Host)
  unprocessedHosts : List Host
  processedHosts : List Host
  runningHost : Option Host
  currentBarrier : Nat
  tnumber : Nat
  isStealable : Bool
deriving DecidableEq, Repr

structure HostStealPolicyData where
  threadList : List HostStealThreadData
  threadCount : Nat
  hostToQueueDataMap : Host → Option HostStealQueueData
  threadToThreadDataMap : Thread → Option Nat
  hostToThreadMap : Host → Option Thread

/-- `_hoststealthreaddata_new`: `g_new0` plus two empty queues. -/
def hoststealthreaddata_new : HostStealThreadData :=
  { allHosts := none, unprocessedHosts := [], processedHosts := [], runningHost := none,
    currentBarrier := 0, tnumber := 0, isStealable := false }

/-- `_hoststealqueuedata_new`: `g_new0` plus an empty priority queue. -/
def hoststealqueuedata_new : HostStealQueueData :=
  { pq := [], lastEventTime := 0, nPushed := 0, nPopped := 0 }

/-- `schedulerpolicyhoststeal_new`. -/
def schedulerpolicyhoststeal_new : HostStealPolicyData :=
  { threadList := [], threadCount := 0, hostToQueueDataMap := fun _ => none,
    threadToThreadDataMap := fun _ => none, hostToThreadMap := fun _ => none }

/-- Store through a `HostStealThreadData*`. -/
def setThread (data : HostStealPolicyData) (t : Nat) (tdata : HostStealThreadData) :
    HostStealPolicyData :=
  { data with threadList := data.threadList.set t tdata }

/-- `g_hash_table_lookup(data->threadToThreadDataMap, thread)`, dereferenced. -/
def lookupThreadData (data : HostStealPolicyData) (thread : Thread) :
    Option HostStealThreadData :=
  match data.threadToThreadDataMap thread with
  | none => none
  | some t => data.threadList[t]?

/-- `_schedulerpolicyhoststeal_addHost`, called by thread `self`. -/
def addHost (data : HostStealPolicyData) (self : Thread) (host : Host)
    (randomThread : Thread) : HostStealPolicyData :=
  let data1 : HostStealPolicyData :=
    match data.hostToQueueDataMap host with
    | none =>
      { data with hostToQueueDataMap :=
          Function.update data.hostToQueueDataMap host (some hoststealqueuedata_new) }
    | some _ => data
  let assignedThread : Thread := if randomThread ≠ 0 then randomThread else self
  let created : HostStealPolicyData × Nat :=
    match data1.threadToThreadDataMap assignedThread with
    | none =>
      ({ data1 with
          threadToThreadDataMap :=
            Function.update data1.threadToThreadDataMap assignedThread
              (some data1.threadList.length)
          threadList :=
            data1.threadList ++ [{ hoststealthreaddata_new with tnumber := data1.threadCount }]
          threadCount := data1.threadCount + 1 },
        data1.threadList.length)
    | some t => (data1, t)
  let data2 : HostStealPolicyData :=
    { created.1 with
      hostToThreadMap := Function.update created.1.hostToThreadMap host (some assignedThread) }
  match data2.threadList[created.2]? with
  | none => data2
  | some tdata =>
    if some host ≠ tdata.runningHost then
      setThread data2 created.2
        { tdata with unprocessedHosts := tdata.unprocessedHosts ++ [host] }
    else data2

/-- `_schedulerpolicyhoststeal_migrateHost`, called by thread `self`; `none` is a
failed `utility_assert` (or the NULL dereference of `tdataNew`). -/
def migrateHost (data : HostStealPolicyData) (self : Thread) (host : Host)
    (newThread : Thread) : Option HostStealPolicyData :=
  let oldThread : Thread := (data.hostToThreadMap host).getD 0
  if oldThread = newThread then some data
  else
    match lookupThreadData data oldThread with
    | some tdata =>
      match lookupThreadData data newThread with
      | none => none
      | some tdataNew =>
        if tdata.runningHost ≠ tdataNew.runningHost then some (addHost data self host newThread)
        else none
    | none => some (addHost data self host newThread)

/-- `_schedulerpolicyhoststeal_getHosts`: the returned queue (NULL without a
slot) and the state, in which the copying branch has refreshed `allHosts`. -/
def getHosts (data : HostStealPolicyData) (self : Thread) :
    Option (List Host) × HostStealPolicyData :=
  match data.threadToThreadDataMap self with
  | none => (none, data)
  | some t =>
    match data.threadList[t]? with
    | none => (none, data)
    | some tdata =>
      if tdata.unprocessedHosts = [] then (some tdata.processedHosts, data)
      else if tdata.processedHosts = [] then (some tdata.unprocessedHosts, data)
      else
        let all := tdata.processedHosts ++ tdata.unprocessedHosts
        (some all, setThread data t { tdata with allHosts := some all })

/-- The causality adjustment at the head of `_schedulerpolicyhoststeal_push`. -/
def adjustEventTime (event : Event) (srcHost dstHost : Host) (barrier : Nat) :
    Event :=
  if srcHost ≠ dstHost ∧ event_getTime event < barrier then event_setTime event barrier
  else event

/-- `_schedulerpolicyhoststeal_push`; `none` is the failed `utility_assert(qdata)`.
The caller's slot is only locked, so `self` does not influence the result. -/
def push (data : HostStealPolicyData) (_self : Thread) (event : Event)
    (srcHost dstHost : Host) (barrier : Nat) : Option HostStealPolicyData :=
  let event1 := adjustEventTime event srcHost dstHost barrier
  match data.hostToQueueDataMap dstHost with
  | none => none
  | some qdata =>
    let qdata1 : HostStealQueueData :=
      { qdata with pq := priorityqueue_push qdata.pq event1, nPushed := qdata.nPushed + 1 }
    some { data with
      hostToQueueDataMap := Function.update data.hostToQueueDataMap dstHost (some qdata1) }

/-- Outcome of the pop family. -/
inductive PopResult where
  /-- the call returned `event` (NULL is `none`) -/
  | returned (data : HostStealPolicyData) (event : Option Event)
  /-- the call is inside the spin loop waiting for another worker -/
  | spinning (data : HostStealPolicyData)
  /-- a `utility_assert` failed -/
  | aborted
  /-- the iteration bound of the model was exhausted -/
  | outOfFuel

/-- Outcome of one iteration of the `while` loop of `popFromThread`. -/
inductive IterResult where
  /-- the loop was left through a `return` -/
  | done (data : HostStealPolicyData) (event : Option Event)
  /-- the loop goes round again -/
  | again (data : HostStealPolicyData)
  | aborted

/-- The block `if(nextEvent == NULL)` of the loop body of `popFromThread`: the
running host goes to the tail of `processedHosts` and the loop goes round again. -/
def retireHost (data : HostStealPolicyData) (t : Nat) (host : Host) : IterResult :=
  match data.threadList[t]? with
  | none => .aborted
  | some tdata =>
    .again (setThread data t
      { tdata with processedHosts := tdata.processedHosts ++ [host], runningHost := none })

/-- The part of the loop body of `popFromThread` after `host` has become the
running host of the slot `t`. -/
def popFromHost (data : HostStealPolicyData) (self : Thread) (t : Nat) (host : Host)
    (barrier : Nat) : IterResult :=
  match data.hostToQueueDataMap host with
  | none => .aborted
  | some qdata =>
    match priorityqueue_peek qdata.pq with
    | none => retireHost data t host
    | some peeked =>
      if event_getTime peeked < barrier then
        if qdata.lastEventTime ≤ event_getTime peeked then
          let popped := priorityqueue_pop qdata.pq
          let qdata1 : HostStealQueueData :=
            { qdata with lastEventTime := event_getTime peeked, pq := popped.2,
                         nPopped := qdata.nPopped + 1 }
          let data1 : HostStealPolicyData :=
            { data with
              hostToQueueDataMap := Function.update data.hostToQueueDataMap host (some qdata1) }
          match migrateHost data1 self host self with
          | none => .aborted
          | some data2 =>
            match popped.1 with
            | some nextEvent => .done data2 (some nextEvent)
            | none => retireHost data2 t host
        else .aborted
      else retireHost data t host

/-- One pass through the `while` loop of `popFromThread`: the loop test, the
choice of the running host, and the body.  `src` is the slot whose
`unprocessedHosts` is the `assignedHosts` argument. -/
def popFromThreadIter (data : HostStealPolicyData) (self : Thread) (t src : Nat)
    (barrier : Nat) : IterResult :=
  match data.threadList[t]?, data.threadList[src]? with
  | some tdata, some sdata =>
    match tdata.runningHost, sdata.unprocessedHosts with
    | some host, _ => popFromHost data self t host barrier
    | none, [] => .done data none
    | none, host :: rest =>
      let data1 := setThread data src { sdata with unprocessedHosts := rest }
      match data1.threadList[t]? with
      | none => .aborted
      | some tdata1 =>
        popFromHost (setThread data1 t { tdata1 with runningHost := some host })
          self t host barrier
  | _, _ => .aborted

/-- The `while` loop of `popFromThread`, at most `fuel` iterations. -/
def popFromThreadLoop (self : Thread) (t src : Nat) (barrier : Nat) :
    Nat → HostStealPolicyData → PopResult
  | 0, _ => .outOfFuel
  | fuel + 1, data =>
    match popFromThreadIter data self t src barrier with
    | .done data1 event => .returned data1 event
    | .again data1 => popFromThreadLoop self t src barrier fuel data1
    | .aborted => .aborted

/-- `_schedulerpolicyhoststeal_popFromThread(policy, tdata, assignedHosts, barrier)`
for the non-NULL `tdata` at slot `t` and `assignedHosts` the `unprocessedHosts` of
slot `src`.  Each iteration that does not return takes one host out of the
list and the running slot, so the bound allows one iteration per listed host,
one for a host that is already running, and the final loop test. -/
def popFromThread (data : HostStealPolicyData) (self : Thread) (t src : Nat)
    (barrier : Nat) : PopResult :=
  match data.threadList[src]? with
  | none => .aborted
  | some sdata =>
    popFromThreadLoop self t src barrier (sdata.unprocessedHosts.length + 2) data

/-- The `while` loop of the rotation: move the processed hosts one by one to
the tail of the unprocessed hosts. -/
def moveProcessed : List Host → List Host → List Host × List Host
  | unprocessed, [] => (unprocessed, [])
  | unprocessed, host :: processed => moveProcessed (unprocessed ++ [host]) processed

/-- The round start of `_schedulerpolicyhoststeal_pop`: the body of
`if(barrier > tdata->currentBarrier)`. -/
def rotate (tdata : HostStealThreadData) (barrier : Nat) : HostStealThreadData :=
  let moved : List Host × List Host :=
    if tdata.unprocessedHosts = [] ∧ tdata.processedHosts ≠ [] then
      (tdata.processedHosts, tdata.unprocessedHosts)
    else moveProcessed tdata.unprocessedHosts tdata.processedHosts
  { tdata with currentBarrier := barrier, unprocessedHosts := moved.1,
               processedHosts := moved.2, isStealable := true }

/-- The first part of `_schedulerpolicyhoststeal_pop` for the slot `t` of the caller. -/
def roundStart (data : HostStealPolicyData) (t : Nat) (barrier : Nat) :
    HostStealPolicyData :=
  match data.threadList[t]? with
  | none => data
  | some tdata =>
    if barrier > tdata.currentBarrier then setThread data t (rotate tdata barrier) else data

/-- The `for` loop of `_schedulerpolicyhoststeal_pop` over the remaining values
of `i`; `tnumber` is `tdata->tnumber` and `n` the `threadCount` read before the
loop. -/
def stealLoop (self : Thread) (t : Nat) (tnumber n : Nat) (barrier : Nat) :
    List Nat → HostStealPolicyData → PopResult
  | [], data => .returned data none
  | i :: rest, data =>
    let stolenTnumber := (i + tnumber) % n
    match data.threadList[stolenTnumber]? with
    | none => .aborted
    | some stolenTdata =>
      if barrier > stolenTdata.currentBarrier then
        .spinning (setThread data stolenTnumber { stolenTdata with isStealable := false })
      else if stolenTdata.unprocessedHosts = [] then
        stealLoop self t tnumber n barrier rest data
      else
        match popFromThread data self t stolenTnumber barrier with
        | .returned data1 (some nextEvent) => .returned data1 (some nextEvent)
        | .returned data1 none => stealLoop self t tnumber n barrier rest data1
        | other => other

/-- `_schedulerpolicyhoststeal_pop`, called by thread `self`. -/
def pop (data : HostStealPolicyData) (self : Thread) (barrier : Nat) : PopResult :=
  match data.threadToThreadDataMap self with
  | none => .returned data none
  | some t =>
    match data.threadList[t]? with
    | none => .aborted
    | some tdata =>
      match popFromThread (roundStart data t barrier) self t t barrier with
      | .returned data1 (some nextEvent) => .returned data1 (some nextEvent)
      | .returned data1 none =>
        stealLoop self t tdata.tnumber data1.threadCount barrier
          (List.range' 1 (data1.threadCount - 1)) data1
      | other => other

/-- `_schedulerpolicyhoststeal_findMinTime`; `none` is the failed assertion. -/
def findMinTime (data : HostStealPolicyData) (nextEventTime : Nat) (host : Host) :
    Option Nat :=
  match data.hostToQueueDataMap host with
  | none => none
  | some qdata =>
    match priorityqueue_peek qdata.pq with
    | some event => some (min nextEventTime (event_getTime event))
    | none => some nextEventTime

/-- `g_queue_foreach(hosts, findMinTime, &searchState)`. -/
def foreachMinTime (data : HostStealPolicyData) :
    List Host → Nat → Option Nat
  | [], nextEventTime => some nextEventTime
  | host :: hosts, nextEventTime =>
    match findMinTime data nextEventTime host with
    | none => none
    | some next => foreachMinTime data hosts next

/-- `_schedulerpolicyhoststeal_getNextTime`; it does not change the state. -/
def getNextTime (data : HostStealPolicyData) (self : Thread) : Option Nat :=
  match lookupThreadData data self with
  | none => some SIMTIME_MAX
  | some tdata =>
    match foreachMinTime data tdata.unprocessedHosts SIMTIME_MAX with
    | none => none
    | some next => foreachMinTime data tdata.processedHosts next

/-! ## Predicates used in the statements -/

/-- The state in which the loop body of `popFromThread` meets its running host:
`d0` is `d` itself when slot `t` already runs `host`, and otherwise `d` after
`host` was taken from the head of the `unprocessedHosts` of slot `src`. -/
def Selected (d : HostStealPolicyData) (t src : Nat) (d0 : HostStealPolicyData)
    (host : Host) : Prop :=
  (∃ tdata sdata, d.threadList[t]? = some tdata ∧ d.threadList[src]? = some sdata ∧
      tdata.runningHost = some host ∧ d0 = d) ∨
  (∃ tdata sdata rest tdata1, d.threadList[t]? = some tdata ∧
      d.threadList[src]? = some sdata ∧ tdata.runningHost = none ∧
      sdata.unprocessedHosts = host :: rest ∧
      (setThread d src { sdata with unprocessedHosts := rest }).threadList[t]? = some tdata1 ∧
      d0 = setThread (setThread d src { sdata with unprocessedHosts := rest }) t
        { tdata1 with runningHost := some host })

/-- The queue record of a host after its minimum event `ev` was taken. -/
def poppedQueue (qdata : HostStealQueueData) (ev : Event) (rest : PriorityQueue) :
    HostStealQueueData :=
  { qdata with lastEventTime := ev.time, pq := rest, nPopped := qdata.nPopped + 1 }


/-- The state a `pop` leaves behind (the unchanged start state is not
available after an abort, which leaves no state). -/
def PopResult.state : PopResult → Option HostStealPolicyData
  | .returned data _ => some data
  | .spinning data => some data
  | .aborted => none
  | .outOfFuel => none

/-- The event a `pop` returned. -/
def PopResult.event : PopResult → Option Event
  | .returned _ event => event
  | _ => none

/-- Continue a run (`none` once an operation has aborted) with `addHost`. -/
def thenAddHost (r : Option HostStealPolicyData) (self : Thread) (host : Host)
    (thread : Thread) : Option HostStealPolicyData :=
  r.map (fun d => addHost d self host thread)

/-- Continue a run with `push`. -/
def thenPush (r : Option HostStealPolicyData) (self : Thread) (event : Event)
    (srcHost dstHost : Host) (barrier : Nat) : Option HostStealPolicyData :=
  r.bind (fun d => push d self event srcHost dstHost barrier)

/-- Continue a run with `pop`, keeping the state. -/
def thenPop (r : Option HostStealPolicyData) (self : Thread) (barrier : Nat) :
    Option HostStealPolicyData :=
  r.bind (fun d => (pop d self barrier).state)

/-- The event returned by a `pop` at the end of a run. -/
def thenPopped (r : Option HostStealPolicyData) (self : Thread) (barrier : Nat) :
    Option Event :=
  r.bind (fun d => (pop d self barrier).event)

/-- An event of host `host` to itself. -/
def localEvent (task time : Nat) (host : Host) : Event :=
  { task := task, time := time, srcHost := host, dstHost := host }


/-- Scenario "single host, single worker" of the spec: host 10 on thread 1 with
local events pushed at times 5, 3, 7. -/
def singleHostRun : Option HostStealPolicyData :=
  thenPush (thenPush (thenPush (thenAddHost (some schedulerpolicyhoststeal_new) 1 10 0)
    1 (localEvent 0 5 10) 10 10 0) 1 (localEvent 1 3 10) 10 10 0) 1 (localEvent 2 7 10) 10 10 0

/-- Scenario "cross-host causality bump" of the spec: host 0 on thread 1 and
host 1 on thread 2; thread 1 has popped a local event of host 0 in the round
with barrier 100 and pushes `crossEvent` (time 50) to host 1. -/
def crossEvent : Event := { task := 1, time := 50, srcHost := 0, dstHost := 1 }

def crossHostStart : Option HostStealPolicyData :=
  thenPop (thenPush
    (thenAddHost (thenAddHost (some schedulerpolicyhoststeal_new) 1 0 1) 1 1 2)
    1 (localEvent 0 10 0) 0 0 0) 1 100

def crossHostRun : Option HostStealPolicyData :=
  thenPush crossHostStart 1 crossEvent 0 1 100


/-- The states reachable from `schedulerpolicyhoststeal_new` by calls of the
operations, each call being one step.  With `once = true` the driver calls
`addHost` only for hosts that have no queue yet (at most once per host). -/
inductive ReachableBy (once : Bool) : HostStealPolicyData → Prop where
  | init : ReachableBy once schedulerpolicyhoststeal_new
  | addHost (d : HostStealPolicyData) (self : Thread) (host : Host) (thread : Thread) :
      ReachableBy once d → (once = true → d.hostToQueueDataMap host = none) →
      ReachableBy once (addHost d self host thread)
  | push (d d1 : HostStealPolicyData) (self : Thread) (event : Event) (srcHost dstHost : Host)
      (barrier : Nat) :
      ReachableBy once d → push d self event srcHost dstHost barrier = some d1 →
      ReachableBy once d1
  | popReturned (d d1 : HostStealPolicyData) (self : Thread) (barrier : Nat)
      (r : Option Event) :
      ReachableBy once d → pop d self barrier = .returned d1 r → ReachableBy once d1
  | popSpinning (d d1 : HostStealPolicyData) (self : Thread) (barrier : Nat) :
      ReachableBy once d → pop d self barrier = .spinning d1 → ReachableBy once d1
  | getHosts (d : HostStealPolicyData) (self : Thread) :
      ReachableBy once d → ReachableBy once (getHosts d self).2

/-- Reachable states, `addHost` unrestricted. -/
abbrev Reachable : HostStealPolicyData → Prop := ReachableBy false

/-- Reachable states when `addHost` is called at most once per host. -/
abbrev ReachableOnce : HostStealPolicyData → Prop := ReachableBy true

/-- Conservation for every host queue: `nPushed = nPopped + len(queue)`. -/
def Conserved (d : HostStealPolicyData) : Prop :=
  ∀ host qdata, d.hostToQueueDataMap host = some qdata →
    qdata.nPushed = qdata.nPopped + qdata.pq.length

/-- The host that the slot of thread `self` is running. -/
def runningHostOf (d : HostStealPolicyData) (self : Thread) : Option Host :=
  match lookupThreadData d self with
  | none => none
  | some tdata => tdata.runningHost

/-- A run of the policy from `schedulerpolicyhoststeal_new` together with the
log of the events that the `pop` calls returned, each with the host whose
queue it came from (the running host of the caller after the call). -/
inductive Trace : HostStealPolicyData → List (Host × Event) → Prop where
  | init : Trace schedulerpolicyhoststeal_new []
  | addHost (d : HostStealPolicyData) (log : List (Host × Event)) (self : Thread)
      (host : Host) (thread : Thread) :
      Trace d log → Trace (addHost d self host thread) log
  | push (d d1 : HostStealPolicyData) (log : List (Host × Event)) (self : Thread)
      (event : Event) (srcHost dstHost : Host) (barrier : Nat) :
      Trace d log → push d self event srcHost dstHost barrier = some d1 → Trace d1 log
  | popEvent (d d1 : HostStealPolicyData) (log : List (Host × Event)) (self : Thread)
      (barrier : Nat) (ev : Event) (host : Host) :
      Trace d log → pop d self barrier = .returned d1 (some ev) →
      runningHostOf d1 self = some host → Trace d1 (log ++ [(host, ev)])
  | popNull (d d1 : HostStealPolicyData) (log : List (Host × Event)) (self : Thread)
      (barrier : Nat) :
      Trace d log → pop d self barrier = .returned d1 none → Trace d1 log
  | popSpinning (d d1 : HostStealPolicyData) (log : List (Host × Event)) (self : Thread)
      (barrier : Nat) :
      Trace d log → pop d self barrier = .spinning d1 → Trace d1 log
  | getHosts (d : HostStealPolicyData) (log : List (Host × Event)) (self : Thread) :
      Trace d log → Trace (getHosts d self).2 log

/-- The times of the events popped from the queue of `host`, in pop order. -/
def poppedTimes (log : List (Host × Event)) (host : Host) : List Nat :=
  (log.filter (fun p => decide (p.1 = host))).map (fun p => p.2.time)


/-- Every queue of `d` is still there in `d1` with a `lastEventTime` that is not
smaller. -/
def LastEventTimeLe (d d1 : HostStealPolicyData) : Prop :=
  ∀ host qdata, d.hostToQueueDataMap host = some qdata →
    ∃ qdata1, d1.hostToQueueDataMap host = some qdata1 ∧
      qdata.lastEventTime ≤ qdata1.lastEventTime


/-- The hosts held by one worker slot: `unprocessedHosts`, `processedHosts` and
the `runningHost`. -/
def slotHosts (tdata : HostStealThreadData) : List Host :=
  tdata.unprocessedHosts ++ tdata.processedHosts ++ tdata.runningHost.toList

/-- The hosts held by a list of worker slots, with multiplicity. -/
def slotsOf : List HostStealThreadData → List Host
  | [] => []
  | tdata :: rest => slotHosts tdata ++ slotsOf rest

/-- The number of times `host` occurs in the slots of all workers. -/
def placements (d : HostStealPolicyData) (host : Host) : Nat :=
  (slotsOf d.threadList).count host

/-- Single placement: a host with a queue is in exactly one slot position and a
host without a queue is in none; the slot pointers of the thread map are valid. -/
structure Placed (d : HostStealPolicyData) : Prop where
  map_lt : ∀ thread t, d.threadToThreadDataMap thread = some t → t < d.threadList.length
  count : ∀ host, placements d host = if (d.hostToQueueDataMap host).isSome then 1 else 0


/-- Scenario "steal without an event": hosts 0 and 1 on thread 1, host 2 on
thread 2, one local event of time 1 on host 0. -/
def emptyStealStart : Option HostStealPolicyData :=
  thenPush (thenAddHost (thenAddHost (thenAddHost (some schedulerpolicyhoststeal_new)
    1 0 1) 1 1 1) 1 2 2) 1 (localEvent 0 1 0) 0 0 0

/-- Thread 1 pops the event of host 0 in the round with barrier 10; then thread 2
finds no event on its host 2, takes host 1 from thread 1 and finds no event
on it either. -/
def emptyStealRun : Option HostStealPolicyData :=
  thenPop (thenPop emptyStealStart 1 10) 2 10


/-- What holds of the host→owner map in every state: a host with a queue has an
owner entry, which names a thread that has a slot, and the owner entry of a
slot's running host names a thread of that slot. -/
structure OwnerInv (d : HostStealPolicyData) : Prop where
  total : ∀ host, (d.hostToQueueDataMap host).isSome →
    ∃ thread t, d.hostToThreadMap host = some thread ∧ d.threadToThreadDataMap thread = some t
  running : ∀ (t : Nat) (td : HostStealThreadData) (host : Host),
    d.threadList[t]? = some td → td.runningHost = some host →
    ∃ thread, d.hostToThreadMap host = some thread ∧ d.threadToThreadDataMap thread = some t

/-- The reading of the spec: the hosts in the slots of a worker are exactly the
hosts whose owner entry is the thread of that worker. -/
def OwnerAgrees (d : HostStealPolicyData) : Prop :=
  ∀ (thread : Thread) (td : HostStealThreadData) (host : Host),
    lookupThreadData d thread = some td →
    (host ∈ slotHosts td ↔ d.hostToThreadMap host = some thread)


/-- The part of `_schedulerpolicyhoststeal_pop` that follows the round start:
the attempt on the caller's own hosts and then the steal loop. -/
def popAfterRoundStart (data : HostStealPolicyData) (self : Thread) (t tnumber : Nat)
    (barrier : Nat) : PopResult :=
  match popFromThread data self t t barrier with
  | .returned data1 (some nextEvent) => .returned data1 (some nextEvent)
  | .returned data1 none =>
    stealLoop self t tnumber data1.threadCount barrier
      (List.range' 1 (data1.threadCount - 1)) data1
  | other => other

/-- Scenario "round rotation" of the spec: host 0 on thread 1 with local events
at times 10, 20, 30. -/
def rotationRun : Option HostStealPolicyData :=
  thenPush (thenPush (thenPush (thenAddHost (some schedulerpolicyhoststeal_new) 1 0 0)
    1 (localEvent 0 10 0) 0 0 0) 1 (localEvent 1 20 0) 0 0 0) 1 (localEvent 2 30 0) 0 0 0


/-- The worker indices are dense: `threadCount` is the number of slots and the
slot at position `k` of `threadList` has `tnumber = k`. -/
structure Indexed (d : HostStealPolicyData) : Prop where
  count_eq : d.threadCount = d.threadList.length
  tnumber_eq : ∀ (k : Nat) (td : HostStealThreadData), d.threadList[k]? = some td → td.tnumber = k

/-- What a `pop` without rotation may do to the caller's own slot: the barrier
and the stealable flag stay, hosts only leave the head of `unprocessedHosts`
and only join the tail of `processedHosts`. -/
def SameRound (before after : HostStealThreadData) : Prop :=
  after.currentBarrier = before.currentBarrier ∧ after.isStealable = before.isStealable ∧
  after.unprocessedHosts <:+ before.unprocessedHosts ∧
  before.processedHosts <+: after.processedHosts


/-- The hosts that `popFromThread` on the caller's own list examines, in order:
the running host of slot `t`, then its `unprocessedHosts`. -/
def candidates (d : HostStealPolicyData) (t : Nat) : List Host :=
  match d.threadList[t]? with
  | none => []
  | some td => td.runningHost.toList ++ td.unprocessedHosts

/-- Host `host` has a queued event with time below `b`. -/
def DueEvent (d : HostStealPolicyData) (host : Host) (b : Nat) : Prop :=
  ∃ qdata ev, d.hostToQueueDataMap host = some qdata ∧ ev ∈ qdata.pq ∧ ev.time < b

/-- Every queue is in non-decreasing time order. -/
def QueuesSorted (d : HostStealPolicyData) : Prop :=
  ∀ host qdata, d.hostToQueueDataMap host = some qdata →
    qdata.pq.Pairwise (fun a b => a.time ≤ b.time)

/-- No queued event is earlier than the `lastEventTime` of its queue (the
condition under which the assertion in `popFromThread` holds). -/
def QueuesMonotone (d : HostStealPolicyData) : Prop :=
  ∀ host qdata ev, d.hostToQueueDataMap host = some qdata → ev ∈ qdata.pq →
    qdata.lastEventTime ≤ ev.time

/-- Different threads have different slots. -/
def MapInjective (d : HostStealPolicyData) : Prop :=
  ∀ (thread thread1 : Thread) (t : Nat), d.threadToThreadDataMap thread = some t →
    d.threadToThreadDataMap thread1 = some t → thread = thread1

/-- Scenario "event for a processed host": host 0 on thread 1, the only worker;
`pop 15` finds nothing and retires host 0, then a local event of time 5 is
pushed to host 0. -/
def processedHostRun : Option HostStealPolicyData :=
  thenPush (thenPop (thenAddHost (some schedulerpolicyhoststeal_new) 1 0 0) 1 15)
    1 (localEvent 0 5 0) 0 0 15

/-- Scenario "event behind the last popped one": host 0 on thread 1; the local
event of time 5 is popped with barrier 10, then a local event of time 3 is
pushed to host 0. -/
def lateEventRun : Option HostStealPolicyData :=
  thenPush (thenPop (thenPush (thenAddHost (some schedulerpolicyhoststeal_new) 1 0 0)
    1 (localEvent 0 5 0) 0 0 0) 1 10) 1 (localEvent 1 3 0) 0 0 10


/-- The conditions under which no assertion on the caller's path can fail: the
caller has the slot `t`, the placement and owner invariants hold, different
threads have different slots, and no queue holds an event earlier than its
`lastEventTime`. -/
structure OwnSafe (d : HostStealPolicyData) (self : Thread) (t : Nat) : Prop where
  map : d.threadToThreadDataMap self = some t
  inj : MapInjective d
  placed : Placed d
  owner : OwnerInv d
  mono : QueuesMonotone d


/-- The thread that `addHost` assigns the host to: `randomThread`, or the caller
when `randomThread` is 0. -/
def targetThread (self randomThread : Thread) : Thread :=
  if randomThread ≠ 0 then randomThread else self


/-- One call of an operation of the policy that comes back with a state (a
`pop` that spins leaves the state at which it spins). -/
inductive Step : HostStealPolicyData → HostStealPolicyData → Prop where
  | addHost (d : HostStealPolicyData) (self : Thread) (host : Host) (thread : Thread) :
      Step d (addHost d self host thread)
  | push (d d1 : HostStealPolicyData) (self : Thread) (event : Event) (srcHost dstHost : Host)
      (barrier : Nat) : push d self event srcHost dstHost barrier = some d1 → Step d d1
  | popReturned (d d1 : HostStealPolicyData) (self : Thread) (barrier : Nat)
      (r : Option Event) : pop d self barrier = .returned d1 r → Step d d1
  | popSpinning (d d1 : HostStealPolicyData) (self : Thread) (barrier : Nat) :
      pop d self barrier = .spinning d1 → Step d d1
  | getHosts (d : HostStealPolicyData) (self : Thread) : Step d (getHosts d self).2

/-- The states reachable by calls in which thread `idle` is never the target
of `addHost` (it may call any operation itself, except `addHost` for itself). -/
inductive ReachableWithout (idle : Thread) : HostStealPolicyData → Prop where
  | init : ReachableWithout idle schedulerpolicyhoststeal_new
  | addHost (d : HostStealPolicyData) (self : Thread) (host : Host) (thread : Thread) :
      ReachableWithout idle d → targetThread self thread ≠ idle →
      ReachableWithout idle (addHost d self host thread)
  | push (d d1 : HostStealPolicyData) (self : Thread) (event : Event) (srcHost dstHost : Host)
      (barrier : Nat) :
      ReachableWithout idle d → push d self event srcHost dstHost barrier = some d1 →
      ReachableWithout idle d1
  | popReturned (d d1 : HostStealPolicyData) (self : Thread) (barrier : Nat)
      (r : Option Event) :
      ReachableWithout idle d → pop d self barrier = .returned d1 r → ReachableWithout idle d1
  | popSpinning (d d1 : HostStealPolicyData) (self : Thread) (barrier : Nat) :
      ReachableWithout idle d → pop d self barrier = .spinning d1 → ReachableWithout idle d1
  | getHosts (d : HostStealPolicyData) (self : Thread) :
      ReachableWithout idle d → ReachableWithout idle (getHosts d self).2


/-- The time of the minimum event of the queue of `host`, if it has one. -/
def headTime (d : HostStealPolicyData) (host : Host) : Option Nat :=
  match d.hostToQueueDataMap host with
  | none => none
  | some qdata => qdata.pq.head?.map (fun ev => ev.time)

/-- The head times of the non-empty queues of `hosts`, in list order. -/
def headTimes (d : HostStealPolicyData) (hosts : List Host) : List Nat :=
  hosts.filterMap (headTime d)

/-- Every host in a slot has a queue. -/
def Registered (d : HostStealPolicyData) : Prop :=
  ∀ (k : Nat) (td : HostStealThreadData) (host : Host), d.threadList[k]? = some td →
    host ∈ slotHosts td → ∃ qdata, d.hostToQueueDataMap host = some qdata

/-- Every queued event has a valid simulation time. -/
def TimesValid (d : HostStealPolicyData) : Prop :=
  ∀ host qdata ev, d.hostToQueueDataMap host = some qdata → ev ∈ qdata.pq →
    ev.time ≤ SIMTIME_MAX


/-- Scenario "steal": hosts 0 and 1 on thread 1, host 2 on thread 2, a local
event of time 1 on host 0 and one of time 2 on host 1; thread 1 has popped the
event of host 0 in the round with barrier 10 and still has host 1 unprocessed. -/
def stealStart : Option HostStealPolicyData :=
  thenPop (thenPush emptyStealStart 1 (localEvent 5 2 1) 1 1 0) 1 10


/-- A run of the policy from `schedulerpolicyhoststeal_new` together with the
list of the hosts that `addHost` was called for, latest first. -/
inductive AddedHosts : HostStealPolicyData → List Host → Prop where
  | init : AddedHosts schedulerpolicyhoststeal_new []
  | addHost (d : HostStealPolicyData) (added : List Host) (self : Thread) (host : Host)
      (thread : Thread) :
      AddedHosts d added → AddedHosts (addHost d self host thread) (host :: added)
  | push (d d1 : HostStealPolicyData) (added : List Host) (self : Thread) (event : Event)
      (srcHost dstHost : Host) (barrier : Nat) :
      AddedHosts d added → push d self event srcHost dstHost barrier = some d1 →
      AddedHosts d1 added
  | popReturned (d d1 : HostStealPolicyData) (added : List Host) (self : Thread)
      (barrier : Nat) (r : Option Event) :
      AddedHosts d added → pop d self barrier = .returned d1 r → AddedHosts d1 added
  | popSpinning (d d1 : HostStealPolicyData) (added : List Host) (self : Thread)
      (barrier : Nat) :
      AddedHosts d added → pop d self barrier = .spinning d1 → AddedHosts d1 added
  | getHosts (d : HostStealPolicyData) (added : List Host) (self : Thread) :
      AddedHosts d added → AddedHosts (getHosts d self).2 added


/-- Scenario "deterministic tie-break" of the spec: host 0 on thread 1, events A
(task 0) and B (task 1), both of time 5, pushed in the order A then B. -/
def tieRun : Option HostStealPolicyData :=
  thenPush (thenPush (thenAddHost (some schedulerpolicyhoststeal_new) 1 0 0)
    1 (localEvent 0 5 0) 0 0 0) 1 (localEvent 1 5 0) 0 0 0


end HostSteal

/-!
Legacy file descriptors

A shallow embedding of `src/main/host/descriptor/descriptor.c`.

* `LegacyFile` and `LegacyFileType` are declared in `descriptor_types.h` and
  `Status` in `status.h`, which are not among the sources; the fields and
  enumerators are the ones that `descriptor.c` uses.
* A `Status` is a bit field; it is a natural number here, and the width of the
  C type is a parameter of the one operation (`~`) that depends on it.
* The listener callback `statuslistener_onStatusChanged` and the order
  `status_listener_compare` belong to `status_listener.c`; they are parameters.
  A callback may change the descriptor, so it is a function on descriptors.
* `panic` does not return: a function that can reach it returns `Except`.
-/

namespace Descriptor

/-- The enumerators of `LegacyFileType` named by the `switch` of
`legacyfile_supportsSaRestart` (which has no `default`, so that the compiler
checks that they are all there); `outside` is a value of the C enum type that
is none of the enumerators. -/
inductive LegacyFileType where
  | DT_NONE
  | DT_TCPSOCKET
  | DT_UDPSOCKET
  | DT_EPOLL
  | DT_EVENTD
  | DT_TIMER
  | DT_FILE
  | outside (value : Int)
deriving DecidableEq, Repr

/-- A `StatusListener*`, compared by identity. -/
abbrev StatusListener := Nat

/-- The fields of `LegacyFile` that `descriptor.c` reads and writes; `listeners`
is the key set of the `listeners` hash table. -/
structure LegacyFile where
  type : LegacyFileType
  status : Nat
  flags : Int
  listeners : List StatusListener
  refCountStrong : Int
  refCountWeak : Int
deriving DecidableEq, Repr

/-- The part of `status_listener.c` that `descriptor.c` calls:
`statuslistener_onStatusChanged(listener, currentStatus, changedStatus)`, whose
effect on the descriptor is the function result, and the sorting of the
listener keys by `status_listener_compare`. -/
structure StatusListenerApi where
  onStatusChanged : StatusListener → Nat → Nat → LegacyFile → LegacyFile
  sortListeners : List StatusListener → List StatusListener

/-- One call of `statuslistener_onStatusChanged`, as recorded in the call log. -/
structure ListenerCall where
  listener : StatusListener
  currentStatus : Nat
  changed : Nat
deriving DecidableEq, Repr

def legacyfile_getType (descriptor : LegacyFile) : LegacyFileType := descriptor.type

def legacyfile_getStatus (descriptor : LegacyFile) : Nat := descriptor.status

/-- The `while (statusesChanged && item)` loop of `_legacyfile_handleStatusChange`
over the remaining items of the sorted key list; the second component is the
log of the callbacks made. -/
def handleStatusChangeLoop (api : StatusListenerApi) (oldStatus : Nat) :
    List StatusListener → LegacyFile → LegacyFile × List ListenerCall
  | [], descriptor => (descriptor, [])
  | listener :: items, descriptor =>
    let statusesChanged := descriptor.status ^^^ oldStatus
    if statusesChanged = 0 then (descriptor, [])
    else if listener ∈ descriptor.listeners then
      let descriptor1 := api.onStatusChanged listener descriptor.status statusesChanged descriptor
      let r := handleStatusChangeLoop api oldStatus items descriptor1
      (r.1, ListenerCall.mk listener descriptor.status statusesChanged :: r.2)
    else handleStatusChangeLoop api oldStatus items descriptor

/-- `_legacyfile_handleStatusChange`. -/
def legacyfile_handleStatusChange (api : StatusListenerApi) (descriptor : LegacyFile)
    (oldStatus : Nat) : LegacyFile × List ListenerCall :=
  if descriptor.status ^^^ oldStatus = 0 then (descriptor, [])
  else handleStatusChangeLoop api oldStatus (api.sortListeners descriptor.listeners) descriptor

/-- `~status` on a word of `statusBits` bits. -/
def statusComplement (statusBits : Nat) (status : Nat) : Nat :=
  (2 ^ statusBits - 1) ^^^ status

/-- `legacyfile_adjustStatus`, with the log of the listener callbacks made;
`statusBits` is the width of the `Status` type. -/
def legacyfile_adjustStatus (statusBits : Nat) (api : StatusListenerApi)
    (descriptor : LegacyFile) (status : Nat) (doSetBits : Bool) :
    LegacyFile × List ListenerCall :=
  let oldStatus := descriptor.status
  let descriptor1 : LegacyFile :=
    if doSetBits then { descriptor with status := descriptor.status ||| status }
    else { descriptor with status := descriptor.status &&& statusComplement statusBits status }
  legacyfile_handleStatusChange api descriptor1 oldStatus

/-- `legacyfile_supportsSaRestart`; an error is the message of the `panic`
reached. -/
def legacyfile_supportsSaRestart (legacyDesc : LegacyFile) : Except String Bool :=
  match legacyDesc.type with
  | .DT_TCPSOCKET => .ok true
  | .DT_UDPSOCKET => .ok true
  | .DT_TIMER => .ok false
  | .DT_EPOLL => .ok false
  | .DT_FILE => .ok false
  | .DT_EVENTD => .ok false
  | .DT_NONE => .error "Unexpected type DT_NONE"
  | .outside _ => .error "Bad type"

/-- `legacyfile_init` (the function table is not part of the record). -/
def legacyfile_init (descriptor : LegacyFile) (type : LegacyFileType) : LegacyFile :=
  { descriptor with type := type, listeners := [], refCountStrong := 1, refCountWeak := 0 }

/-- A zeroed `LegacyFile` object after `legacyfile_init`. -/
def newDescriptor (type : LegacyFileType) : LegacyFile :=
  legacyfile_init (LegacyFile.mk .DT_NONE 0 0 [] 0 0) type

/-- Listeners that leave the descriptor alone, in the order of their identities. -/
def quietApi : StatusListenerApi :=
  { onStatusChanged := fun _ _ _ descriptor => descriptor,
    sortListeners := fun keys => keys.insertionSort (fun a b => a ≤ b) }

/-- The members of `LegacyFileFunctionTable` (declared in `descriptor_types.h`)
that `descriptor.c` calls.  `close` is the effect of
`funcTable->close(descriptor, host)` on the descriptor.  `cleanup` may be NULL
(`none`); a cleanup function may give up weak references to the descriptor it
cleans up (the case that the comment in `legacyfile_unref` describes), and
the function given here tells how many times it calls `legacyfile_unrefWeak`
on it.  `free` is always called and releases the object, so it has no
result. -/
structure LegacyFileFunctionTable where
  close : LegacyFile → Nat → LegacyFile
  cleanup : Option (LegacyFile → Nat)

/-- What a call of `legacyfile_close` has done: the descriptor afterwards, the
listener callbacks made, and the arguments of every call of the vtable
`close`. -/
structure CloseResult where
  descriptor : LegacyFile
  listenerCalls : List ListenerCall
  vtableCloses : List (LegacyFile × Nat)

/-- `legacyfile_close(descriptor, host)`; `STATUS_FILE_CLOSED` is the constant of
`status.h`. -/
def legacyfile_close (statusBits : Nat) (api : StatusListenerApi)
    (funcTable : LegacyFileFunctionTable) (STATUS_FILE_CLOSED : Nat)
    (descriptor : LegacyFile) (host : Nat) : CloseResult :=
  if legacyfile_getStatus descriptor &&& STATUS_FILE_CLOSED ≠ 0 then
    { descriptor := descriptor, listenerCalls := [], vtableCloses := [] }
  else
    let adjusted := legacyfile_adjustStatus statusBits api descriptor STATUS_FILE_CLOSED true
    { descriptor := funcTable.close adjusted.1 host, listenerCalls := adjusted.2,
      vtableCloses := [(adjusted.1, host)] }

/-- A sequence of calls of `legacyfile_close`, each followed by some other
activity on the descriptor (given as its effect): the descriptor at the end
and the arguments of all calls of the vtable `close`, in order. -/
def closeRun (statusBits : Nat) (api : StatusListenerApi)
    (funcTable : LegacyFileFunctionTable) (STATUS_FILE_CLOSED : Nat) :
    List (Nat × (LegacyFile → LegacyFile)) → LegacyFile → LegacyFile × List (LegacyFile × Nat)
  | [], descriptor => (descriptor, [])
  | (host, activity) :: calls, descriptor =>
    let r := legacyfile_close statusBits api funcTable STATUS_FILE_CLOSED descriptor host
    let rs := closeRun statusBits api funcTable STATUS_FILE_CLOSED calls (activity r.descriptor)
    (rs.1, r.vtableCloses ++ rs.2)

/-- The test of `legacyfile_close`: some bit of `STATUS_FILE_CLOSED` is set. -/
def isClosed (STATUS_FILE_CLOSED : Nat) (descriptor : LegacyFile) : Prop :=
  legacyfile_getStatus descriptor &&& STATUS_FILE_CLOSED ≠ 0

/-- A function table whose `close` leaves the descriptor alone and that has no
`cleanup`. -/
def plainTable : LegacyFileFunctionTable :=
  { close := fun descriptor _ => descriptor, cleanup := none }


/-- A call of the function table made by the reference counting, as recorded in
the call log: `funcTable->cleanup(descriptor)` is entered, it has returned,
and `funcTable->free(descriptor)`. -/
inductive VtableCall where
  | cleanupBegin
  | cleanupEnd
  | free
deriving DecidableEq, Repr

/-- A `LegacyFile` object during its lifetime: the record and the log of the
vtable calls made for it so far, oldest first. -/
structure Lifetime where
  descriptor : LegacyFile
  calls : List VtableCall
deriving DecidableEq, Repr

/-- The vtable `free` has released the object: any later call on it is a use
after free. -/
def Lifetime.freed (s : Lifetime) : Bool := decide (VtableCall.free ∈ s.calls)

/-- The reference counts are of type `int`, 32 bits wide; a result outside this
range is a signed overflow, which is undefined. -/
def inInt (x : Int) : Bool := decide (-2147483648 ≤ x ∧ x ≤ 2147483647)

def Lifetime.setStrong (s : Lifetime) (count : Int) : Lifetime :=
  { s with descriptor := { s.descriptor with refCountStrong := count } }

def Lifetime.setWeak (s : Lifetime) (count : Int) : Lifetime :=
  { s with descriptor := { s.descriptor with refCountWeak := count } }

def Lifetime.log (s : Lifetime) (call : VtableCall) : Lifetime :=
  { s with calls := s.calls ++ [call] }

/-- `_legacyfile_free`. -/
def legacyfile_free (s : Lifetime) : Lifetime := s.log .free

/-- `legacyfile_ref`; `none` is a use after free, a signed overflow or, when
`debug` says that `utility_debugAssert` is compiled in, its failure. -/
def legacyfile_ref (debug : Bool) (s : Lifetime) : Option Lifetime :=
  if s.freed then none
  else if debug && !decide (s.descriptor.refCountStrong > 0) then none
  else if !inInt (s.descriptor.refCountStrong + 1) then none
  else some (s.setStrong (s.descriptor.refCountStrong + 1))

/-- `legacyfile_refWeak`. -/
def legacyfile_refWeak (s : Lifetime) : Option Lifetime :=
  if s.freed then none
  else if !inInt (s.descriptor.refCountWeak + 1) then none
  else some (s.setWeak (s.descriptor.refCountWeak + 1))

/-- `legacyfile_unrefWeak`. -/
def legacyfile_unrefWeak (debug : Bool) (s : Lifetime) : Option Lifetime :=
  if s.freed then none
  else if !inInt (s.descriptor.refCountWeak - 1) then none
  else
    let s1 := s.setWeak (s.descriptor.refCountWeak - 1)
    if debug && !decide (s1.descriptor.refCountWeak ≥ 0) then none
    else if s1.descriptor.refCountStrong > 0 ∨ s1.descriptor.refCountWeak > 0 then some s1
    else some (legacyfile_free s1)

/-- The calls of `legacyfile_unrefWeak` that the vtable `cleanup` makes. -/
def cleanupReleases (debug : Bool) : Nat → Lifetime → Option Lifetime
  | 0, s => some s
  | k + 1, s => (legacyfile_unrefWeak debug s).bind (cleanupReleases debug k)

/-- `_legacyfile_cleanup`: the vtable `cleanup` is called if it is not NULL. -/
def legacyfile_cleanup (debug : Bool) (funcTable : LegacyFileFunctionTable) (s : Lifetime) :
    Option Lifetime :=
  match funcTable.cleanup with
  | none => some s
  | some cleanup =>
    (cleanupReleases debug (cleanup s.descriptor) (s.log .cleanupBegin)).map
      (fun s1 => s1.log .cleanupEnd)

/-- `legacyfile_unref`. -/
def legacyfile_unref (debug : Bool) (funcTable : LegacyFileFunctionTable) (s : Lifetime) :
    Option Lifetime :=
  if s.freed then none
  else if !inInt (s.descriptor.refCountStrong - 1) then none
  else
    let s1 := s.setStrong (s.descriptor.refCountStrong - 1)
    if debug && !decide (s1.descriptor.refCountStrong ≥ 0) then none
    else if s1.descriptor.refCountStrong > 0 then some s1
    else if s1.descriptor.refCountWeak > 0 then
      (legacyfile_refWeak s1).bind (fun s2 =>
        (legacyfile_cleanup debug funcTable s2).bind (legacyfile_unrefWeak debug))
    else (legacyfile_cleanup debug funcTable s1).map legacyfile_free

/-- The four reference counting calls. -/
inductive RefCall where
  | ref
  | unref
  | refWeak
  | unrefWeak
deriving DecidableEq, Repr

def refCall (debug : Bool) (funcTable : LegacyFileFunctionTable) :
    RefCall → Lifetime → Option Lifetime
  | .ref, s => legacyfile_ref debug s
  | .unref, s => legacyfile_unref debug funcTable s
  | .refWeak, s => legacyfile_refWeak s
  | .unrefWeak, s => legacyfile_unrefWeak debug s

/-- A sequence of reference counting calls on one descriptor. -/
def refRun (debug : Bool) (funcTable : LegacyFileFunctionTable) :
    List RefCall → Lifetime → Option Lifetime
  | [], s => some s
  | call :: calls, s => (refCall debug funcTable call s).bind (refRun debug funcTable calls)

/-- The same run, returning the reference counts after each call. -/
def refCounts (debug : Bool) (funcTable : LegacyFileFunctionTable) :
    List RefCall → Lifetime → List (Int × Int)
  | [], _ => []
  | call :: calls, s =>
    match refCall debug funcTable call s with
    | none => []
    | some s1 =>
      (s1.descriptor.refCountStrong, s1.descriptor.refCountWeak) ::
        refCounts debug funcTable calls s1

/-- A descriptor right after `legacyfile_init`. -/
def lifetimeStart (type : LegacyFileType) : Lifetime :=
  { descriptor := newDescriptor type, calls := [] }

/-- The log of one run of the vtable `cleanup`, if the table has one. -/
def cleanupLog (funcTable : LegacyFileFunctionTable) : List VtableCall :=
  if funcTable.cleanup.isSome then [.cleanupBegin, .cleanupEnd] else []

/-- The vtable calls that the counts of a descriptor account for: none while a
strong reference exists; then the cleanup, if the table has one; and the free
once no weak reference exists either. -/
def expectedCalls (funcTable : LegacyFileFunctionTable) (descriptor : LegacyFile) :
    List VtableCall :=
  if descriptor.refCountStrong = 0 then
    cleanupLog funcTable ++ (if descriptor.refCountWeak = 0 then [.free] else [])
  else []

/-- A function table whose `cleanup` gives up no weak reference. -/
def cleanupTable : LegacyFileFunctionTable :=
  { close := fun descriptor _ => descriptor, cleanup := some (fun _ => 0) }


/-- The lifetime invariant: both counts are non-negative and the log of vtable
calls is the one that the counts account for. -/
def LifeInv (funcTable : LegacyFileFunctionTable) (s : Lifetime) : Prop :=
  0 ≤ s.descriptor.refCountStrong ∧ 0 ≤ s.descriptor.refCountWeak ∧
  s.calls = expectedCalls funcTable s.descriptor


end Descriptor

/-!
Thread-local storage of the shim

A shallow embedding of `src/lib/shim/shim_tls.c`.

* `size_t` is 64 bits wide: the additions on `_nextByteOffset` are modulo
  `2 ^ 64`.
* `ShimTlsVar` is declared in `shim_tls.h` and `SHIM_SIGNAL_STACK_SIZE` in
  `shim.h`, which are not among the sources: the two fields that
  `shimtlsvar_ptr` uses are the record, and the constant is a parameter.
* `_tls` is a variable of each thread, so it is a function of the thread;
  `_nextByteOffset` and the `ShimTlsVar` objects are shared by all threads.
  A `ShimTlsVar` is named by a number, and an address is a number with `0`
  for NULL.
* The result of the `mmap` system call is an argument of the call.
* Calls are atomic.
-/

namespace ShimTls

/-- The fields of a `ShimTlsVar`; a static object starts zeroed. -/
structure ShimTlsVar where
  _offset : Nat
  _initd : Bool
deriving DecidableEq, Repr

/-- `BYTES_PER_THREAD`. -/
def BYTES_PER_THREAD (SHIM_SIGNAL_STACK_SIZE : Nat) : Nat := SHIM_SIGNAL_STACK_SIZE + 1024

/-- `sizeof(ShimThreadLocalStorage)`: the member `_bytes` is aligned at 16, so
the size of the struct is the size of the array rounded up to a multiple of
16. -/
def sizeofStorage (SHIM_SIGNAL_STACK_SIZE : Nat) : Nat :=
  (BYTES_PER_THREAD SHIM_SIGNAL_STACK_SIZE + 15) / 16 * 16

/-- The variables of `shim_tls.c` and the `ShimTlsVar` objects of the program. -/
structure ShimState where
  tls : Nat → Nat
  nextByteOffset : Nat
  vars : Nat → ShimTlsVar

/-- The two ways in which `shimtlsvar_ptr` ends the process: the `SIGABRT` after
a failed `mmap`, and the `panic` (or the failed `assert`) at the storage
limit. -/
inductive ShimFailure where
  | mmapFailed
  | limitExceeded
deriving DecidableEq, Repr

/-- The block `if (!_tls)` of `shimtlsvar_ptr`, entered by `thread`: the storage
of the thread is mapped if it has none, and a failed `mmap` ends the process;
`raw_rv` is what the system call returns. -/
def mapStorage (st : ShimState) (thread : Nat) (raw_rv : Int) : Except ShimFailure ShimState :=
  if st.tls thread = 0 then
    if raw_rv ≤ -1 ∧ raw_rv ≥ -4095 then .error .mmapFailed
    else .ok { st with tls := Function.update st.tls thread (raw_rv % 2 ^ 64).toNat }
  else .ok st

/-- The block `if (!v->_initd)` of `shimtlsvar_ptr`. -/
def initVar (SHIM_SIGNAL_STACK_SIZE : Nat) (st : ShimState) (v : Nat) (sz : Nat) :
    Except ShimFailure ShimState :=
  if (st.vars v)._initd then .ok st
  else
    let offset := st.nextByteOffset
    let next1 := (st.nextByteOffset + sz) % 2 ^ 64
    let overhang := next1 % 16
    let next2 := (next1 + (16 - overhang)) % 2 ^ 64
    if next2 ≥ sizeofStorage SHIM_SIGNAL_STACK_SIZE then .error .limitExceeded
    else
      .ok { st with nextByteOffset := next2,
                    vars := Function.update st.vars v { _offset := offset, _initd := true } }

/-- `shimtlsvar_ptr(v, sz)` called by `thread`, where `raw_rv` is what the
`mmap` system call returns if it is made; the result is the state and the
pointer returned, `&_tls->_bytes[v->_offset]`. -/
def shimtlsvar_ptr (SHIM_SIGNAL_STACK_SIZE : Nat) (st : ShimState) (thread : Nat)
    (raw_rv : Int) (v : Nat) (sz : Nat) : Except ShimFailure (ShimState × Nat) :=
  match mapStorage st thread raw_rv with
  | .error e => .error e
  | .ok st1 =>
    match initVar SHIM_SIGNAL_STACK_SIZE st1 v sz with
    | .error e => .error e
    | .ok st2 => .ok (st2, (st2.tls thread + (st2.vars v)._offset) % 2 ^ 64)

/-- One call of `shimtlsvar_ptr`. -/
structure TlsCall where
  thread : Nat
  raw_rv : Int
  var : Nat
  sz : Nat
deriving DecidableEq, Repr

/-- The bytes given to a variable by the call that initialised it: the offset
stored in the variable and the size asked for. -/
structure Alloc where
  var : Nat
  offset : Nat
  size : Nat
deriving DecidableEq, Repr

/-- A sequence of calls; next to the state it keeps the list of the
allocations made, oldest first. -/
def shimRun (SHIM_SIGNAL_STACK_SIZE : Nat) :
    List TlsCall → ShimState × List Alloc → Except ShimFailure (ShimState × List Alloc)
  | [], r => .ok r
  | call :: calls, (st, log) =>
    match shimtlsvar_ptr SHIM_SIGNAL_STACK_SIZE st call.thread call.raw_rv call.var call.sz with
    | .error e => .error e
    | .ok (st1, _) =>
      shimRun SHIM_SIGNAL_STACK_SIZE calls
        (st1,
          if (st.vars call.var)._initd then log
          else log ++ [{ var := call.var, offset := (st1.vars call.var)._offset, size := call.sz }])

/-- The state at program start: no thread has storage, no variable is
initialised. -/
def shimStart : ShimState :=
  { tls := fun _ => 0, nextByteOffset := 0, vars := fun _ => { _offset := 0, _initd := false } }

/-- The largest `sz` for which the additions of an initialising call cannot
wrap around. -/
def NoWrap (SHIM_SIGNAL_STACK_SIZE : Nat) (sz : Nat) : Prop :=
  sz + sizeofStorage SHIM_SIGNAL_STACK_SIZE + 16 ≤ 2 ^ 64

/-- The invariant of the allocator: the next offset is a multiple of 16 below
the size of the storage; every allocation starts at a multiple of 16 and ends
before the next offset; the allocations lie one after the other; and the
initialised variables are the ones with an allocation, at its offset. -/
structure TlsInv (SHIM_SIGNAL_STACK_SIZE : Nat) (st : ShimState) (log : List Alloc) : Prop where
  aligned : st.nextByteOffset % 16 = 0
  below : st.nextByteOffset < sizeofStorage SHIM_SIGNAL_STACK_SIZE
  allocs : ∀ a ∈ log, a.offset % 16 = 0 ∧ a.offset + a.size < st.nextByteOffset
  ordered : log.Pairwise (fun a b => a.offset + a.size < b.offset)
  initd : ∀ v, (st.vars v)._initd = true → ∃ a ∈ log, a.var = v
  stored : ∀ a ∈ log, st.vars a.var = { _offset := a.offset, _initd := true }

end ShimTls


namespace HostSteal

/-- The values of `stolenTnumber` in the order of the `for` loop of
`_schedulerpolicyhoststeal_pop`: `(i + tnumber) % n` for `i = 1, ..., n - 1`. -/
def stealOrder (tnumber n : Nat) : List Nat :=
  (List.range' 1 (n - 1)).map (fun i => (i + tnumber) % n)

/-- The `currentBarrier` and `isStealable` of every slot, in `threadList` order. -/
def roundFlags (d : HostStealPolicyData) : List (Nat × Bool) :=
  d.threadList.map (fun td => (td.currentBarrier, td.isStealable))

/-- Scenario "thief ahead of its victim": after thread 1 has popped in the round
with barrier 10, thread 2 pops with barrier 20, finds nothing on its own host
and turns to thread 1, whose `currentBarrier` is still 10. -/
def thiefAheadRun : Option HostStealPolicyData :=
  thenPop (thenPop emptyStealStart 1 10) 2 20


/-- An operation on the mutex `tdata->lock` of the slot at a position of
`threadList`. -/
inductive LockOp where
  | lock (slot : Nat)
  | unlock (slot : Nat)
deriving DecidableEq, Repr

/-- The two `if(tdata->tnumber < stolenTnumber)` blocks around the stealing
`popFromThread` in `_schedulerpolicyhoststeal_pop`: the slot locks taken before
the call and those released after it.  `t` is the position of the caller's
slot and `tnumber` its `tnumber` field. -/
def stealLocks (t tnumber stolenTnumber : Nat) : List LockOp × List LockOp :=
  if tnumber < stolenTnumber then
    ([.lock t, .lock stolenTnumber], [.unlock stolenTnumber, .unlock t])
  else
    ([.lock stolenTnumber, .lock t], [.unlock t, .unlock stolenTnumber])

/-- The steal loop once more, returning the slot-lock operations it performs, in
order: the victim's lock around the test of its barrier, and the two locks
around the stealing `popFromThread` (which itself takes no slot lock).  A call
that stops at an assertion or in the spin loop performs nothing further. -/
def stealLoopLocks (self : Thread) (t : Nat) (tnumber n : Nat) (barrier : Nat) :
    List Nat → HostStealPolicyData → List LockOp
  | [], _ => []
  | i :: rest, data =>
    let stolenTnumber := (i + tnumber) % n
    match data.threadList[stolenTnumber]? with
    | none => []
    | some stolenTdata =>
      [.lock stolenTnumber, .unlock stolenTnumber] ++
      (if barrier > stolenTdata.currentBarrier then []
      else if stolenTdata.unprocessedHosts = [] then
        stealLoopLocks self t tnumber n barrier rest data
      else
        (stealLocks t tnumber stolenTnumber).1 ++
        (match popFromThread data self t stolenTnumber barrier with
        | .returned _ (some _) => (stealLocks t tnumber stolenTnumber).2
        | .returned data1 none =>
          (stealLocks t tnumber stolenTnumber).2 ++
            stealLoopLocks self t tnumber n barrier rest data1
        | _ => []))

/-- The slot-lock operations of `_schedulerpolicyhoststeal_pop`, in order: the
caller's own lock around the round start and the attempt on its own hosts,
then those of the steal loop. -/
def popLocks (data : HostStealPolicyData) (self : Thread) (barrier : Nat) : List LockOp :=
  match data.threadToThreadDataMap self with
  | none => []
  | some t =>
    match data.threadList[t]? with
    | none => []
    | some tdata =>
      .lock t ::
      (match popFromThread (roundStart data t barrier) self t t barrier with
      | .returned _ (some _) => [.unlock t]
      | .returned data1 none =>
        .unlock t :: stealLoopLocks self t tdata.tnumber data1.threadCount barrier
          (List.range' 1 (data1.threadCount - 1)) data1
      | _ => [])

/-- The slot-lock operations of `_schedulerpolicyhoststeal_push`: the caller's
own lock, if it has a slot, around the lock of the destination queue. -/
def pushLocks (data : HostStealPolicyData) (self : Thread) : List LockOp :=
  match data.threadToThreadDataMap self with
  | none => []
  | some t => [.lock t, .unlock t]

/-- The lock discipline, one operation: a slot lock may be taken only when every
slot lock held has a smaller position, and the lock released is the one taken
last.  `held` lists the locks held, latest first; `none` is a violation. -/
def lockStep (held : List Nat) : LockOp → Option (List Nat)
  | .lock k => if ∀ h ∈ held, h < k then some (k :: held) else none
  | .unlock k =>
    match held with
    | [] => none
    | h :: rest => if h = k then some rest else none

/-- The lock discipline along a sequence of operations. -/
def lockRun : List Nat → List LockOp → Option (List Nat)
  | held, [] => some held
  | held, op :: ops =>
    match lockStep held op with
    | none => none
    | some held1 => lockRun held1 ops


/-- Runs of the policy that keep the caller contract of `push`, together with
the largest barrier passed to any `pop` so far: a same-host push supplies an
event that is not earlier than the `lastEventTime` of the destination queue,
and every push is called with a barrier that is not below any barrier passed
to a `pop` before. -/
inductive ContractRun : HostStealPolicyData → Nat → Prop where
  | init : ContractRun schedulerpolicyhoststeal_new 0
  | addHost (d : HostStealPolicyData) (m : Nat) (self : Thread) (host : Host)
      (thread : Thread) :
      ContractRun d m → ContractRun (addHost d self host thread) m
  | push (d d1 : HostStealPolicyData) (m : Nat) (self : Thread) (event : Event)
      (srcHost dstHost : Host) (barrier : Nat) :
      ContractRun d m → m ≤ barrier →
      (srcHost = dstHost → ∀ qdata, d.hostToQueueDataMap dstHost = some qdata →
        qdata.lastEventTime ≤ event.time) →
      push d self event srcHost dstHost barrier = some d1 → ContractRun d1 m
  | popReturned (d d1 : HostStealPolicyData) (m : Nat) (self : Thread) (barrier : Nat)
      (r : Option Event) :
      ContractRun d m → pop d self barrier = .returned d1 r → ContractRun d1 (max m barrier)
  | popSpinning (d d1 : HostStealPolicyData) (m : Nat) (self : Thread) (barrier : Nat) :
      ContractRun d m → pop d self barrier = .spinning d1 → ContractRun d1 (max m barrier)
  | getHosts (d : HostStealPolicyData) (m : Nat) (self : Thread) :
      ContractRun d m → ContractRun (getHosts d self).2 m

/-- No `lastEventTime` is above the bound `m`. -/
def LastEventBounded (d : HostStealPolicyData) (m : Nat) : Prop :=
  ∀ host qdata, d.hostToQueueDataMap host = some qdata → qdata.lastEventTime ≤ m

/-- Scenario "contract kept": host 0 on thread 1 and host 1 on thread 2; a local
event of time 5 on host 0 is popped with barrier 10, then host 0 gets a local
event of time 7 and an event of time 2 from host 1, both pushed with barrier
10. -/
def contractRun : Option HostStealPolicyData :=
  thenPush (thenPush (thenPop (thenPush (thenAddHost (thenAddHost
    (some schedulerpolicyhoststeal_new) 1 0 1) 1 1 2) 1 (localEvent 0 5 0) 0 0 0) 1 10)
    1 (localEvent 1 7 0) 0 0 10) 2 (Event.mk 2 2 1 0) 1 0 10


/-- The queue of `host` is non-empty and its head event has a time below `b`. -/
def headDue (d : HostStealPolicyData) (b : Nat) (host : Host) : Bool :=
  match d.hostToQueueDataMap host with
  | none => false
  | some qdata =>
    match qdata.pq.head? with
    | none => false
    | some ev => decide (ev.time < b)

/-- The functional description of `pop_from`, in the words of the specification:
the scan sequence split at the first host whose queue is non-empty with a
head time below `b`, as (the hosts before it, the host, the hosts after it);
`none` when no host qualifies. -/
def firstDue (d : HostStealPolicyData) (b : Nat) :
    List Host → Option (List Host × Host × List Host)
  | [] => none
  | host :: hosts =>
    if headDue d b host then some ([], host, hosts)
    else
      match firstDue d b hosts with
      | none => none
      | some (pre, h, post) => some (host :: pre, h, post)

/-- The scan sequence `S` of `pop_from(T, L, b)`: the running host of `T`, if
set, followed by `L`, the `unprocessedHosts` of the slot it is taken from. -/
def scanSequence (tdata sdata : HostStealThreadData) : List Host :=
  tdata.runningHost.toList ++ sdata.unprocessedHosts

/-- What a scan has done to the slots between the states `d` and `d1`: the hosts
`moved` have been appended to the `processedHosts` of slot `t`, whose running
host is now `run`, the list of slot `src` is now `rest`, and nothing else in
the slots has changed. -/
def ScanEffect (d d1 : HostStealPolicyData) (t src : Nat) (moved : List Host)
    (run : Option Host) (rest : List Host) : Prop :=
  ∃ td sd td1 sd1, d.threadList[t]? = some td ∧ d.threadList[src]? = some sd ∧
    d1.threadList[t]? = some td1 ∧ d1.threadList[src]? = some sd1 ∧
    td1.processedHosts = td.processedHosts ++ moved ∧ td1.runningHost = run ∧
    sd1.unprocessedHosts = rest ∧
    (src ≠ t → td1.unprocessedHosts = td.unprocessedHosts ∧
      sd1.processedHosts = sd.processedHosts ∧ sd1.runningHost = sd.runningHost) ∧
    (∀ k, k ≠ t → k ≠ src → d1.threadList[k]? = d.threadList[k]?) ∧
    d1.threadList.length = d.threadList.length ∧ d1.threadCount = d.threadCount ∧
    d1.threadToThreadDataMap = d.threadToThreadDataMap

/-- The invariants under which `popFromThread` for the caller `self` with slot
`t` meets no NULL pointer and passes the assertion of `migrateHost`. -/
structure PopSafe (d : HostStealPolicyData) (self : Thread) (t : Nat) : Prop where
  map : d.threadToThreadDataMap self = some t
  inj : MapInjective d
  placed : Placed d
  owner : OwnerInv d


/-- Scenario "late event, next round": host 0 on thread 1, the only worker; its
local event of time 5 is popped with barrier 10, the next `pop 10` retires
host 0, and then a local event of time 3 is pushed to host 0. -/
def lateRotationRun : Option HostStealPolicyData :=
  thenPush (thenPop (thenPop (thenPush (thenAddHost (some schedulerpolicyhoststeal_new) 1 0 0)
    1 (localEvent 0 5 0) 0 0 0) 1 10) 1 10) 1 (localEvent 1 3 0) 0 0 10


/-- Everything in a slot except the cache `allHosts`. -/
def slotView (td : HostStealThreadData) :
    List Host × List Host × Option Host × Nat × Nat × Bool :=
  (td.unprocessedHosts, td.processedHosts, td.runningHost, td.currentBarrier, td.tnumber,
    td.isStealable)

/-- The copying branch of `_schedulerpolicyhoststeal_getHosts`: `g_queue_copy` of
`processedHosts` followed by `g_queue_foreach(unprocessedHosts, concat_queue_iter)`. -/
def getHostsCopy (tdata : HostStealThreadData) : List Host :=
  tdata.unprocessedHosts.foldl (fun userQueue hostItem => userQueue ++ [hostItem])
    tdata.processedHosts


/-- The hosts that the loop of `popFromThread` still has before it: the running
host of slot `t`, if set, followed by the `assignedHosts` list, the
`unprocessedHosts` of slot `src`.  The loop test is `pending ≠ []`. -/
def pending (d : HostStealPolicyData) (t src : Nat) : List Host :=
  match d.threadList[t]?, d.threadList[src]? with
  | some tdata, some sdata => scanSequence tdata sdata
  | _, _ => []

/-- The number of times the body of the `while` loop of `popFromThread` is
entered: once for each loop test that succeeds, and the loop goes on only
after a body that did not return. -/
def popFromThreadBodyRuns (self : Thread) (t src : Nat) (barrier : Nat) :
    Nat → HostStealPolicyData → Nat
  | 0, _ => 0
  | fuel + 1, data =>
    if pending data t src = [] then 0
    else
      match popFromThreadIter data self t src barrier with
      | .again data1 => 1 + popFromThreadBodyRuns self t src barrier fuel data1
      | _ => 1

/-- Every slot other than `t` has a `currentBarrier` of at least `b`. -/
def OthersAtBarrier (d : HostStealPolicyData) (t b : Nat) : Prop :=
  ∀ (k : Nat) (td : HostStealThreadData), k ≠ t → d.threadList[k]? = some td →
    b ≤ td.currentBarrier

/-- The head event of every queue is not earlier than the `lastEventTime` of the
queue: the assertion in `popFromThread` holds for whichever host is examined. -/
def HeadsMonotone (d : HostStealPolicyData) : Prop :=
  ∀ (host : Host) (qdata : HostStealQueueData) (ev : Event) (evs : List Event),
    d.hostToQueueDataMap host = some qdata → qdata.pq = ev :: evs →
    qdata.lastEventTime ≤ ev.time


/-- The `unprocessedHosts` of the slot at position `k` of `threadList` (empty
when there is no such slot). -/
def unprocessedOf (d : HostStealPolicyData) (k : Nat) : List Host :=
  match d.threadList[k]? with
  | some td => td.unprocessedHosts
  | none => []

/-- What the steal loop of slot `t` has done between the states `d` and `d1`
when it found no event on the victims `slots`: their `unprocessedHosts`, in
this order, have been appended to the `processedHosts` of slot `t` and are
now empty, slot `t` runs no host, and nothing else has changed. -/
def DrainEffect (d d1 : HostStealPolicyData) (t : Nat) (slots : List Nat) : Prop :=
  ∃ td td1, d.threadList[t]? = some td ∧ d1.threadList[t]? = some td1 ∧
    td1.processedHosts = td.processedHosts ++ slots.flatMap (unprocessedOf d) ∧
    td1.runningHost = none ∧ td1.unprocessedHosts = td.unprocessedHosts ∧
    (∀ k, k ∈ slots → unprocessedOf d1 k = []) ∧
    (∀ k, k ≠ t → k ∉ slots → d1.threadList[k]? = d.threadList[k]?) ∧
    d1.threadList.length = d.threadList.length ∧ d1.threadCount = d.threadCount ∧
    d1.threadToThreadDataMap = d.threadToThreadDataMap ∧
    d1.hostToQueueDataMap = d.hostToQueueDataMap


/-- Scenario "drain": hosts 0 and 1 on thread 1, host 2 on thread 2, a local
event of time 1 on host 0 and one of time 3 on host 2; in the round with
barrier 10 thread 1 has popped the event of host 0 and thread 2 the event of
host 2, so thread 1 still lists host 1 and no event is left. -/
def drainStart : Option HostStealPolicyData :=
  thenPop (thenPop (thenPush (thenPush (thenAddHost (thenAddHost (thenAddHost
    (some schedulerpolicyhoststeal_new) 1 0 1) 1 1 1) 1 2 2)
    1 (localEvent 0 1 0) 0 0 0) 1 (localEvent 1 3 2) 2 2 0) 1 10) 2 10


/-- The next `k` calls of `pop` by thread `self` with barrier `b`, one after the
other with nothing in between: what each call returned (NULL is `none`) and
the state after the last call; `none` when one of the calls does not return. -/
def popRepeat (self : Thread) (b : Nat) :
    Nat → HostStealPolicyData → Option (List (Option Event) × HostStealPolicyData)
  | 0, d => some ([], d)
  | k + 1, d =>
    match pop d self b with
    | .returned d1 r =>
      match popRepeat self b k d1 with
      | some (rs, d2) => some (r :: rs, d2)
      | none => none
    | _ => none

/-- Scenario "sticky running host": hosts 0 and 1 on thread 1, the only worker;
host 0 has local events of times 5 and 7, host 1 a local event of time 1. -/
def stickyRun : Option HostStealPolicyData :=
  thenPush (thenPush (thenPush (thenAddHost (thenAddHost
    (some schedulerpolicyhoststeal_new) 1 0 1) 1 1 1)
    1 (localEvent 0 5 0) 0 0 0) 1 (localEvent 1 7 0) 0 0 0) 1 (localEvent 2 1 1) 1 1 0


/-- Scenario "host added for two threads": host 0 is added for thread 1 and then
for thread 2 and gets local events of times 1 and 2; thread 1 pops the event
of time 1 in the round with barrier 10, so host 0 is its running host, and
host 0 is also in the `unprocessedHosts` of thread 2. -/
def doubleAddRun : Option HostStealPolicyData :=
  thenPop (thenPush (thenPush (thenAddHost (thenAddHost
    (some schedulerpolicyhoststeal_new) 1 0 1) 1 0 2)
    1 (localEvent 0 1 0) 0 0 0) 1 (localEvent 1 2 0) 0 0 0) 1 10

theorem priorityqueue_push_perm (pq : PriorityQueue) (event : Event) :
    (priorityqueue_push pq event).Perm (event :: pq) := by
  induction pq with
  | nil => simp [priorityqueue_push]
  | cons x xs ih =>
    unfold priorityqueue_push
    split
    · exact (List.Perm.cons x ih).trans (List.Perm.swap event x xs)
    · exact List.Perm.refl _

theorem priorityqueue_push_length (pq : PriorityQueue) (event : Event) :
    (priorityqueue_push pq event).length = pq.length + 1 := by
  simpa using (priorityqueue_push_perm pq event).length_eq

theorem mem_priorityqueue_push (pq : PriorityQueue) (event x : Event) :
    x ∈ priorityqueue_push pq event ↔ x = event ∨ x ∈ pq := by
  simpa using (priorityqueue_push_perm pq event).mem_iff

/-- The queued events are in non-decreasing time order. -/
theorem priorityqueue_push_sorted (pq : PriorityQueue) (event : Event)
    (h : pq.Pairwise (fun a b => a.time ≤ b.time)) :
    (priorityqueue_push pq event).Pairwise (fun a b => a.time ≤ b.time) := by
  induction pq with
  | nil => simp [priorityqueue_push]
  | cons x xs ih =>
    rw [List.pairwise_cons] at h
    unfold priorityqueue_push
    split
    · rename_i hx
      rw [List.pairwise_cons]
      refine ⟨?_, ih h.2⟩
      intro y hy
      show x.time ≤ y.time
      rcases (mem_priorityqueue_push xs event y).1 hy with hxy | hy
      · subst hxy
        exact hx
      · exact h.1 y hy
    · rename_i hx
      rw [List.pairwise_cons]
      refine ⟨?_, List.pairwise_cons.2 h⟩
      intro y hy
      show event.time ≤ y.time
      rcases List.mem_cons.1 hy with hxy | hy
      · subst hxy
        omega
      · have := h.1 y hy
        omega

/-- C1 (causality adjustment on push): when `dstHost` is registered, `push`
succeeds and leaves on the destination queue the old events plus exactly one
new one, which is the pushed event with its time replaced by the barrier if
`srcHost ≠ dstHost` and the time is below the barrier, and the pushed event
itself otherwise.  So a cross-host event is stored with time
`max time barrier` and a same-host event is stored unchanged. -/
theorem push_causality_adjustment (data : HostStealPolicyData) (self : Thread) (event : Event)
    (srcHost dstHost : Host) (barrier : Nat) (qdata : HostStealQueueData)
    (hreg : data.hostToQueueDataMap dstHost = some qdata) :
    ∃ (data1 : HostStealPolicyData) (qdata1 : HostStealQueueData) (stored : Event),
      push data self event srcHost dstHost barrier = some data1 ∧
      data1.hostToQueueDataMap dstHost = some qdata1 ∧
      qdata1.pq = priorityqueue_push qdata.pq stored ∧
      qdata1.pq.Perm (stored :: qdata.pq) ∧
      qdata1.nPushed = qdata.nPushed + 1 ∧
      stored.task = event.task ∧ stored.srcHost = event.srcHost ∧
      stored.dstHost = event.dstHost ∧
      stored.time = (if srcHost ≠ dstHost ∧ event.time < barrier then barrier else event.time) ∧
      (srcHost ≠ dstHost → stored.time = max event.time barrier) ∧
      (srcHost = dstHost → stored = event) := by
  have hp : push data self event srcHost dstHost barrier = some { data with
      hostToQueueDataMap := Function.update data.hostToQueueDataMap dstHost
        (some { qdata with
          pq := priorityqueue_push qdata.pq (adjustEventTime event srcHost dstHost barrier),
          nPushed := qdata.nPushed + 1 }) } := by
    simp only [push, hreg]
  refine ⟨_, { qdata with
      pq := priorityqueue_push qdata.pq (adjustEventTime event srcHost dstHost barrier),
      nPushed := qdata.nPushed + 1 },
    adjustEventTime event srcHost dstHost barrier, hp, ?_, rfl, ?_, rfl, ?_⟩
  · simp only [Function.update_same]
  · exact priorityqueue_push_perm _ _
  · unfold adjustEventTime event_setTime event_getTime
    by_cases hc : srcHost ≠ dstHost ∧ event.time < barrier
    · rw [if_pos hc, if_pos hc]
      refine ⟨rfl, rfl, rfl, rfl, ?_, ?_⟩
      · intro _
        show barrier = max event.time barrier
        omega
      · intro h
        exact absurd h hc.1
    · rw [if_neg hc, if_neg hc]
      refine ⟨rfl, rfl, rfl, rfl, ?_, ?_⟩
      · intro h
        have : ¬ event.time < barrier := fun h2 => hc ⟨h, h2⟩
        omega
      · intro _
        rfl

/-- C1 at a concrete input: an event of time 50 pushed from host 0 to the
registered host 1 under barrier 100. -/
theorem push_causality_adjustment_witness :
    ∃ (data1 : HostStealPolicyData) (qdata1 : HostStealQueueData) (stored : Event),
      push (addHost schedulerpolicyhoststeal_new 7 1 0) 7
        { task := 0, time := 50, srcHost := 0, dstHost := 1 } 0 1 100 = some data1 ∧
      data1.hostToQueueDataMap 1 = some qdata1 ∧
      qdata1.pq = priorityqueue_push hoststealqueuedata_new.pq stored ∧
      qdata1.pq.Perm (stored :: hoststealqueuedata_new.pq) ∧
      qdata1.nPushed = hoststealqueuedata_new.nPushed + 1 ∧
      stored.task = 0 ∧ stored.srcHost = 0 ∧ stored.dstHost = 1 ∧
      stored.time = (if (0 : Host) ≠ 1 ∧ 50 < 100 then 100 else 50) ∧
      ((0 : Host) ≠ 1 → stored.time = max 50 100) ∧
      ((0 : Host) = 1 → stored = { task := 0, time := 50, srcHost := 0, dstHost := 1 }) :=
  push_causality_adjustment (addHost schedulerpolicyhoststeal_new 7 1 0) 7
    { task := 0, time := 50, srcHost := 0, dstHost := 1 } 0 1 100 hoststealqueuedata_new
    rfl

@[simp] theorem setThread_hostToQueueDataMap (d : HostStealPolicyData) (t : Nat)
    (td : HostStealThreadData) :
    (setThread d t td).hostToQueueDataMap = d.hostToQueueDataMap := rfl

@[simp] theorem setThread_hostToThreadMap (d : HostStealPolicyData) (t : Nat)
    (td : HostStealThreadData) :
    (setThread d t td).hostToThreadMap = d.hostToThreadMap := rfl

@[simp] theorem setThread_threadToThreadDataMap (d : HostStealPolicyData) (t : Nat)
    (td : HostStealThreadData) :
    (setThread d t td).threadToThreadDataMap = d.threadToThreadDataMap := rfl

@[simp] theorem setThread_threadCount (d : HostStealPolicyData) (t : Nat)
    (td : HostStealThreadData) :
    (setThread d t td).threadCount = d.threadCount := rfl

@[simp] theorem setThread_threadList (d : HostStealPolicyData) (t : Nat)
    (td : HostStealThreadData) :
    (setThread d t td).threadList = d.threadList.set t td := rfl

theorem push_hostToQueueDataMap (d d1 : HostStealPolicyData) (self : Thread) (event : Event)
    (srcHost dstHost : Host) (barrier : Nat)
    (h : push d self event srcHost dstHost barrier = some d1) :
    ∃ qdata, d.hostToQueueDataMap dstHost = some qdata ∧
      d1.hostToQueueDataMap = Function.update d.hostToQueueDataMap dstHost
        (some { qdata with
          pq := priorityqueue_push qdata.pq (adjustEventTime event srcHost dstHost barrier),
          nPushed := qdata.nPushed + 1 }) ∧
      d1.threadList = d.threadList ∧ d1.threadCount = d.threadCount ∧
      d1.threadToThreadDataMap = d.threadToThreadDataMap ∧
      d1.hostToThreadMap = d.hostToThreadMap := by
  unfold push at h
  simp only [] at h
  split at h
  · exact absurd h (by simp)
  · rename_i qdata hq
    injection h with h
    subst h
    exact ⟨qdata, hq, rfl, rfl, rfl, rfl, rfl⟩

theorem addHost_hostToQueueDataMap (d : HostStealPolicyData) (self : Thread)
    (host : Host) (th : Thread) :
    (addHost d self host th).hostToQueueDataMap =
      match d.hostToQueueDataMap host with
      | none => Function.update d.hostToQueueDataMap host (some hoststealqueuedata_new)
      | some _ => d.hostToQueueDataMap := by
  unfold addHost
  cases hq : d.hostToQueueDataMap host <;>
    cases hm : d.threadToThreadDataMap (if th ≠ 0 then th else self) <;>
    simp only [hm] <;> split <;> try split
  all_goals rfl

theorem addHost_hostToThreadMap (d : HostStealPolicyData) (self : Thread)
    (host : Host) (th : Thread) :
    (addHost d self host th).hostToThreadMap =
      Function.update d.hostToThreadMap host (some (if th ≠ 0 then th else self)) := by
  unfold addHost
  cases hq : d.hostToQueueDataMap host <;>
    cases hm : d.threadToThreadDataMap (if th ≠ 0 then th else self) <;>
    simp only [hm] <;> split <;> try split
  all_goals rfl

theorem addHost_threadToThreadDataMap (d : HostStealPolicyData) (self : Thread)
    (host : Host) (th : Thread) :
    (addHost d self host th).threadToThreadDataMap =
      match d.threadToThreadDataMap (if th ≠ 0 then th else self) with
      | none => Function.update d.threadToThreadDataMap (if th ≠ 0 then th else self)
          (some d.threadList.length)
      | some _ => d.threadToThreadDataMap := by
  unfold addHost
  cases hq : d.hostToQueueDataMap host <;>
    cases hm : d.threadToThreadDataMap (if th ≠ 0 then th else self) <;>
    simp only [hm] <;> split <;> try split
  all_goals rfl

theorem addHost_threadCount (d : HostStealPolicyData) (self : Thread)
    (host : Host) (th : Thread) :
    (addHost d self host th).threadCount =
      match d.threadToThreadDataMap (if th ≠ 0 then th else self) with
      | none => d.threadCount + 1
      | some _ => d.threadCount := by
  unfold addHost
  cases hq : d.hostToQueueDataMap host <;>
    cases hm : d.threadToThreadDataMap (if th ≠ 0 then th else self) <;>
    simp only [hm] <;> split <;> try split
  all_goals rfl

/-- The slot list after `addHost` whose target thread already has the slot `t`. -/
theorem addHost_threadList_of_some (d : HostStealPolicyData) (self : Thread)
    (host : Host) (th : Thread) (t : Nat)
    (hm : d.threadToThreadDataMap (if th ≠ 0 then th else self) = some t) :
    (addHost d self host th).threadList =
      match d.threadList[t]? with
      | none => d.threadList
      | some tdata =>
        if some host ≠ tdata.runningHost then
          d.threadList.set t { tdata with unprocessedHosts := tdata.unprocessedHosts ++ [host] }
        else d.threadList := by
  unfold addHost
  cases hq : d.hostToQueueDataMap host <;> simp only [hm] <;>
    cases ht : d.threadList[t]? <;> simp only [] <;> try split
  all_goals rfl

/-- The slot list after `addHost` whose target thread gets a new slot. -/
theorem addHost_threadList_of_none (d : HostStealPolicyData) (self : Thread)
    (host : Host) (th : Thread)
    (hm : d.threadToThreadDataMap (if th ≠ 0 then th else self) = none) :
    (addHost d self host th).threadList =
      d.threadList ++ [{ hoststealthreaddata_new with
        tnumber := d.threadCount, unprocessedHosts := [host] }] := by
  unfold addHost
  cases hq : d.hostToQueueDataMap host <;> simp only [hm] <;>
    simp [setThread, hoststealthreaddata_new]

theorem migrateHost_cases (d d1 : HostStealPolicyData) (self : Thread) (host : Host)
    (th : Thread) (h : migrateHost d self host th = some d1) :
    (d1 = d ∧ (d.hostToThreadMap host).getD 0 = th) ∨
    (d1 = addHost d self host th ∧ (d.hostToThreadMap host).getD 0 ≠ th) := by
  unfold migrateHost at h
  simp only [] at h
  split at h
  · rename_i heq
    left
    exact ⟨(Option.some.inj h).symm, heq⟩
  · rename_i hne
    right
    refine ⟨?_, hne⟩
    split at h
    · split at h
      · exact absurd h (by simp)
      · split at h
        · exact (Option.some.inj h).symm
        · exact absurd h (by simp)
    · exact (Option.some.inj h).symm

theorem migrateHost_hostToQueueDataMap (d d1 : HostStealPolicyData) (self : Thread)
    (host : Host) (th : Thread) (hq : d.hostToQueueDataMap host ≠ none)
    (h : migrateHost d self host th = some d1) :
    d1.hostToQueueDataMap = d.hostToQueueDataMap := by
  rcases migrateHost_cases d d1 self host th h with ⟨rfl, _⟩ | ⟨rfl, _⟩
  · rfl
  · rw [addHost_hostToQueueDataMap]
    cases hq2 : d.hostToQueueDataMap host
    · exact absurd hq2 hq
    · rfl

theorem retireHost_again (d d1 : HostStealPolicyData) (t : Nat) (host : Host)
    (h : retireHost d t host = .again d1) :
    ∃ tdata, d.threadList[t]? = some tdata ∧
      d1 = setThread d t
        { tdata with processedHosts := tdata.processedHosts ++ [host], runningHost := none } := by
  unfold retireHost at h
  split at h
  · exact absurd h (by simp)
  · rename_i tdata ht
    refine ⟨tdata, ht, ?_⟩
    injection h with h
    exact h.symm

theorem retireHost_ne_done (d d1 : HostStealPolicyData) (t : Nat) (host : Host)
    (r : Option Event) : retireHost d t host ≠ .done d1 r := by
  unfold retireHost
  split <;> simp

theorem popFromHost_again (d d1 : HostStealPolicyData) (self : Thread) (t : Nat)
    (host : Host) (barrier : Nat)
    (h : popFromHost d self t host barrier = .again d1) :
    ∃ qdata tdata, d.hostToQueueDataMap host = some qdata ∧
      (∀ ev, qdata.pq.head? = some ev → barrier ≤ ev.time) ∧
      d.threadList[t]? = some tdata ∧
      d1 = setThread d t
        { tdata with processedHosts := tdata.processedHosts ++ [host], runningHost := none } := by
  unfold popFromHost at h
  split at h
  · exact absurd h (by simp)
  · rename_i qdata hq
    split at h
    · rename_i hpeek
      obtain ⟨tdata, ht, hd⟩ := retireHost_again _ _ _ _ h
      refine ⟨qdata, tdata, hq, ?_, ht, hd⟩
      intro ev hev
      simp only [priorityqueue_peek] at hpeek
      rw [hpeek] at hev
      exact absurd hev (by simp)
    · rename_i peeked hpeek
      split at h
      · split at h
        · simp only [] at h
          split at h
          · exact absurd h (by simp)
          · split at h
            · exact absurd h (by simp)
            · rename_i hnone
              simp only [priorityqueue_pop, priorityqueue_peek] at hnone hpeek
              rw [hpeek] at hnone
              exact absurd hnone (by simp)
        · exact absurd h (by simp)
      · rename_i hlt
        obtain ⟨tdata, ht, hd⟩ := retireHost_again _ _ _ _ h
        refine ⟨qdata, tdata, hq, ?_, ht, hd⟩
        intro ev hev
        simp only [priorityqueue_peek] at hpeek
        rw [hpeek] at hev
        injection hev with hev
        subst hev
        simp only [event_getTime] at hlt
        omega

theorem popFromHost_done (d d1 : HostStealPolicyData) (self : Thread) (t : Nat)
    (host : Host) (barrier : Nat) (r : Option Event)
    (h : popFromHost d self t host barrier = .done d1 r) :
    ∃ ev qdata rest, r = some ev ∧ d.hostToQueueDataMap host = some qdata ∧
      qdata.pq = ev :: rest ∧ ev.time < barrier ∧ qdata.lastEventTime ≤ ev.time ∧
      migrateHost
        { d with hostToQueueDataMap :=
            Function.update d.hostToQueueDataMap host (some (poppedQueue qdata ev rest)) }
        self host self = some d1 := by
  unfold popFromHost at h
  split at h
  · exact absurd h (by simp)
  · rename_i qdata hq
    split at h
    · exact absurd h (retireHost_ne_done _ _ _ _ _)
    · rename_i peeked hpeek
      split at h
      · rename_i hlt
        split at h
        · rename_i hle
          simp only [] at h
          split at h
          · exact absurd h (by simp)
          · rename_i d2 hmig
            cases hpq : qdata.pq with
            | nil =>
              simp only [priorityqueue_peek, hpq] at hpeek
              exact absurd hpeek (by simp)
            | cons ev rest =>
              simp only [priorityqueue_peek, hpq, List.head?_cons] at hpeek
              injection hpeek with hpeek
              subst hpeek
              simp only [priorityqueue_pop, hpq, List.head?_cons, List.tail_cons] at h hmig
              injection h with h1 h2
              subst h1
              exact ⟨ev, qdata, rest, h2.symm, hq, hpq, hlt, hle, hmig⟩
        · exact absurd h (by simp)
      · exact absurd h (retireHost_ne_done _ _ _ _ _)

theorem popFromThreadIter_cases (d : HostStealPolicyData) (self : Thread) (t src : Nat)
    (barrier : Nat) :
    popFromThreadIter d self t src barrier = .aborted ∨
    (popFromThreadIter d self t src barrier = .done d none ∧
      ∃ tdata sdata, d.threadList[t]? = some tdata ∧ d.threadList[src]? = some sdata ∧
        tdata.runningHost = none ∧ sdata.unprocessedHosts = []) ∨
    (∃ d0 host, Selected d t src d0 host ∧
      popFromThreadIter d self t src barrier = popFromHost d0 self t host barrier) := by
  unfold popFromThreadIter
  split
  · rename_i tdata sdata ht hs
    split
    · rename_i _ host hrun
      right; right
      exact ⟨d, host, Or.inl ⟨tdata, sdata, ht, hs, hrun, rfl⟩, rfl⟩
    · rename_i hrun hun
      right; left
      exact ⟨rfl, tdata, sdata, ht, hs, hrun, hun⟩
    · rename_i host rest hrun hun
      simp only []
      split
      · left; rfl
      · rename_i tdata1 ht1
        right; right
        exact ⟨_, host, Or.inr ⟨tdata, sdata, rest, tdata1, ht, hs, hrun, hun, ht1, rfl⟩, rfl⟩
  · left; rfl

theorem popFromThreadIter_again (d d1 : HostStealPolicyData) (self : Thread) (t src : Nat)
    (barrier : Nat) (h : popFromThreadIter d self t src barrier = .again d1) :
    ∃ d0 host qdata tdata, Selected d t src d0 host ∧
      d0.hostToQueueDataMap host = some qdata ∧
      (∀ ev, qdata.pq.head? = some ev → barrier ≤ ev.time) ∧
      d0.threadList[t]? = some tdata ∧
      d1 = setThread d0 t
        { tdata with processedHosts := tdata.processedHosts ++ [host], runningHost := none } := by
  rcases popFromThreadIter_cases d self t src barrier with h1 | ⟨h1, _⟩ | ⟨d0, host, hsel, h1⟩
  · rw [h1] at h
    exact absurd h (by simp)
  · rw [h1] at h
    exact absurd h (by simp)
  · rw [h1] at h
    obtain ⟨qdata, tdata, h2, h3, h4, h5⟩ := popFromHost_again _ _ _ _ _ _ h
    exact ⟨d0, host, qdata, tdata, hsel, h2, h3, h4, h5⟩

theorem popFromThreadIter_done_none (d d1 : HostStealPolicyData) (self : Thread)
    (t src : Nat) (barrier : Nat)
    (h : popFromThreadIter d self t src barrier = .done d1 none) :
    d1 = d ∧ ∃ tdata sdata, d.threadList[t]? = some tdata ∧
      d.threadList[src]? = some sdata ∧ tdata.runningHost = none ∧
      sdata.unprocessedHosts = [] := by
  rcases popFromThreadIter_cases d self t src barrier with h1 | ⟨h1, h2⟩ | ⟨d0, host, hsel, h1⟩
  · rw [h1] at h
    exact absurd h (by simp)
  · rw [h1] at h
    injection h with h _
    exact ⟨h.symm, h2⟩
  · rw [h1] at h
    obtain ⟨ev, _, _, h2, _⟩ := popFromHost_done _ _ _ _ _ _ _ h
    exact absurd h2 (by simp)

theorem popFromThreadIter_done_some (d d1 : HostStealPolicyData) (self : Thread)
    (t src : Nat) (barrier : Nat) (ev : Event)
    (h : popFromThreadIter d self t src barrier = .done d1 (some ev)) :
    ∃ d0 host qdata rest, Selected d t src d0 host ∧
      d0.hostToQueueDataMap host = some qdata ∧
      qdata.pq = ev :: rest ∧ ev.time < barrier ∧ qdata.lastEventTime ≤ ev.time ∧
      migrateHost
        { d0 with hostToQueueDataMap :=
            Function.update d0.hostToQueueDataMap host (some (poppedQueue qdata ev rest)) }
        self host self = some d1 := by
  rcases popFromThreadIter_cases d self t src barrier with h1 | ⟨h1, _⟩ | ⟨d0, host, hsel, h1⟩
  · rw [h1] at h
    exact absurd h (by simp)
  · rw [h1] at h
    injection h with _ h
    exact absurd h (by simp)
  · rw [h1] at h
    obtain ⟨ev1, qdata, rest, h2, h3, h4, h5, h6, h7⟩ := popFromHost_done _ _ _ _ _ _ _ h
    injection h2 with h2
    subst h2
    exact ⟨d0, host, qdata, rest, hsel, h3, h4, h5, h6, h7⟩

/-- Loop rule for `popFromThread`: a predicate kept by every iteration that goes
round again holds when the loop is left. -/
theorem popFromThreadLoop_induction (self : Thread) (t src barrier : Nat)
    (P : HostStealPolicyData → Prop) (R : HostStealPolicyData → Option Event → Prop)
    (hagain : ∀ d d1, P d → popFromThreadIter d self t src barrier = .again d1 → P d1)
    (hdone : ∀ d d1 r, P d → popFromThreadIter d self t src barrier = .done d1 r → R d1 r) :
    ∀ (fuel : Nat) (d d1 : HostStealPolicyData) (r : Option Event), P d →
      popFromThreadLoop self t src barrier fuel d = .returned d1 r → R d1 r := by
  intro fuel
  induction fuel with
  | zero =>
    intro d d1 r _ h
    simp [popFromThreadLoop] at h
  | succ n ih =>
    intro d d1 r hP h
    unfold popFromThreadLoop at h
    split at h
    · rename_i d2 ev hiter
      injection h with h1 h2
      subst h1 h2
      exact hdone d d2 ev hP hiter
    · rename_i d2 hiter
      exact ih d2 d1 r (hagain d d2 hP hiter) h
    · exact absurd h (by simp)

theorem popFromThreadLoop_ne_spinning (self : Thread) (t src barrier : Nat) :
    ∀ (fuel : Nat) (d d1 : HostStealPolicyData),
      popFromThreadLoop self t src barrier fuel d ≠ .spinning d1 := by
  intro fuel
  induction fuel with
  | zero =>
    intro d d1
    simp [popFromThreadLoop]
  | succ n ih =>
    intro d d1
    unfold popFromThreadLoop
    split
    · simp
    · exact ih _ _
    · simp

theorem popFromThread_induction (self : Thread) (t src barrier : Nat)
    (P : HostStealPolicyData → Prop) (R : HostStealPolicyData → Option Event → Prop)
    (hagain : ∀ d d1, P d → popFromThreadIter d self t src barrier = .again d1 → P d1)
    (hdone : ∀ d d1 r, P d → popFromThreadIter d self t src barrier = .done d1 r → R d1 r)
    (d d1 : HostStealPolicyData) (r : Option Event) (hP : P d)
    (h : popFromThread d self t src barrier = .returned d1 r) : R d1 r := by
  unfold popFromThread at h
  split at h
  · exact absurd h (by simp)
  · exact popFromThreadLoop_induction self t src barrier P R hagain hdone _ d d1 r hP h

theorem popFromThread_ne_spinning (d d1 : HostStealPolicyData) (self : Thread)
    (t src barrier : Nat) : popFromThread d self t src barrier ≠ .spinning d1 := by
  unfold popFromThread
  split
  · simp
  · exact popFromThreadLoop_ne_spinning _ _ _ _ _ _ _

/-- Loop rule for the steal loop.  `P` holds before every candidate, `R`
describes a return and `S` the state in which the caller spins. -/
theorem stealLoop_induction (self : Thread) (t tnumber n barrier : Nat)
    (Q : Nat → Prop)
    (P : HostStealPolicyData → Prop) (R : HostStealPolicyData → Option Event → Prop)
    (S : HostStealPolicyData → Prop)
    (hnone : ∀ d, P d → R d none)
    (hpopNone : ∀ s d d1, P d → popFromThread d self t s barrier = .returned d1 none → P d1)
    (hpopSome : ∀ s d d1 ev, P d →
      popFromThread d self t s barrier = .returned d1 (some ev) → R d1 (some ev))
    (hspin : ∀ i d sd, Q i → P d → d.threadList[(i + tnumber) % n]? = some sd →
      barrier > sd.currentBarrier →
      S (setThread d ((i + tnumber) % n) { sd with isStealable := false })) :
    ∀ (l : List Nat) (d : HostStealPolicyData), (∀ i ∈ l, Q i) → P d →
      (∀ d1 r, stealLoop self t tnumber n barrier l d = .returned d1 r → R d1 r) ∧
      (∀ d1, stealLoop self t tnumber n barrier l d = .spinning d1 → S d1) := by
  intro l
  induction l with
  | nil =>
    intro d _ hP
    constructor
    · intro d1 r h
      simp only [stealLoop] at h
      injection h with h1 h2
      subst h1 h2
      exact hnone d hP
    · intro d1 h
      simp [stealLoop] at h
  | cons i rest ih =>
    intro d hQ hP
    have hQi : Q i := hQ i (List.mem_cons_self _ _)
    have hQrest : ∀ j ∈ rest, Q j := fun j hj => hQ j (List.mem_cons_of_mem _ hj)
    unfold stealLoop
    simp only []
    split
    · constructor
      · intro d1 r h
        exact absurd h (by simp)
      · intro d1 h
        exact absurd h (by simp)
    · rename_i sd hsd
      split
      · rename_i hb
        constructor
        · intro d1 r h
          exact absurd h (by simp)
        · intro d1 h
          injection h with h
          subst h
          exact hspin i d sd hQi hP hsd hb
      · split
        · exact ih d hQrest hP
        · split
          · rename_i d2 ev hpop
            constructor
            · intro d1 r h
              injection h with h1 h2
              subst h1 h2
              exact hpopSome _ d d2 ev hP hpop
            · intro d1 h
              exact absurd h (by simp)
          · rename_i d2 hpop
            exact ih d2 hQrest (hpopNone _ d d2 hP hpop)
          · rename_i other hne1 hne2
            constructor
            · intro d1 r h
              cases r with
              | none => exact absurd h (hne2 d1)
              | some ev => exact absurd h (hne1 d1 ev)
            · intro d1 h
              exact absurd h (popFromThread_ne_spinning _ _ _ _ _ _)

/-- Rule for `pop` of a thread with a slot: `P` holds after the round start and
is kept by every loop iteration that goes round again; `R` describes a
return and `S` the state in which the caller spins. -/
theorem pop_induction (d : HostStealPolicyData) (self : Thread) (barrier t : Nat)
    (tdata : HostStealThreadData)
    (hmap : d.threadToThreadDataMap self = some t) (htd : d.threadList[t]? = some tdata)
    (P : HostStealPolicyData → Prop) (R : HostStealPolicyData → Option Event → Prop)
    (S : HostStealPolicyData → Prop)
    (hstart : P (roundStart d t barrier))
    (hagain : ∀ src d0 d1, P d0 → popFromThreadIter d0 self t src barrier = .again d1 → P d1)
    (hsome : ∀ src d0 d1 ev, P d0 →
      popFromThreadIter d0 self t src barrier = .done d1 (some ev) → R d1 (some ev))
    (hnone : ∀ d0, P d0 → R d0 none)
    (hspin : ∀ dm d0 i sd, P dm → P d0 → 1 ≤ i → i < dm.threadCount →
      d0.threadList[(i + tdata.tnumber) % dm.threadCount]? = some sd →
      barrier > sd.currentBarrier →
      S (setThread d0 ((i + tdata.tnumber) % dm.threadCount) { sd with isStealable := false })) :
    (∀ d1 r, pop d self barrier = .returned d1 r → R d1 r) ∧
    (∀ d1, pop d self barrier = .spinning d1 → S d1) := by
  have hpop : ∀ src d0 d1 r, P d0 → popFromThread d0 self t src barrier = .returned d1 r →
      (r = none → P d1) ∧ (∀ ev, r = some ev → R d1 (some ev)) := by
    intro src d0 d1 r hP h
    refine popFromThread_induction self t src barrier P
      (fun d1 r => (r = none → P d1) ∧ (∀ ev, r = some ev → R d1 (some ev)))
      (hagain src) ?_ d0 d1 r hP h
    intro d2 d3 r2 hP2 hiter
    cases r2 with
    | none =>
      obtain ⟨h1, _⟩ := popFromThreadIter_done_none _ _ _ _ _ _ hiter
      subst h1
      exact ⟨fun _ => hP2, fun ev hev => absurd hev (by simp)⟩
    | some ev =>
      refine ⟨fun hev => absurd hev (by simp), fun ev2 hev => ?_⟩
      injection hev with hev
      subst hev
      exact hsome src d2 d3 ev hP2 hiter
  unfold pop
  rw [hmap]
  simp only [htd]
  split
  · rename_i d2 ev hown
    constructor
    · intro d1 r h
      injection h with h1 h2
      subst h1 h2
      exact (hpop t _ d2 (some ev) hstart hown).2 ev rfl
    · intro d1 h
      exact absurd h (by simp)
  · rename_i d2 hown
    have hP2 : P d2 := (hpop t _ d2 none hstart hown).1 rfl
    exact stealLoop_induction self t tdata.tnumber d2.threadCount barrier
      (fun i => 1 ≤ i ∧ i < d2.threadCount) P R S hnone
      (fun s d0 d1 hP0 h => (hpop s d0 d1 none hP0 h).1 rfl)
      (fun s d0 d1 ev hP0 h => (hpop s d0 d1 (some ev) hP0 h).2 ev rfl)
      (fun i d0 sd hQ hP0 hsd hb => hspin d2 d0 i sd hP2 hP0 hQ.1 hQ.2 hsd hb)
      _ d2
      (by
        intro i hi
        rw [List.mem_range'] at hi
        obtain ⟨k, hk, rfl⟩ := hi
        constructor <;> omega)
      hP2
  · rename_i other hne1 hne2
    constructor
    · intro d1 r h
      cases r with
      | none => exact absurd h (hne2 d1)
      | some ev => exact absurd h (hne1 d1 ev)
    · intro d1 h
      exact absurd h (popFromThread_ne_spinning _ _ _ _ _ _)

theorem pop_event_time_lt (d d1 : HostStealPolicyData) (self : Thread) (barrier : Nat)
    (ev : Event) (h : pop d self barrier = .returned d1 (some ev)) : ev.time < barrier := by
  cases hmap : d.threadToThreadDataMap self with
  | none =>
    simp only [pop, hmap] at h
    injection h with _ h
    exact absurd h (by simp)
  | some t =>
    cases htd : d.threadList[t]? with
    | none =>
      simp only [pop, hmap, htd] at h
      exact absurd h (by simp)
    | some tdata =>
      have key := (pop_induction d self barrier t tdata hmap htd (fun _ => True)
        (fun _ r => ∀ e, r = some e → e.time < barrier) (fun _ => True) trivial
        (fun _ _ _ _ _ => trivial)
        (fun src d0 d2 e _ hiter e2 he => by
          obtain ⟨_, _, _, _, _, _, _, hlt, _⟩ :=
            popFromThreadIter_done_some d0 d2 self t src barrier e hiter
          injection he with he
          subst he
          exact hlt)
        (fun _ _ e he => absurd he (by simp))
        (fun _ _ _ _ _ _ _ _ _ _ => trivial)).1
      exact key d1 (some ev) h ev rfl

/-- C2 (barrier respect): in every state, an event returned by `pop` with
barrier `b`, taken from the caller's own hosts or from a stolen host, has a
time strictly below `b`. -/
theorem pop_respects_barrier (d d1 : HostStealPolicyData) (self : Thread) (barrier : Nat)
    (ev : Event) (h : pop d self barrier = .returned d1 (some ev)) : ev.time < barrier :=
  pop_event_time_lt d d1 self barrier ev h

/-- C2 on the single-host scenario: the first `pop` with barrier 10 returns the
event of time 3. -/
theorem pop_respects_barrier_witness : (localEvent 1 3 10).time < 10 :=
  pop_respects_barrier
    (singleHostRun.getD schedulerpolicyhoststeal_new) _ 1 10 (localEvent 1 3 10) rfl

/-- C3 (cross-host causality end to end): an event pushed with `src ≠ dst` under
barrier `b` is stored with a time of at least `b`, and no `pop` with a
barrier `≤ b`, by any worker in any later state, returns it: whatever such a
pop returns has a strictly smaller time.  On the scenario of the spec the event
of time 50 pushed from host 0 to host 1 under barrier 100 is stored with time
100, worker 2's `pop 100` returns nothing and its `pop 200` returns it. -/
theorem cross_host_causality :
    (∀ (d d1 : HostStealPolicyData) (self : Thread) (event : Event) (srcHost dstHost : Host)
        (b : Nat), srcHost ≠ dstHost → push d self event srcHost dstHost b = some d1 →
      ∃ qdata stored, d1.hostToQueueDataMap dstHost = some qdata ∧ stored ∈ qdata.pq ∧
        stored = { event with time := max event.time b } ∧
        ∀ (d2 d3 : HostStealPolicyData) (worker : Thread) (b2 : Nat) (ev : Event), b2 ≤ b →
          pop d2 worker b2 = .returned d3 (some ev) → ev.time < stored.time ∧ ev ≠ stored) ∧
    (crossHostRun.bind (fun d => d.hostToQueueDataMap 1)).map (fun q => q.pq)
      = some [{ crossEvent with time := 100 }] ∧
    thenPopped crossHostRun 2 100 = none ∧
    (thenPop crossHostRun 2 100).isSome = true ∧
    thenPopped (thenPop crossHostRun 2 100) 2 200 = some { crossEvent with time := 100 } := by
  refine ⟨?_, by decide, by decide, by decide, by decide⟩
  intro d d1 self event srcHost dstHost b hne hpush
  obtain ⟨qdata, _, hq1, _⟩ := push_hostToQueueDataMap d d1 self event srcHost dstHost b hpush
  have hstored : adjustEventTime event srcHost dstHost b =
      { event with time := max event.time b } := by
    unfold adjustEventTime event_setTime event_getTime
    by_cases hlt : event.time < b
    · rw [if_pos ⟨hne, hlt⟩, Nat.max_eq_right (Nat.le_of_lt hlt)]
    · rw [if_neg (fun hc => hlt hc.2), Nat.max_eq_left (Nat.le_of_not_lt hlt)]
  refine ⟨_, adjustEventTime event srcHost dstHost b,
    by rw [hq1, Function.update_same], ?_, hstored, ?_⟩
  · rw [mem_priorityqueue_push]
    exact Or.inl rfl
  · intro d2 d3 worker b2 ev hb hpop
    have hlt := pop_event_time_lt d2 d3 worker b2 ev hpop
    have hge : b ≤ (adjustEventTime event srcHost dstHost b).time := by
      rw [hstored]
      show b ≤ max event.time b
      omega
    refine ⟨by omega, ?_⟩
    intro heq
    rw [heq] at hlt
    omega

/-- C3 instantiated on the scenario of the spec: the pushed event is stored
with time 100 and the event that `pop 200` returns on host 1 is not returned
by a pop with barrier 100. -/
theorem cross_host_causality_witness :
    ∃ qdata stored,
      (((crossHostStart.getD schedulerpolicyhoststeal_new).hostToQueueDataMap 1).map
        (fun q => { q with pq := priorityqueue_push q.pq { crossEvent with time := 100 },
                           nPushed := q.nPushed + 1 })) = some qdata ∧
      stored ∈ qdata.pq ∧ stored = { crossEvent with time := max crossEvent.time 100 } ∧
      ∀ (d2 d3 : HostStealPolicyData) (worker : Thread) (b2 : Nat) (ev : Event), b2 ≤ 100 →
        pop d2 worker b2 = .returned d3 (some ev) → ev.time < stored.time ∧ ev ≠ stored := by
  obtain ⟨qdata, stored, h1, h2, h3, h4⟩ :=
    cross_host_causality.1 (crossHostStart.getD schedulerpolicyhoststeal_new)
      (crossHostRun.getD schedulerpolicyhoststeal_new) 1 crossEvent 0 1 100 (by decide) rfl
  refine ⟨qdata, stored, ?_, h2, h3, h4⟩
  rw [← h1]
  rfl

theorem Selected_fields (d d0 : HostStealPolicyData) (t src : Nat) (host : Host)
    (h : Selected d t src d0 host) :
    d0.hostToQueueDataMap = d.hostToQueueDataMap ∧ d0.hostToThreadMap = d.hostToThreadMap ∧
    d0.threadToThreadDataMap = d.threadToThreadDataMap ∧ d0.threadCount = d.threadCount ∧
    d0.threadList.length = d.threadList.length := by
  rcases h with ⟨_, _, _, _, _, rfl⟩ | ⟨_, _, _, _, _, _, _, _, _, rfl⟩
  · exact ⟨rfl, rfl, rfl, rfl, rfl⟩
  · refine ⟨rfl, rfl, rfl, rfl, ?_⟩
    simp only [setThread_threadList, List.length_set]

theorem Selected_running (d d0 : HostStealPolicyData) (t src : Nat) (host : Host)
    (h : Selected d t src d0 host) :
    ∃ tdata0, d0.threadList[t]? = some tdata0 ∧ tdata0.runningHost = some host := by
  rcases h with ⟨tdata, _, ht, _, hrun, rfl⟩ | ⟨_, _, _, tdata1, _, _, _, _, ht1, rfl⟩
  · exact ⟨tdata, ht, hrun⟩
  · refine ⟨{ tdata1 with runningHost := some host }, ?_, rfl⟩
    rcases List.getElem?_eq_some.1 ht1 with ⟨hlt, _⟩
    simp only [setThread_threadList] at hlt ⊢
    rw [List.getElem?_set_self hlt]

/-- `migrateHost` to the calling thread of the host that the caller's slot is
running only rewrites the owner entry of that host. -/
theorem migrateHost_self_running (d d1 : HostStealPolicyData) (self : Thread) (host : Host)
    (t : Nat) (tdata : HostStealThreadData)
    (hmap : d.threadToThreadDataMap self = some t) (htd : d.threadList[t]? = some tdata)
    (hrun : tdata.runningHost = some host)
    (h : migrateHost d self host self = some d1) :
    d1.threadList = d.threadList ∧ d1.threadCount = d.threadCount ∧
    d1.threadToThreadDataMap = d.threadToThreadDataMap ∧
    (d.hostToQueueDataMap host ≠ none → d1.hostToQueueDataMap = d.hostToQueueDataMap) ∧
    ((d1.hostToThreadMap = d.hostToThreadMap ∧ (d.hostToThreadMap host).getD 0 = self) ∨
     (d1.hostToThreadMap = Function.update d.hostToThreadMap host (some self) ∧
      (d.hostToThreadMap host).getD 0 ≠ self)) := by
  have hm : d.threadToThreadDataMap (if self ≠ 0 then self else self) = some t := by
    rw [ite_self]
    exact hmap
  have hq := migrateHost_hostToQueueDataMap d d1 self host self
  rcases migrateHost_cases d d1 self host self h with ⟨rfl, h2⟩ | ⟨rfl, h2⟩
  · exact ⟨rfl, rfl, rfl, fun _ => rfl, Or.inl ⟨rfl, h2⟩⟩
  · refine ⟨?_, ?_, ?_, fun hne => hq hne h, Or.inr ⟨?_, h2⟩⟩
    · rw [addHost_threadList_of_some d self host self t hm, htd]
      simp only [hrun, ne_eq, not_true_eq_false, ite_false]
    · rw [addHost_threadCount, hm]
    · rw [addHost_threadToThreadDataMap, hm]
    · rw [addHost_hostToThreadMap, ite_self]

theorem roundStart_fields (d : HostStealPolicyData) (t barrier : Nat) :
    (roundStart d t barrier).hostToQueueDataMap = d.hostToQueueDataMap ∧
    (roundStart d t barrier).hostToThreadMap = d.hostToThreadMap ∧
    (roundStart d t barrier).threadToThreadDataMap = d.threadToThreadDataMap ∧
    (roundStart d t barrier).threadCount = d.threadCount ∧
    (roundStart d t barrier).threadList.length = d.threadList.length := by
  unfold roundStart
  split
  · exact ⟨rfl, rfl, rfl, rfl, rfl⟩
  · split
    · refine ⟨rfl, rfl, rfl, rfl, ?_⟩
      simp only [setThread_threadList, List.length_set]
    · exact ⟨rfl, rfl, rfl, rfl, rfl⟩

/-- What one successful iteration does, for a caller whose slot is `t`. -/
theorem popFromThreadIter_done_some_effect (d d1 : HostStealPolicyData) (self : Thread)
    (t src : Nat) (barrier : Nat) (ev : Event)
    (hmap : d.threadToThreadDataMap self = some t)
    (h : popFromThreadIter d self t src barrier = .done d1 (some ev)) :
    ∃ d0 host qdata rest, Selected d t src d0 host ∧
      d0.hostToQueueDataMap host = some qdata ∧
      qdata.pq = ev :: rest ∧ ev.time < barrier ∧ qdata.lastEventTime ≤ ev.time ∧
      d1.threadList = d0.threadList ∧ d1.threadCount = d0.threadCount ∧
      d1.threadToThreadDataMap = d0.threadToThreadDataMap ∧
      d1.hostToQueueDataMap =
        Function.update d0.hostToQueueDataMap host (some (poppedQueue qdata ev rest)) ∧
      ((d1.hostToThreadMap = d0.hostToThreadMap ∧ (d0.hostToThreadMap host).getD 0 = self) ∨
       (d1.hostToThreadMap = Function.update d0.hostToThreadMap host (some self) ∧
        (d0.hostToThreadMap host).getD 0 ≠ self)) := by
  obtain ⟨d0, host, qdata, rest, hsel, hq, hpq, hlt, hle, hmig⟩ :=
    popFromThreadIter_done_some d d1 self t src barrier ev h
  obtain ⟨tdata0, ht0, hrun0⟩ := Selected_running d d0 t src host hsel
  have hf := Selected_fields d d0 t src host hsel
  have := migrateHost_self_running
    { d0 with hostToQueueDataMap :=
        Function.update d0.hostToQueueDataMap host (some (poppedQueue qdata ev rest)) }
    d1 self host t tdata0 (by rw [← hmap, ← hf.2.2.1]) ht0 hrun0 hmig
  obtain ⟨h1, h2, h3, h4, h5⟩ := this
  refine ⟨d0, host, qdata, rest, hsel, hq, hpq, hlt, hle, h1, h2, h3, ?_, h5⟩
  apply h4
  simp only [Function.update_same]
  simp

/-- The effect of `pop` on the queues: a returned event was the head of the
queue of the host that is now the caller's running host, and it is the only
change to any queue; a `pop` that returns NULL or spins changes no queue. -/
theorem pop_queue_effect (d : HostStealPolicyData) (self : Thread) (barrier : Nat) :
    (∀ d1, pop d self barrier = .returned d1 none →
      d1.hostToQueueDataMap = d.hostToQueueDataMap) ∧
    (∀ d1, pop d self barrier = .spinning d1 →
      d1.hostToQueueDataMap = d.hostToQueueDataMap) ∧
    (∀ d1 ev, pop d self barrier = .returned d1 (some ev) →
      ∃ t host qdata rest tdata1, d.threadToThreadDataMap self = some t ∧
        d1.threadToThreadDataMap self = some t ∧ d1.threadList[t]? = some tdata1 ∧
        tdata1.runningHost = some host ∧ d.hostToQueueDataMap host = some qdata ∧
        qdata.pq = ev :: rest ∧ ev.time < barrier ∧ qdata.lastEventTime ≤ ev.time ∧
        d1.hostToQueueDataMap =
          Function.update d.hostToQueueDataMap host (some (poppedQueue qdata ev rest))) := by
  cases hmap : d.threadToThreadDataMap self with
  | none =>
    simp only [pop, hmap]
    refine ⟨?_, ?_, ?_⟩
    · intro d1 h
      injection h with h _
      rw [← h]
    · intro d1 h
      exact absurd h (by simp)
    · intro d1 ev h
      injection h with _ h
      exact absurd h (by simp)
  | some t =>
    cases htd : d.threadList[t]? with
    | none =>
      simp only [pop, hmap, htd]
      refine ⟨?_, ?_, ?_⟩ <;> intros <;> simp_all
    | some tdata =>
      have key := pop_induction d self barrier t tdata hmap htd
        (fun d0 => d0.hostToQueueDataMap = d.hostToQueueDataMap ∧
          d0.threadToThreadDataMap self = some t)
        (fun d1 r => match r with
          | none => d1.hostToQueueDataMap = d.hostToQueueDataMap
          | some ev => ∃ host qdata rest tdata1,
              d1.threadToThreadDataMap self = some t ∧ d1.threadList[t]? = some tdata1 ∧
              tdata1.runningHost = some host ∧ d.hostToQueueDataMap host = some qdata ∧
              qdata.pq = ev :: rest ∧ ev.time < barrier ∧ qdata.lastEventTime ≤ ev.time ∧
              d1.hostToQueueDataMap =
                Function.update d.hostToQueueDataMap host (some (poppedQueue qdata ev rest)))
        (fun d1 => d1.hostToQueueDataMap = d.hostToQueueDataMap)
        (by
          have hf := roundStart_fields d t barrier
          exact ⟨hf.1, by rw [hf.2.2.1]; exact hmap⟩)
        (by
          intro src d0 d1 hP hiter
          obtain ⟨d0', host, _, _, hsel, _, _, _, rfl⟩ :=
            popFromThreadIter_again d0 d1 self t src barrier hiter
          have hf := Selected_fields d0 d0' t src host hsel
          exact ⟨by rw [setThread_hostToQueueDataMap, hf.1]; exact hP.1,
            by rw [setThread_threadToThreadDataMap, hf.2.2.1]; exact hP.2⟩)
        (by
          intro src d0 d1 ev hP hiter
          obtain ⟨d0', host, qdata, rest, hsel, hq, hpq, hlt, hle, h1, _, h3, h4, _⟩ :=
            popFromThreadIter_done_some_effect d0 d1 self t src barrier ev hP.2 hiter
          have hf := Selected_fields d0 d0' t src host hsel
          obtain ⟨tdata0, ht0, hrun0⟩ := Selected_running d0 d0' t src host hsel
          refine ⟨host, qdata, rest, tdata0, ?_, ?_, hrun0, ?_, hpq, hlt, hle, ?_⟩
          · rw [h3, hf.2.2.1]
            exact hP.2
          · rw [h1]
            exact ht0
          · rw [← hP.1, ← hf.1]
            exact hq
          · rw [h4, hf.1, hP.1])
        (fun d0 hP => hP.1)
        (fun _ d0 _ _ _ hP _ _ _ _ => hP.1)
      refine ⟨fun d1 h => key.1 d1 none h, key.2, ?_⟩
      intro d1 ev h
      obtain ⟨host, qdata, rest, tdata1, h1, h2, h3, h4, h5, h6, h7, h8⟩ := key.1 d1 (some ev) h
      exact ⟨t, host, qdata, rest, tdata1, rfl, h1, h2, h3, h4, h5, h6, h7, h8⟩

theorem getHosts_fields (d : HostStealPolicyData) (self : Thread) :
    (getHosts d self).2.hostToQueueDataMap = d.hostToQueueDataMap ∧
    (getHosts d self).2.hostToThreadMap = d.hostToThreadMap ∧
    (getHosts d self).2.threadToThreadDataMap = d.threadToThreadDataMap ∧
    (getHosts d self).2.threadCount = d.threadCount ∧
    (getHosts d self).2.threadList.length = d.threadList.length := by
  unfold getHosts
  split
  · exact ⟨rfl, rfl, rfl, rfl, rfl⟩
  · split
    · exact ⟨rfl, rfl, rfl, rfl, rfl⟩
    · split
      · exact ⟨rfl, rfl, rfl, rfl, rfl⟩
      · split
        · exact ⟨rfl, rfl, rfl, rfl, rfl⟩
        · refine ⟨rfl, rfl, rfl, rfl, ?_⟩
          simp only [setThread_threadList, List.length_set]

theorem Conserved_addHost (d : HostStealPolicyData) (self : Thread) (host : Host)
    (thread : Thread) (h : Conserved d) : Conserved (addHost d self host thread) := by
  intro host1 qdata hq
  rw [addHost_hostToQueueDataMap] at hq
  split at hq
  · by_cases hh : host1 = host
    · subst hh
      rw [Function.update_same] at hq
      injection hq with hq
      subst hq
      rfl
    · rw [Function.update_noteq hh] at hq
      exact h host1 qdata hq
  · exact h host1 qdata hq

theorem Conserved_push (d d1 : HostStealPolicyData) (self : Thread) (event : Event)
    (srcHost dstHost : Host) (barrier : Nat) (h : Conserved d)
    (hp : push d self event srcHost dstHost barrier = some d1) : Conserved d1 := by
  obtain ⟨qdata, hq, hq1, _⟩ := push_hostToQueueDataMap d d1 self event srcHost dstHost barrier hp
  intro host1 qdata1 hq2
  rw [hq1] at hq2
  by_cases hh : host1 = dstHost
  · subst hh
    rw [Function.update_same] at hq2
    injection hq2 with hq2
    subst hq2
    have := h host1 qdata hq
    simp only [priorityqueue_push_length]
    omega
  · rw [Function.update_noteq hh] at hq2
    exact h host1 qdata1 hq2

theorem Conserved_pop (d : HostStealPolicyData) (self : Thread) (barrier : Nat)
    (h : Conserved d) :
    (∀ d1 r, pop d self barrier = .returned d1 r → Conserved d1) ∧
    (∀ d1, pop d self barrier = .spinning d1 → Conserved d1) := by
  obtain ⟨h1, h2, h3⟩ := pop_queue_effect d self barrier
  refine ⟨?_, ?_⟩
  · intro d1 r hpop
    cases r with
    | none =>
      intro host qdata hq
      rw [h1 d1 hpop] at hq
      exact h host qdata hq
    | some ev =>
      obtain ⟨t, host, qdata, rest, tdata1, _, _, _, _, hq, hpq, _, _, hupd⟩ := h3 d1 ev hpop
      intro host1 qdata1 hq1
      rw [hupd] at hq1
      by_cases hh : host1 = host
      · subst hh
        rw [Function.update_same] at hq1
        injection hq1 with hq1
        subst hq1
        have := h host1 qdata hq
        rw [hpq] at this
        simp only [poppedQueue]
        simp only [List.length_cons] at this
        omega
      · rw [Function.update_noteq hh] at hq1
        exact h host1 qdata1 hq1
  · intro d1 hpop
    intro host qdata hq
    rw [h2 d1 hpop] at hq
    exact h host qdata hq

theorem Conserved_getHosts (d : HostStealPolicyData) (self : Thread) (h : Conserved d) :
    Conserved (getHosts d self).2 := by
  intro host qdata hq
  rw [(getHosts_fields d self).1] at hq
  exact h host qdata hq

theorem Conserved_of_reachable (once : Bool) (d : HostStealPolicyData)
    (h : ReachableBy once d) : Conserved d := by
  induction h with
  | init =>
    intro host qdata hq
    simp [schedulerpolicyhoststeal_new] at hq
  | addHost d self host thread _ _ ih => exact Conserved_addHost d self host thread ih
  | push d d1 self event srcHost dstHost barrier _ hp ih =>
    exact Conserved_push d d1 self event srcHost dstHost barrier ih hp
  | popReturned d d1 self barrier r _ hp ih => exact (Conserved_pop d self barrier ih).1 d1 r hp
  | popSpinning d d1 self barrier _ hp ih => exact (Conserved_pop d self barrier ih).2 d1 hp
  | getHosts d self _ ih => exact Conserved_getHosts d self ih

/-- C5 (conservation): a newly created queue satisfies
`nPushed = nPopped + len(queue)`; the equation holds for every queue of every
reachable state; it is preserved by `addHost`, `push`, `pop` (returning from
the caller's own hosts or a steal, or spinning) and `getHosts`, while
`getNextTime` only computes a time from the state; a `push` adds exactly the
stored event to the destination queue, and a `pop` that returns an event
removes exactly that event from one queue and leaves the others alone. -/
theorem conservation :
    (hoststealqueuedata_new.nPushed =
      hoststealqueuedata_new.nPopped + hoststealqueuedata_new.pq.length) ∧
    (∀ d, Reachable d → Conserved d) ∧
    (∀ d self host thread, Conserved d → Conserved (addHost d self host thread)) ∧
    (∀ d d1 self event srcHost dstHost barrier, Conserved d →
      push d self event srcHost dstHost barrier = some d1 →
      Conserved d1 ∧ ∃ qdata qdata1, d.hostToQueueDataMap dstHost = some qdata ∧
        d1.hostToQueueDataMap dstHost = some qdata1 ∧
        qdata1.pq.Perm (adjustEventTime event srcHost dstHost barrier :: qdata.pq) ∧
        qdata1.nPushed = qdata.nPushed + 1 ∧ qdata1.nPopped = qdata.nPopped ∧
        ∀ host, host ≠ dstHost → d1.hostToQueueDataMap host = d.hostToQueueDataMap host) ∧
    (∀ d d1 self barrier ev, Conserved d → pop d self barrier = .returned d1 (some ev) →
      Conserved d1 ∧ ∃ host qdata qdata1, d.hostToQueueDataMap host = some qdata ∧
        d1.hostToQueueDataMap host = some qdata1 ∧ qdata.pq = ev :: qdata1.pq ∧
        qdata1.nPopped = qdata.nPopped + 1 ∧ qdata1.nPushed = qdata.nPushed ∧
        ∀ host1, host1 ≠ host → d1.hostToQueueDataMap host1 = d.hostToQueueDataMap host1) ∧
    (∀ d d1 self barrier, Conserved d → pop d self barrier = .returned d1 none →
      Conserved d1 ∧ d1.hostToQueueDataMap = d.hostToQueueDataMap) ∧
    (∀ d d1 self barrier, Conserved d → pop d self barrier = .spinning d1 →
      Conserved d1 ∧ d1.hostToQueueDataMap = d.hostToQueueDataMap) ∧
    (∀ d self, Conserved d →
      Conserved (getHosts d self).2 ∧
      (getHosts d self).2.hostToQueueDataMap = d.hostToQueueDataMap) := by
  refine ⟨rfl, fun d h => Conserved_of_reachable false d h, Conserved_addHost, ?_, ?_, ?_, ?_, ?_⟩
  · intro d d1 self event srcHost dstHost barrier hc hp
    refine ⟨Conserved_push d d1 self event srcHost dstHost barrier hc hp, ?_⟩
    obtain ⟨qdata, hq, hq1, _⟩ :=
      push_hostToQueueDataMap d d1 self event srcHost dstHost barrier hp
    refine ⟨qdata, { qdata with
        pq := priorityqueue_push qdata.pq (adjustEventTime event srcHost dstHost barrier),
        nPushed := qdata.nPushed + 1 }, hq, by rw [hq1, Function.update_same], ?_, rfl, rfl, ?_⟩
    · exact priorityqueue_push_perm _ _
    · intro host hne
      rw [hq1, Function.update_noteq hne]
  · intro d d1 self barrier ev hc hp
    refine ⟨(Conserved_pop d self barrier hc).1 d1 _ hp, ?_⟩
    obtain ⟨t, host, qdata, rest, tdata1, _, _, _, _, hq, hpq, _, _, hupd⟩ :=
      (pop_queue_effect d self barrier).2.2 d1 ev hp
    refine ⟨host, qdata, poppedQueue qdata ev rest, hq, by rw [hupd, Function.update_same],
      hpq, rfl, rfl, ?_⟩
    intro host1 hne
    rw [hupd, Function.update_noteq hne]
  · intro d d1 self barrier hc hp
    exact ⟨(Conserved_pop d self barrier hc).1 d1 _ hp, (pop_queue_effect d self barrier).1 d1 hp⟩
  · intro d d1 self barrier hc hp
    exact ⟨(Conserved_pop d self barrier hc).2 d1 hp, (pop_queue_effect d self barrier).2.1 d1 hp⟩
  · intro d self hc
    exact ⟨Conserved_getHosts d self hc, (getHosts_fields d self).1⟩

theorem le_getLast_of_pairwise (l : List Nat) (h : l.Pairwise (fun a b => a ≤ b)) :
    ∀ y ∈ l, y ≤ l.getLast?.getD 0 := by
  induction l using List.reverseRecOn with
  | nil => simp
  | append_singleton l a _ =>
    intro y hy
    rw [List.pairwise_append] at h
    have hl : (l ++ [a]).getLast?.getD 0 = a := by simp
    rw [hl]
    rcases List.mem_append.1 hy with hy | hy
    · exact h.2.2 y hy a (List.mem_singleton_self a)
    · rw [List.mem_singleton] at hy
      omega

theorem pairwise_concat_of_getLast_le (l : List Nat) (x : Nat)
    (h : l.Pairwise (fun a b => a ≤ b)) (hx : l.getLast?.getD 0 ≤ x) :
    (l ++ [x]).Pairwise (fun a b => a ≤ b) := by
  rw [List.pairwise_append]
  refine ⟨h, List.pairwise_singleton _ _, ?_⟩
  intro a ha b hb
  rw [List.mem_singleton] at hb
  have := le_getLast_of_pairwise l h a ha
  omega

theorem poppedTimes_append (log : List (Host × Event)) (host host1 : Host) (ev : Event) :
    poppedTimes (log ++ [(host, ev)]) host1 =
      if host = host1 then poppedTimes log host1 ++ [ev.time] else poppedTimes log host1 := by
  unfold poppedTimes
  by_cases h : host = host1
  · simp [List.filter_append, h]
  · simp [List.filter_append, h]

theorem runningHostOf_eq (d : HostStealPolicyData) (self : Thread) (t : Nat)
    (tdata : HostStealThreadData) (hmap : d.threadToThreadDataMap self = some t)
    (htd : d.threadList[t]? = some tdata) : runningHostOf d self = tdata.runningHost := by
  simp only [runningHostOf, lookupThreadData, hmap, htd]

/-- The log invariant behind the per-host order. -/
theorem Trace_invariant (d : HostStealPolicyData) (log : List (Host × Event))
    (h : Trace d log) :
    ∀ host, (d.hostToQueueDataMap host = none → poppedTimes log host = []) ∧
      (∀ qdata, d.hostToQueueDataMap host = some qdata →
        (poppedTimes log host).Pairwise (fun a b => a ≤ b) ∧
        qdata.lastEventTime = (poppedTimes log host).getLast?.getD 0) := by
  induction h with
  | init =>
    intro host
    simp [schedulerpolicyhoststeal_new, poppedTimes]
  | addHost d log self host thread _ ih =>
    intro host1
    rw [addHost_hostToQueueDataMap]
    cases hq : d.hostToQueueDataMap host with
    | none =>
      simp only []
      by_cases hh : host1 = host
      · subst hh
        rw [Function.update_same]
        refine ⟨fun h => absurd h (by simp), ?_⟩
        intro qdata hqd
        injection hqd with hqd
        subst hqd
        rw [(ih host1).1 hq]
        simp [hoststealqueuedata_new]
      · rw [Function.update_noteq hh]
        exact ih host1
    | some q =>
      exact ih host1
  | push d d1 log self event srcHost dstHost barrier _ hp ih =>
    intro host1
    obtain ⟨qdata, hq, hq1, _⟩ :=
      push_hostToQueueDataMap d d1 self event srcHost dstHost barrier hp
    rw [hq1]
    by_cases hh : host1 = dstHost
    · subst hh
      rw [Function.update_same]
      refine ⟨fun h => absurd h (by simp), ?_⟩
      intro qdata1 hqd
      injection hqd with hqd
      subst hqd
      exact (ih host1).2 qdata hq
    · rw [Function.update_noteq hh]
      exact ih host1
  | popEvent d d1 log self barrier ev host _ hp hrun ih =>
    intro host1
    obtain ⟨t, host2, qdata, rest, tdata1, _, hmap1, htd1, hrun1, hq, hpq, _, hle, hupd⟩ :=
      (pop_queue_effect d self barrier).2.2 d1 ev hp
    rw [runningHostOf_eq d1 self t tdata1 hmap1 htd1, hrun1] at hrun
    injection hrun with hrun
    subst hrun
    rw [hupd, poppedTimes_append]
    by_cases hh : host1 = host2
    · subst hh
      rw [Function.update_same, if_pos rfl]
      refine ⟨fun h => absurd h (by simp), ?_⟩
      intro qdata1 hqd
      injection hqd with hqd
      subst hqd
      obtain ⟨hs, hl⟩ := (ih host1).2 qdata hq
      refine ⟨pairwise_concat_of_getLast_le _ _ hs (by omega), ?_⟩
      simp [poppedQueue]
    · rw [Function.update_noteq hh, if_neg (fun h => hh h.symm)]
      exact ih host1
  | popNull d d1 log self barrier _ hp ih =>
    intro host1
    rw [(pop_queue_effect d self barrier).1 d1 hp]
    exact ih host1
  | popSpinning d d1 log self barrier _ hp ih =>
    intro host1
    rw [(pop_queue_effect d self barrier).2.1 d1 hp]
    exact ih host1
  | getHosts d log self _ ih =>
    intro host1
    rw [(getHosts_fields d self).1]
    exact ih host1

/-- C4 (per-host monotonic order): in every run, the times of the events popped
from one host queue form a non-decreasing sequence and the queue's
`lastEventTime` is the time of the last of them (0 before the first pop);
no operation lowers a `lastEventTime`.  In the scenario of the spec the local
events pushed at times 5, 3, 7 are popped with barrier 10 in the order 3, 5, 7,
after which `pop` returns NULL. -/
theorem per_host_monotonic_order :
    (∀ d log, Trace d log → ∀ host qdata, d.hostToQueueDataMap host = some qdata →
      (poppedTimes log host).Pairwise (fun a b => a ≤ b) ∧
      qdata.lastEventTime = (poppedTimes log host).getLast?.getD 0) ∧
    (∀ d self host thread, LastEventTimeLe d (addHost d self host thread)) ∧
    (∀ d d1 self event srcHost dstHost barrier,
      push d self event srcHost dstHost barrier = some d1 → LastEventTimeLe d d1) ∧
    (∀ d d1 self barrier r, pop d self barrier = .returned d1 r → LastEventTimeLe d d1) ∧
    (∀ d d1 self barrier, pop d self barrier = .spinning d1 → LastEventTimeLe d d1) ∧
    (∀ d self, LastEventTimeLe d (getHosts d self).2) ∧
    thenPopped singleHostRun 1 10 = some (localEvent 1 3 10) ∧
    thenPopped (thenPop singleHostRun 1 10) 1 10 = some (localEvent 0 5 10) ∧
    thenPopped (thenPop (thenPop singleHostRun 1 10) 1 10) 1 10 = some (localEvent 2 7 10) ∧
    (thenPop (thenPop (thenPop singleHostRun 1 10) 1 10) 1 10).isSome = true ∧
    thenPopped (thenPop (thenPop (thenPop singleHostRun 1 10) 1 10) 1 10) 1 10 = none ∧
    (thenPop (thenPop (thenPop (thenPop singleHostRun 1 10) 1 10) 1 10) 1 10).isSome = true := by
  refine ⟨fun d log h host qdata hq => (Trace_invariant d log h host).2 qdata hq,
    ?_, ?_, ?_, ?_, ?_, by decide, by decide, by decide, by decide, by decide, by decide⟩
  · intro d self host thread host1 qdata hq
    rw [addHost_hostToQueueDataMap]
    cases hq2 : d.hostToQueueDataMap host with
    | none =>
      have hne : host1 ≠ host := by
        intro hh
        rw [hh, hq2] at hq
        exact absurd hq (by simp)
      exact ⟨qdata, by simp only [Function.update_noteq hne]; exact hq, Nat.le_refl _⟩
    | some q => exact ⟨qdata, hq, Nat.le_refl _⟩
  · intro d d1 self event srcHost dstHost barrier hp host1 qdata hq
    obtain ⟨qdata0, hq0, hq1, _⟩ :=
      push_hostToQueueDataMap d d1 self event srcHost dstHost barrier hp
    rw [hq1]
    by_cases hh : host1 = dstHost
    · subst hh
      rw [hq0] at hq
      injection hq with hq
      subst hq
      exact ⟨{ qdata0 with
        pq := priorityqueue_push qdata0.pq (adjustEventTime event srcHost host1 barrier),
        nPushed := qdata0.nPushed + 1 }, by rw [Function.update_same], Nat.le_refl _⟩
    · exact ⟨qdata, by rw [Function.update_noteq hh]; exact hq, Nat.le_refl _⟩
  · intro d d1 self barrier r hp host1 qdata hq
    cases r with
    | none =>
      rw [(pop_queue_effect d self barrier).1 d1 hp]
      exact ⟨qdata, hq, Nat.le_refl _⟩
    | some ev =>
      obtain ⟨t, host2, qdata2, rest, tdata1, _, _, _, _, hq2, _, _, hle, hupd⟩ :=
        (pop_queue_effect d self barrier).2.2 d1 ev hp
      rw [hupd]
      by_cases hh : host1 = host2
      · subst hh
        rw [hq2] at hq
        injection hq with hq
        subst hq
        exact ⟨poppedQueue qdata2 ev rest, by rw [Function.update_same], hle⟩
      · exact ⟨qdata, by rw [Function.update_noteq hh]; exact hq, Nat.le_refl _⟩
  · intro d d1 self barrier hp host1 qdata hq
    rw [(pop_queue_effect d self barrier).2.1 d1 hp]
    exact ⟨qdata, hq, Nat.le_refl _⟩
  · intro d self host1 qdata hq
    rw [(getHosts_fields d self).1]
    exact ⟨qdata, hq, Nat.le_refl _⟩

/-- C4 on the single-host scenario after the first `pop`: the log holds the
event of time 3 for host 10, and `lastEventTime` of the queue is 3. -/
theorem per_host_monotonic_order_witness :
    (poppedTimes [(10, localEvent 1 3 10)] 10).Pairwise (fun a b => a ≤ b) ∧
    (3 : Nat) = (poppedTimes [(10, localEvent 1 3 10)] 10).getLast?.getD 0 :=
  per_host_monotonic_order.1 ((thenPop singleHostRun 1 10).getD schedulerpolicyhoststeal_new)
    ([] ++ [(10, localEvent 1 3 10)])
    (Trace.popEvent (singleHostRun.getD schedulerpolicyhoststeal_new) _ [] 1 10
      (localEvent 1 3 10) 10
      (Trace.push _ _ [] 1 (localEvent 2 7 10) 10 10 0
        (Trace.push _ _ [] 1 (localEvent 1 3 10) 10 10 0
          (Trace.push _ _ [] 1 (localEvent 0 5 10) 10 10 0
            (Trace.addHost _ [] 1 10 0 Trace.init) rfl) rfl) rfl) rfl rfl)
    10 { pq := [localEvent 0 5 10, localEvent 2 7 10], lastEventTime := 3,
         nPushed := 3, nPopped := 1 } rfl

/-- C5 on the single-host scenario: the queue of host 10 after three pushes. -/
theorem conservation_witness :
    Conserved (singleHostRun.getD schedulerpolicyhoststeal_new) :=
  conservation.2.1 _
    (ReachableBy.push _ _ 1 (localEvent 2 7 10) 10 10 0
      (ReachableBy.push _ _ 1 (localEvent 1 3 10) 10 10 0
        (ReachableBy.push _ _ 1 (localEvent 0 5 10) 10 10 0
          (ReachableBy.addHost _ 1 10 0 ReachableBy.init (fun h => absurd h (by decide)))
          rfl) rfl) rfl)

theorem slotsOf_append (l1 l2 : List HostStealThreadData) :
    slotsOf (l1 ++ l2) = slotsOf l1 ++ slotsOf l2 := by
  induction l1 with
  | nil => rfl
  | cons td l ih =>
    show slotHosts td ++ slotsOf (l ++ l2) = slotHosts td ++ slotsOf l ++ slotsOf l2
    rw [ih, List.append_assoc]

theorem count_slotsOf_set (host : Host) :
    ∀ (l : List HostStealThreadData) (i : Nat) (td td1 : HostStealThreadData),
      l[i]? = some td →
      (slotsOf (l.set i td1)).count host + (slotHosts td).count host =
        (slotsOf l).count host + (slotHosts td1).count host := by
  intro l
  induction l with
  | nil =>
    intro i td td1 h
    simp at h
  | cons x l ih =>
    intro i td td1 h
    cases i with
    | zero =>
      simp only [List.getElem?_cons_zero, Option.some.injEq] at h
      subst h
      simp only [List.set_cons_zero, slotsOf, List.count_append]
      omega
    | succ i =>
      simp only [List.getElem?_cons_succ] at h
      have := ih i td td1 h
      simp only [List.set_cons_succ, slotsOf, List.count_append]
      omega

theorem count_slotHosts_le (host : Host) :
    ∀ (l : List HostStealThreadData) (i : Nat) (td : HostStealThreadData),
      l[i]? = some td → (slotHosts td).count host ≤ (slotsOf l).count host := by
  intro l i td h
  have := count_slotsOf_set host l i td td h
  have h2 : l.set i td = l := by
    apply List.ext_getElem?
    intro j
    by_cases hij : i = j
    · subst hij
      rw [List.getElem?_set_self (List.getElem?_eq_some.1 h).1, h]
    · rw [List.getElem?_set_ne hij]
  induction l generalizing i with
  | nil => simp at h
  | cons x l ih =>
    cases i with
    | zero =>
      simp only [List.getElem?_cons_zero, Option.some.injEq] at h
      subst h
      simp only [slotsOf, List.count_append]
      omega
    | succ i =>
      simp only [List.getElem?_cons_succ] at h
      have h3 : l.set i td = l := by
        simp only [List.set_cons_succ, List.cons.injEq, true_and] at h2
        exact h2
      have := ih i h (count_slotsOf_set host l i td td h) h3
      simp only [slotsOf, List.count_append]
      omega

theorem placements_setThread (d : HostStealPolicyData) (t : Nat)
    (td td1 : HostStealThreadData) (host : Host) (h : d.threadList[t]? = some td) :
    placements (setThread d t td1) host + (slotHosts td).count host =
      placements d host + (slotHosts td1).count host := by
  unfold placements
  rw [setThread_threadList]
  exact count_slotsOf_set host d.threadList t td td1 h

theorem placements_setThread_same (d : HostStealPolicyData) (t : Nat)
    (td td1 : HostStealThreadData) (host : Host) (h : d.threadList[t]? = some td)
    (hs : (slotHosts td1).count host = (slotHosts td).count host) :
    placements (setThread d t td1) host = placements d host := by
  have := placements_setThread d t td td1 host h
  omega

theorem Selected_placements (d d0 : HostStealPolicyData) (t src : Nat) (host : Host)
    (h : Selected d t src d0 host) (host1 : Host) :
    placements d0 host1 = placements d host1 := by
  rcases h with ⟨_, _, _, _, _, rfl⟩ | ⟨tdata, sdata, rest, tdata1, ht, hs, hrun, hun, ht1, rfl⟩
  · rfl
  · have h1 := placements_setThread d src sdata { sdata with unprocessedHosts := rest } host1 hs
    have h2 := placements_setThread (setThread d src { sdata with unprocessedHosts := rest }) t
      tdata1 { tdata1 with runningHost := some host } host1 ht1
    have hrun1 : tdata1.runningHost = none := by
      rw [setThread_threadList] at ht1
      by_cases hst : src = t
      · subst hst
        rw [List.getElem?_set_self (List.getElem?_eq_some.1 hs).1] at ht1
        injection ht1 with ht1
        subst ht1
        rw [hs] at ht
        injection ht with ht
        subst ht
        exact hrun
      · rw [List.getElem?_set_ne hst, ht] at ht1
        injection ht1 with ht1
        subst ht1
        exact hrun
    simp only [slotHosts, hun, hrun1, List.count_append, List.count_cons, Option.toList,
      List.count_nil] at h1 h2
    omega

theorem moveProcessed_eq :
    ∀ (processed unprocessed : List Host),
      (moveProcessed unprocessed processed).1 = unprocessed ++ processed ∧
      (moveProcessed unprocessed processed).2 = [] := by
  intro processed
  induction processed with
  | nil =>
    intro unprocessed
    simp [moveProcessed]
  | cons x l ih =>
    intro unprocessed
    have := ih (unprocessed ++ [x])
    simp only [moveProcessed, this, List.append_assoc, List.singleton_append, and_self]

/-- The rotation leaves `unprocessed ++ processed` in `unprocessedHosts`. -/
theorem rotate_eq (tdata : HostStealThreadData) (barrier : Nat) :
    rotate tdata barrier =
      { tdata with currentBarrier := barrier,
                   unprocessedHosts := tdata.unprocessedHosts ++ tdata.processedHosts,
                   processedHosts := [], isStealable := true } := by
  unfold rotate
  by_cases h : tdata.unprocessedHosts = [] ∧ tdata.processedHosts ≠ []
  · simp only [h, ne_eq, not_false_eq_true, and_self, ↓reduceIte, List.nil_append]
  · rw [if_neg h]
    have := moveProcessed_eq tdata.processedHosts tdata.unprocessedHosts
    simp only [this]

theorem roundStart_placements (d : HostStealPolicyData) (t barrier : Nat) (host : Host) :
    placements (roundStart d t barrier) host = placements d host := by
  unfold roundStart
  split
  · rfl
  · rename_i tdata ht
    split
    · apply placements_setThread_same d t tdata _ host ht
      rw [rotate_eq]
      simp only [slotHosts, List.append_nil, List.count_append]
    · rfl

/-- `pop` moves hosts between slots but neither adds nor drops one, and it
neither creates nor removes a queue. -/
theorem pop_placements (d : HostStealPolicyData) (self : Thread) (barrier : Nat) :
    ∀ d1, (∃ r, pop d self barrier = .returned d1 r) ∨ pop d self barrier = .spinning d1 →
      (∀ host, placements d1 host = placements d host) ∧
      (∀ host, (d1.hostToQueueDataMap host).isSome = (d.hostToQueueDataMap host).isSome) ∧
      d1.threadToThreadDataMap = d.threadToThreadDataMap ∧
      d1.threadList.length = d.threadList.length ∧ d1.threadCount = d.threadCount := by
  cases hmap : d.threadToThreadDataMap self with
  | none =>
    intro d1 h
    simp only [pop, hmap] at h
    rcases h with ⟨r, h⟩ | h
    · injection h with h _
      subst h
      exact ⟨fun _ => rfl, fun _ => rfl, rfl, rfl, rfl⟩
    · exact absurd h (by simp)
  | some t =>
    cases htd : d.threadList[t]? with
    | none =>
      intro d1 h
      simp only [pop, hmap, htd] at h
      rcases h with ⟨r, h⟩ | h <;> exact absurd h (by simp)
    | some tdata =>
      let P : HostStealPolicyData → Prop := fun d0 =>
        (∀ host, placements d0 host = placements d host) ∧
        (∀ host, (d0.hostToQueueDataMap host).isSome = (d.hostToQueueDataMap host).isSome) ∧
        d0.threadToThreadDataMap = d.threadToThreadDataMap ∧
        d0.threadList.length = d.threadList.length ∧ d0.threadCount = d.threadCount
      have key := pop_induction d self barrier t tdata hmap htd P (fun d1 _ => P d1) P
        (by
          have hf := roundStart_fields d t barrier
          exact ⟨roundStart_placements d t barrier, fun host => by rw [hf.1], hf.2.2.1,
            hf.2.2.2.2, hf.2.2.2.1⟩)
        (by
          intro src d0 d1 hP hiter
          obtain ⟨d0', host, _, tdata0, hsel, _, _, ht0, rfl⟩ :=
            popFromThreadIter_again d0 d1 self t src barrier hiter
          have hf := Selected_fields d0 d0' t src host hsel
          obtain ⟨tdata0', ht0', hrun0⟩ := Selected_running d0 d0' t src host hsel
          rw [ht0] at ht0'
          injection ht0' with ht0'
          subst ht0'
          refine ⟨?_, ?_, ?_, ?_, ?_⟩
          · intro host1
            rw [← hP.1 host1, ← Selected_placements d0 d0' t src host hsel host1]
            apply placements_setThread_same d0' t tdata0 _ host1 ht0
            simp only [slotHosts, hrun0, List.count_append, Option.toList, List.append_nil,
              List.append_assoc]
          · intro host1
            rw [setThread_hostToQueueDataMap, hf.1]
            exact hP.2.1 host1
          · rw [setThread_threadToThreadDataMap, hf.2.2.1]
            exact hP.2.2.1
          · rw [setThread_threadList, List.length_set, hf.2.2.2.2]
            exact hP.2.2.2.1
          · rw [setThread_threadCount, hf.2.2.2.1]
            exact hP.2.2.2.2)
        (by
          intro src d0 d1 ev hP hiter
          obtain ⟨d0', host, qdata, rest, hsel, hq, _, _, _, h1, h2, h3, h4, _⟩ :=
            popFromThreadIter_done_some_effect d0 d1 self t src barrier ev
              (by rw [hP.2.2.1]; exact hmap) hiter
          have hf := Selected_fields d0 d0' t src host hsel
          refine ⟨?_, ?_, ?_, ?_, ?_⟩
          · intro host1
            rw [← hP.1 host1, ← Selected_placements d0 d0' t src host hsel host1]
            unfold placements
            rw [h1]
          · intro host1
            rw [h4, ← hP.2.1 host1, ← hf.1]
            by_cases hh : host1 = host
            · subst hh
              rw [Function.update_same, hq]
              rfl
            · rw [Function.update_noteq hh]
          · rw [h3, hf.2.2.1]
            exact hP.2.2.1
          · rw [h1, hf.2.2.2.2]
            exact hP.2.2.2.1
          · rw [h2, hf.2.2.2.1]
            exact hP.2.2.2.2)
        (fun d0 hP => hP)
        (by
          intro dm d0 i sd _ hP _ _ hsd _
          refine ⟨?_, ?_, ?_, ?_, ?_⟩
          · intro host1
            rw [← hP.1 host1]
            exact placements_setThread_same d0 _ sd _ host1 hsd rfl
          · exact hP.2.1
          · exact hP.2.2.1
          · rw [setThread_threadList, List.length_set]
            exact hP.2.2.2.1
          · exact hP.2.2.2.2)
      intro d1 h
      rcases h with ⟨r, h⟩ | h
      · exact key.1 d1 r h
      · exact key.2 d1 h

theorem count_two_slots_le (host : Host) (l : List HostStealThreadData) (t t1 : Nat)
    (td td1 : HostStealThreadData) (hne : t ≠ t1) (ht : l[t]? = some td)
    (ht1 : l[t1]? = some td1) :
    (slotHosts td).count host + (slotHosts td1).count host ≤ (slotsOf l).count host := by
  have h1 := count_slotsOf_set host l t td hoststealthreaddata_new ht
  have h2 : (l.set t hoststealthreaddata_new)[t1]? = some td1 := by
    rw [List.getElem?_set_ne hne]
    exact ht1
  have h3 := count_slotHosts_le host _ t1 td1 h2
  have h4 : (slotHosts hoststealthreaddata_new).count host = 0 := by
    simp [slotHosts, hoststealthreaddata_new]
  omega

theorem Placed_init : Placed schedulerpolicyhoststeal_new := by
  constructor
  · intro thread t h
    simp [schedulerpolicyhoststeal_new] at h
  · intro host
    simp [schedulerpolicyhoststeal_new, placements, slotsOf]

theorem Placed_addHost (d : HostStealPolicyData) (self : Thread) (host : Host) (thread : Thread)
    (h : Placed d) (hfresh : d.hostToQueueDataMap host = none) :
    Placed (addHost d self host thread) := by
  have hzero : placements d host = 0 := by
    rw [h.count host, hfresh]
    rfl
  have hqueue : (addHost d self host thread).hostToQueueDataMap =
      Function.update d.hostToQueueDataMap host (some hoststealqueuedata_new) := by
    rw [addHost_hostToQueueDataMap, hfresh]
  cases hm : d.threadToThreadDataMap (if thread ≠ 0 then thread else self) with
  | none =>
    have hl := addHost_threadList_of_none d self host thread hm
    constructor
    · intro th t hth
      rw [addHost_threadToThreadDataMap, hm] at hth
      rw [hl, List.length_append, List.length_singleton]
      simp only [] at hth
      by_cases hh : th = (if thread ≠ 0 then thread else self)
      · rw [hh, Function.update_same] at hth
        injection hth with hth
        omega
      · rw [Function.update_noteq hh] at hth
        have := h.map_lt th t hth
        omega
    · intro host1
      unfold placements
      rw [hl, slotsOf_append, List.count_append, hqueue]
      have hc := h.count host1
      unfold placements at hc hzero
      by_cases hh : host1 = host
      · subst hh
        rw [Function.update_same, hzero]
        simp [slotsOf, slotHosts, hoststealthreaddata_new]
      · rw [Function.update_noteq hh, hc]
        simp [slotsOf, slotHosts, hoststealthreaddata_new, List.count_cons, Ne.symm hh]
  | some t =>
    have hlt := h.map_lt _ t hm
    obtain ⟨tdata, htd⟩ : ∃ tdata, d.threadList[t]? = some tdata :=
      ⟨d.threadList[t], List.getElem?_eq_getElem hlt⟩
    have hnot : (slotHosts tdata).count host = 0 := by
      have := count_slotHosts_le host d.threadList t tdata htd
      unfold placements at hzero
      omega
    have hrun : some host ≠ tdata.runningHost := by
      intro hc
      rw [slotHosts, ← hc] at hnot
      simp at hnot
    have hl : (addHost d self host thread).threadList =
        d.threadList.set t
          { tdata with unprocessedHosts := tdata.unprocessedHosts ++ [host] } := by
      rw [addHost_threadList_of_some d self host thread t hm, htd]
      simp only [hrun, ne_eq, not_false_eq_true, ite_true]
    constructor
    · intro th t1 hth
      rw [addHost_threadToThreadDataMap, hm] at hth
      rw [hl, List.length_set]
      exact h.map_lt th t1 hth
    · intro host1
      have hs := count_slotsOf_set host1 d.threadList t tdata
        { tdata with unprocessedHosts := tdata.unprocessedHosts ++ [host] } htd
      have hc := h.count host1
      unfold placements at hc hzero ⊢
      rw [hl, hqueue]
      simp only [slotHosts, List.count_append, List.count_cons, List.count_nil] at hs
      by_cases hh : host1 = host
      · subst hh
        rw [Function.update_same]
        simp only [beq_self_eq_true, ite_true] at hs
        simp only [Option.isSome_some, ite_true]
        omega
      · rw [Function.update_noteq hh, ← hc]
        have hb : (host == host1) = false := by
          simp only [beq_eq_false_iff_ne, ne_eq]
          exact fun hx => hh hx.symm
        simp only [hb] at hs
        simp only [Bool.false_eq_true, ite_false] at hs
        omega

theorem Placed_push (d d1 : HostStealPolicyData) (self : Thread) (event : Event)
    (srcHost dstHost : Host) (barrier : Nat) (h : Placed d)
    (hp : push d self event srcHost dstHost barrier = some d1) : Placed d1 := by
  obtain ⟨qdata, hq, hq1, hl, _, hm, _⟩ :=
    push_hostToQueueDataMap d d1 self event srcHost dstHost barrier hp
  constructor
  · intro th t hth
    rw [hm] at hth
    rw [hl]
    exact h.map_lt th t hth
  · intro host
    have hc := h.count host
    unfold placements at hc ⊢
    rw [hl, hc, hq1]
    by_cases hh : host = dstHost
    · subst hh
      rw [Function.update_same, hq]
      rfl
    · rw [Function.update_noteq hh]

theorem getHosts_placements (d : HostStealPolicyData) (self : Thread) (host : Host) :
    placements (getHosts d self).2 host = placements d host := by
  unfold getHosts
  split
  · rfl
  · split
    · rfl
    · rename_i t _ tdata htd
      split
      · rfl
      · split
        · rfl
        · exact placements_setThread_same d _ tdata _ host htd rfl

theorem Placed_getHosts (d : HostStealPolicyData) (self : Thread) (h : Placed d) :
    Placed (getHosts d self).2 := by
  have hf := getHosts_fields d self
  constructor
  · intro th t hth
    rw [hf.2.2.1] at hth
    rw [hf.2.2.2.2]
    exact h.map_lt th t hth
  · intro host
    rw [getHosts_placements, hf.1]
    exact h.count host

theorem Placed_pop (d d1 : HostStealPolicyData) (self : Thread) (barrier : Nat)
    (h : Placed d)
    (hp : (∃ r, pop d self barrier = .returned d1 r) ∨ pop d self barrier = .spinning d1) :
    Placed d1 := by
  obtain ⟨h1, h2, h3, h4, _⟩ := pop_placements d self barrier d1 hp
  constructor
  · intro th t hth
    rw [h3] at hth
    rw [h4]
    exact h.map_lt th t hth
  · intro host
    rw [h1, h2]
    exact h.count host

theorem Placed_of_reachableOnce (d : HostStealPolicyData) (h : ReachableOnce d) :
    Placed d := by
  induction h with
  | init => exact Placed_init
  | addHost d self host thread _ hfresh ih => exact Placed_addHost d self host thread ih (hfresh rfl)
  | push d d1 self event srcHost dstHost barrier _ hp ih =>
    exact Placed_push d d1 self event srcHost dstHost barrier ih hp
  | popReturned d d1 self barrier r _ hp ih => exact Placed_pop d d1 self barrier ih (Or.inl ⟨r, hp⟩)
  | popSpinning d d1 self barrier _ hp ih => exact Placed_pop d d1 self barrier ih (Or.inr hp)
  | getHosts d self _ ih => exact Placed_getHosts d self ih

theorem Placed_nodup (d : HostStealPolicyData) (h : Placed d) :
    (slotsOf d.threadList).Nodup := by
  rw [List.nodup_iff_count_le_one]
  intro host
  have := h.count host
  unfold placements at this
  rw [this]
  split <;> omega

theorem Placed_running_not_listed (d : HostStealPolicyData) (h : Placed d) (t : Nat)
    (td : HostStealThreadData) (host : Host) (ht : d.threadList[t]? = some td)
    (hrun : td.runningHost = some host) :
    host ∉ td.unprocessedHosts ∧ host ∉ td.processedHosts := by
  have h1 := count_slotHosts_le host d.threadList t td ht
  have h2 : (slotsOf d.threadList).count host ≤ 1 :=
    List.nodup_iff_count_le_one.1 (Placed_nodup d h) host
  simp only [slotHosts, hrun, Option.toList, List.count_append, List.count_cons,
    beq_self_eq_true, ite_true, List.count_nil] at h1
  constructor
  · intro hmem
    have := List.count_pos_iff.2 hmem
    omega
  · intro hmem
    have := List.count_pos_iff.2 hmem
    omega

theorem Placed_slots_disjoint (d : HostStealPolicyData) (h : Placed d) (t t1 : Nat)
    (td td1 : HostStealThreadData) (host : Host) (hne : t ≠ t1)
    (ht : d.threadList[t]? = some td) (ht1 : d.threadList[t1]? = some td1)
    (hmem : host ∈ slotHosts td) : host ∉ slotHosts td1 := by
  have h1 := count_two_slots_le host d.threadList t t1 td td1 hne ht ht1
  have h2 : (slotsOf d.threadList).count host ≤ 1 :=
    List.nodup_iff_count_le_one.1 (Placed_nodup d h) host
  intro hmem1
  have := List.count_pos_iff.2 hmem
  have := List.count_pos_iff.2 hmem1
  omega

theorem emptyStealRun_reachable :
    ReachableOnce (emptyStealRun.getD schedulerpolicyhoststeal_new) :=
  ReachableBy.popReturned _ _ 2 10 none
    (ReachableBy.popReturned _ _ 1 10 (some (localEvent 0 1 0))
      (ReachableBy.push _ _ 1 (localEvent 0 1 0) 0 0 0
        (ReachableBy.addHost _ 1 2 2
          (ReachableBy.addHost _ 1 1 1
            (ReachableBy.addHost _ 1 0 1 ReachableBy.init (fun _ => rfl))
            (fun _ => rfl))
          (fun _ => rfl))
        rfl) rfl) rfl

/-- C6 (single placement of hosts): when `addHost` is called at most once per
host, in every state reached by any sequence of `addHost`, `push`, `pop` and
`getHosts` calls (rotations and steals included) every host with a queue
occurs exactly once among the `unprocessedHosts`, `processedHosts` and
`runningHost` of all workers and no other host occurs there; so a running
host is in neither list of its worker and no host is in the slots of two
workers. -/
theorem single_placement (d : HostStealPolicyData) (h : ReachableOnce d) :
    (∀ host, (d.hostToQueueDataMap host).isSome → placements d host = 1) ∧
    (∀ host, d.hostToQueueDataMap host = none → placements d host = 0) ∧
    (slotsOf d.threadList).Nodup ∧
    (∀ (t : Nat) (td : HostStealThreadData) (host : Host), d.threadList[t]? = some td →
      td.runningHost = some host →
      host ∉ td.unprocessedHosts ∧ host ∉ td.processedHosts) ∧
    (∀ (t t1 : Nat) (td td1 : HostStealThreadData) (host : Host), t ≠ t1 →
      d.threadList[t]? = some td → d.threadList[t1]? = some td1 →
      host ∈ slotHosts td → host ∉ slotHosts td1) := by
  have hP := Placed_of_reachableOnce d h
  refine ⟨?_, ?_, Placed_nodup d hP, ?_, ?_⟩
  · intro host hq
    rw [hP.count host, if_pos hq]
  · intro host hq
    rw [hP.count host, hq]
    rfl
  · intro t td host ht hrun
    exact Placed_running_not_listed d hP t td host ht hrun
  · intro t t1 td td1 host hne ht ht1 hmem
    exact Placed_slots_disjoint d hP t t1 td td1 host hne ht ht1 hmem

/-- C6 on the steal scenario: after thread 2 has taken host 1 from thread 1 the
three hosts are still placed once each. -/
theorem single_placement_witness :
    (∀ host, ((emptyStealRun.getD schedulerpolicyhoststeal_new).hostToQueueDataMap host).isSome →
      placements (emptyStealRun.getD schedulerpolicyhoststeal_new) host = 1) ∧
    (∀ host, (emptyStealRun.getD schedulerpolicyhoststeal_new).hostToQueueDataMap host = none →
      placements (emptyStealRun.getD schedulerpolicyhoststeal_new) host = 0) ∧
    (slotsOf (emptyStealRun.getD schedulerpolicyhoststeal_new).threadList).Nodup ∧
    (∀ (t : Nat) (td : HostStealThreadData) (host : Host),
      (emptyStealRun.getD schedulerpolicyhoststeal_new).threadList[t]? = some td →
      td.runningHost = some host →
      host ∉ td.unprocessedHosts ∧ host ∉ td.processedHosts) ∧
    (∀ (t t1 : Nat) (td td1 : HostStealThreadData) (host : Host), t ≠ t1 →
      (emptyStealRun.getD schedulerpolicyhoststeal_new).threadList[t]? = some td →
      (emptyStealRun.getD schedulerpolicyhoststeal_new).threadList[t1]? = some td1 →
      host ∈ slotHosts td → host ∉ slotHosts td1) :=
  single_placement (emptyStealRun.getD schedulerpolicyhoststeal_new) emptyStealRun_reachable

theorem Placed_transfer (d d1 : HostStealPolicyData) (h : Placed d)
    (hc : ∀ host, placements d1 host = placements d host)
    (hq : ∀ host, (d1.hostToQueueDataMap host).isSome = (d.hostToQueueDataMap host).isSome)
    (hm : d1.threadToThreadDataMap = d.threadToThreadDataMap)
    (hl : d1.threadList.length = d.threadList.length) : Placed d1 := by
  constructor
  · intro th t hth
    rw [hm] at hth
    rw [hl]
    exact h.map_lt th t hth
  · intro host
    rw [hc, hq]
    exact h.count host

theorem Placed_selected (d d0 : HostStealPolicyData) (t src : Nat) (host : Host)
    (h : Placed d) (hsel : Selected d t src d0 host) : Placed d0 := by
  have hf := Selected_fields d d0 t src host hsel
  exact Placed_transfer d d0 h (Selected_placements d d0 t src host hsel)
    (fun host1 => by rw [hf.1]) hf.2.2.1 hf.2.2.2.2

theorem Placed_roundStart (d : HostStealPolicyData) (t barrier : Nat) (h : Placed d) :
    Placed (roundStart d t barrier) := by
  have hf := roundStart_fields d t barrier
  exact Placed_transfer d _ h (roundStart_placements d t barrier)
    (fun host1 => by rw [hf.1]) hf.2.2.1 hf.2.2.2.2

theorem Placed_setStealable (d : HostStealPolicyData) (s : Nat) (sd : HostStealThreadData)
    (flag : Bool) (h : Placed d) (hs : d.threadList[s]? = some sd) :
    Placed (setThread d s { sd with isStealable := flag }) := by
  refine Placed_transfer d _ h ?_ (fun _ => rfl) rfl ?_
  · intro host
    exact placements_setThread_same d s sd _ host hs rfl
  · rw [setThread_threadList, List.length_set]

/-- The slot `k` after the host has been selected, compared with before. -/
theorem Selected_thread (d d0 : HostStealPolicyData) (t src : Nat) (host : Host)
    (h : Selected d t src d0 host) (k : Nat) (td0 : HostStealThreadData)
    (hk : d0.threadList[k]? = some td0) :
    ∃ td, d.threadList[k]? = some td ∧ td0.processedHosts = td.processedHosts ∧
      td0.currentBarrier = td.currentBarrier ∧ td0.isStealable = td.isStealable ∧
      td0.tnumber = td.tnumber ∧ td0.allHosts = td.allHosts ∧
      (td0.unprocessedHosts = td.unprocessedHosts ∨
        (k = src ∧ td.unprocessedHosts = host :: td0.unprocessedHosts)) ∧
      (k ≠ t → td0.runningHost = td.runningHost) ∧
      (k = t → td0.runningHost = some host ∧
        (td.runningHost = none ∨ td.runningHost = some host)) := by
  rcases h with ⟨tdata, _, ht, _, hrun, rfl⟩ |
    ⟨tdata, sdata, rest, tdata1, ht, hs, hrun, hun, ht1, rfl⟩
  · refine ⟨td0, hk, rfl, rfl, rfl, rfl, rfl, Or.inl rfl, fun _ => rfl, ?_⟩
    intro hkt
    subst hkt
    rw [ht] at hk
    injection hk with hk
    subst hk
    exact ⟨hrun, Or.inr hrun⟩
  · have hslt := (List.getElem?_eq_some.1 hs).1
    simp only [setThread_threadList] at hk ht1
    by_cases hkt : k = t
    · subst hkt
      have hlt : k < (d.threadList.set src { sdata with unprocessedHosts := rest }).length :=
        (List.getElem?_eq_some.1 ht1).1
      rw [List.getElem?_set_self hlt] at hk
      injection hk with hk
      subst hk
      by_cases hks : src = k
      · subst hks
        rw [List.getElem?_set_self hslt] at ht1
        injection ht1 with ht1
        subst ht1
        refine ⟨sdata, hs, rfl, rfl, rfl, rfl, rfl, Or.inr ⟨rfl, hun⟩,
          fun hne => absurd rfl hne, fun _ => ⟨rfl, Or.inl ?_⟩⟩
        rw [hs] at ht
        injection ht with ht
        rw [ht]
        exact hrun
      · rw [List.getElem?_set_ne hks, ht] at ht1
        injection ht1 with ht1
        subst ht1
        exact ⟨tdata, ht, rfl, rfl, rfl, rfl, rfl, Or.inl rfl, fun hne => absurd rfl hne,
          fun _ => ⟨rfl, Or.inl hrun⟩⟩
    · rw [List.getElem?_set_ne (fun hh => hkt hh.symm)] at hk
      by_cases hks : src = k
      · subst hks
        rw [List.getElem?_set_self hslt] at hk
        injection hk with hk
        subst hk
        exact ⟨sdata, hs, rfl, rfl, rfl, rfl, rfl, Or.inr ⟨rfl, hun⟩, fun _ => rfl,
          fun hh => absurd hh hkt⟩
      · rw [List.getElem?_set_ne hks] at hk
        exact ⟨td0, hk, rfl, rfl, rfl, rfl, rfl, Or.inl rfl, fun _ => rfl,
          fun hh => absurd hh hkt⟩

theorem setThread_getElem? (d : HostStealPolicyData) (t k : Nat) (td td1 : HostStealThreadData)
    (ht : d.threadList[t]? = some td)
    (hk : (setThread d t td1).threadList[k]? = some td0) :
    (k = t ∧ td0 = td1) ∨ (k ≠ t ∧ d.threadList[k]? = some td0) := by
  rw [setThread_threadList] at hk
  by_cases hkt : k = t
  · subst hkt
    rw [List.getElem?_set_self (List.getElem?_eq_some.1 ht).1] at hk
    injection hk with hk
    exact Or.inl ⟨rfl, hk.symm⟩
  · rw [List.getElem?_set_ne (fun hh => hkt hh.symm)] at hk
    exact Or.inr ⟨hkt, hk⟩

theorem popFromThreadIter_again_inv (d0 d1 : HostStealPolicyData) (self : Thread)
    (t src barrier : Nat) (hP : Placed d0) (hO : OwnerInv d0)
    (hiter : popFromThreadIter d0 self t src barrier = .again d1) :
    Placed d1 ∧ OwnerInv d1 ∧ d1.threadToThreadDataMap = d0.threadToThreadDataMap ∧
    d1.hostToThreadMap = d0.hostToThreadMap := by
  obtain ⟨d0', host, _, tdata0, hsel, _, _, ht0, rfl⟩ :=
    popFromThreadIter_again d0 d1 self t src barrier hiter
  have hf := Selected_fields d0 d0' t src host hsel
  obtain ⟨tdata0', ht0', hrun0⟩ := Selected_running d0 d0' t src host hsel
  rw [ht0] at ht0'
  injection ht0' with ht0'
  subst ht0'
  have hP' := Placed_selected d0 d0' t src host hP hsel
  refine ⟨?_, ?_, ?_, ?_⟩
  · refine Placed_transfer d0' _ hP' ?_ (fun _ => rfl) rfl ?_
    · intro host1
      apply placements_setThread_same d0' t tdata0 _ host1 ht0
      simp only [slotHosts, hrun0, List.count_append, Option.toList, List.append_nil,
        List.append_assoc]
    · rw [setThread_threadList, List.length_set]
  · constructor
    · intro host1 hq
      rw [setThread_hostToQueueDataMap, hf.1] at hq
      rw [setThread_hostToThreadMap, setThread_threadToThreadDataMap, hf.2.1, hf.2.2.1]
      exact hO.total host1 hq
    · intro k td1 host1 hk hrun
      rw [setThread_hostToThreadMap, setThread_threadToThreadDataMap, hf.2.1, hf.2.2.1]
      rcases setThread_getElem? d0' t k tdata0 _ ht0 hk with ⟨_, rfl⟩ | ⟨hkt, hk'⟩
      · exact absurd hrun (by simp)
      · obtain ⟨td, hd, _, _, _, _, _, _, hr, _⟩ := Selected_thread d0 d0' t src host hsel k td1 hk'
        rw [hr hkt] at hrun
        exact hO.running k td host1 hd hrun
  · rw [setThread_threadToThreadDataMap, hf.2.2.1]
  · rw [setThread_hostToThreadMap, hf.2.1]

theorem popFromThreadIter_done_some_inv (d0 d1 : HostStealPolicyData) (self : Thread)
    (t src barrier : Nat) (ev : Event) (hmap : d0.threadToThreadDataMap self = some t)
    (hP : Placed d0) (hO : OwnerInv d0)
    (hiter : popFromThreadIter d0 self t src barrier = .done d1 (some ev)) :
    Placed d1 ∧ OwnerInv d1 ∧ d1.threadToThreadDataMap = d0.threadToThreadDataMap ∧
    ∃ host td1, d1.threadList[t]? = some td1 ∧ td1.runningHost = some host ∧
      d1.hostToThreadMap = Function.update d0.hostToThreadMap host (some self) := by
  obtain ⟨d0', host, qdata, rest, hsel, hq, _, _, _, h1, h2, h3, h4, h5⟩ :=
    popFromThreadIter_done_some_effect d0 d1 self t src barrier ev hmap hiter
  have hf := Selected_fields d0 d0' t src host hsel
  obtain ⟨tdata0, ht0, hrun0⟩ := Selected_running d0 d0' t src host hsel
  have hP' := Placed_selected d0 d0' t src host hP hsel
  have hqs : ∀ host1, (d1.hostToQueueDataMap host1).isSome =
      (d0.hostToQueueDataMap host1).isSome := by
    intro host1
    rw [h4, ← hf.1]
    by_cases hh : host1 = host
    · subst hh
      rw [Function.update_same, hq]
      rfl
    · rw [Function.update_noteq hh]
  have hP1 : Placed d1 := by
    refine Placed_transfer d0' d1 hP' ?_ ?_ h3 (by rw [h1])
    · intro host1
      unfold placements
      rw [h1]
    · intro host1
      rw [hqs, hf.1]
  have howner : d1.hostToThreadMap = Function.update d0.hostToThreadMap host (some self) := by
    rcases h5 with ⟨h5, h6⟩ | ⟨h5, _⟩
    · rw [h5, hf.2.1]
      obtain ⟨th, _, hth, _⟩ := hO.total host (by rw [← hf.1, hq]; rfl)
      rw [hf.2.1, hth] at h6
      simp only [Option.getD_some] at h6
      subst h6
      rw [← hth, Function.update_eq_self]
    · rw [h5, hf.2.1]
  refine ⟨hP1, ?_, by rw [h3, hf.2.2.1], host, tdata0, by rw [h1]; exact ht0, hrun0, howner⟩
  constructor
  · intro host1 hq1
    rw [hqs] at hq1
    rw [howner, h3, hf.2.2.1]
    by_cases hh : host1 = host
    · subst hh
      rw [Function.update_same]
      exact ⟨self, t, rfl, hmap⟩
    · rw [Function.update_noteq hh]
      exact hO.total host1 hq1
  · intro k td1 host1 hk hrun
    rw [howner, h3, hf.2.2.1]
    rw [h1] at hk
    by_cases hkt : k = t
    · subst hkt
      rw [ht0] at hk
      injection hk with hk
      subst hk
      rw [hrun0] at hrun
      injection hrun with hrun
      subst hrun
      rw [Function.update_same]
      exact ⟨self, rfl, hmap⟩
    · obtain ⟨td, hd, _, _, _, _, _, _, hr, _⟩ := Selected_thread d0 d0' t src host hsel k td1 hk
      have hne : host1 ≠ host := by
        intro hh
        subst hh
        have hmem : host1 ∈ slotHosts tdata0 := by
          simp [slotHosts, hrun0]
        have := Placed_slots_disjoint d0' hP' t k tdata0 td1 host1 (fun hh => hkt hh.symm)
          ht0 hk hmem
        apply this
        simp [slotHosts, hrun]
      rw [Function.update_noteq hne]
      rw [hr hkt] at hrun
      exact hO.running k td host1 hd hrun

theorem OwnerInv_roundStart (d : HostStealPolicyData) (t barrier : Nat) (hO : OwnerInv d) :
    OwnerInv (roundStart d t barrier) := by
  unfold roundStart
  split
  · exact hO
  · rename_i tdata ht
    split
    · constructor
      · exact hO.total
      · intro k td1 host1 hk hrun
        rw [setThread_hostToThreadMap, setThread_threadToThreadDataMap]
        rcases setThread_getElem? d t k tdata _ ht hk with ⟨hkt, rfl⟩ | ⟨_, hk'⟩
        · subst hkt
          rw [rotate_eq] at hrun
          exact hO.running k tdata host1 ht hrun
        · exact hO.running k td1 host1 hk' hrun
    · exact hO

theorem OwnerInv_setStealable (d : HostStealPolicyData) (s : Nat) (sd : HostStealThreadData)
    (flag : Bool) (hO : OwnerInv d) (hs : d.threadList[s]? = some sd) :
    OwnerInv (setThread d s { sd with isStealable := flag }) := by
  constructor
  · exact hO.total
  · intro k td1 host1 hk hrun
    rw [setThread_hostToThreadMap, setThread_threadToThreadDataMap]
    rcases setThread_getElem? d s k sd _ hs hk with ⟨hkt, rfl⟩ | ⟨_, hk'⟩
    · subst hkt
      exact hO.running k sd host1 hs hrun
    · exact hO.running k td1 host1 hk' hrun

/-- `pop` keeps the placement and owner invariants, and it rewrites the owner
map only at the host whose event it returns, to the caller. -/
theorem pop_owner (d : HostStealPolicyData) (self : Thread) (barrier : Nat)
    (hP : Placed d) (hO : OwnerInv d) :
    (∀ d1, pop d self barrier = .returned d1 none →
      OwnerInv d1 ∧ d1.hostToThreadMap = d.hostToThreadMap) ∧
    (∀ d1, pop d self barrier = .spinning d1 →
      OwnerInv d1 ∧ d1.hostToThreadMap = d.hostToThreadMap) ∧
    (∀ d1 ev, pop d self barrier = .returned d1 (some ev) →
      OwnerInv d1 ∧ ∃ host, runningHostOf d1 self = some host ∧
        d1.hostToThreadMap = Function.update d.hostToThreadMap host (some self)) := by
  cases hmap : d.threadToThreadDataMap self with
  | none =>
    simp only [pop, hmap]
    refine ⟨?_, ?_, ?_⟩
    · intro d1 h
      injection h with h _
      subst h
      exact ⟨hO, rfl⟩
    · intro d1 h
      exact absurd h (by simp)
    · intro d1 ev h
      injection h with _ h
      exact absurd h (by simp)
  | some t =>
    cases htd : d.threadList[t]? with
    | none =>
      simp only [pop, hmap, htd]
      refine ⟨?_, ?_, ?_⟩ <;> intros <;> simp_all
    | some tdata =>
      have key := pop_induction d self barrier t tdata hmap htd
        (fun d0 => Placed d0 ∧ OwnerInv d0 ∧ d0.threadToThreadDataMap self = some t ∧
          d0.hostToThreadMap = d.hostToThreadMap)
        (fun d1 r => OwnerInv d1 ∧ match r with
          | none => d1.hostToThreadMap = d.hostToThreadMap
          | some _ => ∃ host, runningHostOf d1 self = some host ∧
              d1.hostToThreadMap = Function.update d.hostToThreadMap host (some self))
        (fun d1 => OwnerInv d1 ∧ d1.hostToThreadMap = d.hostToThreadMap)
        (by
          have hf := roundStart_fields d t barrier
          exact ⟨Placed_roundStart d t barrier hP, OwnerInv_roundStart d t barrier hO,
            by rw [hf.2.2.1]; exact hmap, hf.2.1⟩)
        (by
          intro src d0 d1 hP0 hiter
          obtain ⟨h1, h2, h3, h4⟩ :=
            popFromThreadIter_again_inv d0 d1 self t src barrier hP0.1 hP0.2.1 hiter
          exact ⟨h1, h2, by rw [h3]; exact hP0.2.2.1, by rw [h4]; exact hP0.2.2.2⟩)
        (by
          intro src d0 d1 ev hP0 hiter
          obtain ⟨_, h2, h3, host, td1, h4, h5, h6⟩ :=
            popFromThreadIter_done_some_inv d0 d1 self t src barrier ev hP0.2.2.1
              hP0.1 hP0.2.1 hiter
          refine ⟨h2, host, ?_, by rw [h6, hP0.2.2.2]⟩
          rw [runningHostOf_eq d1 self t td1 (by rw [h3]; exact hP0.2.2.1) h4]
          exact h5)
        (fun d0 hP0 => ⟨hP0.2.1, hP0.2.2.2⟩)
        (fun _ d0 _ sd _ hP0 _ _ hsd _ =>
          ⟨OwnerInv_setStealable d0 _ sd false hP0.2.1 hsd, hP0.2.2.2⟩)
      refine ⟨fun d1 h => key.1 d1 none h, key.2, fun d1 ev h => key.1 d1 (some ev) h⟩

/-- The slots after `addHost`: an old slot keeps its running host, and a new
slot has none. -/
theorem addHost_running (d : HostStealPolicyData) (self : Thread) (host : Host)
    (thread : Thread) (k : Nat) (td1 : HostStealThreadData) (host1 : Host)
    (hk : (addHost d self host thread).threadList[k]? = some td1)
    (hrun : td1.runningHost = some host1) :
    ∃ td, d.threadList[k]? = some td ∧ td.runningHost = some host1 := by
  cases hm : d.threadToThreadDataMap (if thread ≠ 0 then thread else self) with
  | none =>
    rw [addHost_threadList_of_none d self host thread hm] at hk
    by_cases hlt : k < d.threadList.length
    · rw [List.getElem?_append_left hlt] at hk
      exact ⟨td1, hk, hrun⟩
    · rw [List.getElem?_append_right (Nat.le_of_not_lt hlt)] at hk
      cases hi : k - d.threadList.length with
      | zero =>
        rw [hi] at hk
        simp only [List.getElem?_cons_zero, Option.some.injEq] at hk
        subst hk
        simp [hoststealthreaddata_new] at hrun
      | succ i =>
        rw [hi] at hk
        simp at hk
  | some t =>
    rw [addHost_threadList_of_some d self host thread t hm] at hk
    split at hk
    · exact ⟨td1, hk, hrun⟩
    · rename_i tdata ht
      split at hk
      · by_cases hkt : k = t
        · subst hkt
          rw [List.getElem?_set_self (List.getElem?_eq_some.1 ht).1] at hk
          injection hk with hk
          subst hk
          exact ⟨tdata, ht, hrun⟩
        · rw [List.getElem?_set_ne (fun hh => hkt hh.symm)] at hk
          exact ⟨td1, hk, hrun⟩
      · exact ⟨td1, hk, hrun⟩

theorem OwnerInv_addHost (d : HostStealPolicyData) (self : Thread) (host : Host)
    (thread : Thread) (hP : Placed d) (hO : OwnerInv d)
    (hfresh : d.hostToQueueDataMap host = none) : OwnerInv (addHost d self host thread) := by
  have hzero : placements d host = 0 := by
    rw [hP.count host, hfresh]
    rfl
  have hmapKeep : ∀ th t, d.threadToThreadDataMap th = some t →
      (addHost d self host thread).threadToThreadDataMap th = some t := by
    intro th t hth
    rw [addHost_threadToThreadDataMap]
    split
    · rename_i hm
      have hne : th ≠ (if thread ≠ 0 then thread else self) := by
        intro hh
        rw [hh, hm] at hth
        exact absurd hth (by simp)
      rw [Function.update_noteq hne]
      exact hth
    · exact hth
  constructor
  · intro host1 hq
    rw [addHost_hostToThreadMap]
    by_cases hh : host1 = host
    · subst hh
      rw [Function.update_same]
      refine ⟨_, ?_, rfl, ?_⟩
      · exact match d.threadToThreadDataMap (if thread ≠ 0 then thread else self) with
          | none => d.threadList.length
          | some t => t
      · rw [addHost_threadToThreadDataMap]
        split
        · rw [Function.update_same]
        · rename_i t hm
          exact hm
    · rw [Function.update_noteq hh]
      rw [addHost_hostToQueueDataMap, hfresh] at hq
      simp only [Function.update_noteq hh] at hq
      obtain ⟨th, t, h1, h2⟩ := hO.total host1 hq
      exact ⟨th, t, h1, hmapKeep th t h2⟩
  · intro k td1 host1 hk hrun
    obtain ⟨td, hd, hr⟩ := addHost_running d self host thread k td1 host1 hk hrun
    obtain ⟨th, h1, h2⟩ := hO.running k td host1 hd hr
    have hne : host1 ≠ host := by
      intro hh
      subst hh
      have := count_slotHosts_le host1 d.threadList k td hd
      unfold placements at hzero
      simp only [slotHosts, hr, Option.toList, List.count_append, List.count_cons,
        beq_self_eq_true, ite_true] at this
      omega
    rw [addHost_hostToThreadMap, Function.update_noteq hne]
    exact ⟨th, h1, hmapKeep th k h2⟩

theorem OwnerInv_push (d d1 : HostStealPolicyData) (self : Thread) (event : Event)
    (srcHost dstHost : Host) (barrier : Nat) (hO : OwnerInv d)
    (hp : push d self event srcHost dstHost barrier = some d1) : OwnerInv d1 := by
  obtain ⟨qdata, hq, hq1, hl, _, hm, ho⟩ :=
    push_hostToQueueDataMap d d1 self event srcHost dstHost barrier hp
  constructor
  · intro host hqs
    rw [ho, hm]
    apply hO.total host
    rw [hq1] at hqs
    by_cases hh : host = dstHost
    · subst hh
      rw [hq]
      rfl
    · rw [Function.update_noteq hh] at hqs
      exact hqs
  · intro k td host hk hrun
    rw [ho, hm]
    rw [hl] at hk
    exact hO.running k td host hk hrun

theorem OwnerInv_getHosts (d : HostStealPolicyData) (self : Thread) (hO : OwnerInv d) :
    OwnerInv (getHosts d self).2 := by
  have hf := getHosts_fields d self
  constructor
  · intro host hq
    rw [hf.1] at hq
    rw [hf.2.1, hf.2.2.1]
    exact hO.total host hq
  · intro k td1 host hk hrun
    rw [hf.2.1, hf.2.2.1]
    unfold getHosts at hk
    split at hk
    · exact hO.running k td1 host hk hrun
    · split at hk
      · exact hO.running k td1 host hk hrun
      · rename_i tdata htd
        split at hk
        · exact hO.running k td1 host hk hrun
        · split at hk
          · exact hO.running k td1 host hk hrun
          · rcases setThread_getElem? d _ k tdata _ htd hk with ⟨hkt, rfl⟩ | ⟨_, hk'⟩
            · subst hkt
              exact hO.running k tdata host htd hrun
            · exact hO.running k td1 host hk' hrun

theorem OwnerInv_of_reachableOnce (d : HostStealPolicyData) (h : ReachableOnce d) :
    Placed d ∧ OwnerInv d := by
  induction h with
  | init =>
    refine ⟨Placed_init, ?_⟩
    constructor
    · intro host hq
      simp [schedulerpolicyhoststeal_new] at hq
    · intro t td host ht
      simp [schedulerpolicyhoststeal_new] at ht
  | addHost d self host thread _ hfresh ih =>
    exact ⟨Placed_addHost d self host thread ih.1 (hfresh rfl),
      OwnerInv_addHost d self host thread ih.1 ih.2 (hfresh rfl)⟩
  | push d d1 self event srcHost dstHost barrier _ hp ih =>
    exact ⟨Placed_push d d1 self event srcHost dstHost barrier ih.1 hp,
      OwnerInv_push d d1 self event srcHost dstHost barrier ih.2 hp⟩
  | popReturned d d1 self barrier r _ hp ih =>
    refine ⟨Placed_pop d d1 self barrier ih.1 (Or.inl ⟨r, hp⟩), ?_⟩
    cases r with
    | none => exact ((pop_owner d self barrier ih.1 ih.2).1 d1 hp).1
    | some ev => exact ((pop_owner d self barrier ih.1 ih.2).2.2 d1 ev hp).1
  | popSpinning d d1 self barrier _ hp ih =>
    exact ⟨Placed_pop d d1 self barrier ih.1 (Or.inr hp),
      ((pop_owner d self barrier ih.1 ih.2).2.1 d1 hp).1⟩
  | getHosts d self _ ih =>
    exact ⟨Placed_getHosts d self ih.1, OwnerInv_getHosts d self ih.2⟩

/-- C7 as stated fails: in the state reached when thread 2 has taken host 1 from
thread 1 without getting an event from it, host 1 is in the `processedHosts` of
thread 2 while its owner entry still names thread 1. -/
theorem owner_map_disagrees_after_empty_steal :
    ReachableOnce (emptyStealRun.getD schedulerpolicyhoststeal_new) ∧
    (∃ td, lookupThreadData (emptyStealRun.getD schedulerpolicyhoststeal_new) 2 = some td ∧
      td.processedHosts = [2, 1] ∧
      (emptyStealRun.getD schedulerpolicyhoststeal_new).hostToThreadMap 1 = some 1) ∧
    ¬ OwnerAgrees (emptyStealRun.getD schedulerpolicyhoststeal_new) := by
  refine ⟨emptyStealRun_reachable, ⟨_, rfl, rfl, rfl⟩, ?_⟩
  intro h
  have h1 := (h 2 _ 1 rfl).1 (by decide)
  exact absurd h1 (by decide)

/-- C7 (amended): when `addHost` is called at most once per host, in every
reachable state every host with a queue has an owner entry naming a thread
that has a slot, and the owner entry of each worker's running host names that
worker.  The owner map is written only by `addHost` (the host's entry becomes
the target thread) and by a `pop` that returns an event (the entry of the
caller's running host, whose event it is, becomes the caller); `push`,
`getHosts`, and a `pop` that returns NULL or spins, which includes every steal
that yielded no event, leave it as it was. -/
theorem owner_map_invariant :
    (∀ d, ReachableOnce d → OwnerInv d) ∧
    (∀ d self host thread, (addHost d self host thread).hostToThreadMap =
      Function.update d.hostToThreadMap host (some (if thread ≠ 0 then thread else self))) ∧
    (∀ d d1 self event srcHost dstHost barrier,
      push d self event srcHost dstHost barrier = some d1 →
      d1.hostToThreadMap = d.hostToThreadMap) ∧
    (∀ d self, (getHosts d self).2.hostToThreadMap = d.hostToThreadMap) ∧
    (∀ d d1 self barrier, ReachableOnce d → pop d self barrier = .returned d1 none →
      d1.hostToThreadMap = d.hostToThreadMap) ∧
    (∀ d d1 self barrier, ReachableOnce d → pop d self barrier = .spinning d1 →
      d1.hostToThreadMap = d.hostToThreadMap) ∧
    (∀ d d1 self barrier ev, ReachableOnce d → pop d self barrier = .returned d1 (some ev) →
      ∃ host, runningHostOf d1 self = some host ∧
        d1.hostToThreadMap = Function.update d.hostToThreadMap host (some self)) := by
  refine ⟨fun d h => (OwnerInv_of_reachableOnce d h).2, addHost_hostToThreadMap, ?_,
    fun d self => (getHosts_fields d self).2.1, ?_, ?_, ?_⟩
  · intro d d1 self event srcHost dstHost barrier hp
    obtain ⟨_, _, _, _, _, _, ho⟩ :=
      push_hostToQueueDataMap d d1 self event srcHost dstHost barrier hp
    exact ho
  · intro d d1 self barrier hr hp
    obtain ⟨hP, hO⟩ := OwnerInv_of_reachableOnce d hr
    exact ((pop_owner d self barrier hP hO).1 d1 hp).2
  · intro d d1 self barrier hr hp
    obtain ⟨hP, hO⟩ := OwnerInv_of_reachableOnce d hr
    exact ((pop_owner d self barrier hP hO).2.1 d1 hp).2
  · intro d d1 self barrier ev hr hp
    obtain ⟨hP, hO⟩ := OwnerInv_of_reachableOnce d hr
    exact ((pop_owner d self barrier hP hO).2.2 d1 ev hp).2

/-- C7 (amended) on the steal scenario. -/
theorem owner_map_invariant_witness :
    OwnerInv (emptyStealRun.getD schedulerpolicyhoststeal_new) :=
  owner_map_invariant.1 _ emptyStealRun_reachable

theorem pop_eq_popAfterRoundStart (d : HostStealPolicyData) (self : Thread) (barrier t : Nat)
    (tdata : HostStealThreadData) (hmap : d.threadToThreadDataMap self = some t)
    (htd : d.threadList[t]? = some tdata) :
    pop d self barrier = popAfterRoundStart (roundStart d t barrier) self t tdata.tnumber barrier := by
  unfold pop popAfterRoundStart
  rw [hmap]
  simp only [htd]

/-- C8 (round rotation): when the caller's slot has `currentBarrier < b`, the
round start of `pop b` sets `currentBarrier` to `b`, makes `unprocessedHosts` the
old `unprocessedHosts` followed by the old `processedHosts`, empties
`processedHosts` and sets `isStealable`, touching nothing else, and the rest of
`pop` (where events are dequeued) runs on that state.  The pointer swap taken
when `unprocessedHosts` is empty gives the same two lists as the loop that
moves the hosts one by one.  On the scenario of the spec, `pop 15` returns the
event at 10, the next `pop 15` returns NULL with host 0 in `processedHosts`, and
`pop 25` returns the event at 20. -/
theorem round_rotation :
    (∀ (d : HostStealPolicyData) (self : Thread) (b t : Nat) (tdata : HostStealThreadData),
      d.threadToThreadDataMap self = some t → d.threadList[t]? = some tdata →
      b > tdata.currentBarrier →
      roundStart d t b = setThread d t
        { tdata with currentBarrier := b,
                     unprocessedHosts := tdata.unprocessedHosts ++ tdata.processedHosts,
                     processedHosts := [], isStealable := true } ∧
      pop d self b = popAfterRoundStart (setThread d t
        { tdata with currentBarrier := b,
                     unprocessedHosts := tdata.unprocessedHosts ++ tdata.processedHosts,
                     processedHosts := [], isStealable := true }) self t tdata.tnumber b) ∧
    (∀ (unprocessed processed : List Host), unprocessed = [] → processed ≠ [] →
      (processed, unprocessed) = moveProcessed unprocessed processed) ∧
    (∀ (unprocessed processed : List Host),
      moveProcessed unprocessed processed = (unprocessed ++ processed, [])) ∧
    thenPopped rotationRun 1 15 = some (localEvent 0 10 0) ∧
    thenPopped (thenPop rotationRun 1 15) 1 15 = none ∧
    ((thenPop (thenPop rotationRun 1 15) 1 15).map (fun d => d.threadList.map
      (fun td => (td.unprocessedHosts, td.processedHosts, td.runningHost, td.currentBarrier))))
      = some [([], [0], none, 15)] ∧
    thenPopped (thenPop (thenPop rotationRun 1 15) 1 15) 1 25 = some (localEvent 1 20 0) ∧
    ((thenPop (thenPop (thenPop rotationRun 1 15) 1 15) 1 25).map (fun d => d.threadList.map
      (fun td => (td.unprocessedHosts, td.processedHosts, td.runningHost, td.currentBarrier))))
      = some [([], [], some 0, 25)] := by
  refine ⟨?_, ?_, ?_, by decide, by decide, by decide, by decide, by decide⟩
  · intro d self b t tdata hmap htd hb
    have hr : roundStart d t b = setThread d t
        { tdata with currentBarrier := b,
                     unprocessedHosts := tdata.unprocessedHosts ++ tdata.processedHosts,
                     processedHosts := [], isStealable := true } := by
      unfold roundStart
      rw [htd]
      simp only [hb, ite_true, rotate_eq]
    refine ⟨hr, ?_⟩
    rw [pop_eq_popAfterRoundStart d self b t tdata hmap htd, hr]
  · intro unprocessed processed hu _
    subst hu
    have := moveProcessed_eq processed []
    rw [Prod.ext_iff]
    exact ⟨by rw [this.1]; rfl, by rw [this.2]⟩
  · intro unprocessed processed
    have := moveProcessed_eq processed unprocessed
    rw [Prod.ext_iff]
    exact this

/-- C8 on the rotation scenario: the third `pop`, with barrier 25 above the
slot's barrier 15, starts from the rotated slot. -/
theorem round_rotation_witness :
    roundStart ((thenPop (thenPop rotationRun 1 15) 1 15).getD schedulerpolicyhoststeal_new) 0 25
      = setThread ((thenPop (thenPop rotationRun 1 15) 1 15).getD schedulerpolicyhoststeal_new) 0
        { allHosts := none, unprocessedHosts := [] ++ [0], processedHosts := [],
          runningHost := none, currentBarrier := 25, tnumber := 0, isStealable := true } ∧
    pop ((thenPop (thenPop rotationRun 1 15) 1 15).getD schedulerpolicyhoststeal_new) 1 25
      = popAfterRoundStart
        (setThread ((thenPop (thenPop rotationRun 1 15) 1 15).getD schedulerpolicyhoststeal_new) 0
          { allHosts := none, unprocessedHosts := [] ++ [0], processedHosts := [],
            runningHost := none, currentBarrier := 25, tnumber := 0, isStealable := true })
        1 0 0 25 :=
  round_rotation.1 ((thenPop (thenPop rotationRun 1 15) 1 15).getD schedulerpolicyhoststeal_new)
    1 25 0
    { allHosts := none, unprocessedHosts := [], processedHosts := [0],
      runningHost := none, currentBarrier := 15, tnumber := 0, isStealable := true }
    rfl rfl (by decide)

theorem Indexed_transfer (d d1 : HostStealPolicyData) (h : Indexed d)
    (hc : d1.threadCount = d.threadCount) (hl : d1.threadList.length = d.threadList.length)
    (ht : ∀ (k : Nat) (td1 : HostStealThreadData), d1.threadList[k]? = some td1 →
      ∃ td, d.threadList[k]? = some td ∧ td1.tnumber = td.tnumber) : Indexed d1 := by
  constructor
  · rw [hc, hl]
    exact h.count_eq
  · intro k td1 hk
    obtain ⟨td, hd, he⟩ := ht k td1 hk
    rw [he]
    exact h.tnumber_eq k td hd

theorem Indexed_setThread (d : HostStealPolicyData) (t : Nat) (td td1 : HostStealThreadData)
    (h : Indexed d) (ht : d.threadList[t]? = some td) (hn : td1.tnumber = td.tnumber) :
    Indexed (setThread d t td1) := by
  refine Indexed_transfer d _ h rfl (by rw [setThread_threadList, List.length_set]) ?_
  intro k td2 hk
  rcases setThread_getElem? d t k td td1 ht hk with ⟨hkt, rfl⟩ | ⟨_, hk'⟩
  · subst hkt
    exact ⟨td, ht, hn⟩
  · exact ⟨td2, hk', rfl⟩

theorem Indexed_selected (d d0 : HostStealPolicyData) (t src : Nat) (host : Host)
    (h : Indexed d) (hsel : Selected d t src d0 host) : Indexed d0 := by
  have hf := Selected_fields d d0 t src host hsel
  refine Indexed_transfer d d0 h hf.2.2.2.1 hf.2.2.2.2 ?_
  intro k td0 hk
  obtain ⟨td, hd, _, _, _, hn, _⟩ := Selected_thread d d0 t src host hsel k td0 hk
  exact ⟨td, hd, hn⟩

theorem Indexed_roundStart (d : HostStealPolicyData) (t barrier : Nat) (h : Indexed d) :
    Indexed (roundStart d t barrier) := by
  unfold roundStart
  split
  · exact h
  · rename_i tdata ht
    split
    · exact Indexed_setThread d t tdata _ h ht (by rw [rotate_eq])
    · exact h

theorem Indexed_pop (d d1 : HostStealPolicyData) (self : Thread) (barrier : Nat)
    (h : Indexed d)
    (hp : (∃ r, pop d self barrier = .returned d1 r) ∨ pop d self barrier = .spinning d1) :
    Indexed d1 := by
  cases hmap : d.threadToThreadDataMap self with
  | none =>
    simp only [pop, hmap] at hp
    rcases hp with ⟨r, hp⟩ | hp
    · injection hp with hp _
      subst hp
      exact h
    · exact absurd hp (by simp)
  | some t =>
    cases htd : d.threadList[t]? with
    | none =>
      simp only [pop, hmap, htd] at hp
      rcases hp with ⟨r, hp⟩ | hp <;> exact absurd hp (by simp)
    | some tdata =>
      have key := pop_induction d self barrier t tdata hmap htd
        (fun d0 => Indexed d0 ∧ d0.threadToThreadDataMap self = some t)
        (fun d1 _ => Indexed d1) Indexed
        ⟨Indexed_roundStart d t barrier h,
          by rw [(roundStart_fields d t barrier).2.2.1]; exact hmap⟩
        (by
          intro src d0 d1 hP hiter
          obtain ⟨d0', host, _, tdata0, hsel, _, _, ht0, rfl⟩ :=
            popFromThreadIter_again d0 d1 self t src barrier hiter
          have hf := Selected_fields d0 d0' t src host hsel
          exact ⟨Indexed_setThread d0' t tdata0 _ (Indexed_selected d0 d0' t src host hP.1 hsel)
            ht0 rfl, by rw [setThread_threadToThreadDataMap, hf.2.2.1]; exact hP.2⟩)
        (by
          intro src d0 d1 ev hP hiter
          obtain ⟨d0', host, _, _, hsel, _, _, _, _, h1, h2, _, _, _⟩ :=
            popFromThreadIter_done_some_effect d0 d1 self t src barrier ev hP.2 hiter
          refine Indexed_transfer d0' d1 (Indexed_selected d0 d0' t src host hP.1 hsel) h2
            (by rw [h1]) ?_
          intro k td1 hk
          rw [h1] at hk
          exact ⟨td1, hk, rfl⟩)
        (fun d0 hP => hP.1)
        (fun _ d0 _ sd _ hP _ _ hsd _ => Indexed_setThread d0 _ sd _ hP.1 hsd rfl)
      rcases hp with ⟨r, hp⟩ | hp
      · exact key.1 d1 r hp
      · exact key.2 d1 hp

theorem Indexed_addHost (d : HostStealPolicyData) (self : Thread) (host : Host)
    (thread : Thread) (h : Indexed d) : Indexed (addHost d self host thread) := by
  cases hm : d.threadToThreadDataMap (if thread ≠ 0 then thread else self) with
  | none =>
    have hl := addHost_threadList_of_none d self host thread hm
    constructor
    · rw [addHost_threadCount, hm, hl, List.length_append, List.length_singleton, h.count_eq]
    · intro k td hk
      rw [hl] at hk
      by_cases hlt : k < d.threadList.length
      · rw [List.getElem?_append_left hlt] at hk
        exact h.tnumber_eq k td hk
      · rw [List.getElem?_append_right (Nat.le_of_not_lt hlt)] at hk
        cases hi : k - d.threadList.length with
        | zero =>
          rw [hi] at hk
          simp only [List.getElem?_cons_zero, Option.some.injEq] at hk
          subst hk
          show d.threadCount = k
          rw [h.count_eq]
          omega
        | succ i =>
          rw [hi] at hk
          simp at hk
  | some t =>
    have hl := addHost_threadList_of_some d self host thread t hm
    constructor
    · rw [addHost_threadCount, hm, hl]
      simp only []
      split
      · exact h.count_eq
      · split
        · rw [List.length_set]
          exact h.count_eq
        · exact h.count_eq
    · intro k td hk
      rw [hl] at hk
      split at hk
      · exact h.tnumber_eq k td hk
      · rename_i tdata ht
        split at hk
        · by_cases hkt : k = t
          · subst hkt
            rw [List.getElem?_set_self (List.getElem?_eq_some.1 ht).1] at hk
            injection hk with hk
            subst hk
            exact h.tnumber_eq k tdata ht
          · rw [List.getElem?_set_ne (fun hh => hkt hh.symm)] at hk
            exact h.tnumber_eq k td hk
        · exact h.tnumber_eq k td hk

theorem Indexed_getHosts (d : HostStealPolicyData) (self : Thread) (h : Indexed d) :
    Indexed (getHosts d self).2 := by
  unfold getHosts
  split
  · exact h
  · split
    · exact h
    · rename_i tdata htd
      split
      · exact h
      · split
        · exact h
        · exact Indexed_setThread d _ tdata _ h htd rfl

theorem Indexed_of_reachable (once : Bool) (d : HostStealPolicyData)
    (h : ReachableBy once d) : Indexed d := by
  induction h with
  | init =>
    constructor
    · rfl
    · intro k td hk
      simp [schedulerpolicyhoststeal_new] at hk
  | addHost d self host thread _ _ ih => exact Indexed_addHost d self host thread ih
  | push d d1 self event srcHost dstHost barrier _ hp ih =>
    obtain ⟨_, _, _, hl, hc, _, _⟩ :=
      push_hostToQueueDataMap d d1 self event srcHost dstHost barrier hp
    exact Indexed_transfer d d1 ih hc (by rw [hl])
      (fun k td1 hk => ⟨td1, by rw [← hl]; exact hk, rfl⟩)
  | popReturned d d1 self barrier r _ hp ih => exact Indexed_pop d d1 self barrier ih (Or.inl ⟨r, hp⟩)
  | popSpinning d d1 self barrier _ hp ih => exact Indexed_pop d d1 self barrier ih (Or.inr hp)
  | getHosts d self _ ih => exact Indexed_getHosts d self ih

theorem steal_index_ne (i t n : Nat) (hi : 1 ≤ i) (hin : i < n) (ht : t < n) :
    (i + t) % n ≠ t := by
  by_cases hlt : i + t < n
  · rw [Nat.mod_eq_of_lt hlt]
    omega
  · have hge : n ≤ i + t := Nat.le_of_not_lt hlt
    rw [Nat.mod_eq_sub_mod hge, Nat.mod_eq_of_lt (by omega)]
    omega

theorem SameRound_refl (td : HostStealThreadData) : SameRound td td :=
  ⟨rfl, rfl, List.suffix_refl _, List.prefix_refl _⟩

/-- The caller's slot after the host has been selected is still in the same
round relation to an earlier slot. -/
theorem SameRound_selected (d d0 : HostStealPolicyData) (t src : Nat) (host : Host)
    (hsel : Selected d t src d0 host) (before td : HostStealThreadData)
    (ht : d.threadList[t]? = some td) (hs : SameRound before td) :
    ∃ td0, d0.threadList[t]? = some td0 ∧ SameRound before td0 := by
  obtain ⟨td0, ht0, _⟩ := Selected_running d d0 t src host hsel
  obtain ⟨td', hd, hp, hb, hf, _, _, hu, _, _⟩ := Selected_thread d d0 t src host hsel t td0 ht0
  rw [ht] at hd
  injection hd with hd
  subst hd
  refine ⟨td0, ht0, by rw [hb]; exact hs.1, by rw [hf]; exact hs.2.1, ?_,
    by rw [hp]; exact hs.2.2.2⟩
  rcases hu with hu | ⟨_, hu⟩
  · rw [hu]
    exact hs.2.2.1
  · refine List.IsSuffix.trans ?_ hs.2.2.1
    rw [hu]
    exact List.suffix_cons _ _

/-- A `pop` whose barrier does not exceed the caller's `currentBarrier` leaves
the caller's slot in the same round. -/
theorem pop_same_round (d : HostStealPolicyData) (self : Thread) (b t : Nat)
    (tdata : HostStealThreadData) (hI : Indexed d)
    (hmap : d.threadToThreadDataMap self = some t) (htd : d.threadList[t]? = some tdata)
    (hb : b ≤ tdata.currentBarrier) (d1 : HostStealPolicyData)
    (hp : (∃ r, pop d self b = .returned d1 r) ∨ pop d self b = .spinning d1) :
    ∃ td1, d1.threadList[t]? = some td1 ∧ SameRound tdata td1 := by
  have hstart : roundStart d t b = d := by
    unfold roundStart
    rw [htd]
    simp only [gt_iff_lt, Nat.not_lt.2 hb, ite_false]
  have htn : tdata.tnumber = t := hI.tnumber_eq t tdata htd
  have htl : t < d.threadList.length := (List.getElem?_eq_some.1 htd).1
  let P : HostStealPolicyData → Prop := fun d0 =>
    d0.threadToThreadDataMap self = some t ∧ d0.threadCount = d.threadCount ∧
    d0.threadList.length = d.threadList.length ∧
    ∃ td0, d0.threadList[t]? = some td0 ∧ SameRound tdata td0
  have key := pop_induction d self b t tdata hmap htd P
    (fun d1 _ => ∃ td1, d1.threadList[t]? = some td1 ∧ SameRound tdata td1)
    (fun d1 => ∃ td1, d1.threadList[t]? = some td1 ∧ SameRound tdata td1)
    (by
      rw [hstart]
      exact ⟨hmap, rfl, rfl, tdata, htd, SameRound_refl tdata⟩)
    (by
      intro src d0 d1 hP hiter
      obtain ⟨hm0, hc0, hl0, td0, ht0, hs0⟩ := hP
      obtain ⟨d0', host, _, tdata0, hsel, _, _, ht0', rfl⟩ :=
        popFromThreadIter_again d0 d1 self t src b hiter
      have hf := Selected_fields d0 d0' t src host hsel
      obtain ⟨td0', h1, h2⟩ := SameRound_selected d0 d0' t src host hsel tdata td0 ht0 hs0
      rw [ht0'] at h1
      injection h1 with h1
      subst h1
      refine ⟨by rw [setThread_threadToThreadDataMap, hf.2.2.1]; exact hm0,
        by rw [setThread_threadCount, hf.2.2.2.1]; exact hc0,
        by rw [setThread_threadList, List.length_set, hf.2.2.2.2]; exact hl0,
        { tdata0 with processedHosts := tdata0.processedHosts ++ [host], runningHost := none },
        ?_, ?_⟩
      · rw [setThread_threadList, List.getElem?_set_self (List.getElem?_eq_some.1 ht0').1]
      · exact ⟨h2.1, h2.2.1, h2.2.2.1,
          List.IsPrefix.trans h2.2.2.2 (List.prefix_append _ _)⟩)
    (by
      intro src d0 d1 ev hP hiter
      obtain ⟨hm0, _, _, td0, ht0, hs0⟩ := hP
      obtain ⟨d0', host, _, _, hsel, _, _, _, _, h1, _⟩ :=
        popFromThreadIter_done_some_effect d0 d1 self t src b ev hm0 hiter
      obtain ⟨td0', h3, h4⟩ := SameRound_selected d0 d0' t src host hsel tdata td0 ht0 hs0
      exact ⟨td0', by rw [h1]; exact h3, h4⟩)
    (fun d0 hP => hP.2.2.2)
    (by
      intro dm d0 i sd hPm hP0 hi hin hsd _
      obtain ⟨_, _, _, td0, ht0, hs0⟩ := hP0
      refine ⟨td0, ?_, hs0⟩
      rw [setThread_threadList, List.getElem?_set_ne]
      · exact ht0
      · rw [htn]
        apply steal_index_ne i t dm.threadCount hi hin
        rw [hPm.2.1, hI.count_eq]
        exact htl)
  rcases hp with ⟨r, hp⟩ | hp
  · exact key.1 d1 r hp
  · exact key.2 d1 hp

/-- C9 (cross-round use): a `pop b` with `b ≤ currentBarrier` of the caller's
slot performs no rotation: the round start leaves the whole state as it is, so
the call is the rest of `pop` on the unchanged state and has no error path
of its own; and whether the call returns or spins, afterwards the caller's
`currentBarrier` and `isStealable` are what they were, its `unprocessedHosts` is a
suffix of the old one and the old `processedHosts` is a prefix of the new, so
no host went from `processedHosts` to `unprocessedHosts`. -/
theorem cross_round_pop (d : HostStealPolicyData) (self : Thread) (b t : Nat)
    (tdata : HostStealThreadData) (hr : Reachable d)
    (hmap : d.threadToThreadDataMap self = some t) (htd : d.threadList[t]? = some tdata)
    (hb : b ≤ tdata.currentBarrier) :
    roundStart d t b = d ∧
    pop d self b = popAfterRoundStart d self t tdata.tnumber b ∧
    ∀ d1, ((∃ r, pop d self b = .returned d1 r) ∨ pop d self b = .spinning d1) →
      ∃ td1, d1.threadList[t]? = some td1 ∧
        td1.currentBarrier = tdata.currentBarrier ∧ td1.isStealable = tdata.isStealable ∧
        td1.unprocessedHosts <:+ tdata.unprocessedHosts ∧
        tdata.processedHosts <+: td1.processedHosts := by
  have hstart : roundStart d t b = d := by
    unfold roundStart
    rw [htd]
    simp only [gt_iff_lt, Nat.not_lt.2 hb, ite_false]
  refine ⟨hstart, ?_, ?_⟩
  · have := pop_eq_popAfterRoundStart d self b t tdata hmap htd
    rw [hstart] at this
    exact this
  · intro d1 hp
    exact pop_same_round d self b t tdata (Indexed_of_reachable false d hr) hmap htd hb d1 hp

/-- C9 on the rotation scenario: the second `pop 15` of thread 1, whose slot has
barrier 15 after the first. -/
theorem cross_round_pop_witness :
    roundStart ((thenPop rotationRun 1 15).getD schedulerpolicyhoststeal_new) 0 15
      = (thenPop rotationRun 1 15).getD schedulerpolicyhoststeal_new ∧
    pop ((thenPop rotationRun 1 15).getD schedulerpolicyhoststeal_new) 1 15
      = popAfterRoundStart ((thenPop rotationRun 1 15).getD schedulerpolicyhoststeal_new)
          1 0 0 15 ∧
    ∀ d1, ((∃ r, pop ((thenPop rotationRun 1 15).getD schedulerpolicyhoststeal_new) 1 15
          = .returned d1 r) ∨
        pop ((thenPop rotationRun 1 15).getD schedulerpolicyhoststeal_new) 1 15
          = .spinning d1) →
      ∃ td1, d1.threadList[0]? = some td1 ∧
        td1.currentBarrier = 15 ∧ td1.isStealable = true ∧
        td1.unprocessedHosts <:+ [] ∧ [] <+: td1.processedHosts :=
  cross_round_pop ((thenPop rotationRun 1 15).getD schedulerpolicyhoststeal_new) 1 15 0
    { allHosts := none, unprocessedHosts := [], processedHosts := [],
      runningHost := some 0, currentBarrier := 15, tnumber := 0, isStealable := true }
    (ReachableBy.popReturned _ _ 1 15 (some (localEvent 0 10 0))
      (ReachableBy.push _ _ 1 (localEvent 2 30 0) 0 0 0
        (ReachableBy.push _ _ 1 (localEvent 1 20 0) 0 0 0
          (ReachableBy.push _ _ 1 (localEvent 0 10 0) 0 0 0
            (ReachableBy.addHost _ 1 0 0 ReachableBy.init (fun h => absurd h (by decide)))
            rfl) rfl) rfl) rfl)
    rfl rfl (by decide)

/-- An iteration on the caller's own list that goes round again has retired
the first candidate, whose queue has no event below the barrier at its head. -/
theorem popFromThreadIter_again_candidates (d d1 : HostStealPolicyData) (self : Thread)
    (t barrier : Nat) (h : popFromThreadIter d self t t barrier = .again d1) :
    ∃ host qdata, candidates d t = host :: candidates d1 t ∧
      d.hostToQueueDataMap host = some qdata ∧
      (∀ ev, qdata.pq.head? = some ev → barrier ≤ ev.time) ∧
      d1.hostToQueueDataMap = d.hostToQueueDataMap := by
  obtain ⟨d0, host, qdata, tdata0, hsel, hq, hhead, ht0, rfl⟩ :=
    popFromThreadIter_again d d1 self t t barrier h
  have hf := Selected_fields d d0 t t host hsel
  have hlt : t < d0.threadList.length := (List.getElem?_eq_some.1 ht0).1
  have hc1 : candidates (setThread d0 t
      { tdata0 with processedHosts := tdata0.processedHosts ++ [host], runningHost := none }) t
      = tdata0.unprocessedHosts := by
    unfold candidates
    rw [setThread_threadList, List.getElem?_set_self hlt]
    rfl
  refine ⟨host, qdata, ?_, by rw [← hf.1]; exact hq, hhead,
    by rw [setThread_hostToQueueDataMap, hf.1]⟩
  rw [hc1]
  rcases hsel with ⟨tdata, _, ht, _, hrun, rfl⟩ |
    ⟨tdata, sdata, rest, tdata1, ht, hs, hrun, hun, ht1, rfl⟩
  · rw [ht] at ht0
    injection ht0 with ht0
    subst ht0
    unfold candidates
    rw [ht]
    simp only [hrun, Option.toList, List.singleton_append]
  · rw [ht] at hs
    injection hs with hs
    subst hs
    have hlt2 : t < d.threadList.length := (List.getElem?_eq_some.1 ht).1
    rw [setThread_threadList, List.getElem?_set_self hlt2] at ht1
    injection ht1 with ht1
    subst ht1
    rw [setThread_threadList, setThread_threadList,
      List.getElem?_set_self (by rw [List.length_set]; exact hlt2)] at ht0
    injection ht0 with ht0
    subst ht0
    unfold candidates
    rw [ht]
    simp only [hrun, hun, Option.toList, List.nil_append]

/-- When the loop on the caller's own list returns NULL, no candidate has an
event below the barrier at the head of its queue. -/
theorem popFromThreadLoop_none_candidates (self : Thread) (t barrier : Nat) :
    ∀ (fuel : Nat) (d d1 : HostStealPolicyData),
      popFromThreadLoop self t t barrier fuel d = .returned d1 none →
      ∀ host ∈ candidates d t, ∃ qdata, d.hostToQueueDataMap host = some qdata ∧
        ∀ ev, qdata.pq.head? = some ev → barrier ≤ ev.time := by
  intro fuel
  induction fuel with
  | zero =>
    intro d d1 h
    simp [popFromThreadLoop] at h
  | succ n ih =>
    intro d d1 h host hmem
    unfold popFromThreadLoop at h
    split at h
    · rename_i d2 r hiter
      injection h with h1 h2
      subst h1 h2
      obtain ⟨_, td, sd, ht, hs, hrun, hun⟩ :=
        popFromThreadIter_done_none d d2 self t t barrier hiter
      rw [ht] at hs
      injection hs with hs
      subst hs
      unfold candidates at hmem
      rw [ht] at hmem
      simp [hrun, hun] at hmem
    · rename_i d2 hiter
      obtain ⟨host1, qdata, hc, hq, hhead, hqs⟩ :=
        popFromThreadIter_again_candidates d d2 self t barrier hiter
      rw [hc] at hmem
      rcases List.mem_cons.1 hmem with hh | hh
      · subst hh
        exact ⟨qdata, hq, hhead⟩
      · obtain ⟨q2, hq2, hh2⟩ := ih d2 d1 h host hh
        exact ⟨q2, by rw [← hqs]; exact hq2, hh2⟩
    · exact absurd h (by simp)

/-- A `pop` that returns NULL found no event on the caller's own hosts. -/
theorem pop_none_own (d d1 : HostStealPolicyData) (self : Thread) (t barrier : Nat)
    (hmap : d.threadToThreadDataMap self = some t)
    (h : pop d self barrier = .returned d1 none) :
    ∃ d2, popFromThread (roundStart d t barrier) self t t barrier = .returned d2 none := by
  unfold pop at h
  rw [hmap] at h
  simp only [] at h
  split at h
  · exact absurd h (by simp)
  · split at h
    · injection h with _ h
      exact absurd h (by simp)
    · rename_i d2 hown
      exact ⟨d2, hown⟩
    · rename_i other hne1 hne2
      exact absurd h (hne2 d1)

theorem head_le_of_sorted (pq : PriorityQueue) (h : pq.Pairwise (fun a b => a.time ≤ b.time))
    (barrier : Nat) (hhead : ∀ ev, pq.head? = some ev → barrier ≤ ev.time) :
    ∀ ev ∈ pq, barrier ≤ ev.time := by
  cases pq with
  | nil =>
    intro ev hev
    simp at hev
  | cons x xs =>
    intro ev hev
    have hx := hhead x rfl
    rw [List.pairwise_cons] at h
    rcases List.mem_cons.1 hev with hh | hh
    · subst hh
      exact hx
    · have := h.1 ev hh
      omega

theorem QueuesSorted_of_reachable (once : Bool) (d : HostStealPolicyData)
    (h : ReachableBy once d) : QueuesSorted d := by
  induction h with
  | init =>
    intro host qdata hq
    simp [schedulerpolicyhoststeal_new] at hq
  | addHost d self host thread _ _ ih =>
    intro host1 qdata hq
    rw [addHost_hostToQueueDataMap] at hq
    split at hq
    · by_cases hh : host1 = host
      · subst hh
        rw [Function.update_same] at hq
        injection hq with hq
        subst hq
        exact List.Pairwise.nil
      · rw [Function.update_noteq hh] at hq
        exact ih host1 qdata hq
    · exact ih host1 qdata hq
  | push d d1 self event srcHost dstHost barrier _ hp ih =>
    obtain ⟨qdata, hq, hq1, _⟩ :=
      push_hostToQueueDataMap d d1 self event srcHost dstHost barrier hp
    intro host1 qdata1 hq2
    rw [hq1] at hq2
    by_cases hh : host1 = dstHost
    · subst hh
      rw [Function.update_same] at hq2
      injection hq2 with hq2
      subst hq2
      exact priorityqueue_push_sorted _ _ (ih host1 qdata hq)
    · rw [Function.update_noteq hh] at hq2
      exact ih host1 qdata1 hq2
  | popReturned d d1 self barrier r _ hp ih =>
    cases r with
    | none =>
      intro host qdata hq
      rw [(pop_queue_effect d self barrier).1 d1 hp] at hq
      exact ih host qdata hq
    | some ev =>
      obtain ⟨t, host, qdata, rest, tdata1, _, _, _, _, hq, hpq, _, _, hupd⟩ :=
        (pop_queue_effect d self barrier).2.2 d1 ev hp
      intro host1 qdata1 hq1
      rw [hupd] at hq1
      by_cases hh : host1 = host
      · subst hh
        rw [Function.update_same] at hq1
        injection hq1 with hq1
        subst hq1
        have := ih host1 qdata hq
        rw [hpq, List.pairwise_cons] at this
        exact this.2
      · rw [Function.update_noteq hh] at hq1
        exact ih host1 qdata1 hq1
  | popSpinning d d1 self barrier _ hp ih =>
    intro host qdata hq
    rw [(pop_queue_effect d self barrier).2.1 d1 hp] at hq
    exact ih host qdata hq
  | getHosts d self _ ih =>
    intro host qdata hq
    rw [(getHosts_fields d self).1] at hq
    exact ih host qdata hq

/-- The first half of completeness, for any number of workers: a `pop` that
returns NULL left no event below the barrier on any candidate of the caller. -/
theorem pop_none_no_due (d d1 : HostStealPolicyData) (self : Thread) (t barrier : Nat)
    (hs : QueuesSorted d) (hmap : d.threadToThreadDataMap self = some t)
    (h : pop d self barrier = .returned d1 none) :
    ∀ host ∈ candidates (roundStart d t barrier) t, ¬ DueEvent d host barrier := by
  obtain ⟨d2, hown⟩ := pop_none_own d d1 self t barrier hmap h
  unfold popFromThread at hown
  split at hown
  · exact absurd hown (by simp)
  · intro host hmem ⟨qdata, ev, hq, hev, hlt⟩
    obtain ⟨q2, hq2, hhead⟩ :=
      popFromThreadLoop_none_candidates self t barrier _ _ d2 hown host hmem
    rw [(roundStart_fields d t barrier).1, hq] at hq2
    injection hq2 with hq2
    subst hq2
    have := head_le_of_sorted qdata.pq (hs host qdata hq) barrier hhead ev hev
    omega

theorem registered_of_placed (d : HostStealPolicyData) (h : Placed d) (k : Nat)
    (td : HostStealThreadData) (host : Host) (hk : d.threadList[k]? = some td)
    (hmem : host ∈ slotHosts td) : ∃ qdata, d.hostToQueueDataMap host = some qdata := by
  have h1 := count_slotHosts_le host d.threadList k td hk
  have h2 := List.count_pos_iff.2 hmem
  have h3 := h.count host
  unfold placements at h3
  cases hq : d.hostToQueueDataMap host with
  | none =>
    rw [hq] at h3
    simp only [Option.isSome_none, Bool.false_eq_true, ite_false] at h3
    omega
  | some q => exact ⟨q, rfl⟩

theorem MapInjective_of_reachableOnce (d : HostStealPolicyData) (h : ReachableOnce d) :
    MapInjective d := by
  induction h with
  | init =>
    intro th th1 t h1
    simp [schedulerpolicyhoststeal_new] at h1
  | addHost d self host thread hr _ ih =>
    have hP := Placed_of_reachableOnce d hr
    intro th th1 t h1 h2
    rw [addHost_threadToThreadDataMap] at h1 h2
    cases hm : d.threadToThreadDataMap (if thread ≠ 0 then thread else self) with
    | some k =>
      rw [hm] at h1 h2
      exact ih th th1 t h1 h2
    | none =>
      rw [hm] at h1 h2
      simp only [] at h1 h2
      by_cases hh : th = (if thread ≠ 0 then thread else self)
      · by_cases hh1 : th1 = (if thread ≠ 0 then thread else self)
        · rw [hh, hh1]
        · rw [hh, Function.update_same] at h1
          rw [Function.update_noteq hh1] at h2
          injection h1 with h1
          have := hP.map_lt th1 t h2
          omega
      · by_cases hh1 : th1 = (if thread ≠ 0 then thread else self)
        · rw [hh1, Function.update_same] at h2
          rw [Function.update_noteq hh] at h1
          injection h2 with h2
          have := hP.map_lt th t h1
          omega
        · rw [Function.update_noteq hh] at h1
          rw [Function.update_noteq hh1] at h2
          exact ih th th1 t h1 h2
  | push d d1 self event srcHost dstHost barrier _ hp ih =>
    obtain ⟨_, _, _, _, _, hm, _⟩ :=
      push_hostToQueueDataMap d d1 self event srcHost dstHost barrier hp
    intro th th1 t h1 h2
    rw [hm] at h1 h2
    exact ih th th1 t h1 h2
  | popReturned d d1 self barrier r _ hp ih =>
    obtain ⟨_, _, hm, _⟩ := pop_placements d self barrier d1 (Or.inl ⟨r, hp⟩)
    intro th th1 t h1 h2
    rw [hm] at h1 h2
    exact ih th th1 t h1 h2
  | popSpinning d d1 self barrier _ hp ih =>
    obtain ⟨_, _, hm, _⟩ := pop_placements d self barrier d1 (Or.inr hp)
    intro th th1 t h1 h2
    rw [hm] at h1 h2
    exact ih th th1 t h1 h2
  | getHosts d self _ ih =>
    intro th th1 t h1 h2
    rw [(getHosts_fields d self).2.2.1] at h1 h2
    exact ih th th1 t h1 h2

/-- The assertion of `migrateHost` holds when the caller migrates its own
running host: no other slot runs that host. -/
theorem migrateHost_ne_none (d : HostStealPolicyData) (self : Thread) (host : Host) (t : Nat)
    (td : HostStealThreadData) (hmap : d.threadToThreadDataMap self = some t)
    (hinj : MapInjective d) (hnodup : (slotsOf d.threadList).Nodup)
    (ht : d.threadList[t]? = some td) (hrun : td.runningHost = some host) :
    migrateHost d self host self ≠ none := by
  unfold migrateHost
  simp only []
  split
  · simp
  · rename_i hne
    have hself : lookupThreadData d self = some td := by
      simp only [lookupThreadData, hmap, ht]
    rw [hself]
    split
    · rename_i tdOld hold
      simp only []
      split
      · simp
      · rename_i heq
        exfalso
        simp only [ne_eq, Decidable.not_not] at heq
        unfold lookupThreadData at hold
        split at hold
        · exact absurd hold (by simp)
        · rename_i k hk
          have hkt : k ≠ t := by
            intro hh
            subst hh
            exact hne (hinj _ _ k hk hmap)
          have h1 := count_two_slots_le host d.threadList k t tdOld td hkt hold ht
          have h2 := List.nodup_iff_count_le_one.1 hnodup host
          rw [hrun] at heq
          simp only [slotHosts, heq, hrun, Option.toList, List.count_append, List.count_cons,
            beq_self_eq_true, ite_true, List.count_nil] at h1
          omega
    · simp

theorem popFromHost_ne_aborted (d : HostStealPolicyData) (self : Thread) (t : Nat)
    (host : Host) (barrier : Nat) (td : HostStealThreadData) (qdata : HostStealQueueData)
    (hmap : d.threadToThreadDataMap self = some t)
    (hinj : MapInjective d) (hnodup : (slotsOf d.threadList).Nodup)
    (ht : d.threadList[t]? = some td) (hrun : td.runningHost = some host)
    (hq : d.hostToQueueDataMap host = some qdata)
    (hmono : ∀ ev ∈ qdata.pq, qdata.lastEventTime ≤ ev.time) :
    popFromHost d self t host barrier ≠ .aborted := by
  have hretire : ∀ d2 : HostStealPolicyData, d2.threadList = d.threadList →
      retireHost d2 t host ≠ .aborted := by
    intro d2 h2
    unfold retireHost
    rw [h2, ht]
    simp
  unfold popFromHost
  rw [hq]
  simp only []
  split
  · exact hretire d rfl
  · rename_i peeked hpeek
    have hmem : peeked ∈ qdata.pq := by
      simp only [priorityqueue_peek] at hpeek
      exact List.mem_of_mem_head? hpeek
    split
    · rw [if_pos (by simpa [event_getTime] using hmono peeked hmem)]
      have hm : ∀ (q : Host → Option HostStealQueueData),
          migrateHost { d with hostToQueueDataMap := q } self host self ≠ none :=
        fun q => migrateHost_ne_none _ self host t td hmap hinj hnodup ht hrun
      split
      · rename_i hnone
        exact absurd hnone (hm _)
      · rename_i d2 hmig
        split
        · simp
        · rename_i hp
          simp only [priorityqueue_pop, priorityqueue_peek] at hp hpeek
          rw [hpeek] at hp
          exact absurd hp (by simp)
    · exact hretire d rfl

theorem popFromThreadIter_ne_aborted (d : HostStealPolicyData) (self : Thread)
    (t barrier : Nat) (hs : OwnSafe d self t) :
    popFromThreadIter d self t t barrier ≠ .aborted := by
  obtain ⟨hmap, hinj, hplaced, howner, hmono⟩ := hs
  have hlt := hplaced.map_lt self t hmap
  obtain ⟨td, ht⟩ : ∃ td, d.threadList[t]? = some td :=
    ⟨d.threadList[t], List.getElem?_eq_getElem hlt⟩
  have key : ∀ (d0 : HostStealPolicyData) (host : Host), Selected d t t d0 host →
      popFromHost d0 self t host barrier ≠ .aborted := by
    intro d0 host hsel
    have hf := Selected_fields d d0 t t host hsel
    have hP0 := Placed_selected d d0 t t host hplaced hsel
    obtain ⟨td0, ht0, hrun0⟩ := Selected_running d d0 t t host hsel
    obtain ⟨qdata, hq⟩ := registered_of_placed d0 hP0 t td0 host ht0
      (by simp [slotHosts, hrun0])
    refine popFromHost_ne_aborted d0 self t host barrier td0 qdata
      (by rw [hf.2.2.1]; exact hmap) ?_ (Placed_nodup d0 hP0) ht0 hrun0 hq ?_
    · intro th th1 k h2 h3
      rw [hf.2.2.1] at h2 h3
      exact hinj th th1 k h2 h3
    · intro ev hev
      rw [hf.1] at hq
      exact hmono host qdata ev hq hev
  rcases popFromThreadIter_cases d self t t barrier with h1 | ⟨h1, _⟩ | ⟨d0, host, hsel, h1⟩
  · exfalso
    unfold popFromThreadIter at h1
    rw [ht] at h1
    simp only [] at h1
    split at h1
    · rename_i host hrun
      exact key d host (Or.inl ⟨td, td, ht, ht, hrun, rfl⟩) h1
    · exact absurd h1 (by simp)
    · rename_i host rest hrun hun
      have hlt1 : t < (setThread d t { td with unprocessedHosts := rest }).threadList.length := by
        rw [setThread_threadList, List.length_set]
        exact hlt
      rw [List.getElem?_eq_getElem hlt1] at h1
      simp only [] at h1
      exact key _ host
        (Or.inr ⟨td, td, rest, _, ht, ht, hrun, hun, List.getElem?_eq_getElem hlt1, rfl⟩) h1
  · rw [h1]
    simp
  · rw [h1]
    exact key d0 host hsel

theorem OwnSafe_again (d d1 : HostStealPolicyData) (self : Thread) (t barrier : Nat)
    (hs : OwnSafe d self t) (h : popFromThreadIter d self t t barrier = .again d1) :
    OwnSafe d1 self t := by
  obtain ⟨hmap, hinj, hplaced, howner, hmono⟩ := hs
  obtain ⟨h1, h2, h3, _⟩ := popFromThreadIter_again_inv d d1 self t t barrier hplaced howner h
  obtain ⟨_, _, _, _, _, hq⟩ := popFromThreadIter_again_candidates d d1 self t barrier h
  constructor
  · rw [h3]
    exact hmap
  · intro th th1 k h4 h5
    rw [h3] at h4 h5
    exact hinj th th1 k h4 h5
  · exact h1
  · exact h2
  · intro host qdata ev hq1 hev
    rw [hq] at hq1
    exact hmono host qdata ev hq1 hev

/-- Termination of the loop on the caller's own list: with more fuel than
candidates the loop returns. -/
theorem popFromThreadLoop_returns (self : Thread) (t barrier : Nat) :
    ∀ (fuel : Nat) (d : HostStealPolicyData), OwnSafe d self t →
      (candidates d t).length < fuel →
      ∃ d1 r, popFromThreadLoop self t t barrier fuel d = .returned d1 r := by
  intro fuel
  induction fuel with
  | zero =>
    intro d _ h
    omega
  | succ n ih =>
    intro d hs hlen
    unfold popFromThreadLoop
    split
    · rename_i d2 r _
      exact ⟨d2, r, rfl⟩
    · rename_i d2 hiter
      obtain ⟨host, _, hc, _⟩ := popFromThreadIter_again_candidates d d2 self t barrier hiter
      rw [hc, List.length_cons] at hlen
      exact ih d2 (OwnSafe_again d d2 self t barrier hs hiter) (by omega)
    · rename_i hiter
      exact absurd hiter (popFromThreadIter_ne_aborted d self t barrier hs)

theorem popFromThread_returns (d : HostStealPolicyData) (self : Thread) (t barrier : Nat)
    (hs : OwnSafe d self t) :
    ∃ d1 r, popFromThread d self t t barrier = .returned d1 r := by
  have hlt : t < d.threadList.length := by
    obtain ⟨hmap, _, hplaced, _, _⟩ := hs
    exact hplaced.map_lt self t hmap
  unfold popFromThread
  rw [List.getElem?_eq_getElem hlt]
  simp only []
  apply popFromThreadLoop_returns self t barrier _ d hs
  unfold candidates
  rw [List.getElem?_eq_getElem hlt]
  simp only [List.length_append]
  cases d.threadList[t].runningHost
  · simp
  · simp only [Option.toList, List.length_singleton]
    omega

theorem popFromThread_none_candidates (d d1 : HostStealPolicyData) (self : Thread)
    (t barrier : Nat) (h : popFromThread d self t t barrier = .returned d1 none) :
    ∀ host ∈ candidates d t, ∃ qdata, d.hostToQueueDataMap host = some qdata ∧
      ∀ ev, qdata.pq.head? = some ev → barrier ≤ ev.time := by
  unfold popFromThread at h
  split at h
  · exact absurd h (by simp)
  · exact popFromThreadLoop_none_candidates self t barrier _ d d1 h

theorem OwnSafe_roundStart (d : HostStealPolicyData) (self : Thread) (t barrier : Nat)
    (hs : OwnSafe d self t) : OwnSafe (roundStart d t barrier) self t := by
  obtain ⟨hmap, hinj, hplaced, howner, hmono⟩ := hs
  have hf := roundStart_fields d t barrier
  constructor
  · rw [hf.2.2.1]
    exact hmap
  · intro th th1 k h1 h2
    rw [hf.2.2.1] at h1 h2
    exact hinj th th1 k h1 h2
  · exact Placed_roundStart d t barrier hplaced
  · exact OwnerInv_roundStart d t barrier howner
  · intro host qdata ev hq hev
    rw [hf.1] at hq
    exact hmono host qdata ev hq hev

theorem candidates_roundStart (d : HostStealPolicyData) (t barrier : Nat)
    (td : HostStealThreadData) (ht : d.threadList[t]? = some td) :
    (td.currentBarrier < barrier → candidates (roundStart d t barrier) t =
      td.runningHost.toList ++ (td.unprocessedHosts ++ td.processedHosts)) ∧
    (barrier ≤ td.currentBarrier → candidates (roundStart d t barrier) t =
      td.runningHost.toList ++ td.unprocessedHosts) := by
  have hlt : t < d.threadList.length := (List.getElem?_eq_some.1 ht).1
  constructor
  · intro hb
    unfold roundStart candidates
    rw [ht]
    simp only [gt_iff_lt, hb, ite_true, setThread_threadList]
    rw [List.getElem?_set_self hlt, rotate_eq]
  · intro hb
    unfold roundStart candidates
    rw [ht]
    simp only [gt_iff_lt, Nat.not_lt.2 hb, ite_false, ht]

/-- Completeness of `pop` on the caller's own hosts. -/
theorem pop_own_complete (d : HostStealPolicyData) (self : Thread) (b t : Nat)
    (hs : OwnSafe d self t) (hsorted : QueuesSorted d)
    (hdue : ∃ host ∈ candidates (roundStart d t b) t, DueEvent d host b) :
    ∃ d1 ev, pop d self b = .returned d1 (some ev) ∧ ev.time < b := by
  have hmap : d.threadToThreadDataMap self = some t := by
    obtain ⟨hmap, _, _, _, _⟩ := hs
    exact hmap
  have hlt : t < d.threadList.length := by
    obtain ⟨_, _, hplaced, _, _⟩ := hs
    exact hplaced.map_lt self t hmap
  obtain ⟨d2, r, hown⟩ := popFromThread_returns (roundStart d t b) self t b
    (OwnSafe_roundStart d self t b hs)
  cases r with
  | none =>
    exfalso
    obtain ⟨host, hmem, qdata, ev, hq, hev, hlt2⟩ := hdue
    obtain ⟨q2, hq2, hhead⟩ := popFromThread_none_candidates _ d2 self t b hown host hmem
    rw [(roundStart_fields d t b).1, hq] at hq2
    injection hq2 with hq2
    subst hq2
    have := head_le_of_sorted qdata.pq (hsorted host qdata hq) b hhead ev hev
    omega
  | some ev =>
    have hpop : pop d self b = .returned d2 (some ev) := by
      unfold pop
      rw [hmap]
      simp only [List.getElem?_eq_getElem hlt, hown]
    exact ⟨d2, ev, hpop, pop_event_time_lt d d2 self b ev hpop⟩

theorem processedHostRun_reachable :
    ReachableOnce (processedHostRun.getD schedulerpolicyhoststeal_new) :=
  ReachableBy.push _ _ 1 (localEvent 0 5 0) 0 0 15
    (ReachableBy.popReturned _ _ 1 15 none
      (ReachableBy.addHost _ 1 0 0 ReachableBy.init (fun _ => rfl)) rfl) rfl

theorem lateEventRun_reachable :
    ReachableOnce (lateEventRun.getD schedulerpolicyhoststeal_new) :=
  ReachableBy.push _ _ 1 (localEvent 1 3 0) 0 0 10
    (ReachableBy.popReturned _ _ 1 10 (some (localEvent 0 5 0))
      (ReachableBy.push _ _ 1 (localEvent 0 5 0) 0 0 0
        (ReachableBy.addHost _ 1 0 0 ReachableBy.init (fun _ => rfl)) rfl) rfl) rfl

/-- C10 as stated fails.  With a single worker whose host 0 was retired to
`processedHosts` in the round with barrier 15, a local event of time 5 pushed
to host 0 is not found by the next `pop 15`, which returns NULL although an
assigned host has an event below the barrier.  And when the running host 0
holds an event of time 3 after the event of time 5 was popped, `pop 10` does
not return an event either: it stops at the assertion. -/
theorem pop_null_despite_due_event :
    (ReachableOnce (processedHostRun.getD schedulerpolicyhoststeal_new) ∧
      (processedHostRun.getD schedulerpolicyhoststeal_new).threadList.length = 1 ∧
      (∃ td, lookupThreadData (processedHostRun.getD schedulerpolicyhoststeal_new) 1 = some td ∧
        0 ∈ td.processedHosts) ∧
      DueEvent (processedHostRun.getD schedulerpolicyhoststeal_new) 0 15 ∧
      pop (processedHostRun.getD schedulerpolicyhoststeal_new) 1 15 =
        .returned (processedHostRun.getD schedulerpolicyhoststeal_new) none) ∧
    (ReachableOnce (lateEventRun.getD schedulerpolicyhoststeal_new) ∧
      (lateEventRun.getD schedulerpolicyhoststeal_new).threadList.length = 1 ∧
      runningHostOf (lateEventRun.getD schedulerpolicyhoststeal_new) 1 = some 0 ∧
      DueEvent (lateEventRun.getD schedulerpolicyhoststeal_new) 0 10 ∧
      pop (lateEventRun.getD schedulerpolicyhoststeal_new) 1 10 = .aborted) := by
  refine ⟨⟨processedHostRun_reachable, rfl, ⟨_, rfl, by decide⟩, ?_, rfl⟩,
    ⟨lateEventRun_reachable, rfl, rfl, ?_, rfl⟩⟩
  · exact ⟨_, localEvent 0 5 0, rfl, by decide, by decide⟩
  · exact ⟨_, localEvent 1 3 0, rfl, by decide, by decide⟩

/-- C10 (amended): in every reachable state (`addHost` at most once per host),
for a caller with a slot, with one worker or more, the hosts that `pop b`
examines for the caller are its running host and its `unprocessedHosts` as
they are after the round start: all its assigned hosts when `b` exceeds its
`currentBarrier`, and not its `processedHosts` otherwise.  `pop b` returns NULL
only if none of these hosts has a queued event with time below `b`; and if
one of them has such an event and no queue holds an event earlier than its
`lastEventTime`, `pop b` returns an event with time below `b`. -/
theorem own_host_completeness (d : HostStealPolicyData) (self : Thread) (b t : Nat)
    (hr : ReachableOnce d) (hmap : d.threadToThreadDataMap self = some t) :
    (∀ d1, pop d self b = .returned d1 none →
      ∀ host ∈ candidates (roundStart d t b) t, ¬ DueEvent d host b) ∧
    (QueuesMonotone d → (∃ host ∈ candidates (roundStart d t b) t, DueEvent d host b) →
      ∃ d1 ev, pop d self b = .returned d1 (some ev) ∧ ev.time < b) ∧
    (∀ td, d.threadList[t]? = some td →
      (td.currentBarrier < b → candidates (roundStart d t b) t =
        td.runningHost.toList ++ (td.unprocessedHosts ++ td.processedHosts)) ∧
      (b ≤ td.currentBarrier → candidates (roundStart d t b) t =
        td.runningHost.toList ++ td.unprocessedHosts)) := by
  have hsorted := QueuesSorted_of_reachable true d hr
  obtain ⟨hP, hO⟩ := OwnerInv_of_reachableOnce d hr
  refine ⟨?_, ?_, ?_⟩
  · intro d1 h
    exact pop_none_no_due d d1 self t b hsorted hmap h
  · intro hmono hdue
    exact pop_own_complete d self b t
      ⟨hmap, MapInjective_of_reachableOnce d hr, hP, hO, hmono⟩ hsorted hdue
  · intro td ht
    exact candidates_roundStart d t b td ht

theorem rotationRun_monotone :
    QueuesMonotone (rotationRun.getD schedulerpolicyhoststeal_new) := by
  intro host qdata ev hq hev
  by_cases hh : host = 0
  · subst hh
    have h0 : (rotationRun.getD schedulerpolicyhoststeal_new).hostToQueueDataMap 0 =
        some (HostStealQueueData.mk
          [localEvent 0 10 0, localEvent 1 20 0, localEvent 2 30 0] 0 3 0) := rfl
    rw [h0] at hq
    injection hq with hq
    subst hq
    exact Nat.zero_le _
  · have h1 : (rotationRun.getD schedulerpolicyhoststeal_new).hostToQueueDataMap host = none := by
      have h2 : (rotationRun.getD schedulerpolicyhoststeal_new).hostToQueueDataMap =
          Function.update (Function.update (Function.update (Function.update (fun _ => none)
            0 (some hoststealqueuedata_new))
            0 (some (HostStealQueueData.mk [localEvent 0 10 0] 0 1 0)))
            0 (some (HostStealQueueData.mk [localEvent 0 10 0, localEvent 1 20 0] 0 2 0)))
            0 (some (HostStealQueueData.mk
              [localEvent 0 10 0, localEvent 1 20 0, localEvent 2 30 0] 0 3 0)) := rfl
      rw [h2, Function.update_noteq hh, Function.update_noteq hh, Function.update_noteq hh,
        Function.update_noteq hh]
    rw [h1] at hq
    exact absurd hq (by simp)

/-- C10 (amended) on the rotation scenario: host 0 holds events at 10, 20, 30
and the first `pop 15` of thread 1 returns an event. -/
theorem own_host_completeness_witness :
    ∃ d1 ev, pop (rotationRun.getD schedulerpolicyhoststeal_new) 1 15 = .returned d1 (some ev) ∧
      ev.time < 15 :=
  (own_host_completeness (rotationRun.getD schedulerpolicyhoststeal_new) 1 15 0
    (ReachableBy.push _ _ 1 (localEvent 2 30 0) 0 0 0
      (ReachableBy.push _ _ 1 (localEvent 1 20 0) 0 0 0
        (ReachableBy.push _ _ 1 (localEvent 0 10 0) 0 0 0
          (ReachableBy.addHost _ 1 0 0 ReachableBy.init (fun _ => rfl))
          rfl) rfl) rfl)
    rfl).2.1
    rotationRun_monotone
    ⟨0, by decide, _, localEvent 0 10 0, rfl, by decide, by decide⟩

theorem addHost_registered (d : HostStealPolicyData) (self : Thread) (host : Host)
    (thread : Thread) : ∃ qdata, (addHost d self host thread).hostToQueueDataMap host = some qdata := by
  rw [addHost_hostToQueueDataMap]
  cases hq : d.hostToQueueDataMap host with
  | none => exact ⟨hoststealqueuedata_new, by simp only [Function.update_same]⟩
  | some q => exact ⟨q, hq⟩

/-- `addHost` for a target thread that has a slot which does not run the host:
the host goes to the tail of the slot's `unprocessedHosts`. -/
theorem addHost_threadList_append (d : HostStealPolicyData) (self : Thread) (host : Host)
    (thread : Thread) (t : Nat) (td : HostStealThreadData)
    (hm : d.threadToThreadDataMap (targetThread self thread) = some t)
    (ht : d.threadList[t]? = some td) (hrun : td.runningHost ≠ some host) :
    (addHost d self host thread).threadList =
      d.threadList.set t { td with unprocessedHosts := td.unprocessedHosts ++ [host] } := by
  rw [addHost_threadList_of_some d self host thread t hm, ht]
  have : some host ≠ td.runningHost := fun h => hrun h.symm
  simp only [this, ne_eq, not_false_eq_true, ite_true]

/-- `addHost` for a target thread whose slot runs the host: no list changes. -/
theorem addHost_threadList_running (d : HostStealPolicyData) (self : Thread) (host : Host)
    (thread : Thread) (t : Nat) (td : HostStealThreadData)
    (hm : d.threadToThreadDataMap (targetThread self thread) = some t)
    (ht : d.threadList[t]? = some td) (hrun : td.runningHost = some host) :
    (addHost d self host thread).threadList = d.threadList := by
  rw [addHost_threadList_of_some d self host thread t hm, ht]
  simp only [hrun, ne_eq, not_true_eq_false, ite_false]

/-- C14 (add_host postcondition): `addHost host thread` targets the caller when
`thread = 0` and `thread` otherwise; afterwards the host has a queue and its
owner entry is the target thread.  If the target had no slot, a slot is
created whose `unprocessedHosts` is `[host]`; if it has a slot, the host is
appended once to the tail of that slot's `unprocessedHosts` unless it is the
slot's running host, in which case no list changes.  A second call appends
again, leaving two more occurrences than before the first. -/
theorem addHost_postcondition (d : HostStealPolicyData) (self : Thread) (host : Host)
    (thread : Thread) :
    (thread = 0 → targetThread self thread = self) ∧
    (thread ≠ 0 → targetThread self thread = thread) ∧
    (∃ qdata, (addHost d self host thread).hostToQueueDataMap host = some qdata) ∧
    (addHost d self host thread).hostToThreadMap host = some (targetThread self thread) ∧
    (d.threadToThreadDataMap (targetThread self thread) = none →
      (addHost d self host thread).threadToThreadDataMap (targetThread self thread) =
        some d.threadList.length ∧
      (addHost d self host thread).threadList = d.threadList ++
        [{ hoststealthreaddata_new with tnumber := d.threadCount, unprocessedHosts := [host] }] ∧
      ∃ td2, (addHost (addHost d self host thread) self host thread).threadList[
          d.threadList.length]? = some td2 ∧ td2.unprocessedHosts = [host, host]) ∧
    (∀ (t : Nat) (td : HostStealThreadData),
      d.threadToThreadDataMap (targetThread self thread) = some t →
      d.threadList[t]? = some td →
      (addHost d self host thread).threadToThreadDataMap (targetThread self thread) = some t ∧
      (td.runningHost = some host → (addHost d self host thread).threadList = d.threadList) ∧
      (td.runningHost ≠ some host →
        (addHost d self host thread).threadList =
          d.threadList.set t { td with unprocessedHosts := td.unprocessedHosts ++ [host] } ∧
        (addHost (addHost d self host thread) self host thread).threadList =
          d.threadList.set t
            { td with unprocessedHosts := td.unprocessedHosts ++ [host] ++ [host] })) := by
  refine ⟨?_, ?_, addHost_registered d self host thread, ?_, ?_, ?_⟩
  · intro h
    simp [targetThread, h]
  · intro h
    simp [targetThread, h]
  · rw [addHost_hostToThreadMap, Function.update_same]
    rfl
  · intro hm
    have hl := addHost_threadList_of_none d self host thread hm
    have hm1 : (addHost d self host thread).threadToThreadDataMap (targetThread self thread) =
        some d.threadList.length := by
      rw [addHost_threadToThreadDataMap]
      unfold targetThread at hm
      rw [hm]
      simp only [targetThread, Function.update_same]
    refine ⟨hm1, hl, ?_⟩
    have hslot : (addHost d self host thread).threadList[d.threadList.length]? =
        some { hoststealthreaddata_new with
          tnumber := d.threadCount, unprocessedHosts := [host] } := by
      rw [hl, List.getElem?_concat_length]
    have h2 := addHost_threadList_append (addHost d self host thread) self host thread
      d.threadList.length _ hm1 hslot (by simp [hoststealthreaddata_new])
    refine ⟨{ hoststealthreaddata_new with
      tnumber := d.threadCount, unprocessedHosts := [host, host] }, ?_, rfl⟩
    rw [h2, List.getElem?_set_self]
    · rfl
    · rw [hl, List.length_append, List.length_singleton]
      omega
  · intro t td hm ht
    have hm1 : (addHost d self host thread).threadToThreadDataMap (targetThread self thread) =
        some t := by
      rw [addHost_threadToThreadDataMap]
      unfold targetThread at hm
      rw [hm]
      exact hm
    refine ⟨hm1, addHost_threadList_running d self host thread t td hm ht, ?_⟩
    intro hrun
    have h1 := addHost_threadList_append d self host thread t td hm ht hrun
    refine ⟨h1, ?_⟩
    have hlt : t < d.threadList.length := (List.getElem?_eq_some.1 ht).1
    have hslot : (addHost d self host thread).threadList[t]? =
        some { td with unprocessedHosts := td.unprocessedHosts ++ [host] } := by
      rw [h1, List.getElem?_set_self hlt]
    rw [addHost_threadList_append (addHost d self host thread) self host thread t _ hm1 hslot
      hrun, h1, List.set_set]

/-- C15 (add_host is idempotent on the queue): if the host has a queue,
`addHost` leaves the queue map as it is, so that queue and every other queue
keep their events, order, `lastEventTime`, `nPushed` and `nPopped`; if it has
none, the new queue is empty with `lastEventTime = 0` and `nPushed = nPopped = 0`
and no other host's queue changes. -/
theorem addHost_queue_idempotent (d : HostStealPolicyData) (self : Thread) (host : Host)
    (thread : Thread) :
    (∀ qdata, d.hostToQueueDataMap host = some qdata →
      (addHost d self host thread).hostToQueueDataMap = d.hostToQueueDataMap ∧
      (addHost d self host thread).hostToQueueDataMap host = some qdata) ∧
    (d.hostToQueueDataMap host = none →
      (addHost d self host thread).hostToQueueDataMap host =
        some { pq := [], lastEventTime := 0, nPushed := 0, nPopped := 0 }) ∧
    (∀ other, other ≠ host →
      (addHost d self host thread).hostToQueueDataMap other = d.hostToQueueDataMap other) ∧
    (∀ qdata, d.hostToQueueDataMap host = some qdata →
      (addHost (addHost d self host thread) self host thread).hostToQueueDataMap host
        = some qdata) := by
  refine ⟨?_, ?_, ?_, ?_⟩
  · intro qdata hq
    have : (addHost d self host thread).hostToQueueDataMap = d.hostToQueueDataMap := by
      rw [addHost_hostToQueueDataMap, hq]
    exact ⟨this, by rw [this]; exact hq⟩
  · intro hq
    rw [addHost_hostToQueueDataMap, hq]
    simp only [Function.update_same]
    rfl
  · intro other hne
    rw [addHost_hostToQueueDataMap]
    cases hq : d.hostToQueueDataMap host with
    | none => simp only [Function.update_noteq hne]
    | some q => rfl
  · intro qdata hq
    have h1 : (addHost d self host thread).hostToQueueDataMap = d.hostToQueueDataMap := by
      rw [addHost_hostToQueueDataMap, hq]
    have h2 : (addHost d self host thread).hostToQueueDataMap host = some qdata := by
      rw [h1]
      exact hq
    rw [addHost_hostToQueueDataMap, h2]
    exact h2

theorem Reachable_step (d d1 : HostStealPolicyData) (h : Reachable d) (hs : Step d d1) :
    Reachable d1 := by
  cases hs with
  | addHost self host thread => exact ReachableBy.addHost d self host thread h (fun hc => absurd hc (by simp))
  | push d1 self event srcHost dstHost barrier hp =>
    exact ReachableBy.push d d1 self event srcHost dstHost barrier h hp
  | popReturned d1 self barrier r hp => exact ReachableBy.popReturned d d1 self barrier r h hp
  | popSpinning d1 self barrier hp => exact ReachableBy.popSpinning d d1 self barrier h hp
  | getHosts self => exact ReachableBy.getHosts d self h

theorem Step_length_le (d d1 : HostStealPolicyData) (hs : Step d d1) :
    d.threadList.length ≤ d1.threadList.length := by
  cases hs with
  | addHost self host thread =>
    cases hm : d.threadToThreadDataMap (if thread ≠ 0 then thread else self) with
    | none =>
      rw [addHost_threadList_of_none d self host thread hm, List.length_append]
      omega
    | some t =>
      rw [addHost_threadList_of_some d self host thread t hm]
      split
      · exact Nat.le_refl _
      · split
        · rw [List.length_set]
        · exact Nat.le_refl _
  | push d1 self event srcHost dstHost barrier hp =>
    obtain ⟨_, _, _, hl, _⟩ := push_hostToQueueDataMap d d1 self event srcHost dstHost barrier hp
    rw [hl]
  | popReturned d1 self barrier r hp =>
    obtain ⟨_, _, _, hl, _⟩ := pop_placements d self barrier d1 (Or.inl ⟨r, hp⟩)
    rw [hl]
  | popSpinning d1 self barrier hp =>
    obtain ⟨_, _, _, hl, _⟩ := pop_placements d self barrier d1 (Or.inr hp)
    rw [hl]
  | getHosts self =>
    rw [(getHosts_fields d self).2.2.2.2]

theorem map_tnumber_eq_range (l : List HostStealThreadData)
    (h : ∀ (k : Nat) (td : HostStealThreadData), l[k]? = some td → td.tnumber = k) :
    l.map (fun td => td.tnumber) = List.range l.length := by
  apply List.ext_getElem?
  intro k
  rw [List.getElem?_map]
  by_cases hk : k < l.length
  · rw [List.getElem?_eq_getElem hk, List.getElem?_range hk]
    simp only [Option.map_some', Option.some.injEq]
    exact h k _ (List.getElem?_eq_getElem hk)
  · rw [List.getElem?_eq_none (Nat.le_of_not_lt hk),
      List.getElem?_eq_none (by rw [List.length_range]; exact Nat.le_of_not_lt hk)]
    rfl

/-- C16 (worker indices are dense and stable): `addHost` creates a slot exactly
when its target thread has none, at the end of `threadList` and with
`tnumber` the number of slots that existed; no other call changes the number of
slots.  In every reachable state `threadCount` is the length of `threadList`,
the slot at position `k` has `tnumber = k`, so the indices are `0..n-1` without
repetition, and every call leaves each existing slot in place with its
`tnumber`. -/
theorem worker_indices_dense :
    (∀ d, Reachable d →
      d.threadCount = d.threadList.length ∧
      (∀ (k : Nat) (td : HostStealThreadData), d.threadList[k]? = some td → td.tnumber = k) ∧
      d.threadList.map (fun td => td.tnumber) = List.range d.threadCount ∧
      (d.threadList.map (fun td => td.tnumber)).Nodup) ∧
    (∀ d self host thread, d.threadToThreadDataMap (targetThread self thread) = none →
      (addHost d self host thread).threadList = d.threadList ++
        [{ hoststealthreaddata_new with tnumber := d.threadCount, unprocessedHosts := [host] }] ∧
      (addHost d self host thread).threadCount = d.threadCount + 1 ∧
      (addHost d self host thread).threadToThreadDataMap (targetThread self thread) =
        some d.threadList.length) ∧
    (∀ d self host thread t, d.threadToThreadDataMap (targetThread self thread) = some t →
      (addHost d self host thread).threadList.length = d.threadList.length ∧
      (addHost d self host thread).threadCount = d.threadCount ∧
      (addHost d self host thread).threadToThreadDataMap = d.threadToThreadDataMap) ∧
    (∀ d d1 self event srcHost dstHost barrier,
      push d self event srcHost dstHost barrier = some d1 →
      d1.threadList.length = d.threadList.length ∧ d1.threadCount = d.threadCount) ∧
    (∀ d d1 self barrier,
      ((∃ r, pop d self barrier = .returned d1 r) ∨ pop d self barrier = .spinning d1) →
      d1.threadList.length = d.threadList.length ∧ d1.threadCount = d.threadCount) ∧
    (∀ d self, (getHosts d self).2.threadList.length = d.threadList.length ∧
      (getHosts d self).2.threadCount = d.threadCount) ∧
    (∀ d d1, Reachable d → Step d d1 →
      ∀ (k : Nat) (td : HostStealThreadData), d.threadList[k]? = some td →
        ∃ td1, d1.threadList[k]? = some td1 ∧ td1.tnumber = td.tnumber) := by
  refine ⟨?_, ?_, ?_, ?_, ?_, ?_, ?_⟩
  · intro d hr
    have hI := Indexed_of_reachable false d hr
    have hmap := map_tnumber_eq_range d.threadList hI.tnumber_eq
    refine ⟨hI.count_eq, hI.tnumber_eq, by rw [hmap, hI.count_eq], ?_⟩
    rw [hmap]
    exact List.nodup_range _
  · intro d self host thread hm
    have hm1 : d.threadToThreadDataMap (if thread ≠ 0 then thread else self) = none := hm
    refine ⟨addHost_threadList_of_none d self host thread hm1, ?_, ?_⟩
    · rw [addHost_threadCount, hm1]
    · rw [addHost_threadToThreadDataMap, hm1]
      simp only [targetThread, Function.update_same]
  · intro d self host thread t hm
    have hm1 : d.threadToThreadDataMap (if thread ≠ 0 then thread else self) = some t := hm
    refine ⟨?_, ?_, ?_⟩
    · rw [addHost_threadList_of_some d self host thread t hm1]
      split
      · rfl
      · split
        · rw [List.length_set]
        · rfl
    · rw [addHost_threadCount, hm1]
    · rw [addHost_threadToThreadDataMap, hm1]
  · intro d d1 self event srcHost dstHost barrier hp
    obtain ⟨_, _, _, hl, hc, _⟩ := push_hostToQueueDataMap d d1 self event srcHost dstHost barrier hp
    exact ⟨by rw [hl], hc⟩
  · intro d d1 self barrier hp
    obtain ⟨_, _, _, hl, hc⟩ := pop_placements d self barrier d1 hp
    exact ⟨hl, hc⟩
  · intro d self
    exact ⟨(getHosts_fields d self).2.2.2.2, (getHosts_fields d self).2.2.2.1⟩
  · intro d d1 hr hs k td hk
    have hI := Indexed_of_reachable false d hr
    have hI1 := Indexed_of_reachable false d1 (Reachable_step d d1 hr hs)
    have hlt : k < d1.threadList.length :=
      Nat.lt_of_lt_of_le (List.getElem?_eq_some.1 hk).1 (Step_length_le d d1 hs)
    refine ⟨d1.threadList[k], List.getElem?_eq_getElem hlt, ?_⟩
    rw [hI.tnumber_eq k td hk, hI1.tnumber_eq k _ (List.getElem?_eq_getElem hlt)]

/-- C14 on a concrete call: host 11 is added for the caller, thread 1, whose
slot 0 holds host 10 and runs nothing. -/
theorem addHost_postcondition_witness :
    (addHost (addHost schedulerpolicyhoststeal_new 1 10 0) 1 11 0).threadList =
      (addHost schedulerpolicyhoststeal_new 1 10 0).threadList.set 0
        { allHosts := none, unprocessedHosts := [10] ++ [11], processedHosts := [],
          runningHost := none, currentBarrier := 0, tnumber := 0, isStealable := false } ∧
    (addHost (addHost (addHost schedulerpolicyhoststeal_new 1 10 0) 1 11 0) 1 11 0).threadList =
      (addHost schedulerpolicyhoststeal_new 1 10 0).threadList.set 0
        { allHosts := none, unprocessedHosts := [10] ++ [11] ++ [11], processedHosts := [],
          runningHost := none, currentBarrier := 0, tnumber := 0, isStealable := false } :=
  ((addHost_postcondition (addHost schedulerpolicyhoststeal_new 1 10 0) 1 11 0).2.2.2.2.2 0
    { allHosts := none, unprocessedHosts := [10], processedHosts := [],
      runningHost := none, currentBarrier := 0, tnumber := 0, isStealable := false }
    rfl rfl).2.2 (by decide)

/-- C15 on the single-host scenario: adding host 10 again, for thread 2, keeps
its queue with the three events. -/
theorem addHost_queue_idempotent_witness :
    (addHost (singleHostRun.getD schedulerpolicyhoststeal_new) 1 10 2).hostToQueueDataMap =
      (singleHostRun.getD schedulerpolicyhoststeal_new).hostToQueueDataMap ∧
    (addHost (singleHostRun.getD schedulerpolicyhoststeal_new) 1 10 2).hostToQueueDataMap 10 =
      some { pq := [localEvent 1 3 10, localEvent 0 5 10, localEvent 2 7 10],
             lastEventTime := 0, nPushed := 3, nPopped := 0 } :=
  (addHost_queue_idempotent (singleHostRun.getD schedulerpolicyhoststeal_new) 1 10 2).1
    { pq := [localEvent 1 3 10, localEvent 0 5 10, localEvent 2 7 10],
      lastEventTime := 0, nPushed := 3, nPopped := 0 } rfl

/-- C16 on the steal scenario, which has the two slots of threads 1 and 2. -/
theorem worker_indices_dense_witness :
    (emptyStealRun.getD schedulerpolicyhoststeal_new).threadCount =
      (emptyStealRun.getD schedulerpolicyhoststeal_new).threadList.length ∧
    (∀ (k : Nat) (td : HostStealThreadData),
      (emptyStealRun.getD schedulerpolicyhoststeal_new).threadList[k]? = some td →
      td.tnumber = k) ∧
    (emptyStealRun.getD schedulerpolicyhoststeal_new).threadList.map (fun td => td.tnumber) =
      List.range (emptyStealRun.getD schedulerpolicyhoststeal_new).threadCount ∧
    ((emptyStealRun.getD schedulerpolicyhoststeal_new).threadList.map
      (fun td => td.tnumber)).Nodup :=
  worker_indices_dense.1 (emptyStealRun.getD schedulerpolicyhoststeal_new)
    (ReachableBy.popReturned _ _ 2 10 none
      (ReachableBy.popReturned _ _ 1 10 (some (localEvent 0 1 0))
        (ReachableBy.push _ _ 1 (localEvent 0 1 0) 0 0 0
          (ReachableBy.addHost _ 1 2 2
            (ReachableBy.addHost _ 1 1 1
              (ReachableBy.addHost _ 1 0 1 ReachableBy.init (fun h => absurd h (by decide)))
              (fun h => absurd h (by decide)))
            (fun h => absurd h (by decide)))
          rfl) rfl) rfl)

theorem pop_running_not_listed (d d1 : HostStealPolicyData) (self : Thread) (barrier : Nat)
    (ev : Event) (host : Host) (hr : ReachableOnce d)
    (hp : pop d self barrier = .returned d1 (some ev))
    (hrun : runningHostOf d1 self = some host) :
    ∀ (k : Nat) (td1 : HostStealThreadData), d1.threadList[k]? = some td1 →
      host ∉ td1.unprocessedHosts ∧ host ∉ td1.processedHosts := by
  have hP1 := Placed_of_reachableOnce d1 (ReachableBy.popReturned d d1 self barrier _ hr hp)
  obtain ⟨t, host1, _, _, tdata1, _, hmap1, htd1, hrun1, _⟩ :=
    (pop_queue_effect d self barrier).2.2 d1 ev hp
  rw [runningHostOf_eq d1 self t tdata1 hmap1 htd1, hrun1] at hrun
  injection hrun with hrun
  subst hrun
  intro k td1 hk
  by_cases hkt : k = t
  · subst hkt
    rw [htd1] at hk
    injection hk with hk
    subst hk
    exact Placed_running_not_listed d1 hP1 k tdata1 host1 htd1 hrun1
  · have hmem : host1 ∈ slotHosts tdata1 := by
      simp [slotHosts, hrun1]
    have := Placed_slots_disjoint d1 hP1 t k tdata1 td1 host1 (fun hh => hkt hh.symm)
      htd1 hk hmem
    constructor
    · intro hc
      apply this
      simp [slotHosts, hc]
    · intro hc
      apply this
      simp [slotHosts, hc]

/-- C19 (migrate_host is a no-op when already owned): if the owner entry of the
host is already the given thread, `migrateHost` returns the state unchanged.
Consequently, in a reachable state, a `pop` that returns an event of a host
the caller already owns leaves the owner map as it was, and the host, which
is the caller's running host, is in no worker's `unprocessedHosts` or
`processedHosts` afterwards. -/
theorem migrateHost_noop_when_owned :
    (∀ (d : HostStealPolicyData) (self : Thread) (host : Host) (thread : Thread),
      d.hostToThreadMap host = some thread → migrateHost d self host thread = some d) ∧
    (∀ (d d1 : HostStealPolicyData) (self : Thread) (barrier : Nat) (ev : Event) (host : Host),
      ReachableOnce d → pop d self barrier = .returned d1 (some ev) →
      runningHostOf d1 self = some host → d.hostToThreadMap host = some self →
      d1.hostToThreadMap = d.hostToThreadMap ∧
      ∀ (k : Nat) (td1 : HostStealThreadData), d1.threadList[k]? = some td1 →
        host ∉ td1.unprocessedHosts ∧ host ∉ td1.processedHosts) := by
  constructor
  · intro d self host thread h
    unfold migrateHost
    simp only [h, Option.getD_some, ite_true]
  · intro d d1 self barrier ev host hr hp hrun hown
    refine ⟨?_, pop_running_not_listed d d1 self barrier ev host hr hp hrun⟩
    obtain ⟨hP, hO⟩ := OwnerInv_of_reachableOnce d hr
    obtain ⟨_, host1, hrun1, hmap⟩ := (pop_owner d self barrier hP hO).2.2 d1 ev hp
    rw [hrun] at hrun1
    injection hrun1 with hrun1
    subst hrun1
    rw [hmap, ← hown, Function.update_eq_self]

/-- C19 on the single-host scenario: host 10 is owned by thread 1, which pops
its first event. -/
theorem migrateHost_noop_when_owned_witness :
    migrateHost (singleHostRun.getD schedulerpolicyhoststeal_new) 1 10 1 =
      some (singleHostRun.getD schedulerpolicyhoststeal_new) :=
  migrateHost_noop_when_owned.1 (singleHostRun.getD schedulerpolicyhoststeal_new) 1 10 1 rfl

theorem ReachableWithout_map (idle : Thread) (d : HostStealPolicyData)
    (h : ReachableWithout idle d) : d.threadToThreadDataMap idle = none := by
  induction h with
  | init => rfl
  | addHost d self host thread _ hne ih =>
    rw [addHost_threadToThreadDataMap]
    have hne1 : idle ≠ (if thread ≠ 0 then thread else self) := fun hh => hne hh.symm
    split
    · rw [Function.update_noteq hne1]
      exact ih
    · exact ih
  | push d d1 self event srcHost dstHost barrier _ hp ih =>
    obtain ⟨_, _, _, _, _, hm, _⟩ :=
      push_hostToQueueDataMap d d1 self event srcHost dstHost barrier hp
    rw [hm]
    exact ih
  | popReturned d d1 self barrier r _ hp ih =>
    obtain ⟨_, _, hm, _⟩ := pop_placements d self barrier d1 (Or.inl ⟨r, hp⟩)
    rw [hm]
    exact ih
  | popSpinning d d1 self barrier _ hp ih =>
    obtain ⟨_, _, hm, _⟩ := pop_placements d self barrier d1 (Or.inr hp)
    rw [hm]
    exact ih
  | getHosts d self _ ih =>
    rw [(getHosts_fields d self).2.2.1]
    exact ih

/-- C20 (a thread without a worker slot is idle): a thread that was never the
target of `addHost` has no slot; for a thread without a slot `pop b` returns
NULL for every `b`, `getNextTime` returns `SIMTIME_MAX` and `getHosts` returns
NULL, and the three calls leave the whole state (queues, host lists,
barriers, stealable flags, maps) as it is, so no host is stolen. -/
theorem idle_thread :
    (∀ (idle : Thread) (d : HostStealPolicyData), ReachableWithout idle d →
      d.threadToThreadDataMap idle = none) ∧
    (∀ (d : HostStealPolicyData) (self : Thread), d.threadToThreadDataMap self = none →
      (∀ b, pop d self b = .returned d none) ∧
      getNextTime d self = some SIMTIME_MAX ∧
      getHosts d self = (none, d)) := by
  refine ⟨ReachableWithout_map, ?_⟩
  intro d self hmap
  refine ⟨?_, ?_, ?_⟩
  · intro b
    simp only [pop, hmap]
  · simp only [getNextTime, lookupThreadData, hmap]
  · simp only [getHosts, hmap]

/-- C20 on the single-host scenario: thread 2 has no slot there. -/
theorem idle_thread_witness :
    (∀ b, pop (singleHostRun.getD schedulerpolicyhoststeal_new) 2 b =
      .returned (singleHostRun.getD schedulerpolicyhoststeal_new) none) ∧
    getNextTime (singleHostRun.getD schedulerpolicyhoststeal_new) 2 = some SIMTIME_MAX ∧
    getHosts (singleHostRun.getD schedulerpolicyhoststeal_new) 2 =
      (none, singleHostRun.getD schedulerpolicyhoststeal_new) :=
  idle_thread.2 (singleHostRun.getD schedulerpolicyhoststeal_new) 2 rfl

theorem foldl_min_spec (l : List Nat) :
    ∀ (a : Nat), l.foldl min a ≤ a ∧ (∀ x ∈ l, l.foldl min a ≤ x) ∧
      (l.foldl min a = a ∨ l.foldl min a ∈ l) := by
  induction l with
  | nil =>
    intro a
    simp
  | cons y ys ih =>
    intro a
    obtain ⟨h1, h2, h3⟩ := ih (min a y)
    simp only [List.foldl_cons]
    refine ⟨?_, ?_, ?_⟩
    · have := Nat.min_le_left a y
      omega
    · intro x hx
      rcases List.mem_cons.1 hx with hh | hh
      · subst hh
        have := Nat.min_le_right a x
        omega
      · exact h2 x hh
    · rcases h3 with h3 | h3
      · rw [h3]
        by_cases hay : a ≤ y
        · left
          exact Nat.min_eq_left hay
        · right
          rw [Nat.min_eq_right (Nat.le_of_not_le hay)]
          exact List.mem_cons_self _ _
      · right
        exact List.mem_cons_of_mem _ h3

theorem mem_headTimes (d : HostStealPolicyData) (hosts : List Host) (x : Nat) :
    x ∈ headTimes d hosts ↔
      ∃ host ∈ hosts, ∃ qdata ev, d.hostToQueueDataMap host = some qdata ∧
        qdata.pq.head? = some ev ∧ ev.time = x := by
  unfold headTimes
  rw [List.mem_filterMap]
  constructor
  · rintro ⟨host, hmem, hh⟩
    unfold headTime at hh
    split at hh
    · exact absurd hh (by simp)
    · rename_i qdata hq
      cases hhead : qdata.pq.head? with
      | none =>
        rw [hhead] at hh
        exact absurd hh (by simp)
      | some ev =>
        rw [hhead] at hh
        simp only [Option.map_some', Option.some.injEq] at hh
        exact ⟨host, hmem, qdata, ev, hq, hhead, hh⟩
  · rintro ⟨host, hmem, qdata, ev, hq, hhead, hx⟩
    refine ⟨host, hmem, ?_⟩
    unfold headTime
    rw [hq]
    simp only [hhead, Option.map_some', hx]

theorem foreachMinTime_eq (d : HostStealPolicyData) :
    ∀ (hosts : List Host) (acc : Nat),
      (∀ host ∈ hosts, ∃ qdata, d.hostToQueueDataMap host = some qdata) →
      foreachMinTime d hosts acc = some ((headTimes d hosts).foldl min acc) := by
  intro hosts
  induction hosts with
  | nil =>
    intro acc _
    rfl
  | cons host rest ih =>
    intro acc hreg
    obtain ⟨qdata, hq⟩ := hreg host (List.mem_cons_self _ _)
    have hrest : ∀ h ∈ rest, ∃ q, d.hostToQueueDataMap h = some q :=
      fun h hh => hreg h (List.mem_cons_of_mem _ hh)
    unfold foreachMinTime findMinTime
    rw [hq]
    simp only [priorityqueue_peek]
    cases hhead : qdata.pq.head? with
    | none =>
      simp only []
      rw [ih acc hrest]
      unfold headTimes
      rw [List.filterMap_cons]
      simp only [headTime, hq, hhead, Option.map_none']
    | some ev =>
      simp only []
      rw [ih _ hrest]
      unfold headTimes
      rw [List.filterMap_cons]
      simp only [headTime, hq, hhead, Option.map_some', List.foldl_cons, event_getTime]

/-- The value of `getNextTime` for a caller with a slot whose listed hosts have
queues. -/
theorem getNextTime_eq (d : HostStealPolicyData) (self : Thread) (t : Nat)
    (td : HostStealThreadData) (hmap : d.threadToThreadDataMap self = some t)
    (ht : d.threadList[t]? = some td)
    (hreg : ∀ host ∈ td.unprocessedHosts ++ td.processedHosts,
      ∃ qdata, d.hostToQueueDataMap host = some qdata) :
    getNextTime d self =
      some ((headTimes d (td.unprocessedHosts ++ td.processedHosts)).foldl min SIMTIME_MAX) := by
  unfold getNextTime lookupThreadData
  rw [hmap]
  simp only [ht]
  rw [foreachMinTime_eq d td.unprocessedHosts SIMTIME_MAX
    (fun h hh => hreg h (List.mem_append_left _ hh))]
  simp only []
  rw [foreachMinTime_eq d td.processedHosts _
    (fun h hh => hreg h (List.mem_append_right _ hh))]
  unfold headTimes
  rw [List.filterMap_append, List.foldl_append]

theorem exists_slot_of_mem_slotsOf (host : Host) :
    ∀ (l : List HostStealThreadData), host ∈ slotsOf l →
      ∃ (k : Nat) (td : HostStealThreadData), l[k]? = some td ∧ host ∈ slotHosts td := by
  intro l
  induction l with
  | nil =>
    intro h
    simp [slotsOf] at h
  | cons x xs ih =>
    intro h
    simp only [slotsOf, List.mem_append] at h
    rcases h with h | h
    · exact ⟨0, x, List.getElem?_cons_zero, h⟩
    · obtain ⟨k, td, hk, hm⟩ := ih h
      exact ⟨k + 1, td, by simpa using hk, hm⟩

/-- The hosts of a slot after `addHost`: those it had, and possibly the added
host. -/
theorem addHost_slotHosts (d : HostStealPolicyData) (self : Thread) (host : Host)
    (thread : Thread) (k : Nat) (td1 : HostStealThreadData) (host1 : Host)
    (hk : (addHost d self host thread).threadList[k]? = some td1)
    (hmem : host1 ∈ slotHosts td1) :
    host1 = host ∨ ∃ td, d.threadList[k]? = some td ∧ host1 ∈ slotHosts td := by
  cases hm : d.threadToThreadDataMap (if thread ≠ 0 then thread else self) with
  | none =>
    rw [addHost_threadList_of_none d self host thread hm] at hk
    by_cases hlt : k < d.threadList.length
    · rw [List.getElem?_append_left hlt] at hk
      exact Or.inr ⟨td1, hk, hmem⟩
    · rw [List.getElem?_append_right (Nat.le_of_not_lt hlt)] at hk
      cases hi : k - d.threadList.length with
      | zero =>
        rw [hi] at hk
        simp only [List.getElem?_cons_zero, Option.some.injEq] at hk
        subst hk
        left
        simpa [slotHosts, hoststealthreaddata_new] using hmem
      | succ i =>
        rw [hi] at hk
        simp at hk
  | some t =>
    rw [addHost_threadList_of_some d self host thread t hm] at hk
    split at hk
    · exact Or.inr ⟨td1, hk, hmem⟩
    · rename_i tdata ht
      split at hk
      · by_cases hkt : k = t
        · subst hkt
          rw [List.getElem?_set_self (List.getElem?_eq_some.1 ht).1] at hk
          injection hk with hk
          subst hk
          simp only [slotHosts, List.mem_append, List.mem_singleton] at hmem
          rcases hmem with ((hmem | hmem) | hmem) | hmem
          · exact Or.inr ⟨tdata, ht, by simp [slotHosts, hmem]⟩
          · exact Or.inl hmem
          · exact Or.inr ⟨tdata, ht, by simp [slotHosts, hmem]⟩
          · exact Or.inr ⟨tdata, ht, by
              simp only [slotHosts, List.mem_append]
              exact Or.inr hmem⟩
        · rw [List.getElem?_set_ne (fun hh => hkt hh.symm)] at hk
          exact Or.inr ⟨td1, hk, hmem⟩
      · exact Or.inr ⟨td1, hk, hmem⟩

theorem Registered_of_reachable (once : Bool) (d : HostStealPolicyData)
    (h : ReachableBy once d) : Registered d := by
  induction h with
  | init =>
    intro k td host hk
    simp [schedulerpolicyhoststeal_new] at hk
  | addHost d self host thread _ _ ih =>
    intro k td1 host1 hk hmem
    rcases addHost_slotHosts d self host thread k td1 host1 hk hmem with hh | ⟨td, hd, hm⟩
    · subst hh
      exact addHost_registered d self host1 thread
    · obtain ⟨q, hq⟩ := ih k td host1 hd hm
      rw [addHost_hostToQueueDataMap]
      cases hq2 : d.hostToQueueDataMap host with
      | none =>
        have hne : host1 ≠ host := by
          intro hh
          rw [hh, hq2] at hq
          exact absurd hq (by simp)
        exact ⟨q, by simp only [Function.update_noteq hne]; exact hq⟩
      | some q2 => exact ⟨q, hq⟩
  | push d d1 self event srcHost dstHost barrier _ hp ih =>
    obtain ⟨qdata, hq, hq1, hl, _⟩ :=
      push_hostToQueueDataMap d d1 self event srcHost dstHost barrier hp
    intro k td host hk hmem
    rw [hl] at hk
    obtain ⟨q, hq2⟩ := ih k td host hk hmem
    rw [hq1]
    by_cases hh : host = dstHost
    · subst hh
      exact ⟨_, Function.update_same _ _ _⟩
    · exact ⟨q, by rw [Function.update_noteq hh]; exact hq2⟩
  | popReturned d d1 self barrier r _ hp ih =>
    obtain ⟨hc, hqs, _⟩ := pop_placements d self barrier d1 (Or.inl ⟨r, hp⟩)
    intro k td host hk hmem
    have h1 := count_slotHosts_le host d1.threadList k td hk
    have h2 := List.count_pos_iff.2 hmem
    have h3 : 0 < (slotsOf d.threadList).count host := by
      have := hc host
      unfold placements at this
      omega
    obtain ⟨k0, td0, hk0, hm0⟩ := exists_slot_of_mem_slotsOf host _ (List.count_pos_iff.1 h3)
    obtain ⟨q, hq⟩ := ih k0 td0 host hk0 hm0
    have := hqs host
    rw [hq] at this
    cases hq1 : d1.hostToQueueDataMap host with
    | none =>
      rw [hq1] at this
      exact absurd this (by simp)
    | some q1 => exact ⟨q1, rfl⟩
  | popSpinning d d1 self barrier _ hp ih =>
    obtain ⟨hc, hqs, _⟩ := pop_placements d self barrier d1 (Or.inr hp)
    intro k td host hk hmem
    have h1 := count_slotHosts_le host d1.threadList k td hk
    have h2 := List.count_pos_iff.2 hmem
    have h3 : 0 < (slotsOf d.threadList).count host := by
      have := hc host
      unfold placements at this
      omega
    obtain ⟨k0, td0, hk0, hm0⟩ := exists_slot_of_mem_slotsOf host _ (List.count_pos_iff.1 h3)
    obtain ⟨q, hq⟩ := ih k0 td0 host hk0 hm0
    have := hqs host
    rw [hq] at this
    cases hq1 : d1.hostToQueueDataMap host with
    | none =>
      rw [hq1] at this
      exact absurd this (by simp)
    | some q1 => exact ⟨q1, rfl⟩
  | getHosts d self _ ih =>
    intro k td1 host hk hmem
    rw [(getHosts_fields d self).1]
    unfold getHosts at hk
    split at hk
    · exact ih k td1 host hk hmem
    · split at hk
      · exact ih k td1 host hk hmem
      · rename_i tdata htd
        split at hk
        · exact ih k td1 host hk hmem
        · split at hk
          · exact ih k td1 host hk hmem
          · rcases setThread_getElem? d _ k tdata _ htd hk with ⟨hkt, rfl⟩ | ⟨_, hk'⟩
            · subst hkt
              exact ih k tdata host htd hmem
            · exact ih k td1 host hk' hmem

theorem singleHostPopped_reachable :
    ReachableOnce ((thenPop singleHostRun 1 10).getD schedulerpolicyhoststeal_new) :=
  ReachableBy.popReturned _ _ 1 10 (some (localEvent 1 3 10))
    (ReachableBy.push _ _ 1 (localEvent 2 7 10) 10 10 0
      (ReachableBy.push _ _ 1 (localEvent 1 3 10) 10 10 0
        (ReachableBy.push _ _ 1 (localEvent 0 5 10) 10 10 0
          (ReachableBy.addHost _ 1 10 0 ReachableBy.init (fun _ => rfl)) rfl) rfl) rfl) rfl

theorem Reachable_of_once (d : HostStealPolicyData) (h : ReachableOnce d) : Reachable d := by
  induction h with
  | init => exact ReachableBy.init
  | addHost d self host thread _ _ ih =>
    exact ReachableBy.addHost d self host thread ih (fun hc => absurd hc (by simp))
  | push d d1 self event srcHost dstHost barrier _ hp ih =>
    exact ReachableBy.push d d1 self event srcHost dstHost barrier ih hp
  | popReturned d d1 self barrier r _ hp ih => exact ReachableBy.popReturned d d1 self barrier r ih hp
  | popSpinning d d1 self barrier _ hp ih => exact ReachableBy.popSpinning d d1 self barrier ih hp
  | getHosts d self _ ih => exact ReachableBy.getHosts d self ih

theorem listed_registered (d : HostStealPolicyData) (hreg : Registered d) (t : Nat)
    (td : HostStealThreadData) (ht : d.threadList[t]? = some td) :
    ∀ host ∈ td.unprocessedHosts ++ td.processedHosts,
      ∃ qdata, d.hostToQueueDataMap host = some qdata := by
  intro host hmem
  apply hreg t td host ht
  simp only [slotHosts, List.mem_append] at hmem ⊢
  exact Or.inl hmem

/-- C11 (get_next_time over the two lists): in a reachable state, for a caller
with a slot, `getNextTime` returns `SIMTIME_MAX` folded with `min` over the head
times of the non-empty queues of the hosts in `unprocessedHosts` and
`processedHosts`: a value that is at most every such head time, which is
`SIMTIME_MAX` when there is no such queue (all queues empty or both lists
empty) and is one of the head times, hence their minimum, when there is one
and the times are valid (at most `SIMTIME_MAX`).  After the events 3, 5, 7 of
the only host have been popped the result is `SIMTIME_MAX`. -/
theorem getNextTime_two_lists :
    (∀ (d : HostStealPolicyData) (self : Thread) (t : Nat) (td : HostStealThreadData),
      Reachable d → d.threadToThreadDataMap self = some t → d.threadList[t]? = some td →
      ∃ m, getNextTime d self = some m ∧
        m = (headTimes d (td.unprocessedHosts ++ td.processedHosts)).foldl min SIMTIME_MAX ∧
        m ≤ SIMTIME_MAX ∧
        (∀ x ∈ headTimes d (td.unprocessedHosts ++ td.processedHosts), m ≤ x) ∧
        (headTimes d (td.unprocessedHosts ++ td.processedHosts) = [] → m = SIMTIME_MAX) ∧
        (headTimes d (td.unprocessedHosts ++ td.processedHosts) ≠ [] →
          (∀ x ∈ headTimes d (td.unprocessedHosts ++ td.processedHosts), x ≤ SIMTIME_MAX) →
          m ∈ headTimes d (td.unprocessedHosts ++ td.processedHosts))) ∧
    (∀ (d : HostStealPolicyData) (hosts : List Host) (x : Nat),
      x ∈ headTimes d hosts ↔
        ∃ host ∈ hosts, ∃ qdata ev, d.hostToQueueDataMap host = some qdata ∧
          qdata.pq.head? = some ev ∧ ev.time = x) ∧
    (singleHostRun.bind (fun d => getNextTime d 1)) = some 3 ∧
    ((thenPop (thenPop (thenPop singleHostRun 1 10) 1 10) 1 10).bind
      (fun d => getNextTime d 1)) = some SIMTIME_MAX ∧
    ((thenPop (thenPop (thenPop (thenPop singleHostRun 1 10) 1 10) 1 10) 1 10).bind
      (fun d => getNextTime d 1)) = some SIMTIME_MAX := by
  refine ⟨?_, mem_headTimes, by decide, by decide, by decide⟩
  intro d self t td hr hmap ht
  have hreg := listed_registered d (Registered_of_reachable false d hr) t td ht
  obtain ⟨h1, h2, h3⟩ :=
    foldl_min_spec (headTimes d (td.unprocessedHosts ++ td.processedHosts)) SIMTIME_MAX
  refine ⟨_, getNextTime_eq d self t td hmap ht hreg, rfl, h1, h2, ?_, ?_⟩
  · intro hnil
    rw [hnil]
    rfl
  · intro hne hvalid
    rcases h3 with h3 | h3
    · cases hl : headTimes d (td.unprocessedHosts ++ td.processedHosts) with
      | nil => exact absurd hl hne
      | cons x xs =>
        have hx : x ∈ headTimes d (td.unprocessedHosts ++ td.processedHosts) := by
          rw [hl]
          exact List.mem_cons_self _ _
        have hle := h2 x hx
        have hle2 := hvalid x hx
        rw [h3] at hle
        have hxe : x = SIMTIME_MAX := Nat.le_antisymm hle2 hle
        rw [← hl, h3, ← hxe]
        exact hx
    · exact h3

/-- C11 on the single-host scenario before any pop: the head of the queue of
host 10 is the event of time 3. -/
theorem getNextTime_two_lists_witness :
    ∃ m, getNextTime (singleHostRun.getD schedulerpolicyhoststeal_new) 1 = some m ∧
      m = (headTimes (singleHostRun.getD schedulerpolicyhoststeal_new) ([10] ++ [])).foldl min
        SIMTIME_MAX ∧
      m ≤ SIMTIME_MAX ∧
      (∀ x ∈ headTimes (singleHostRun.getD schedulerpolicyhoststeal_new) ([10] ++ []), m ≤ x) ∧
      (headTimes (singleHostRun.getD schedulerpolicyhoststeal_new) ([10] ++ []) = [] →
        m = SIMTIME_MAX) ∧
      (headTimes (singleHostRun.getD schedulerpolicyhoststeal_new) ([10] ++ []) ≠ [] →
        (∀ x ∈ headTimes (singleHostRun.getD schedulerpolicyhoststeal_new) ([10] ++ []),
          x ≤ SIMTIME_MAX) →
        m ∈ headTimes (singleHostRun.getD schedulerpolicyhoststeal_new) ([10] ++ [])) :=
  getNextTime_two_lists.1 (singleHostRun.getD schedulerpolicyhoststeal_new) 1 0
    { allHosts := none, unprocessedHosts := [10], processedHosts := [],
      runningHost := none, currentBarrier := 0, tnumber := 0, isStealable := false }
    (ReachableBy.push _ _ 1 (localEvent 2 7 10) 10 10 0
      (ReachableBy.push _ _ 1 (localEvent 1 3 10) 10 10 0
        (ReachableBy.push _ _ 1 (localEvent 0 5 10) 10 10 0
          (ReachableBy.addHost _ 1 10 0 ReachableBy.init (fun h => absurd h (by decide)))
          rfl) rfl) rfl)
    rfl rfl

/-- C12 as stated fails: after thread 1 has popped the event of time 3, host 10
is its running host and still holds the events of times 5 and 7, but
`getNextTime` looks only at the two lists, which are empty, and returns
`SIMTIME_MAX`. -/
theorem getNextTime_misses_running_host :
    ReachableOnce ((thenPop singleHostRun 1 10).getD schedulerpolicyhoststeal_new) ∧
    runningHostOf ((thenPop singleHostRun 1 10).getD schedulerpolicyhoststeal_new) 1 = some 10 ∧
    DueEvent ((thenPop singleHostRun 1 10).getD schedulerpolicyhoststeal_new) 10 6 ∧
    getNextTime ((thenPop singleHostRun 1 10).getD schedulerpolicyhoststeal_new) 1 =
      some SIMTIME_MAX ∧
    6 < SIMTIME_MAX := by
  refine ⟨singleHostPopped_reachable, rfl, ?_, by decide, by decide⟩
  exact ⟨_, localEvent 0 5 10, rfl, by decide, by decide⟩

/-- C12 (amended): in every reachable state, for a caller with a slot,
`getNextTime` returns a value that no event queued for a host in the caller's
`unprocessedHosts` or `processedHosts` is earlier than; when these hosts hold
an event (with valid times) the value is the time of one of their events,
so it is the minimum over all of them, and when all their queues are empty
it is `SIMTIME_MAX`.  The queue of the running host is not examined; the two
lists are all the assigned hosts exactly when the caller runs no host. -/
theorem getNextTime_listed_queues (d : HostStealPolicyData) (self : Thread) (t : Nat)
    (td : HostStealThreadData) (hr : Reachable d)
    (hmap : d.threadToThreadDataMap self = some t) (ht : d.threadList[t]? = some td) :
    ∃ m, getNextTime d self = some m ∧
      (∀ host ∈ td.unprocessedHosts ++ td.processedHosts, ∀ qdata ev,
        d.hostToQueueDataMap host = some qdata → ev ∈ qdata.pq → m ≤ ev.time) ∧
      (TimesValid d →
        (∃ host ∈ td.unprocessedHosts ++ td.processedHosts, ∃ qdata ev,
          d.hostToQueueDataMap host = some qdata ∧ ev ∈ qdata.pq) →
        ∃ host ∈ td.unprocessedHosts ++ td.processedHosts, ∃ qdata ev,
          d.hostToQueueDataMap host = some qdata ∧ ev ∈ qdata.pq ∧ ev.time = m) ∧
      ((∀ host ∈ td.unprocessedHosts ++ td.processedHosts, ∀ qdata,
        d.hostToQueueDataMap host = some qdata → qdata.pq = []) → m = SIMTIME_MAX) ∧
      (td.runningHost = none →
        ∀ host, host ∈ slotHosts td ↔ host ∈ td.unprocessedHosts ++ td.processedHosts) := by
  have hreg := listed_registered d (Registered_of_reachable false d hr) t td ht
  have hsorted := QueuesSorted_of_reachable false d hr
  obtain ⟨h1, h2, h3⟩ :=
    foldl_min_spec (headTimes d (td.unprocessedHosts ++ td.processedHosts)) SIMTIME_MAX
  refine ⟨_, getNextTime_eq d self t td hmap ht hreg, ?_, ?_, ?_, ?_⟩
  · intro host hmem qdata ev hq hev
    apply head_le_of_sorted qdata.pq (hsorted host qdata hq) _ _ ev hev
    intro e he
    apply h2
    rw [mem_headTimes]
    exact ⟨host, hmem, qdata, e, hq, he, rfl⟩
  · intro hvalid ⟨host, hmem, qdata, ev, hq, hev⟩
    have hmemHead : ∀ x ∈ headTimes d (td.unprocessedHosts ++ td.processedHosts),
        ∃ host ∈ td.unprocessedHosts ++ td.processedHosts, ∃ qdata ev,
          d.hostToQueueDataMap host = some qdata ∧ ev ∈ qdata.pq ∧ ev.time = x := by
      intro x hx
      obtain ⟨host1, hm1, q1, e1, hq1, he1, hx1⟩ := (mem_headTimes d _ x).1 hx
      exact ⟨host1, hm1, q1, e1, hq1, List.mem_of_mem_head? he1, hx1⟩
    rcases h3 with h3 | h3
    · cases hpq : qdata.pq with
      | nil =>
        rw [hpq] at hev
        exact absurd hev (by simp)
      | cons e0 rest =>
        have hx : e0.time ∈ headTimes d (td.unprocessedHosts ++ td.processedHosts) := by
          rw [mem_headTimes]
          exact ⟨host, hmem, qdata, e0, hq, by rw [hpq]; rfl, rfl⟩
        have hle := h2 _ hx
        have hle2 := hvalid host qdata e0 hq (by rw [hpq]; exact List.mem_cons_self _ _)
        rw [h3] at hle
        refine ⟨host, hmem, qdata, e0, hq, by rw [hpq]; exact List.mem_cons_self _ _, ?_⟩
        rw [h3]
        exact Nat.le_antisymm hle2 hle
    · exact hmemHead _ h3
  · intro hempty
    rcases h3 with h3 | h3
    · exact h3
    · obtain ⟨host1, hm1, q1, e1, hq1, he1, _⟩ := (mem_headTimes d _ _).1 h3
      rw [hempty host1 hm1 q1 hq1] at he1
      exact absurd he1 (by simp)
  · intro hrun host
    simp only [slotHosts, hrun, Option.toList, List.append_nil]

/-- C12 (amended) on the single-host scenario before any pop. -/
theorem getNextTime_listed_queues_witness :
    ∃ m, getNextTime (singleHostRun.getD schedulerpolicyhoststeal_new) 1 = some m ∧
      (∀ host ∈ [10] ++ [], ∀ qdata ev,
        (singleHostRun.getD schedulerpolicyhoststeal_new).hostToQueueDataMap host = some qdata →
        ev ∈ qdata.pq → m ≤ ev.time) ∧
      (TimesValid (singleHostRun.getD schedulerpolicyhoststeal_new) →
        (∃ host ∈ [10] ++ [], ∃ qdata ev,
          (singleHostRun.getD schedulerpolicyhoststeal_new).hostToQueueDataMap host = some qdata ∧
          ev ∈ qdata.pq) →
        ∃ host ∈ [10] ++ [], ∃ qdata ev,
          (singleHostRun.getD schedulerpolicyhoststeal_new).hostToQueueDataMap host = some qdata ∧
          ev ∈ qdata.pq ∧ ev.time = m) ∧
      ((∀ host ∈ [10] ++ [], ∀ qdata,
        (singleHostRun.getD schedulerpolicyhoststeal_new).hostToQueueDataMap host = some qdata →
        qdata.pq = []) → m = SIMTIME_MAX) ∧
      ((none : Option Host) = none →
        ∀ host, host ∈ slotHosts
          { allHosts := none, unprocessedHosts := [10], processedHosts := [],
            runningHost := none, currentBarrier := 0, tnumber := 0, isStealable := false } ↔
          host ∈ [10] ++ []) :=
  getNextTime_listed_queues (singleHostRun.getD schedulerpolicyhoststeal_new) 1 0
    { allHosts := none, unprocessedHosts := [10], processedHosts := [],
      runningHost := none, currentBarrier := 0, tnumber := 0, isStealable := false }
    (ReachableBy.push _ _ 1 (localEvent 2 7 10) 10 10 0
      (ReachableBy.push _ _ 1 (localEvent 1 3 10) 10 10 0
        (ReachableBy.push _ _ 1 (localEvent 0 5 10) 10 10 0
          (ReachableBy.addHost _ 1 10 0 ReachableBy.init (fun h => absurd h (by decide)))
          rfl) rfl) rfl)
    rfl rfl

theorem getHosts_result (d : HostStealPolicyData) (self : Thread) (t : Nat)
    (td : HostStealThreadData) (hmap : d.threadToThreadDataMap self = some t)
    (ht : d.threadList[t]? = some td) :
    (getHosts d self).1 = some (td.processedHosts ++ td.unprocessedHosts) := by
  unfold getHosts
  simp only [hmap, ht]
  split
  · rename_i hu
    simp [hu]
  · split
    · rename_i hp
      simp [hp]
    · rfl

/-- C13 as stated fails: after thread 1 has popped the event of time 3, host 10
is assigned to it as its running host, but `getHosts` returns the empty
sequence. -/
theorem getHosts_misses_running_host :
    ReachableOnce ((thenPop singleHostRun 1 10).getD schedulerpolicyhoststeal_new) ∧
    runningHostOf ((thenPop singleHostRun 1 10).getD schedulerpolicyhoststeal_new) 1 = some 10 ∧
    ((thenPop singleHostRun 1 10).getD schedulerpolicyhoststeal_new).hostToThreadMap 10 =
      some 1 ∧
    (getHosts ((thenPop singleHostRun 1 10).getD schedulerpolicyhoststeal_new) 1).1 = some [] :=
  ⟨singleHostPopped_reachable, rfl, rfl, rfl⟩

/-- C13 (amended): for a caller with a slot, `getHosts` returns the hosts of
`processedHosts` followed by those of `unprocessedHosts`: a host is in the
result exactly when it is in one of the two lists, each with the multiplicity
it has there.  In a state reached with each host added once, no host is
repeated and the running host, if any, is not part of the result. -/
theorem getHosts_two_lists (d : HostStealPolicyData) (self : Thread) (t : Nat)
    (td : HostStealThreadData) (hmap : d.threadToThreadDataMap self = some t)
    (ht : d.threadList[t]? = some td) :
    ∃ l, (getHosts d self).1 = some l ∧
      l = td.processedHosts ++ td.unprocessedHosts ∧
      (∀ host, host ∈ l ↔ (host ∈ td.processedHosts ∨ host ∈ td.unprocessedHosts)) ∧
      (∀ host, l.count host = td.processedHosts.count host + td.unprocessedHosts.count host) ∧
      (ReachableOnce d → l.Nodup ∧ ∀ host, td.runningHost = some host → host ∉ l) := by
  refine ⟨_, getHosts_result d self t td hmap ht, rfl, ?_, ?_, ?_⟩
  · intro host
    exact List.mem_append
  · intro host
    exact List.count_append _ _ _
  · intro hr
    have hplaced := Placed_of_reachableOnce d hr
    have hnd : (slotHosts td).Nodup := by
      rw [List.nodup_iff_count_le_one]
      intro host
      exact Nat.le_trans (count_slotHosts_le host d.threadList t td ht)
        (List.nodup_iff_count_le_one.1 (Placed_nodup d hplaced) host)
    constructor
    · have hperm : (td.processedHosts ++ td.unprocessedHosts).Perm
          (td.unprocessedHosts ++ td.processedHosts) := List.perm_append_comm
      apply hperm.nodup_iff.2
      simp only [slotHosts] at hnd
      exact (List.nodup_append.1 hnd).1
    · intro host hrun hmem
      have := Placed_running_not_listed d hplaced t td host ht hrun
      rw [List.mem_append] at hmem
      rcases hmem with h | h
      · exact this.2 h
      · exact this.1 h

/-- C13 (amended) on the single-host scenario after one pop. -/
theorem getHosts_two_lists_witness :
    ∃ l, (getHosts ((thenPop singleHostRun 1 10).getD schedulerpolicyhoststeal_new) 1).1 =
        some l ∧
      l = [] ++ [] ∧
      (∀ host, host ∈ l ↔ (host ∈ ([] : List Host) ∨ host ∈ ([] : List Host))) ∧
      (∀ host, l.count host = ([] : List Host).count host + ([] : List Host).count host) ∧
      (ReachableOnce ((thenPop singleHostRun 1 10).getD schedulerpolicyhoststeal_new) →
        l.Nodup ∧ ∀ host, some 10 = some host → host ∉ l) :=
  getHosts_two_lists ((thenPop singleHostRun 1 10).getD schedulerpolicyhoststeal_new) 1 0
    { allHosts := none, unprocessedHosts := [], processedHosts := [],
      runningHost := some 10, currentBarrier := 10, tnumber := 0, isStealable := true }
    rfl rfl

theorem emptyStealPopped_reachable :
    ReachableOnce ((thenPop emptyStealStart 1 10).getD schedulerpolicyhoststeal_new) :=
  ReachableBy.popReturned _ _ 1 10 (some (localEvent 0 1 0))
    (ReachableBy.push _ _ 1 (localEvent 0 1 0) 0 0 0
      (ReachableBy.addHost _ 1 2 2
        (ReachableBy.addHost _ 1 1 1
          (ReachableBy.addHost _ 1 0 1 ReachableBy.init (fun _ => rfl))
          (fun _ => rfl))
        (fun _ => rfl))
      rfl) rfl

theorem targetThread_of_ne_zero (self thread : Thread) (h : thread ≠ 0) :
    targetThread self thread = thread := by
  simp [targetThread, h]

/-- C17 as stated fails: host 0 is owned by thread 1 and is thread 1's running
host; migrating it to thread 2 (by `migrateHost` or by `addHost` with target
thread 2) appends it to thread 2's `unprocessedHosts`, while it stays thread
1's running host. -/
theorem migration_appends_running_host :
    ReachableOnce ((thenPop emptyStealStart 1 10).getD schedulerpolicyhoststeal_new) ∧
    ((thenPop emptyStealStart 1 10).getD schedulerpolicyhoststeal_new).hostToThreadMap 0 =
      some 1 ∧
    runningHostOf ((thenPop emptyStealStart 1 10).getD schedulerpolicyhoststeal_new) 1 =
      some 0 ∧
    (lookupThreadData ((thenPop emptyStealStart 1 10).getD schedulerpolicyhoststeal_new) 2).map
      (fun td => td.unprocessedHosts) = some [2] ∧
    (lookupThreadData
      (addHost ((thenPop emptyStealStart 1 10).getD schedulerpolicyhoststeal_new) 1 0 2) 2).map
      (fun td => td.unprocessedHosts) = some [2, 0] ∧
    ((migrateHost ((thenPop emptyStealStart 1 10).getD schedulerpolicyhoststeal_new) 1 0 2).bind
      (fun d => lookupThreadData d 2)).map (fun td => td.unprocessedHosts) = some [2, 0] ∧
    ((migrateHost ((thenPop emptyStealStart 1 10).getD schedulerpolicyhoststeal_new) 1 0 2).bind
      (fun d => runningHostOf d 1)) = some 0 :=
  ⟨emptyStealPopped_reachable, rfl, rfl, rfl, rfl, rfl, rfl⟩

/-- C17 (amended): a migration of host `host` to a worker `new` (not 0) that has
a slot does not append the host exactly when the host is the running host of
the NEW owner (the new owner is stealing it): then no list changes.
Otherwise the host is appended to the tail of the new owner's
`unprocessedHosts`, also when it is the running host of the previous owner,
in which case `migrateHost` passes its assertion and is `addHost`. -/
theorem no_double_placement_for_stealer (d : HostStealPolicyData) (self : Thread) (host : Host)
    (new : Thread) (t : Nat) (td : HostStealThreadData) (hnew : new ≠ 0)
    (hm : d.threadToThreadDataMap new = some t) (ht : d.threadList[t]? = some td) :
    (td.runningHost = some host →
      (addHost d self host new).threadList = d.threadList ∧
      ∀ d1, migrateHost d self host new = some d1 → d1.threadList = d.threadList) ∧
    (td.runningHost ≠ some host →
      (addHost d self host new).threadList =
        d.threadList.set t { td with unprocessedHosts := td.unprocessedHosts ++ [host] } ∧
      (∀ d1, migrateHost d self host new = some d1 → d.hostToThreadMap host ≠ some new →
        d1.threadList =
          d.threadList.set t { td with unprocessedHosts := td.unprocessedHosts ++ [host] }) ∧
      (∀ (old : Thread) (od : HostStealThreadData), d.hostToThreadMap host = some old →
        old ≠ new → lookupThreadData d old = some od → od.runningHost = some host →
        migrateHost d self host new = some (addHost d self host new))) := by
  have htarget : d.threadToThreadDataMap (targetThread self new) = some t := by
    rw [targetThread_of_ne_zero self new hnew]
    exact hm
  constructor
  · intro hrun
    have h1 := addHost_threadList_running d self host new t td htarget ht hrun
    refine ⟨h1, ?_⟩
    intro d1 hmig
    rcases migrateHost_cases d d1 self host new hmig with ⟨h, _⟩ | ⟨h, _⟩
    · rw [h]
    · rw [h, h1]
  · intro hrun
    have h1 := addHost_threadList_append d self host new t td htarget ht hrun
    refine ⟨h1, ?_, ?_⟩
    · intro d1 hmig howner
      rcases migrateHost_cases d d1 self host new hmig with ⟨_, h⟩ | ⟨h, _⟩
      · exfalso
        cases ho : d.hostToThreadMap host with
        | none =>
          rw [ho] at h
          exact hnew h.symm
        | some old =>
          rw [ho] at h howner
          exact howner (congrArg some h)
      · rw [h, h1]
    · intro old od ho hne hold hrunOld
      have hlk : lookupThreadData d new = some td := by
        simp only [lookupThreadData, hm, ht]
      unfold migrateHost
      simp only [ho, Option.getD_some, hne, if_false, hold, hlk]
      have hdiff : od.runningHost ≠ td.runningHost := by
        rw [hrunOld]
        exact fun h => hrun h.symm
      simp only [hdiff, ne_eq, not_false_eq_true, if_true]

/-- C17 (amended) at the state where thread 1 runs host 0: host 0 is not the
running host of thread 2, so it is appended to thread 2's `unprocessedHosts`. -/
theorem no_double_placement_for_stealer_witness :
    ((none : Option Host) = some 0 →
      (addHost ((thenPop emptyStealStart 1 10).getD schedulerpolicyhoststeal_new) 1 0 2).threadList
        = ((thenPop emptyStealStart 1 10).getD schedulerpolicyhoststeal_new).threadList ∧
      ∀ d1, migrateHost ((thenPop emptyStealStart 1 10).getD schedulerpolicyhoststeal_new) 1 0 2
          = some d1 →
        d1.threadList =
          ((thenPop emptyStealStart 1 10).getD schedulerpolicyhoststeal_new).threadList) ∧
    ((none : Option Host) ≠ some 0 →
      (addHost ((thenPop emptyStealStart 1 10).getD schedulerpolicyhoststeal_new) 1 0 2).threadList
        = ((thenPop emptyStealStart 1 10).getD schedulerpolicyhoststeal_new).threadList.set 1
          { allHosts := none, unprocessedHosts := [2] ++ [0], processedHosts := [],
            runningHost := none, currentBarrier := 0, tnumber := 1, isStealable := false } ∧
      (∀ d1, migrateHost ((thenPop emptyStealStart 1 10).getD schedulerpolicyhoststeal_new) 1 0 2
          = some d1 →
        ((thenPop emptyStealStart 1 10).getD schedulerpolicyhoststeal_new).hostToThreadMap 0
          ≠ some 2 →
        d1.threadList =
          ((thenPop emptyStealStart 1 10).getD schedulerpolicyhoststeal_new).threadList.set 1
            { allHosts := none, unprocessedHosts := [2] ++ [0], processedHosts := [],
              runningHost := none, currentBarrier := 0, tnumber := 1, isStealable := false }) ∧
      (∀ (old : Thread) (od : HostStealThreadData),
        ((thenPop emptyStealStart 1 10).getD schedulerpolicyhoststeal_new).hostToThreadMap 0
          = some old →
        old ≠ 2 →
        lookupThreadData ((thenPop emptyStealStart 1 10).getD schedulerpolicyhoststeal_new) old
          = some od →
        od.runningHost = some 0 →
        migrateHost ((thenPop emptyStealStart 1 10).getD schedulerpolicyhoststeal_new) 1 0 2 =
          some (addHost ((thenPop emptyStealStart 1 10).getD schedulerpolicyhoststeal_new)
            1 0 2))) :=
  no_double_placement_for_stealer
    ((thenPop emptyStealStart 1 10).getD schedulerpolicyhoststeal_new) 1 0 2 1
    { allHosts := none, unprocessedHosts := [2], processedHosts := [],
      runningHost := none, currentBarrier := 0, tnumber := 1, isStealable := false }
    (by decide) rfl rfl

theorem stealStart_reachable :
    ReachableOnce (stealStart.getD schedulerpolicyhoststeal_new) :=
  ReachableBy.popReturned _ _ 1 10 (some (localEvent 0 1 0))
    (ReachableBy.push _ _ 1 (localEvent 5 2 1) 1 1 0
      (ReachableBy.push _ _ 1 (localEvent 0 1 0) 0 0 0
        (ReachableBy.addHost _ 1 2 2
          (ReachableBy.addHost _ 1 1 1
            (ReachableBy.addHost _ 1 0 1 ReachableBy.init (fun _ => rfl))
            (fun _ => rfl))
          (fun _ => rfl))
        rfl) rfl) rfl

theorem push_eq_none_iff (d : HostStealPolicyData) (self : Thread) (event : Event)
    (srcHost dstHost : Host) (barrier : Nat) :
    push d self event srcHost dstHost barrier = none ↔ d.hostToQueueDataMap dstHost = none := by
  unfold push
  cases hq : d.hostToQueueDataMap dstHost with
  | none => simp
  | some qdata => simp

/-- A `pop` neither creates nor removes a queue. -/
theorem pop_queue_isSome (d d1 : HostStealPolicyData) (self : Thread) (barrier : Nat)
    (hp : (∃ r, pop d self barrier = .returned d1 r) ∨ pop d self barrier = .spinning d1)
    (host : Host) :
    (d1.hostToQueueDataMap host).isSome = (d.hostToQueueDataMap host).isSome := by
  rcases hp with ⟨r, hp⟩ | hp
  · cases r with
    | none => rw [(pop_queue_effect d self barrier).1 d1 hp]
    | some ev =>
      obtain ⟨_, host1, qdata, rest, _, _, _, _, _, hq, _, _, _, hq1⟩ :=
        (pop_queue_effect d self barrier).2.2 d1 ev hp
      rw [hq1]
      by_cases hh : host = host1
      · subst hh
        rw [Function.update_same, hq]
        rfl
      · rw [Function.update_noteq hh]
  · rw [(pop_queue_effect d self barrier).2.1 d1 hp]

/-- A host has a queue exactly when `addHost` has been called for it. -/
theorem queue_iff_added (d : HostStealPolicyData) (added : List Host)
    (h : AddedHosts d added) (host : Host) :
    (d.hostToQueueDataMap host).isSome = true ↔ host ∈ added := by
  induction h with
  | init => simp [schedulerpolicyhoststeal_new]
  | addHost d added self host1 thread _ ih =>
    rw [addHost_hostToQueueDataMap, List.mem_cons]
    by_cases hh : host = host1
    · subst hh
      cases hq : d.hostToQueueDataMap host with
      | none => simp
      | some q => simp [hq]
    · cases hq : d.hostToQueueDataMap host1 with
      | none =>
        simp only [Function.update_noteq hh, hh, false_or]
        exact ih
      | some q =>
        simp only [hh, false_or]
        exact ih
  | push d d1 added self event srcHost dstHost barrier _ hp ih =>
    obtain ⟨qdata, hq, hq1, _⟩ := push_hostToQueueDataMap d d1 self event srcHost dstHost barrier hp
    rw [← ih, hq1]
    by_cases hh : host = dstHost
    · subst hh
      simp [hq]
    · rw [Function.update_noteq hh]
  | popReturned d d1 added self barrier r _ hp ih =>
    rw [pop_queue_isSome d d1 self barrier (Or.inl ⟨r, hp⟩) host]
    exact ih
  | popSpinning d d1 added self barrier _ hp ih =>
    rw [pop_queue_isSome d d1 self barrier (Or.inr hp) host]
    exact ih
  | getHosts d added self _ ih =>
    rw [(getHosts_fields d self).1]
    exact ih

/-- C21 (push fails exactly on an unregistered destination): `push` stops at
its assertion if and only if the destination has no queue; in a run of the
policy that is exactly when `addHost` was never called for the destination.
When the queue exists `push` succeeds and stores the (adjusted) event, for
every event time, source, barrier and calling thread, with or without a
worker slot, the result not depending on the caller. -/
theorem push_fails_iff_unregistered :
    (∀ (d : HostStealPolicyData) (self : Thread) (event : Event) (srcHost dstHost : Host)
        (barrier : Nat),
      push d self event srcHost dstHost barrier = none ↔ d.hostToQueueDataMap dstHost = none) ∧
    (∀ (d : HostStealPolicyData) (added : List Host), AddedHosts d added →
      ∀ (self : Thread) (event : Event) (srcHost dstHost : Host) (barrier : Nat),
        push d self event srcHost dstHost barrier = none ↔ dstHost ∉ added) ∧
    (∀ (d : HostStealPolicyData) (self : Thread) (event : Event) (srcHost dstHost : Host)
        (barrier : Nat) (qdata : HostStealQueueData),
      d.hostToQueueDataMap dstHost = some qdata →
      ∃ d1, push d self event srcHost dstHost barrier = some d1 ∧
        (d1.hostToQueueDataMap dstHost).map (fun q => q.pq) =
          some (priorityqueue_push qdata.pq (adjustEventTime event srcHost dstHost barrier))) ∧
    (∀ (d : HostStealPolicyData) (self self1 : Thread) (event : Event) (srcHost dstHost : Host)
        (barrier : Nat),
      (push d self event srcHost dstHost barrier).isSome =
        (push d self1 event srcHost dstHost barrier).isSome) := by
  refine ⟨push_eq_none_iff, ?_, ?_, ?_⟩
  · intro d added h self event srcHost dstHost barrier
    rw [push_eq_none_iff, ← queue_iff_added d added h dstHost]
    cases d.hostToQueueDataMap dstHost <;> simp
  · intro d self event srcHost dstHost barrier qdata hq
    unfold push
    simp only [hq]
    refine ⟨_, rfl, ?_⟩
    simp only [Function.update_same, Option.map_some']
  · intro d self self1 event srcHost dstHost barrier
    cases h : push d self event srcHost dstHost barrier with
    | none =>
      rw [push_eq_none_iff] at h
      rw [(push_eq_none_iff d self1 event srcHost dstHost barrier).2 h]
    | some d1 =>
      cases h1 : push d self1 event srcHost dstHost barrier with
      | none =>
        rw [push_eq_none_iff] at h1
        rw [(push_eq_none_iff d self event srcHost dstHost barrier).2 h1] at h
        exact absurd h (by simp)
      | some d2 => rfl

/-- C21 on concrete runs: before any `addHost` the push to host 10 fails; after
`addHost` for host 10 by thread 1 a push by thread 7, which has no slot, of an
event of time 0 from host 99 succeeds. -/
theorem push_fails_iff_unregistered_witness :
    (push schedulerpolicyhoststeal_new 7 (localEvent 0 0 99) 99 10 5 = none ↔ 10 ∉ []) ∧
    (push (addHost schedulerpolicyhoststeal_new 1 10 0) 7 (localEvent 0 0 99) 99 10 5 = none ↔
      10 ∉ [10]) ∧
    (push (addHost schedulerpolicyhoststeal_new 1 10 0) 7 (localEvent 0 0 99) 99 10 5).isSome
      = true :=
  ⟨push_fails_iff_unregistered.2.1 _ _ AddedHosts.init 7 (localEvent 0 0 99) 99 10 5,
   push_fails_iff_unregistered.2.1 _ _
     (AddedHosts.addHost _ _ 1 10 0 AddedHosts.init) 7 (localEvent 0 0 99) 99 10 5,
   rfl⟩

/-- Where `priorityqueue_push` puts the event: behind a prefix of events that
are not later, and, in a sorted queue, in front of strictly later ones. -/
theorem priorityqueue_push_split (event : Event) :
    ∀ (pq : PriorityQueue), ∃ l1 l2, pq = l1 ++ l2 ∧
      priorityqueue_push pq event = l1 ++ event :: l2 ∧
      (∀ x ∈ l1, x.time ≤ event.time) ∧
      (pq.Pairwise (fun a b => a.time ≤ b.time) → ∀ x ∈ l2, event.time < x.time) := by
  intro pq
  induction pq with
  | nil =>
    refine ⟨[], [], rfl, rfl, ?_, ?_⟩
    · intro x hx
      exact absurd hx (by simp)
    · intro _ x hx
      exact absurd hx (by simp)
  | cons y ys ih =>
    by_cases hle : y.time ≤ event.time
    · obtain ⟨l1, l2, h1, h2, h3, h4⟩ := ih
      refine ⟨y :: l1, l2, by rw [h1]; rfl, ?_, ?_, ?_⟩
      · simp only [priorityqueue_push, hle, if_true, h2, List.cons_append]
      · intro x hx
        rcases List.mem_cons.1 hx with hx | hx
        · rw [hx]
          exact hle
        · exact h3 x hx
      · intro hs x hx
        exact h4 (List.Pairwise.of_cons hs) x hx
    · refine ⟨[], y :: ys, rfl, ?_, ?_, ?_⟩
      · simp only [priorityqueue_push, hle, if_false, List.nil_append]
      · intro x hx
        exact absurd hx (by simp)
      · intro hs x hx
        rcases List.mem_cons.1 hx with hx | hx
        · rw [hx]
          omega
        · have hy : y.time ≤ x.time := (List.pairwise_cons.1 hs).1 x hx
          omega

/-- C24 (deterministic tie-break), on the priority queue modelled from the
spec: a pushed event goes behind every queued event that is not later and in
front of every later one, the queued events keeping their order, so events
of equal time are in insertion order in the queue and leave it, head first,
in that order.  Two events A then B of the same time pushed to a sorted
queue end up adjacent, A before B.  In the scenario of the spec (A and B of
time 5 on one host) the pops return A and then B. -/
theorem tie_break_insertion_order :
    (∀ (pq : PriorityQueue) (event : Event), pq.Pairwise (fun a b => a.time ≤ b.time) →
      ∃ l1 l2, pq = l1 ++ l2 ∧ priorityqueue_push pq event = l1 ++ event :: l2 ∧
        (∀ x ∈ l1, x.time ≤ event.time) ∧ (∀ x ∈ l2, event.time < x.time)) ∧
    (∀ (pq : PriorityQueue) (a b : Event), pq.Pairwise (fun x y => x.time ≤ y.time) →
      a.time = b.time →
      ∃ l1 l2, pq = l1 ++ l2 ∧
        priorityqueue_push (priorityqueue_push pq a) b = l1 ++ a :: b :: l2) ∧
    (tieRun.bind (fun d => d.hostToQueueDataMap 0)).map (fun q => q.pq) =
      some [localEvent 0 5 0, localEvent 1 5 0] ∧
    thenPopped tieRun 1 10 = some (localEvent 0 5 0) ∧
    thenPopped (thenPop tieRun 1 10) 1 10 = some (localEvent 1 5 0) ∧
    thenPopped (thenPop (thenPop tieRun 1 10) 1 10) 1 10 = none := by
  refine ⟨?_, ?_, by decide, by decide, by decide, by decide⟩
  · intro pq event hs
    obtain ⟨l1, l2, h1, h2, h3, h4⟩ := priorityqueue_push_split event pq
    exact ⟨l1, l2, h1, h2, h3, h4 hs⟩
  · intro pq a b hs hab
    obtain ⟨l1, l2, h1, h2, h3, h4⟩ := priorityqueue_push_split a pq
    refine ⟨l1, l2, h1, ?_⟩
    rw [h2]
    have h5 := h4 hs
    clear h1 h2 h4 hs
    induction l1 with
    | nil =>
      have hl2 : priorityqueue_push l2 b = b :: l2 := by
        cases l2 with
        | nil => rfl
        | cons y ys =>
          have hy : ¬ y.time ≤ b.time := by
            have := h5 y (List.mem_cons_self _ _)
            omega
          simp only [priorityqueue_push, hy, if_false]
      have hab1 : a.time ≤ b.time := by omega
      simp only [List.nil_append, priorityqueue_push, hab1, if_true, hl2]
    | cons y ys ih =>
      have hy : y.time ≤ b.time := by
        have := h3 y (List.mem_cons_self _ _)
        omega
      have hstep : priorityqueue_push (y :: (ys ++ a :: l2)) b =
          y :: priorityqueue_push (ys ++ a :: l2) b := by
        simp only [priorityqueue_push, hy, if_true]
      rw [List.cons_append, hstep, ih (fun x hx => h3 x (List.mem_cons_of_mem _ hx))]
      rfl

/-- C24 on a queue holding an event of time 3 and one of time 9: A and B of time
5 go between them, A before B. -/
theorem tie_break_insertion_order_witness :
    ∃ l1 l2, [localEvent 7 3 0, localEvent 8 9 0] = l1 ++ l2 ∧
      priorityqueue_push (priorityqueue_push [localEvent 7 3 0, localEvent 8 9 0]
        (localEvent 0 5 0)) (localEvent 1 5 0) =
        l1 ++ localEvent 0 5 0 :: localEvent 1 5 0 :: l2 :=
  tie_break_insertion_order.2.1 [localEvent 7 3 0, localEvent 8 9 0]
    (localEvent 0 5 0) (localEvent 1 5 0) (by simp [localEvent]) rfl

theorem steal_index_inj (i j t n : Nat) (hi : i < n) (hj : j < n)
    (h : (i + t) % n = (j + t) % n) : i = j := by
  have h1 : i + t ≡ j + t [MOD n] := h
  have h2 : i ≡ j [MOD n] := Nat.ModEq.add_right_cancel' t h1
  have h3 : i % n = j % n := h2
  rw [Nat.mod_eq_of_lt hi, Nat.mod_eq_of_lt hj] at h3
  exact h3

/-- The candidate victims of worker `tnumber` among `n` workers: the `j`-th is
`(tnumber + 1 + j) mod n`, each is a position below `n` other than `tnumber`,
none is repeated, and every other position is among them. -/
theorem stealOrder_spec (tnumber n : Nat) (ht : tnumber < n) :
    (stealOrder tnumber n).length = n - 1 ∧
    (∀ j, j < n - 1 → (stealOrder tnumber n)[j]? = some ((tnumber + 1 + j) % n)) ∧
    (stealOrder tnumber n).Nodup ∧
    (∀ s, s ∈ stealOrder tnumber n ↔ (s < n ∧ s ≠ tnumber)) := by
  refine ⟨?_, ?_, ?_, ?_⟩
  · simp [stealOrder]
  · intro j hj
    unfold stealOrder
    rw [List.getElem?_map, List.getElem?_range' 1 1 hj]
    simp only [Option.map_some', Nat.one_mul]
    congr 2
    omega
  · unfold stealOrder
    apply List.Nodup.map_on
    · intro x hx y hy hxy
      rw [List.mem_range'_1] at hx hy
      exact steal_index_inj x y tnumber n (by omega) (by omega) hxy
    · exact List.nodup_range' 1 (n - 1)
  · intro s
    unfold stealOrder
    rw [List.mem_map]
    constructor
    · rintro ⟨i, hi, rfl⟩
      rw [List.mem_range'_1] at hi
      exact ⟨Nat.mod_lt _ (by omega), steal_index_ne i tnumber n hi.1 (by omega) ht⟩
    · rintro ⟨hs, hne⟩
      by_cases hlt : tnumber < s
      · refine ⟨s - tnumber, ?_, ?_⟩
        · rw [List.mem_range'_1]
          omega
        · rw [Nat.sub_add_cancel (Nat.le_of_lt hlt), Nat.mod_eq_of_lt hs]
      · refine ⟨s + n - tnumber, ?_, ?_⟩
        · rw [List.mem_range'_1]
          omega
        · have h1 : s + n - tnumber + tnumber = s + n := by omega
          rw [h1, Nat.add_mod_right, Nat.mod_eq_of_lt hs]

/-- A `popFromThread` that returns NULL has not changed `threadCount`. -/
theorem popFromThread_none_threadCount (d d1 : HostStealPolicyData) (self : Thread)
    (t src barrier : Nat) (h : popFromThread d self t src barrier = .returned d1 none) :
    d1.threadCount = d.threadCount := by
  refine popFromThread_induction self t src barrier
    (fun d0 => d0.threadCount = d.threadCount)
    (fun d0 r => r = none → d0.threadCount = d.threadCount) ?_ ?_ d d1 none rfl h rfl
  · intro d0 d2 hP hiter
    obtain ⟨d0', host, _, tdata, hsel, _, _, _, rfl⟩ :=
      popFromThreadIter_again d0 d2 self t src barrier hiter
    rw [setThread_threadCount, (Selected_fields d0 d0' t src host hsel).2.2.2.1]
    exact hP
  · intro d0 d2 r hP hiter hr
    subst hr
    rw [(popFromThreadIter_done_none d0 d2 self t src barrier hiter).1]
    exact hP

theorem roundFlags_setThread (d : HostStealPolicyData) (t : Nat) (td1 : HostStealThreadData) :
    roundFlags (setThread d t td1) =
      (roundFlags d).set t (td1.currentBarrier, td1.isStealable) := by
  unfold roundFlags
  rw [setThread_threadList, List.map_set]

theorem roundFlags_setThread_same (d : HostStealPolicyData) (t : Nat)
    (td td1 : HostStealThreadData) (ht : d.threadList[t]? = some td)
    (hb : td1.currentBarrier = td.currentBarrier) (hs : td1.isStealable = td.isStealable) :
    roundFlags (setThread d t td1) = roundFlags d := by
  rw [roundFlags_setThread]
  apply List.ext_getElem?
  intro n
  rw [List.getElem?_set]
  by_cases hn : t = n
  · subst hn
    have hlt : t < (roundFlags d).length := by
      unfold roundFlags
      rw [List.length_map]
      exact (List.getElem?_eq_some.1 ht).1
    simp only [if_true, hlt]
    unfold roundFlags
    rw [List.getElem?_map, ht, hb, hs]
    rfl
  · simp only [hn, if_false]

theorem roundFlags_selected (d d0 : HostStealPolicyData) (t src : Nat) (host : Host)
    (h : Selected d t src d0 host) : roundFlags d0 = roundFlags d := by
  rcases h with ⟨_, _, _, _, _, rfl⟩ | ⟨tdata, sdata, rest, tdata1, ht, hs, hrun, hun, ht1, rfl⟩
  · rfl
  · refine Eq.trans (roundFlags_setThread_same _ t tdata1 _ ht1 ?_ ?_) ?_
    · rfl
    · rfl
    · refine roundFlags_setThread_same d src sdata _ hs ?_ ?_
      · rfl
      · rfl

theorem roundFlags_roundStart (d : HostStealPolicyData) (t b : Nat)
    (tdata : HostStealThreadData) (htd : d.threadList[t]? = some tdata) :
    roundFlags (roundStart d t b) =
      if b > tdata.currentBarrier then (roundFlags d).set t (b, true) else roundFlags d := by
  unfold roundStart
  rw [htd]
  simp only []
  split
  · rw [roundFlags_setThread, rotate_eq]
  · rfl

/-- The caller's own slot after the round start is not behind the barrier. -/
theorem roundFlags_roundStart_own (d : HostStealPolicyData) (t b : Nat)
    (tdata : HostStealThreadData) (htd : d.threadList[t]? = some tdata) :
    ∃ cb st, (roundFlags (roundStart d t b))[t]? = some (cb, st) ∧ b ≤ cb := by
  rw [roundFlags_roundStart d t b tdata htd]
  have hlt : t < (roundFlags d).length := by
    unfold roundFlags
    rw [List.length_map]
    exact (List.getElem?_eq_some.1 htd).1
  split
  · exact ⟨b, true, List.getElem?_set_self hlt, Nat.le_refl _⟩
  · rename_i hb
    refine ⟨tdata.currentBarrier, tdata.isStealable, ?_, Nat.le_of_not_lt hb⟩
    unfold roundFlags
    rw [List.getElem?_map, htd]
    rfl

/-- What `pop` does to the barriers and stealable flags: a `pop` that returns
leaves them as the round start made them; a `pop` that spins has cleared the
flag of the victim it waits for, whose barrier is behind. -/
theorem pop_roundFlags (d : HostStealPolicyData) (self : Thread) (b t : Nat)
    (tdata : HostStealThreadData) (hmap : d.threadToThreadDataMap self = some t)
    (htd : d.threadList[t]? = some tdata) :
    (∀ d1 r, pop d self b = .returned d1 r → roundFlags d1 = roundFlags (roundStart d t b)) ∧
    (∀ d1, pop d self b = .spinning d1 →
      ∃ s cb st, (roundFlags (roundStart d t b))[s]? = some (cb, st) ∧ cb < b ∧ s ≠ t ∧
        roundFlags d1 = (roundFlags (roundStart d t b)).set s (cb, false)) := by
  have key := pop_induction d self b t tdata hmap htd
    (fun d0 => roundFlags d0 = roundFlags (roundStart d t b) ∧
      d0.threadToThreadDataMap self = some t)
    (fun d1 _ => roundFlags d1 = roundFlags (roundStart d t b))
    (fun d1 => ∃ s cb st, (roundFlags (roundStart d t b))[s]? = some (cb, st) ∧ cb < b ∧
      s ≠ t ∧ roundFlags d1 = (roundFlags (roundStart d t b)).set s (cb, false))
    ⟨rfl, by rw [(roundStart_fields d t b).2.2.1]; exact hmap⟩
    (by
      intro src d0 d1 hP hiter
      obtain ⟨d0', host, _, td0, hsel, _, _, ht0, rfl⟩ :=
        popFromThreadIter_again d0 d1 self t src b hiter
      refine ⟨?_, ?_⟩
      · refine Eq.trans (roundFlags_setThread_same d0' t td0 _ ht0 ?_ ?_) ?_
        · rfl
        · rfl
        · rw [roundFlags_selected d0 d0' t src host hsel]
          exact hP.1
      · rw [setThread_threadToThreadDataMap, (Selected_fields d0 d0' t src host hsel).2.2.1]
        exact hP.2)
    (by
      intro src d0 d1 ev hP hiter
      obtain ⟨d0', host, _, _, hsel, _, _, _, _, hlist, _⟩ :=
        popFromThreadIter_done_some_effect d0 d1 self t src b ev hP.2 hiter
      have h1 : roundFlags d1 = roundFlags d0' := by
        unfold roundFlags
        rw [hlist]
      rw [h1, roundFlags_selected d0 d0' t src host hsel]
      exact hP.1)
    (fun d0 hP => hP.1)
    (by
      intro dm d0 i sd _ hP _ _ hsd hb
      have hflag : (roundFlags d0)[(i + tdata.tnumber) % dm.threadCount]? =
          some (sd.currentBarrier, sd.isStealable) := by
        unfold roundFlags
        rw [List.getElem?_map, hsd]
        rfl
      refine ⟨(i + tdata.tnumber) % dm.threadCount, sd.currentBarrier, sd.isStealable,
        by rw [← hP.1]; exact hflag, hb, ?_, ?_⟩
      · intro hst
        obtain ⟨cb, st, hown, hle⟩ := roundFlags_roundStart_own d t b tdata htd
        rw [hst, hP.1, hown] at hflag
        injection hflag with hflag
        injection hflag with h1 _
        omega
      · rw [roundFlags_setThread, hP.1])
  exact key

theorem addHost_roundFlags (d : HostStealPolicyData) (self : Thread) (host : Host)
    (thread : Thread) :
    roundFlags (addHost d self host thread) = roundFlags d ∨
    roundFlags (addHost d self host thread) = roundFlags d ++ [(0, false)] := by
  cases hm : d.threadToThreadDataMap (if thread ≠ 0 then thread else self) with
  | none =>
    right
    unfold roundFlags
    rw [addHost_threadList_of_none d self host thread hm, List.map_append]
    rfl
  | some t =>
    left
    unfold roundFlags
    rw [addHost_threadList_of_some d self host thread t hm]
    cases ht : d.threadList[t]? with
    | none => rfl
    | some tdata =>
      simp only []
      split
      · have := roundFlags_setThread_same d t tdata
          { tdata with unprocessedHosts := tdata.unprocessedHosts ++ [host] } ht rfl rfl
        unfold roundFlags at this
        rw [setThread_threadList] at this
        exact this
      · rfl

theorem getHosts_roundFlags (d : HostStealPolicyData) (self : Thread) :
    roundFlags (getHosts d self).2 = roundFlags d := by
  unfold getHosts
  split
  · rfl
  · split
    · rfl
    · rename_i tdata ht
      split
      · rfl
      · split
        · rfl
        · refine roundFlags_setThread_same d _ tdata _ ht ?_ ?_
          · rfl
          · rfl

/-- A stealable slot has been through a rotation: its barrier is not the
initial one. -/
theorem stealable_rotated (once : Bool) (d : HostStealPolicyData) (h : ReachableBy once d) :
    ∀ e ∈ roundFlags d, e.2 = true → 0 < e.1 := by
  induction h with
  | init =>
    intro e he
    exact absurd he (by simp [roundFlags, schedulerpolicyhoststeal_new])
  | addHost d self host thread _ _ ih =>
    intro e he
    rcases addHost_roundFlags d self host thread with h | h
    · rw [h] at he
      exact ih e he
    · rw [h] at he
      rcases List.mem_append.1 he with he | he
      · exact ih e he
      · intro hst
        rw [List.mem_singleton.1 he] at hst
        exact absurd hst (by simp)
  | push d d1 self event srcHost dstHost barrier _ hp ih =>
    obtain ⟨_, _, _, hl, _⟩ := push_hostToQueueDataMap d d1 self event srcHost dstHost barrier hp
    intro e he
    unfold roundFlags at he
    rw [hl] at he
    exact ih e he
  | popReturned d d1 self barrier r _ hp ih =>
    cases hmap : d.threadToThreadDataMap self with
    | none =>
      simp only [pop, hmap] at hp
      injection hp with hp _
      rw [← hp]
      exact ih
    | some t =>
      cases htd : d.threadList[t]? with
      | none =>
        simp only [pop, hmap, htd] at hp
        exact absurd hp (by simp)
      | some tdata =>
        intro e he
        rw [(pop_roundFlags d self barrier t tdata hmap htd).1 d1 r hp,
          roundFlags_roundStart d t barrier tdata htd] at he
        split at he
        · rename_i hb
          rcases List.mem_or_eq_of_mem_set he with he | he
          · exact ih e he
          · intro _
            rw [he]
            exact Nat.lt_of_le_of_lt (Nat.zero_le _) hb
        · exact ih e he
  | popSpinning d d1 self barrier _ hp ih =>
    cases hmap : d.threadToThreadDataMap self with
    | none =>
      simp only [pop, hmap] at hp
      exact absurd hp (by simp)
    | some t =>
      cases htd : d.threadList[t]? with
      | none =>
        simp only [pop, hmap, htd] at hp
        exact absurd hp (by simp)
      | some tdata =>
        intro e he
        obtain ⟨s, cb, st, _, _, _, hflags⟩ :=
          (pop_roundFlags d self barrier t tdata hmap htd).2 d1 hp
        rw [hflags] at he
        rcases List.mem_or_eq_of_mem_set he with he | he
        · rw [roundFlags_roundStart d t barrier tdata htd] at he
          split at he
          · rename_i hb
            rcases List.mem_or_eq_of_mem_set he with he | he
            · exact ih e he
            · intro _
              rw [he]
              exact Nat.lt_of_le_of_lt (Nat.zero_le _) hb
          · exact ih e he
        · intro hst
          rw [he] at hst
          exact absurd hst (by simp)
  | getHosts d self _ ih =>
    rw [getHosts_roundFlags]
    exact ih

theorem thiefAheadRun_reachable :
    Reachable (thiefAheadRun.getD schedulerpolicyhoststeal_new) :=
  ReachableBy.popSpinning _ _ 2 20 (Reachable_of_once _ emptyStealPopped_reachable) rfl

/-- C25 as stated fails.  Thread 1 completes the rotation for barrier 10 (its
slot then has barrier 10 and the flag set); thread 2, popping with barrier 20,
finds that slot behind and clears its flag while it waits: the slot has
completed the rotation for its `currentBarrier` 10 and `isStealable` is false.
And with a single worker the flag is set by the rotation for barrier 15 and
is still set when the rotation for barrier 25 stores it again, so in that
round it never goes from false to true. -/
theorem stealable_false_after_rotation :
    Reachable (thiefAheadRun.getD schedulerpolicyhoststeal_new) ∧
    roundFlags (emptyStealStart.getD schedulerpolicyhoststeal_new) = [(0, false), (0, false)] ∧
    roundFlags ((thenPop emptyStealStart 1 10).getD schedulerpolicyhoststeal_new) =
      [(10, true), (0, false)] ∧
    roundFlags (thiefAheadRun.getD schedulerpolicyhoststeal_new) = [(10, false), (20, true)] ∧
    roundFlags ((thenPop rotationRun 1 15).getD schedulerpolicyhoststeal_new) = [(15, true)] ∧
    roundFlags (roundStart ((thenPop rotationRun 1 15).getD schedulerpolicyhoststeal_new) 0 25) =
      [(25, true)] ∧
    roundFlags ((thenPop (thenPop rotationRun 1 15) 1 25).getD schedulerpolicyhoststeal_new) =
      [(25, true)] :=
  ⟨thiefAheadRun_reachable, rfl, rfl, rfl, rfl, rfl, rfl⟩

/-- C25 (amended): in every reachable state a slot whose `isStealable` is true
has completed a round-start rotation, the one for its `currentBarrier` (which
only a rotation writes, so it is not the initial 0); the converse does not
hold.  The flag and the barrier change only as follows: the round start of
the owner's `pop b` with `b` above the slot's barrier stores `b` and true (a
change from false to true only if the flag was false); a `pop` that returns
changes nothing else; a `pop` that spins has cleared the flag of one other
slot, whose barrier is below `b`; `push` and `getHosts` change nothing, and
`addHost` at most adds a slot with barrier 0 and the flag false. -/
theorem stealable_flag_transitions :
    (∀ (d : HostStealPolicyData), Reachable d →
      ∀ (k : Nat) (td : HostStealThreadData), d.threadList[k]? = some td →
        td.isStealable = true → 0 < td.currentBarrier) ∧
    (∀ (d : HostStealPolicyData) (self : Thread) (b t : Nat) (tdata : HostStealThreadData),
      d.threadToThreadDataMap self = some t → d.threadList[t]? = some tdata →
      (roundFlags (roundStart d t b) =
        if b > tdata.currentBarrier then (roundFlags d).set t (b, true) else roundFlags d) ∧
      (∀ d1 r, pop d self b = .returned d1 r → roundFlags d1 = roundFlags (roundStart d t b)) ∧
      (∀ d1, pop d self b = .spinning d1 →
        ∃ s cb st, (roundFlags (roundStart d t b))[s]? = some (cb, st) ∧ cb < b ∧ s ≠ t ∧
          roundFlags d1 = (roundFlags (roundStart d t b)).set s (cb, false))) ∧
    (∀ (d d1 : HostStealPolicyData) (self : Thread) (b : Nat) (r : Option Event),
      d.threadToThreadDataMap self = none → pop d self b = .returned d1 r →
      roundFlags d1 = roundFlags d) ∧
    (∀ (d d1 : HostStealPolicyData) (self : Thread) (event : Event) (srcHost dstHost : Host)
        (b : Nat), push d self event srcHost dstHost b = some d1 →
      roundFlags d1 = roundFlags d) ∧
    (∀ (d : HostStealPolicyData) (self : Thread), roundFlags (getHosts d self).2 = roundFlags d) ∧
    (∀ (d : HostStealPolicyData) (self : Thread) (host : Host) (thread : Thread),
      roundFlags (addHost d self host thread) = roundFlags d ∨
      roundFlags (addHost d self host thread) = roundFlags d ++ [(0, false)]) := by
  refine ⟨?_, ?_, ?_, ?_, getHosts_roundFlags, addHost_roundFlags⟩
  · intro d hr k td hk hst
    apply stealable_rotated false d hr (td.currentBarrier, td.isStealable) ?_ hst
    unfold roundFlags
    exact List.mem_map.2 ⟨td, List.getElem?_mem hk, rfl⟩
  · intro d self b t tdata hmap htd
    exact ⟨roundFlags_roundStart d t b tdata htd, pop_roundFlags d self b t tdata hmap htd⟩
  · intro d d1 self b r hmap hp
    simp only [pop, hmap] at hp
    injection hp with hp _
    rw [hp]
  · intro d d1 self event srcHost dstHost b hp
    obtain ⟨_, _, _, hl, _⟩ := push_hostToQueueDataMap d d1 self event srcHost dstHost b hp
    unfold roundFlags
    rw [hl]

/-- C25 (amended) on the state in which thread 2 waits for thread 1: the slot
of thread 2 is stealable and its barrier is 20. -/
theorem stealable_flag_transitions_witness :
    (0 : Nat) < (HostStealThreadData.mk none [] [2] none 20 1 true).currentBarrier :=
  stealable_flag_transitions.1 (thiefAheadRun.getD schedulerpolicyhoststeal_new)
    thiefAheadRun_reachable 1 (HostStealThreadData.mk none [] [2] none 20 1 true) rfl rfl

theorem lockRun_append (ops1 : List LockOp) :
    ∀ (held : List Nat) (ops2 : List LockOp),
      lockRun held (ops1 ++ ops2) = (lockRun held ops1).bind (fun h => lockRun h ops2) := by
  induction ops1 with
  | nil =>
    intro held ops2
    rfl
  | cons op ops ih =>
    intro held ops2
    simp only [List.cons_append, lockRun]
    cases lockStep held op with
    | none => rfl
    | some held1 => exact ih held1 ops2

/-- The two locks around a steal: the smaller position first, released in the
reverse order. -/
theorem stealLocks_eq (t s : Nat) (hne : s ≠ t) :
    stealLocks t t s =
      ([.lock (min t s), .lock (max t s)], [.unlock (max t s), .unlock (min t s)]) := by
  unfold stealLocks
  by_cases h : t < s
  · rw [if_pos h, Nat.min_eq_left (Nat.le_of_lt h), Nat.max_eq_right (Nat.le_of_lt h)]
  · have hlt : s < t := by omega
    rw [if_neg h, Nat.min_eq_right (Nat.le_of_lt hlt), Nat.max_eq_left (Nat.le_of_lt hlt)]

theorem lockRun_pair (a b : Nat) (h : a < b) :
    lockRun [] [.lock a, .lock b] = some [b, a] ∧
    lockRun [b, a] [.unlock b, .unlock a] = some [] := by
  simp [lockRun, lockStep, h]

theorem lockRun_stealLocks (t s : Nat) (hne : s ≠ t) :
    lockRun [] (stealLocks t t s).1 = some [max t s, min t s] ∧
    lockRun [max t s, min t s] (stealLocks t t s).2 = some [] := by
  rw [stealLocks_eq t s hne]
  have hlt : min t s < max t s := by
    rcases Nat.lt_or_gt_of_ne hne with h | h
    · rw [Nat.min_eq_right (Nat.le_of_lt h), Nat.max_eq_left (Nat.le_of_lt h)]
      exact h
    · rw [Nat.min_eq_left (Nat.le_of_lt h), Nat.max_eq_right (Nat.le_of_lt h)]
      exact h
  exact lockRun_pair _ _ hlt

/-- The steal loop keeps the lock discipline and holds no slot lock when it
returns. -/
theorem stealLoopLocks_ordered (self : Thread) (t n barrier : Nat) :
    ∀ (l : List Nat) (d : HostStealPolicyData), (∀ i ∈ l, (i + t) % n ≠ t) →
      ∃ held, lockRun [] (stealLoopLocks self t t n barrier l d) = some held ∧
        (∀ d1 r, stealLoop self t t n barrier l d = .returned d1 r → held = []) := by
  intro l
  induction l with
  | nil =>
    intro d _
    exact ⟨[], rfl, fun _ _ _ => rfl⟩
  | cons i rest ih =>
    intro d hl
    have hne : (i + t) % n ≠ t := hl i (List.mem_cons_self _ _)
    have hrest : ∀ j ∈ rest, (j + t) % n ≠ t := fun j hj => hl j (List.mem_cons_of_mem _ hj)
    have hfirst : lockRun [] [LockOp.lock ((i + t) % n), LockOp.unlock ((i + t) % n)] =
        some [] := by
      simp [lockRun, lockStep]
    obtain ⟨hacq, hrel⟩ := lockRun_stealLocks t ((i + t) % n) hne
    cases hs : d.threadList[(i + t) % n]? with
    | none =>
      refine ⟨[], by simp only [stealLoopLocks, hs]; rfl, ?_⟩
      intro d1 r h
      simp only [stealLoop, hs] at h
      exact absurd h (by simp)
    | some sd =>
      by_cases hb : barrier > sd.currentBarrier
      · refine ⟨[], ?_, ?_⟩
        · simp only [stealLoopLocks, hs, hb, if_true, List.append_nil]
          exact hfirst
        · intro d1 r h
          simp only [stealLoop, hs, hb, if_true] at h
          exact absurd h (by simp)
      · by_cases hu : sd.unprocessedHosts = []
        · obtain ⟨held, h1, h2⟩ := ih d hrest
          refine ⟨held, ?_, ?_⟩
          · simp only [stealLoopLocks, hs, hb, if_false, hu, if_true]
            rw [lockRun_append, hfirst]
            exact h1
          · intro d1 r h
            simp only [stealLoop, hs, hb, if_false, hu, if_true] at h
            exact h2 d1 r h
        · cases hpop : popFromThread d self t ((i + t) % n) barrier with
          | returned d2 r =>
            cases r with
            | none =>
              obtain ⟨held, h1, h2⟩ := ih d2 hrest
              refine ⟨held, ?_, ?_⟩
              · simp only [stealLoopLocks, hs, hb, if_false, hu, hpop]
                rw [lockRun_append, hfirst, Option.some_bind, lockRun_append, hacq,
                  Option.some_bind, lockRun_append, hrel]
                exact h1
              · intro d1 r h
                simp only [stealLoop, hs, hb, if_false, hu, hpop] at h
                exact h2 d1 r h
            | some ev =>
              refine ⟨[], ?_, fun _ _ _ => rfl⟩
              simp only [stealLoopLocks, hs, hb, if_false, hu, hpop]
              rw [lockRun_append, hfirst, Option.some_bind, lockRun_append, hacq]
              exact hrel
          | spinning d2 =>
            refine ⟨[max t ((i + t) % n), min t ((i + t) % n)], ?_, ?_⟩
            · simp only [stealLoopLocks, hs, hb, if_false, hu, hpop, List.append_nil]
              rw [lockRun_append, hfirst]
              exact hacq
            · intro d1 r h
              simp only [stealLoop, hs, hb, if_false, hu, hpop] at h
              exact absurd h (by simp)
          | aborted =>
            refine ⟨[max t ((i + t) % n), min t ((i + t) % n)], ?_, ?_⟩
            · simp only [stealLoopLocks, hs, hb, if_false, hu, hpop, List.append_nil]
              rw [lockRun_append, hfirst]
              exact hacq
            · intro d1 r h
              simp only [stealLoop, hs, hb, if_false, hu, hpop] at h
              exact absurd h (by simp)
          | outOfFuel =>
            refine ⟨[max t ((i + t) % n), min t ((i + t) % n)], ?_, ?_⟩
            · simp only [stealLoopLocks, hs, hb, if_false, hu, hpop, List.append_nil]
              rw [lockRun_append, hfirst]
              exact hacq
            · intro d1 r h
              simp only [stealLoop, hs, hb, if_false, hu, hpop] at h
              exact absurd h (by simp)

/-- C26 (slot-lock ordering): the two slot locks that `pop` holds around a steal
from a victim at another position are taken smaller position first and
released in the reverse order.  In every reachable state the slot-lock
operations of a whole `pop` (the caller's own lock around its own attempt, the
victim's lock around the barrier test, the two locks around each steal) keep
the discipline "take a lock only above every lock held, release the lock
taken last", and no slot lock is held when `pop` returns; `push` takes at most
the caller's own slot lock. -/
theorem slot_lock_order :
    (∀ (t s : Nat), s ≠ t →
      stealLocks t t s =
        ([.lock (min t s), .lock (max t s)], [.unlock (max t s), .unlock (min t s)])) ∧
    (∀ (d : HostStealPolicyData) (self : Thread) (b : Nat), Reachable d →
      ∃ held, lockRun [] (popLocks d self b) = some held ∧
        (∀ d1 r, pop d self b = .returned d1 r → held = [])) ∧
    (∀ (d : HostStealPolicyData) (self : Thread), lockRun [] (pushLocks d self) = some []) ∧
    (∀ (held : List Nat) (k : Nat),
      (lockStep held (.lock k)).isSome = true ↔ ∀ h ∈ held, h < k) ∧
    (∀ (held : List Nat) (k : Nat),
      (lockStep held (.unlock k)).isSome = true ↔ held.head? = some k) := by
  refine ⟨stealLocks_eq, ?_, ?_, ?_, ?_⟩
  · intro d self b hr
    have hI := Indexed_of_reachable false d hr
    cases hmap : d.threadToThreadDataMap self with
    | none => exact ⟨[], by simp only [popLocks, hmap]; rfl, fun _ _ _ => rfl⟩
    | some t =>
      cases htd : d.threadList[t]? with
      | none => exact ⟨[], by simp only [popLocks, hmap, htd]; rfl, fun _ _ _ => rfl⟩
      | some tdata =>
        have hlt : t < d.threadList.length := (List.getElem?_eq_some.1 htd).1
        have htn : tdata.tnumber = t := hI.tnumber_eq t tdata htd
        have hown : lockRun [] [LockOp.lock t, LockOp.unlock t] = some [] := by
          simp [lockRun, lockStep]
        cases hpop : popFromThread (roundStart d t b) self t t b with
        | returned d2 r =>
          cases r with
          | some ev =>
            refine ⟨[], ?_, fun _ _ _ => rfl⟩
            simp only [popLocks, hmap, htd, hpop]
            exact hown
          | none =>
            have hcount : d2.threadCount = d.threadList.length := by
              rw [popFromThread_none_threadCount _ d2 self t t b hpop,
                (roundStart_fields d t b).2.2.2.1]
              exact hI.count_eq
            have hsteal : pop d self b = stealLoop self t t d2.threadCount b
                (List.range' 1 (d2.threadCount - 1)) d2 := by
              rw [pop_eq_popAfterRoundStart d self b t tdata hmap htd, htn]
              unfold popAfterRoundStart
              rw [hpop]
            obtain ⟨held, h1, h2⟩ := stealLoopLocks_ordered self t d2.threadCount b
              (List.range' 1 (d2.threadCount - 1)) d2 (by
                intro i hi
                rw [List.mem_range'_1] at hi
                exact steal_index_ne i t d2.threadCount hi.1 (by omega) (by omega))
            refine ⟨held, ?_, ?_⟩
            · simp only [popLocks, hmap, htd, hpop, htn]
              have happ : ∀ ops, lockRun [] (LockOp.lock t :: LockOp.unlock t :: ops) =
                  lockRun [] ops := by
                intro ops
                simp [lockRun, lockStep]
              rw [happ]
              exact h1
            · intro d1 r h
              rw [hsteal] at h
              exact h2 d1 r h
        | spinning d2 =>
          refine ⟨[t], ?_, ?_⟩
          · simp [popLocks, hmap, htd, hpop, lockRun, lockStep]
          · intro d1 r h
            rw [pop_eq_popAfterRoundStart d self b t tdata hmap htd] at h
            unfold popAfterRoundStart at h
            rw [hpop] at h
            exact absurd h (by simp)
        | aborted =>
          refine ⟨[t], ?_, ?_⟩
          · simp [popLocks, hmap, htd, hpop, lockRun, lockStep]
          · intro d1 r h
            rw [pop_eq_popAfterRoundStart d self b t tdata hmap htd] at h
            unfold popAfterRoundStart at h
            rw [hpop] at h
            exact absurd h (by simp)
        | outOfFuel =>
          refine ⟨[t], ?_, ?_⟩
          · simp [popLocks, hmap, htd, hpop, lockRun, lockStep]
          · intro d1 r h
            rw [pop_eq_popAfterRoundStart d self b t tdata hmap htd] at h
            unfold popAfterRoundStart at h
            rw [hpop] at h
            exact absurd h (by simp)
  · intro d self
    unfold pushLocks
    cases d.threadToThreadDataMap self with
    | none => rfl
    | some t => simp [lockRun, lockStep]
  · intro held k
    unfold lockStep
    by_cases h : ∀ h ∈ held, h < k
    · simp [h]
    · simp only [h, if_false, Option.isSome_none, Bool.false_eq_true]
  · intro held k
    cases held with
    | nil => simp [lockStep]
    | cons h rest =>
      by_cases hk : h = k
      · simp [lockStep, hk]
      · simp [lockStep, hk]

/-- C26 on the steal scenario: thread 2 (slot 1) takes its own lock, then the
lock of slot 0 for the barrier test, then slot 0 before slot 1 for the steal,
and releases slot 1 before slot 0. -/
theorem slot_lock_order_witness :
    popLocks (stealStart.getD schedulerpolicyhoststeal_new) 2 10 =
      [.lock 1, .unlock 1, .lock 0, .unlock 0, .lock 0, .lock 1, .unlock 1, .unlock 0] ∧
    ∃ held, lockRun [] (popLocks (stealStart.getD schedulerpolicyhoststeal_new) 2 10) =
        some held ∧
      (∀ d1 r, pop (stealStart.getD schedulerpolicyhoststeal_new) 2 10 = .returned d1 r →
        held = []) :=
  ⟨rfl, slot_lock_order.2.1 (stealStart.getD schedulerpolicyhoststeal_new) 2 10
    (Reachable_of_once _ stealStart_reachable)⟩

theorem ContractRun_reachable (d : HostStealPolicyData) (m : Nat) (h : ContractRun d m) :
    Reachable d := by
  induction h with
  | init => exact ReachableBy.init
  | addHost d m self host thread _ ih =>
    exact ReachableBy.addHost d self host thread ih (fun hc => absurd hc (by simp))
  | push d d1 m self event srcHost dstHost barrier _ _ _ hp ih =>
    exact ReachableBy.push d d1 self event srcHost dstHost barrier ih hp
  | popReturned d d1 m self barrier r _ hp ih =>
    exact ReachableBy.popReturned d d1 self barrier r ih hp
  | popSpinning d d1 m self barrier _ hp ih =>
    exact ReachableBy.popSpinning d d1 self barrier ih hp
  | getHosts d m self _ ih => exact ReachableBy.getHosts d self ih

theorem adjustEventTime_time (event : Event) (srcHost dstHost : Host) (barrier : Nat) :
    (srcHost ≠ dstHost → barrier ≤ (adjustEventTime event srcHost dstHost barrier).time) ∧
    (srcHost = dstHost → adjustEventTime event srcHost dstHost barrier = event) := by
  unfold adjustEventTime
  constructor
  · intro hne
    by_cases h : event_getTime event < barrier
    · simp [hne, h, event_setTime]
    · simp only [ne_eq, hne, not_false_eq_true, h, and_false, if_false]
      exact Nat.le_of_not_lt h
  · intro heq
    simp [heq]

/-- Under the caller contract no queued event is earlier than the
`lastEventTime` of its queue, and no `lastEventTime` is above the largest
barrier passed to a `pop`. -/
theorem ContractRun_invariant (d : HostStealPolicyData) (m : Nat) (h : ContractRun d m) :
    QueuesMonotone d ∧ LastEventBounded d m := by
  induction h with
  | init =>
    constructor
    · intro host qdata ev hq
      simp [schedulerpolicyhoststeal_new] at hq
    · intro host qdata hq
      simp [schedulerpolicyhoststeal_new] at hq
  | addHost d m self host thread _ ih =>
    have key : ∀ host1 qdata, (addHost d self host thread).hostToQueueDataMap host1 = some qdata →
        d.hostToQueueDataMap host1 = some qdata ∨ qdata = hoststealqueuedata_new := by
      intro host1 qdata hq
      rw [addHost_hostToQueueDataMap] at hq
      cases hq0 : d.hostToQueueDataMap host with
      | none =>
        rw [hq0] at hq
        simp only [] at hq
        by_cases hh : host1 = host
        · subst hh
          rw [Function.update_same] at hq
          injection hq with hq
          exact Or.inr hq.symm
        · rw [Function.update_noteq hh] at hq
          exact Or.inl hq
      | some q =>
        rw [hq0] at hq
        exact Or.inl hq
    constructor
    · intro host1 qdata ev hq hev
      rcases key host1 qdata hq with h | h
      · exact ih.1 host1 qdata ev h hev
      · rw [h] at hev
        simp [hoststealqueuedata_new] at hev
    · intro host1 qdata hq
      rcases key host1 qdata hq with h | h
      · exact ih.2 host1 qdata h
      · rw [h]
        exact Nat.zero_le _
  | push d d1 m self event srcHost dstHost barrier _ hmb hlocal hp ih =>
    obtain ⟨q0, hq0, hq1, _⟩ := push_hostToQueueDataMap d d1 self event srcHost dstHost barrier hp
    have htime := adjustEventTime_time event srcHost dstHost barrier
    constructor
    · intro host qdata ev hq hev
      rw [hq1] at hq
      by_cases hh : host = dstHost
      · subst hh
        rw [Function.update_same] at hq
        injection hq with hq
        subst hq
        simp only [] at hev ⊢
        rcases (mem_priorityqueue_push _ _ _).1 hev with he | he
        · rw [he]
          by_cases hsd : srcHost = host
          · rw [htime.2 hsd]
            exact hlocal hsd q0 hq0
          · have h1 := htime.1 hsd
            have h2 := ih.2 host q0 hq0
            omega
        · exact ih.1 host q0 ev hq0 he
      · rw [Function.update_noteq hh] at hq
        exact ih.1 host qdata ev hq hev
    · intro host qdata hq
      rw [hq1] at hq
      by_cases hh : host = dstHost
      · subst hh
        rw [Function.update_same] at hq
        injection hq with hq
        subst hq
        exact ih.2 host q0 hq0
      · rw [Function.update_noteq hh] at hq
        exact ih.2 host qdata hq
  | popReturned d d1 m self barrier r hrun hp ih =>
    cases r with
    | none =>
      have hq := (pop_queue_effect d self barrier).1 d1 hp
      constructor
      · intro host qdata ev hq1 hev
        rw [hq] at hq1
        exact ih.1 host qdata ev hq1 hev
      · intro host qdata hq1
        rw [hq] at hq1
        exact Nat.le_trans (ih.2 host qdata hq1) (Nat.le_max_left _ _)
    | some ev =>
      obtain ⟨_, host1, q0, rest, _, _, _, _, _, hq0, hpq, hlt, _, hq1⟩ :=
        (pop_queue_effect d self barrier).2.2 d1 ev hp
      have hsorted := QueuesSorted_of_reachable false d (ContractRun_reachable d m hrun)
        host1 q0 hq0
      rw [hpq] at hsorted
      constructor
      · intro host qdata ev1 hq hev
        rw [hq1] at hq
        by_cases hh : host = host1
        · subst hh
          rw [Function.update_same] at hq
          injection hq with hq
          subst hq
          exact (List.pairwise_cons.1 hsorted).1 ev1 hev
        · rw [Function.update_noteq hh] at hq
          exact ih.1 host qdata ev1 hq hev
      · intro host qdata hq
        rw [hq1] at hq
        by_cases hh : host = host1
        · subst hh
          rw [Function.update_same] at hq
          injection hq with hq
          subst hq
          show ev.time ≤ max m barrier
          omega
        · rw [Function.update_noteq hh] at hq
          exact Nat.le_trans (ih.2 host qdata hq) (Nat.le_max_left _ _)
  | popSpinning d d1 m self barrier _ hp ih =>
    have hq := (pop_queue_effect d self barrier).2.1 d1 hp
    constructor
    · intro host qdata ev hq1 hev
      rw [hq] at hq1
      exact ih.1 host qdata ev hq1 hev
    · intro host qdata hq1
      rw [hq] at hq1
      exact Nat.le_trans (ih.2 host qdata hq1) (Nat.le_max_left _ _)
  | getHosts d m self _ ih =>
    constructor
    · intro host qdata ev hq hev
      rw [(getHosts_fields d self).1] at hq
      exact ih.1 host qdata ev hq hev
    · intro host qdata hq
      rw [(getHosts_fields d self).1] at hq
      exact ih.2 host qdata hq

/-- The assertion of `popFromThread`: a head event below the barrier that is
earlier than the `lastEventTime` of its queue stops the call. -/
theorem popFromHost_assertion (d : HostStealPolicyData) (self : Thread) (t : Nat) (host : Host)
    (barrier : Nat) (qdata : HostStealQueueData) (peeked : Event)
    (hq : d.hostToQueueDataMap host = some qdata)
    (hpeek : priorityqueue_peek qdata.pq = some peeked)
    (hlt : event_getTime peeked < barrier)
    (hlate : event_getTime peeked < qdata.lastEventTime) :
    popFromHost d self t host barrier = .aborted := by
  unfold popFromHost
  rw [hq]
  simp only [hpeek, hlt, if_true, Nat.not_le.2 hlate, if_false]

theorem contractRun_kept :
    ContractRun (contractRun.getD schedulerpolicyhoststeal_new) (max 0 10) :=
  ContractRun.push _ _ _ 2 (Event.mk 2 2 1 0) 1 0 10
    (ContractRun.push _ _ _ 1 (localEvent 1 7 0) 0 0 10
      (ContractRun.popReturned _ _ 0 1 10 (some (localEvent 0 5 0))
        (ContractRun.push _ _ 0 1 (localEvent 0 5 0) 0 0 0
          (ContractRun.addHost _ 0 1 1 2
            (ContractRun.addHost _ 0 1 0 1 ContractRun.init))
          (Nat.le_refl 0)
          (fun _ qdata hq => by
            have h : some (HostStealQueueData.mk [] 0 0 0) = some qdata := hq
            rw [← Option.some.inj h]
            decide)
          rfl)
        rfl)
      (by decide)
      (fun _ qdata hq => by
        have h : some (HostStealQueueData.mk [] 5 1 1) = some qdata := hq
        rw [← Option.some.inj h]
        decide)
      rfl)
    (by decide)
    (fun hsd => absurd hsd (by decide))
    rfl

/-- C30 (the monotonicity assertion is unreachable under the caller contract):
in every state of a run in which every same-host push supplies an event that
is not earlier than the `lastEventTime` of the destination queue and every
push is called with a barrier that is not below any barrier passed to a `pop`
before, every queued event has a time of at least the `lastEventTime` of its
queue and no `lastEventTime` exceeds the largest barrier popped with.  So the
head that `popFromThread` peeks at always passes
`utility_assert(eventTime >= qdata->lastEventTime)`, the only way past which
is shown to be that condition. -/
theorem monotonicity_assertion_unreachable :
    (∀ (d : HostStealPolicyData) (m : Nat), ContractRun d m →
      QueuesMonotone d ∧ LastEventBounded d m ∧
      ∀ (host : Host) (qdata : HostStealQueueData) (peeked : Event),
        d.hostToQueueDataMap host = some qdata →
        priorityqueue_peek qdata.pq = some peeked →
        qdata.lastEventTime ≤ event_getTime peeked) ∧
    (∀ (d : HostStealPolicyData) (self : Thread) (t : Nat) (host : Host) (barrier : Nat)
        (qdata : HostStealQueueData) (peeked : Event),
      d.hostToQueueDataMap host = some qdata →
      priorityqueue_peek qdata.pq = some peeked →
      event_getTime peeked < barrier → event_getTime peeked < qdata.lastEventTime →
      popFromHost d self t host barrier = .aborted) ∧
    (∀ (d : HostStealPolicyData) (m : Nat), ContractRun d m →
      ∀ (self : Thread) (b : Nat) (d1 : HostStealPolicyData),
        ((∃ r, pop d self b = .returned d1 r) ∨ pop d self b = .spinning d1) →
        QueuesMonotone d1) := by
  refine ⟨?_, popFromHost_assertion, ?_⟩
  · intro d m h
    obtain ⟨h1, h2⟩ := ContractRun_invariant d m h
    refine ⟨h1, h2, ?_⟩
    intro host qdata peeked hq hpeek
    exact h1 host qdata peeked hq (List.mem_of_mem_head? hpeek)
  · intro d m h self b d1 hp
    rcases hp with ⟨r, hp⟩ | hp
    · exact (ContractRun_invariant d1 _ (ContractRun.popReturned d d1 m self b r h hp)).1
    · exact (ContractRun_invariant d1 _ (ContractRun.popSpinning d d1 m self b h hp)).1

/-- C30 on the scenario "contract kept": host 0 has popped an event of time 5
and holds the cross-host event, moved to the barrier 10, behind the local
event of time 7. -/
theorem monotonicity_assertion_unreachable_witness :
    QueuesMonotone (contractRun.getD schedulerpolicyhoststeal_new) ∧
    LastEventBounded (contractRun.getD schedulerpolicyhoststeal_new) (max 0 10) ∧
    (∀ (host : Host) (qdata : HostStealQueueData) (peeked : Event),
      (contractRun.getD schedulerpolicyhoststeal_new).hostToQueueDataMap host = some qdata →
      priorityqueue_peek qdata.pq = some peeked →
      qdata.lastEventTime ≤ event_getTime peeked) ∧
    (contractRun.bind (fun d => d.hostToQueueDataMap 0)) =
      some (HostStealQueueData.mk [localEvent 1 7 0, Event.mk 2 10 1 0] 5 3 1) :=
  ⟨(monotonicity_assertion_unreachable.1 _ _ contractRun_kept).1,
   (monotonicity_assertion_unreachable.1 _ _ contractRun_kept).2.1,
   (monotonicity_assertion_unreachable.1 _ _ contractRun_kept).2.2,
   by decide⟩

theorem headDue_congr (d d1 : HostStealPolicyData) (b : Nat)
    (h : d1.hostToQueueDataMap = d.hostToQueueDataMap) (host : Host) :
    headDue d1 b host = headDue d b host := by
  unfold headDue
  rw [h]

theorem firstDue_congr (d d1 : HostStealPolicyData) (b : Nat)
    (h : d1.hostToQueueDataMap = d.hostToQueueDataMap) :
    ∀ (hosts : List Host), firstDue d1 b hosts = firstDue d b hosts := by
  intro hosts
  induction hosts with
  | nil => rfl
  | cons x xs ih => simp only [firstDue, headDue_congr d d1 b h, ih]

/-- The split of `firstDue` is at the first host that qualifies. -/
theorem firstDue_spec (d : HostStealPolicyData) (b : Nat) :
    ∀ (hosts : List Host),
      (firstDue d b hosts = none → ∀ x ∈ hosts, headDue d b x = false) ∧
      (∀ pre h post, firstDue d b hosts = some (pre, h, post) →
        hosts = pre ++ h :: post ∧ headDue d b h = true ∧ ∀ x ∈ pre, headDue d b x = false) := by
  intro hosts
  induction hosts with
  | nil =>
    constructor
    · intro _ x hx
      exact absurd hx (by simp)
    · intro pre h post hf
      simp [firstDue] at hf
  | cons y ys ih =>
    by_cases hy : headDue d b y = true
    · constructor
      · intro hf
        simp [firstDue, hy] at hf
      · intro pre h post hf
        simp only [firstDue, hy, if_true, Option.some.injEq, Prod.mk.injEq] at hf
        obtain ⟨h1, h2, h3⟩ := hf
        subst h1 h2 h3
        exact ⟨rfl, hy, fun x hx => absurd hx (by simp)⟩
    · have hy' : headDue d b y = false := by
        cases hh : headDue d b y with
        | true => exact absurd hh hy
        | false => rfl
      cases hrec : firstDue d b ys with
      | none =>
        constructor
        · intro _ x hx
          rcases List.mem_cons.1 hx with hx | hx
          · rw [hx]
            exact hy'
          · exact ih.1 hrec x hx
        · intro pre h post hf
          simp [firstDue, hy', hrec] at hf
      | some triple =>
        obtain ⟨pre0, h0, post0⟩ := triple
        constructor
        · intro hf
          simp [firstDue, hy', hrec] at hf
        · intro pre h post hf
          simp only [firstDue, hy', Bool.false_eq_true, if_false, hrec, Option.some.injEq,
            Prod.mk.injEq] at hf
          obtain ⟨h1, h2, h3⟩ := hf
          subst h1 h2 h3
          obtain ⟨h4, h5, h6⟩ := ih.2 pre0 h0 post0 hrec
          refine ⟨by rw [h4]; rfl, h5, ?_⟩
          intro x hx
          rcases List.mem_cons.1 hx with hx | hx
          · rw [hx]
            exact hy'
          · exact h6 x hx

/-- A host that qualifies has a queue with a head event below the barrier. -/
theorem headDue_true (d : HostStealPolicyData) (b : Nat) (host : Host)
    (h : headDue d b host = true) :
    ∃ qdata ev rest, d.hostToQueueDataMap host = some qdata ∧ qdata.pq = ev :: rest ∧
      ev.time < b := by
  unfold headDue at h
  cases hq : d.hostToQueueDataMap host with
  | none =>
    rw [hq] at h
    exact absurd h (by simp)
  | some qdata =>
    rw [hq] at h
    simp only [] at h
    cases hpq : qdata.pq with
    | nil =>
      rw [hpq] at h
      exact absurd h (by simp)
    | cons ev rest =>
      rw [hpq] at h
      simp only [List.head?_cons, decide_eq_true_eq] at h
      exact ⟨qdata, ev, rest, rfl, hpq, h⟩

theorem headDue_false (d : HostStealPolicyData) (b : Nat) (host : Host)
    (qdata : HostStealQueueData) (hq : d.hostToQueueDataMap host = some qdata)
    (h : ∀ ev, qdata.pq.head? = some ev → b ≤ ev.time) : headDue d b host = false := by
  unfold headDue
  rw [hq]
  simp only []
  cases hpq : qdata.pq.head? with
  | none => rfl
  | some ev =>
    simp only [decide_eq_false_iff_not, Nat.not_lt]
    exact h ev hpq

/-- The state in which the loop body meets its running host, as a scan effect:
the host is the first of the scan sequence and nothing has been retired. -/
theorem Selected_scan (d d0 : HostStealPolicyData) (t src : Nat) (host : Host)
    (hsel : Selected d t src d0 host) (td sd : HostStealThreadData)
    (ht : d.threadList[t]? = some td) (hs : d.threadList[src]? = some sd) :
    ∃ rest, scanSequence td sd = host :: rest ∧ ScanEffect d d0 t src [] (some host) rest := by
  rcases hsel with ⟨tdata, sdata, ht', hs', hrun, rfl⟩ |
    ⟨tdata, sdata, rest, tdata1, ht', hs', hrun, hun, ht1, rfl⟩
  · rw [ht] at ht'
    rw [hs] at hs'
    injection ht' with ht'
    injection hs' with hs'
    subst ht' hs'
    refine ⟨sd.unprocessedHosts, by simp [scanSequence, hrun], ?_⟩
    exact ⟨td, sd, td, sd, ht, hs, ht, hs, (List.append_nil _).symm, hrun, rfl,
      fun _ => ⟨rfl, rfl, rfl⟩, fun _ _ _ => rfl, rfl, rfl, rfl⟩
  · rw [ht] at ht'
    rw [hs] at hs'
    injection ht' with ht'
    injection hs' with hs'
    subst ht' hs'
    have htl : t < d.threadList.length := (List.getElem?_eq_some.1 ht).1
    have hsl : src < d.threadList.length := (List.getElem?_eq_some.1 hs).1
    refine ⟨rest, by simp [scanSequence, hrun, hun], ?_⟩
    simp only [setThread_threadList] at ht1
    have hlen : ∀ (a b : HostStealThreadData),
        ((d.threadList.set src a).set t b).length = d.threadList.length := by
      intro a b
      rw [List.length_set, List.length_set]
    have htt : ∀ (a b : HostStealThreadData),
        ((d.threadList.set src a).set t b)[t]? = some b := by
      intro a b
      rw [List.getElem?_set_self (by rw [List.length_set]; exact htl)]
    have hframe : ∀ (a b : HostStealThreadData) (k : Nat), k ≠ t → k ≠ src →
        ((d.threadList.set src a).set t b)[k]? = d.threadList[k]? := by
      intro a b k hkt hks
      rw [List.getElem?_set_ne (fun hh => hkt hh.symm),
        List.getElem?_set_ne (fun hh => hks hh.symm)]
    by_cases hst : src = t
    · subst hst
      rw [List.getElem?_set_self hsl] at ht1
      injection ht1 with ht1
      subst ht1
      rw [hs] at ht
      injection ht with ht
      subst ht
      exact ⟨sd, sd, _, _, hs, hs, htt _ _, htt _ _, (List.append_nil _).symm, rfl, rfl,
        fun hne => absurd rfl hne, hframe _ _, hlen _ _, rfl, rfl⟩
    · rw [List.getElem?_set_ne hst, ht] at ht1
      injection ht1 with ht1
      subst ht1
      have hss : ∀ (a b : HostStealThreadData),
          ((d.threadList.set src a).set t b)[src]? = some a := by
        intro a b
        rw [List.getElem?_set_ne (fun hh => hst hh.symm), List.getElem?_set_self hsl]
      exact ⟨td, sd, _, _, ht, hs, htt _ _, hss _ _, (List.append_nil _).symm, rfl, rfl,
        fun _ => ⟨rfl, rfl, rfl⟩, hframe _ _, hlen _ _, rfl, rfl⟩

/-- Retiring the running host after a scan: it goes to the tail of the hosts
moved, and the slot runs nothing. -/
theorem ScanEffect_retire (d d0 : HostStealPolicyData) (t src : Nat) (moved : List Host)
    (host : Host) (rest : List Host) (td0 : HostStealThreadData)
    (h : ScanEffect d d0 t src moved (some host) rest) (ht0 : d0.threadList[t]? = some td0) :
    ∀ td0', td0'.processedHosts = td0.processedHosts ++ [host] → td0'.runningHost = none →
      td0'.unprocessedHosts = td0.unprocessedHosts →
      ScanEffect d (setThread d0 t td0') t src (moved ++ [host]) none rest := by
  intro td0' hp hr hu
  obtain ⟨td, sd, td1, sd1, ht, hs, ht1, hs1, h1, h2, h3, h4, h5, h6, h7, h8⟩ := h
  rw [ht0] at ht1
  injection ht1 with ht1
  subst ht1
  have htl : t < d0.threadList.length := (List.getElem?_eq_some.1 ht0).1
  have htt : (setThread d0 t td0').threadList[t]? = some td0' := by
    rw [setThread_threadList, List.getElem?_set_self htl]
  by_cases hst : src = t
  · subst hst
    rw [ht0] at hs1
    injection hs1 with hs1
    subst hs1
    refine ⟨td, sd, td0', td0', ht, hs, htt, htt, by rw [hp, h1, List.append_assoc], hr,
      by rw [hu, h3], fun hne => absurd rfl hne, ?_, ?_, h7, h8⟩
    · intro k hkt hks
      rw [setThread_threadList, List.getElem?_set_ne (fun hh => hkt hh.symm)]
      exact h5 k hkt hks
    · rw [setThread_threadList, List.length_set]
      exact h6
  · have hss : (setThread d0 t td0').threadList[src]? = some sd1 := by
      rw [setThread_threadList, List.getElem?_set_ne (fun hh => hst hh.symm)]
      exact hs1
    refine ⟨td, sd, td0', sd1, ht, hs, htt, hss, by rw [hp, h1, List.append_assoc], hr, h3,
      fun hne => ⟨by rw [hu]; exact (h4 hne).1, (h4 hne).2⟩, ?_, ?_, h7, h8⟩
    · intro k hkt hks
      rw [setThread_threadList, List.getElem?_set_ne (fun hh => hkt hh.symm)]
      exact h5 k hkt hks
    · rw [setThread_threadList, List.length_set]
      exact h6

/-- Two scans in a row. -/
theorem ScanEffect_trans (d d1 d2 : HostStealPolicyData) (t src : Nat)
    (moved1 moved2 : List Host) (run1 run2 : Option Host) (rest1 rest2 : List Host)
    (h1 : ScanEffect d d1 t src moved1 run1 rest1)
    (h2 : ScanEffect d1 d2 t src moved2 run2 rest2) :
    ScanEffect d d2 t src (moved1 ++ moved2) run2 rest2 := by
  obtain ⟨td, sd, td1, sd1, ht, hs, ht1, hs1, a1, _, _, a4, a5, a6, a7, a8⟩ := h1
  obtain ⟨td1', sd1', td2, sd2, ht1', hs1', ht2, hs2, b1, b2, b3, b4, b5, b6, b7, b8⟩ := h2
  rw [ht1] at ht1'
  rw [hs1] at hs1'
  injection ht1' with ht1'
  injection hs1' with hs1'
  subst ht1' hs1'
  refine ⟨td, sd, td2, sd2, ht, hs, ht2, hs2, by rw [b1, a1, List.append_assoc], b2, b3, ?_, ?_,
    by rw [b6, a6], by rw [b7, a7], by rw [b8, a8]⟩
  · intro hne
    obtain ⟨x1, x2, x3⟩ := a4 hne
    obtain ⟨y1, y2, y3⟩ := b4 hne
    exact ⟨by rw [y1, x1], by rw [y2, x2], by rw [y3, x3]⟩
  · intro k hkt hks
    rw [b5 k hkt hks, a5 k hkt hks]

/-- A state that differs from `d0` only outside the slots is the same scan. -/
theorem ScanEffect_of_threadList (d d0 d1 : HostStealPolicyData) (t src : Nat)
    (moved : List Host) (run : Option Host) (rest : List Host)
    (h : ScanEffect d d0 t src moved run rest) (hl : d1.threadList = d0.threadList)
    (hc : d1.threadCount = d0.threadCount)
    (hm : d1.threadToThreadDataMap = d0.threadToThreadDataMap) :
    ScanEffect d d1 t src moved run rest := by
  obtain ⟨td, sd, td1, sd1, ht, hs, ht1, hs1, a1, a2, a3, a4, a5, a6, a7, a8⟩ := h
  exact ⟨td, sd, td1, sd1, ht, hs, by rw [hl]; exact ht1, by rw [hl]; exact hs1, a1, a2, a3, a4,
    fun k hkt hks => by rw [hl]; exact a5 k hkt hks, by rw [hl]; exact a6, by rw [hc, a7],
    by rw [hm, a8]⟩

theorem headDue_false_head (d : HostStealPolicyData) (b : Nat) (host : Host)
    (qdata : HostStealQueueData) (hq : d.hostToQueueDataMap host = some qdata)
    (h : headDue d b host = false) : ∀ ev, qdata.pq.head? = some ev → b ≤ ev.time := by
  intro ev hev
  unfold headDue at h
  rw [hq] at h
  simp only [hev, decide_eq_false_iff_not, Nat.not_lt] at h
  exact h

theorem headDue_of_head (d : HostStealPolicyData) (b : Nat) (host : Host)
    (qdata : HostStealQueueData) (ev : Event) (rest : List Event)
    (hq : d.hostToQueueDataMap host = some qdata) (hpq : qdata.pq = ev :: rest)
    (hlt : ev.time < b) : headDue d b host = true := by
  unfold headDue
  rw [hq]
  simp only [hpq, List.head?_cons, decide_eq_true_eq]
  exact hlt

/-- `popFromHost` stops at no assertion when the head of the queue, if below the
barrier, is not earlier than `lastEventTime`. -/
theorem popFromHost_ne_aborted_head (d : HostStealPolicyData) (self : Thread) (t : Nat)
    (host : Host) (barrier : Nat) (td : HostStealThreadData) (qdata : HostStealQueueData)
    (hmap : d.threadToThreadDataMap self = some t)
    (hinj : MapInjective d) (hnodup : (slotsOf d.threadList).Nodup)
    (ht : d.threadList[t]? = some td) (hrun : td.runningHost = some host)
    (hq : d.hostToQueueDataMap host = some qdata)
    (hhead : ∀ ev, qdata.pq.head? = some ev → ev.time < barrier →
      qdata.lastEventTime ≤ ev.time) :
    popFromHost d self t host barrier ≠ .aborted := by
  have hretire : ∀ d2 : HostStealPolicyData, d2.threadList = d.threadList →
      retireHost d2 t host ≠ .aborted := by
    intro d2 h2
    unfold retireHost
    rw [h2, ht]
    simp
  unfold popFromHost
  rw [hq]
  simp only []
  split
  · exact hretire d rfl
  · rename_i peeked hpeek
    split
    · rename_i hlt
      rw [if_pos (by simpa [event_getTime] using hhead peeked hpeek hlt)]
      have hm : ∀ (q : Host → Option HostStealQueueData),
          migrateHost { d with hostToQueueDataMap := q } self host self ≠ none :=
        fun q => migrateHost_ne_none _ self host t td hmap hinj hnodup ht hrun
      split
      · rename_i hnone
        exact absurd hnone (hm _)
      · rename_i d2 hmig
        split
        · simp
        · rename_i hp
          simp only [priorityqueue_pop, priorityqueue_peek] at hp hpeek
          rw [hpeek] at hp
          exact absurd hp (by simp)
    · exact hretire d rfl

/-- One pass through the loop, for slots that exist: either the scan sequence is
empty and the loop is left with NULL, or its first host becomes (or is) the
running host and the body runs for it. -/
theorem popFromThreadIter_selected (d : HostStealPolicyData) (self : Thread) (t src b : Nat)
    (td sd : HostStealThreadData) (ht : d.threadList[t]? = some td)
    (hs : d.threadList[src]? = some sd) :
    (scanSequence td sd = [] ∧ popFromThreadIter d self t src b = .done d none) ∨
    (∃ d0 host, Selected d t src d0 host ∧
      popFromThreadIter d self t src b = popFromHost d0 self t host b) := by
  have htl : t < d.threadList.length := (List.getElem?_eq_some.1 ht).1
  unfold popFromThreadIter
  simp only [ht, hs]
  cases hrun : td.runningHost with
  | some host =>
    right
    exact ⟨d, host, Or.inl ⟨td, sd, ht, hs, hrun, rfl⟩, rfl⟩
  | none =>
    cases hun : sd.unprocessedHosts with
    | nil =>
      left
      exact ⟨by simp [scanSequence, hrun, hun], rfl⟩
    | cons host rest =>
      right
      simp only []
      have hlt1 : t < (setThread d src { sd with unprocessedHosts := rest }).threadList.length := by
        rw [setThread_threadList, List.length_set]
        exact htl
      rw [List.getElem?_eq_getElem hlt1]
      exact ⟨_, host,
        Or.inr ⟨td, sd, rest, _, ht, hs, hrun, hun, List.getElem?_eq_getElem hlt1, rfl⟩, rfl⟩

/-- One pass through the loop of `popFromThread` as a function of the scan
sequence: an empty sequence ends the loop with NULL; a first host that does
not qualify is retired and the loop goes round again; a first host that
qualifies yields its head event, unless that event is earlier than the
`lastEventTime` of the queue, in which case the assertion stops the call. -/
theorem popFromThreadIter_scan (d : HostStealPolicyData) (self : Thread) (t src b : Nat)
    (td sd : HostStealThreadData) (hsafe : PopSafe d self t)
    (ht : d.threadList[t]? = some td) (hs : d.threadList[src]? = some sd) :
    (scanSequence td sd = [] → popFromThreadIter d self t src b = .done d none) ∧
    (∀ host rest, scanSequence td sd = host :: rest →
      (headDue d b host = false →
        ∃ d1, popFromThreadIter d self t src b = .again d1 ∧
          ScanEffect d d1 t src [host] none rest ∧
          d1.hostToQueueDataMap = d.hostToQueueDataMap ∧ PopSafe d1 self t) ∧
      (∀ qdata ev evs, d.hostToQueueDataMap host = some qdata → qdata.pq = ev :: evs →
        ev.time < b →
        (qdata.lastEventTime ≤ ev.time →
          ∃ d1, popFromThreadIter d self t src b = .done d1 (some ev) ∧
            ScanEffect d d1 t src [] (some host) rest ∧
            d1.hostToQueueDataMap =
              Function.update d.hostToQueueDataMap host (some (poppedQueue qdata ev evs))) ∧
        (ev.time < qdata.lastEventTime → popFromThreadIter d self t src b = .aborted))) := by
  obtain ⟨hmap, hinj, hplaced, howner⟩ := hsafe
  rcases popFromThreadIter_selected d self t src b td sd ht hs with
    ⟨hS, hiter⟩ | ⟨d0, host0, hsel, hiter⟩
  · refine ⟨fun _ => hiter, ?_⟩
    intro host rest hseq
    rw [hS] at hseq
    exact absurd hseq (by simp)
  · obtain ⟨rest0, hseq0, heff⟩ := Selected_scan d d0 t src host0 hsel td sd ht hs
    refine ⟨fun hS => absurd (hS.symm.trans hseq0) (by simp), ?_⟩
    intro host rest hseq
    rw [hseq0] at hseq
    injection hseq with h1 h2
    subst h1 h2
    have hf := Selected_fields d d0 t src host0 hsel
    have hP0 := Placed_selected d d0 t src host0 hplaced hsel
    obtain ⟨td0, ht0, hrun0⟩ := Selected_running d d0 t src host0 hsel
    obtain ⟨q0, hq0⟩ := registered_of_placed d0 hP0 t td0 host0 ht0 (by simp [slotHosts, hrun0])
    have hmap0 : d0.threadToThreadDataMap self = some t := by
      rw [hf.2.2.1]
      exact hmap
    have hinj0 : MapInjective d0 := by
      intro th th1 k h2 h3
      rw [hf.2.2.1] at h2 h3
      exact hinj th th1 k h2 h3
    have hsafe0 : ∀ (hhead : ∀ ev, q0.pq.head? = some ev → ev.time < b →
        q0.lastEventTime ≤ ev.time), popFromHost d0 self t host0 b ≠ .aborted :=
      fun hhead => popFromHost_ne_aborted_head d0 self t host0 b td0 q0 hmap0 hinj0
        (Placed_nodup d0 hP0) ht0 hrun0 hq0 hhead
    constructor
    · intro hdue
      have hdue0 : headDue d0 b host0 = false := by
        rw [headDue_congr d d0 b hf.1]
        exact hdue
      have hge := headDue_false_head d0 b host0 q0 hq0 hdue0
      cases hr : popFromHost d0 self t host0 b with
      | again d1 =>
        obtain ⟨_, tdata, _, _, ht0', hd1⟩ := popFromHost_again d0 d1 self t host0 b hr
        rw [ht0] at ht0'
        injection ht0' with ht0'
        subst ht0'
        have hiter1 : popFromThreadIter d self t src b = .again d1 := hiter.trans hr
        obtain ⟨hP1, hO1, hm1, _⟩ :=
          popFromThreadIter_again_inv d d1 self t src b hplaced howner hiter1
        refine ⟨d1, hiter1, ?_, ?_, ?_⟩
        · rw [hd1]
          have := ScanEffect_retire d d0 t src [] host0 rest0 td0 heff ht0
            { td0 with processedHosts := td0.processedHosts ++ [host0], runningHost := none }
            rfl rfl rfl
          simpa using this
        · rw [hd1, setThread_hostToQueueDataMap, hf.1]
        · refine ⟨by rw [hm1]; exact hmap, ?_, hP1, hO1⟩
          intro th th1 k h2 h3
          rw [hm1] at h2 h3
          exact hinj th th1 k h2 h3
      | done d1 r =>
        exfalso
        obtain ⟨ev, qdata, evs, _, hq, hpq, hlt, _, _⟩ :=
          popFromHost_done d0 d1 self t host0 b r hr
        rw [headDue_of_head d0 b host0 qdata ev evs hq hpq hlt] at hdue0
        exact absurd hdue0 (by simp)
      | aborted =>
        exfalso
        apply hsafe0 ?_ hr
        intro ev hev hlt
        have := hge ev hev
        omega
    · intro qdata ev evs hq hpq hlt
      have hq' : d0.hostToQueueDataMap host0 = some qdata := by
        rw [hf.1]
        exact hq
      rw [hq0] at hq'
      injection hq' with hq'
      subst hq'
      constructor
      · intro hassert
        cases hr : popFromHost d0 self t host0 b with
        | again d1 =>
          exfalso
          obtain ⟨q1, _, hq1, hge, _, _⟩ := popFromHost_again d0 d1 self t host0 b hr
          rw [hq0] at hq1
          injection hq1 with hq1
          subst hq1
          have := hge ev (by rw [hpq]; rfl)
          omega
        | done d1 r =>
          obtain ⟨ev1, q1, evs1, hr1, hq1, hpq1, _, _, hmig⟩ :=
            popFromHost_done d0 d1 self t host0 b r hr
          rw [hq0] at hq1
          injection hq1 with hq1
          subst hq1
          rw [hpq] at hpq1
          injection hpq1 with he1 he2
          subst he1 he2 hr1
          obtain ⟨m1, m2, m3, m4, _⟩ := migrateHost_self_running
            { d0 with hostToQueueDataMap :=
                Function.update d0.hostToQueueDataMap host0 (some (poppedQueue q0 ev evs)) }
            d1 self host0 t td0 hmap0 ht0 hrun0 hmig
          refine ⟨d1, hiter.trans hr, ?_, ?_⟩
          · exact ScanEffect_of_threadList d d0 d1 t src [] (some host0) rest0 heff m1 m2 m3
          · rw [m4 (by simp), hf.1]
        | aborted =>
          exfalso
          apply hsafe0 ?_ hr
          intro ev1 hev1 _
          rw [hpq] at hev1
          injection hev1 with hev1
          rw [← hev1]
          exact hassert
      · intro hlate
        rw [hiter]
        exact popFromHost_assertion d0 self t host0 b q0 ev hq0 (by rw [priorityqueue_peek, hpq]; rfl)
          hlt hlate

theorem firstDue_cons_false (d : HostStealPolicyData) (b : Nat) (host : Host)
    (hosts : List Host) (h : headDue d b host = false) :
    (firstDue d b hosts = none → firstDue d b (host :: hosts) = none) ∧
    (∀ pre x post, firstDue d b (host :: hosts) = some (pre, x, post) →
      ∃ pre', pre = host :: pre' ∧ firstDue d b hosts = some (pre', x, post)) := by
  constructor
  · intro hn
    simp [firstDue, h, hn]
  · intro pre x post hf
    cases hrec : firstDue d b hosts with
    | none => simp [firstDue, h, hrec] at hf
    | some triple =>
      obtain ⟨pre0, x0, post0⟩ := triple
      simp only [firstDue, h, Bool.false_eq_true, if_false, hrec, Option.some.injEq,
        Prod.mk.injEq] at hf
      obtain ⟨h1, h2, h3⟩ := hf
      subst h1 h2 h3
      exact ⟨pre0, rfl, rfl⟩

/-- The loop of `popFromThread` computes the functional description: with more
fuel than hosts to scan it returns NULL after retiring the whole scan
sequence when no host qualifies, and otherwise returns the head event of the
first host that qualifies, having retired the hosts before it, unless that
event is earlier than the `lastEventTime` of its queue. -/
theorem popFromThreadLoop_scan (self : Thread) (t src b : Nat) :
    ∀ (S : List Host) (fuel : Nat) (d : HostStealPolicyData) (td sd : HostStealThreadData),
      S.length < fuel → PopSafe d self t → d.threadList[t]? = some td →
      d.threadList[src]? = some sd → scanSequence td sd = S →
      (firstDue d b S = none →
        ∃ d1, popFromThreadLoop self t src b fuel d = .returned d1 none ∧
          ScanEffect d d1 t src S none [] ∧
          d1.hostToQueueDataMap = d.hostToQueueDataMap ∧ PopSafe d1 self t) ∧
      (∀ pre h post, firstDue d b S = some (pre, h, post) →
        ∀ qdata ev evs, d.hostToQueueDataMap h = some qdata → qdata.pq = ev :: evs →
          (qdata.lastEventTime ≤ ev.time →
            ∃ d1, popFromThreadLoop self t src b fuel d = .returned d1 (some ev) ∧
              ScanEffect d d1 t src pre (some h) post ∧
              d1.hostToQueueDataMap =
                Function.update d.hostToQueueDataMap h (some (poppedQueue qdata ev evs))) ∧
          (ev.time < qdata.lastEventTime →
            popFromThreadLoop self t src b fuel d = .aborted)) := by
  intro S
  induction S with
  | nil =>
    intro fuel d td sd hfuel hsafe ht hs hseq
    obtain ⟨n, rfl⟩ : ∃ n, fuel = n + 1 := ⟨fuel - 1, by simp at hfuel; omega⟩
    have hiter := (popFromThreadIter_scan d self t src b td sd hsafe ht hs).1 hseq
    constructor
    · intro _
      refine ⟨d, by simp only [popFromThreadLoop, hiter], ?_, rfl, hsafe⟩
      have hrun : td.runningHost = none := by
        unfold scanSequence at hseq
        cases hr : td.runningHost with
        | none => rfl
        | some x =>
          rw [hr] at hseq
          simp at hseq
      have hun : sd.unprocessedHosts = [] := by
        unfold scanSequence at hseq
        rw [hrun] at hseq
        simpa using hseq
      exact ⟨td, sd, td, sd, ht, hs, ht, hs, (List.append_nil _).symm, hrun, hun,
        fun _ => ⟨rfl, rfl, rfl⟩, fun _ _ _ => rfl, rfl, rfl, rfl⟩
    · intro pre h post hf
      simp [firstDue] at hf
  | cons host S' ih =>
    intro fuel d td sd hfuel hsafe ht hs hseq
    obtain ⟨n, rfl⟩ : ∃ n, fuel = n + 1 := ⟨fuel - 1, by simp at hfuel; omega⟩
    have hn : S'.length < n := by
      simp only [List.length_cons] at hfuel
      omega
    obtain ⟨hagain, hdue⟩ :=
      (popFromThreadIter_scan d self t src b td sd hsafe ht hs).2 host S' hseq
    cases hh : headDue d b host with
    | true =>
      have hfd : firstDue d b (host :: S') = some ([], host, S') := by
        simp [firstDue, hh]
      constructor
      · intro hnone
        rw [hfd] at hnone
        exact absurd hnone (by simp)
      · intro pre h post hf qdata ev evs hq hpq
        rw [hfd] at hf
        simp only [Option.some.injEq, Prod.mk.injEq] at hf
        obtain ⟨h1, h2, h3⟩ := hf
        subst h1 h2 h3
        obtain ⟨q1, ev1, evs1, hq1, hpq1, hlt⟩ := headDue_true d b host hh
        rw [hq] at hq1
        injection hq1 with hq1
        subst hq1
        rw [hpq] at hpq1
        injection hpq1 with he1 he2
        subst he1 he2
        obtain ⟨hok, hbad⟩ := hdue qdata ev evs hq hpq hlt
        constructor
        · intro hassert
          obtain ⟨d1, hiter, heff, hq1⟩ := hok hassert
          exact ⟨d1, by simp only [popFromThreadLoop, hiter], heff, hq1⟩
        · intro hlate
          simp only [popFromThreadLoop, hbad hlate]
    | false =>
      obtain ⟨d1, hiter, heff, hq1, hsafe1⟩ := hagain hh
      have hloop : popFromThreadLoop self t src b (n + 1) d =
          popFromThreadLoop self t src b n d1 := by
        simp only [popFromThreadLoop, hiter]
      obtain ⟨td0, sd0, td1, sd1, ht0, hs0, ht1, hs1, _, e2, e3, _⟩ := heff
      have hseq1 : scanSequence td1 sd1 = S' := by
        simp [scanSequence, e2, e3]
      obtain ⟨ihnone, ihsome⟩ := ih n d1 td1 sd1 hn hsafe1 ht1 hs1 hseq1
      have heff' : ScanEffect d d1 t src [host] none S' := by
        obtain ⟨_, hiter', heff', _⟩ := hagain hh
        rw [hiter] at hiter'
        injection hiter' with hiter'
        rw [hiter']
        exact heff'
      obtain ⟨hc1, hc2⟩ := firstDue_cons_false d b host S' hh
      constructor
      · intro hnone
        have hnone' : firstDue d1 b S' = none := by
          rw [firstDue_congr d d1 b hq1]
          cases hrec : firstDue d b S' with
          | none => rfl
          | some triple =>
            obtain ⟨pre0, x0, post0⟩ := triple
            simp [firstDue, hh, hrec] at hnone
        obtain ⟨d2, hl2, heff2, hq2, hsafe2⟩ := ihnone hnone'
        refine ⟨d2, by rw [hloop]; exact hl2, ?_, by rw [hq2, hq1], hsafe2⟩
        exact ScanEffect_trans d d1 d2 t src [host] S' none none S' [] heff' heff2
      · intro pre h post hf qdata ev evs hq hpq
        obtain ⟨pre', hpre, hf'⟩ := hc2 pre h post hf
        subst hpre
        have hf1 : firstDue d1 b S' = some (pre', h, post) := by
          rw [firstDue_congr d d1 b hq1]
          exact hf'
        obtain ⟨hok, hbad⟩ := ihsome pre' h post hf1 qdata ev evs (by rw [hq1]; exact hq) hpq
        constructor
        · intro hassert
          obtain ⟨d2, hl2, heff2, hq2⟩ := hok hassert
          refine ⟨d2, by rw [hloop]; exact hl2, ?_, by rw [hq2, hq1]⟩
          exact ScanEffect_trans d d1 d2 t src [host] pre' none (some h) S' post heff' heff2
        · intro hlate
          rw [hloop]
          exact hbad hlate

theorem PopSafe_of_reachableOnce (d : HostStealPolicyData) (self : Thread) (t : Nat)
    (hr : ReachableOnce d) (hmap : d.threadToThreadDataMap self = some t) : PopSafe d self t :=
  ⟨hmap, MapInjective_of_reachableOnce d hr, (OwnerInv_of_reachableOnce d hr).1,
    (OwnerInv_of_reachableOnce d hr).2⟩

theorem PopSafe_roundStart (d : HostStealPolicyData) (self : Thread) (t b : Nat)
    (hs : PopSafe d self t) : PopSafe (roundStart d t b) self t := by
  obtain ⟨hmap, hinj, hplaced, howner⟩ := hs
  have hf := roundStart_fields d t b
  refine ⟨by rw [hf.2.2.1]; exact hmap, ?_, Placed_roundStart d t b hplaced,
    OwnerInv_roundStart d t b howner⟩
  intro th th1 k h1 h2
  rw [hf.2.2.1] at h1 h2
  exact hinj th th1 k h1 h2

theorem scanSequence_length (td sd : HostStealThreadData) :
    (scanSequence td sd).length < sd.unprocessedHosts.length + 2 := by
  unfold scanSequence
  cases td.runningHost with
  | none => simp
  | some x =>
    simp only [Option.toList, List.singleton_append, List.length_cons]
    omega

/-- `popFromThread` computes the functional description of `pop_from`. -/
theorem popFromThread_scan (d : HostStealPolicyData) (self : Thread) (t src b : Nat)
    (td sd : HostStealThreadData) (hsafe : PopSafe d self t)
    (ht : d.threadList[t]? = some td) (hs : d.threadList[src]? = some sd) :
    (firstDue d b (scanSequence td sd) = none →
      ∃ d1, popFromThread d self t src b = .returned d1 none ∧
        ScanEffect d d1 t src (scanSequence td sd) none [] ∧
        d1.hostToQueueDataMap = d.hostToQueueDataMap ∧ PopSafe d1 self t) ∧
    (∀ pre h post, firstDue d b (scanSequence td sd) = some (pre, h, post) →
      ∀ qdata ev evs, d.hostToQueueDataMap h = some qdata → qdata.pq = ev :: evs →
        (qdata.lastEventTime ≤ ev.time →
          ∃ d1, popFromThread d self t src b = .returned d1 (some ev) ∧
            ScanEffect d d1 t src pre (some h) post ∧
            d1.hostToQueueDataMap =
              Function.update d.hostToQueueDataMap h (some (poppedQueue qdata ev evs))) ∧
        (ev.time < qdata.lastEventTime → popFromThread d self t src b = .aborted)) := by
  have hpop : popFromThread d self t src b =
      popFromThreadLoop self t src b (sd.unprocessedHosts.length + 2) d := by
    unfold popFromThread
    rw [hs]
  rw [hpop]
  exact popFromThreadLoop_scan self t src b (scanSequence td sd) _ d td sd
    (scanSequence_length td sd) hsafe ht hs rfl

/-- The scenario "host added for two threads" keeps the caller contract of
`push`. -/
theorem doubleAddRun_contract :
    ContractRun (doubleAddRun.getD schedulerpolicyhoststeal_new) (max 0 10) :=
  ContractRun.popReturned _ _ 0 1 10 (some (localEvent 0 1 0))
    (ContractRun.push _ _ 0 1 (localEvent 1 2 0) 0 0 0
      (ContractRun.push _ _ 0 1 (localEvent 0 1 0) 0 0 0
        (ContractRun.addHost _ 0 1 0 2
          (ContractRun.addHost _ 0 1 0 1 ContractRun.init))
        (Nat.le_refl 0)
        (fun _ qdata hq => by
          have h : some (HostStealQueueData.mk [] 0 0 0) = some qdata := hq
          rw [← Option.some.inj h]
          decide)
        rfl)
      (Nat.le_refl 0)
      (fun _ qdata hq => by
        have h : some (HostStealQueueData.mk [localEvent 0 1 0] 0 1 0) = some qdata := hq
        rw [← Option.some.inj h]
        decide)
      rfl)
    rfl

/-- C29 as stated fails.  Host 0 was added for thread 1 and for thread 2 and
thread 1 runs it after popping its event of time 1 (the caller contract of
`push` is kept): the scan sequence of thread 2 after its rotation is host 0,
whose queue is non-empty with head time 2 below the barrier 10 and not
earlier than the `lastEventTime` 1, so host 0 is the first host that
qualifies; but `popFromThread` does not return its event: it stops at the
assertion of `migrateHost`, because host 0 is the running host of both slots.
And in the state reached by popping the event of time 5 of host 0 and then
pushing a local event of time 3 to it, the scan sequence of thread 1 is its
running host 0 with head time 3 below the barrier 10, but the head is earlier
than the `lastEventTime` 5 and the call stops at the assertion of
`popFromThread`. -/
theorem popFromThread_stops_at_assertion :
    (ContractRun (doubleAddRun.getD schedulerpolicyhoststeal_new) (max 0 10) ∧
      (doubleAddRun.getD schedulerpolicyhoststeal_new).threadToThreadDataMap 2 = some 1 ∧
      ((roundStart (doubleAddRun.getD schedulerpolicyhoststeal_new) 1 10).threadList[1]?).map
        (fun td => scanSequence td td) = some [0] ∧
      firstDue (roundStart (doubleAddRun.getD schedulerpolicyhoststeal_new) 1 10) 10 [0] =
        some ([], 0, []) ∧
      ((roundStart (doubleAddRun.getD schedulerpolicyhoststeal_new) 1 10).hostToQueueDataMap
        0).map (fun q => (q.pq, q.lastEventTime)) = some ([localEvent 1 2 0], 1) ∧
      popFromThread (roundStart (doubleAddRun.getD schedulerpolicyhoststeal_new) 1 10) 2 1 1 10 =
        .aborted) ∧
    (ReachableOnce (lateEventRun.getD schedulerpolicyhoststeal_new) ∧
      ((lateEventRun.getD schedulerpolicyhoststeal_new).threadList[0]?).map
        (fun td => scanSequence td td) = some [0] ∧
      firstDue (lateEventRun.getD schedulerpolicyhoststeal_new) 10 [0] = some ([], 0, []) ∧
      ((lateEventRun.getD schedulerpolicyhoststeal_new).hostToQueueDataMap 0).map
        (fun q => (q.pq, q.lastEventTime)) = some ([localEvent 1 3 0], 5) ∧
      popFromThread (lateEventRun.getD schedulerpolicyhoststeal_new) 1 0 0 10 = .aborted) :=
  ⟨⟨doubleAddRun_contract, rfl, rfl, by decide, by decide, rfl⟩,
    ⟨lateEventRun_reachable, rfl, by decide, by decide, rfl⟩⟩

/-- C29 (amended; functional description of `pop_from`): let `T` be the slot of
the calling thread in a state in which different threads have different
slots and the placement and owner invariants hold (`PopSafe`, as in every
state reached with each host added once), and let `S` be the running
host of slot `T`, if set, followed by the list `L`.  If no host of `S` has a
non-empty queue with head time below `b`, `popFromThread` returns NULL, `L` is
empty, `T` runs no host, and all of `S` has been appended in order to the
`processedHosts` of `T`.  Otherwise let `h` be the first such host and `ev` the
head (for a sorted queue, the minimum) of its queue: if `ev` is not earlier
than the `lastEventTime` of the queue, `popFromThread` returns `ev`, removed
from the queue, the hosts before `h` in `S` have been appended in order to
the `processedHosts` of `T`, `h` is the running host of `T`, and the hosts
after `h` remain in `L` in order; if `ev` is earlier, the call stops at the
assertion.  Nothing else in the slots changes. -/
theorem pop_from_functional_description (d : HostStealPolicyData) (self : Thread)
    (t src b : Nat) (td sd : HostStealThreadData) (hsafe : PopSafe d self t)
    (ht : d.threadList[t]? = some td) (hs : d.threadList[src]? = some sd) :
    (firstDue d b (scanSequence td sd) = none →
      (∀ x ∈ scanSequence td sd, headDue d b x = false) ∧
      ∃ d1, popFromThread d self t src b = .returned d1 none ∧
        ScanEffect d d1 t src (scanSequence td sd) none [] ∧
        d1.hostToQueueDataMap = d.hostToQueueDataMap) ∧
    (∀ pre h post, firstDue d b (scanSequence td sd) = some (pre, h, post) →
      scanSequence td sd = pre ++ h :: post ∧ headDue d b h = true ∧
      ∀ x ∈ pre, headDue d b x = false) ∧
    (∀ pre h post, firstDue d b (scanSequence td sd) = some (pre, h, post) →
      ∀ qdata ev evs, d.hostToQueueDataMap h = some qdata → qdata.pq = ev :: evs →
        (qdata.lastEventTime ≤ ev.time →
          ∃ d1, popFromThread d self t src b = .returned d1 (some ev) ∧
            ScanEffect d d1 t src pre (some h) post ∧
            d1.hostToQueueDataMap =
              Function.update d.hostToQueueDataMap h (some (poppedQueue qdata ev evs))) ∧
        (ev.time < qdata.lastEventTime → popFromThread d self t src b = .aborted)) ∧
    (∀ h, headDue d b h = true ↔
      ∃ qdata ev evs, d.hostToQueueDataMap h = some qdata ∧ qdata.pq = ev :: evs ∧
        ev.time < b) ∧
    (QueuesSorted d → ∀ h qdata ev evs, d.hostToQueueDataMap h = some qdata →
      qdata.pq = ev :: evs → ∀ x ∈ qdata.pq, ev.time ≤ x.time) := by
  obtain ⟨hnone, hsome⟩ := popFromThread_scan d self t src b td sd hsafe ht hs
  refine ⟨?_, ?_, hsome, ?_, ?_⟩
  · intro hf
    obtain ⟨d1, h1, h2, h3, _⟩ := hnone hf
    exact ⟨(firstDue_spec d b _).1 hf, d1, h1, h2, h3⟩
  · intro pre h post hf
    exact (firstDue_spec d b _).2 pre h post hf
  · intro h
    constructor
    · exact headDue_true d b h
    · rintro ⟨qdata, ev, evs, hq, hpq, hlt⟩
      exact headDue_of_head d b h qdata ev evs hq hpq hlt
  · intro hsorted h qdata ev evs hq hpq x hx
    have hs1 := hsorted h qdata hq
    rw [hpq] at hs1 hx
    rcases List.mem_cons.1 hx with hx | hx
    · rw [hx]
    · exact (List.pairwise_cons.1 hs1).1 x hx

/-- C29 (amended) on the steal scenario, for thread 1 on its own list: its
running host 0 has no event left and is retired, host 1 yields its event of
time 2 and becomes the running host. -/
theorem pop_from_functional_description_witness :
    ∃ d1, popFromThread (stealStart.getD schedulerpolicyhoststeal_new) 1 0 0 10 =
        .returned d1 (some (localEvent 5 2 1)) ∧
      ScanEffect (stealStart.getD schedulerpolicyhoststeal_new) d1 0 0 [0] (some 1) [] ∧
      d1.hostToQueueDataMap =
        Function.update (stealStart.getD schedulerpolicyhoststeal_new).hostToQueueDataMap 1
          (some (poppedQueue (HostStealQueueData.mk [localEvent 5 2 1] 0 1 0)
            (localEvent 5 2 1) [])) :=
  ((pop_from_functional_description (stealStart.getD schedulerpolicyhoststeal_new) 1 0 0 10
    { allHosts := none, unprocessedHosts := [1], processedHosts := [],
      runningHost := some 0, currentBarrier := 10, tnumber := 0, isStealable := true }
    { allHosts := none, unprocessedHosts := [1], processedHosts := [],
      runningHost := some 0, currentBarrier := 10, tnumber := 0, isStealable := true }
    (PopSafe_of_reachableOnce _ 1 0 stealStart_reachable rfl) rfl rfl).2.2.1
    [0] 1 [] (by decide) (HostStealQueueData.mk [localEvent 5 2 1] 0 1 0)
    (localEvent 5 2 1) [] rfl rfl).1 (by decide)

theorem roundStart_frame (d : HostStealPolicyData) (t b k : Nat) (hk : k ≠ t) :
    (roundStart d t b).threadList[k]? = d.threadList[k]? := by
  unfold roundStart
  split
  · rfl
  · split
    · rw [setThread_threadList, List.getElem?_set_ne (fun hh => hk hh.symm)]
    · rfl

theorem lateRotationRun_reachable :
    ReachableOnce (lateRotationRun.getD schedulerpolicyhoststeal_new) :=
  ReachableBy.push _ _ 1 (localEvent 1 3 0) 0 0 10
    (ReachableBy.popReturned _ _ 1 10 none
      (ReachableBy.popReturned _ _ 1 10 (some (localEvent 0 5 0))
        (ReachableBy.push _ _ 1 (localEvent 0 5 0) 0 0 0
          (ReachableBy.addHost _ 1 0 0 ReachableBy.init (fun _ => rfl)) rfl) rfl) rfl) rfl

/-- C23 as stated fails.  Host 0 was added for thread 1 and for thread 2 and
thread 1 runs it after popping its event of time 1; the caller contract of
`push` is kept and no queued event is earlier than the `lastEventTime` of its
queue.  After the rotation of `pop 10` host 0 is in the `unprocessedHosts` of
thread 2 with a head event of time 2 below the barrier, but `pop 10` returns
no event: it stops at the assertion of `migrateHost`, because host 0 is the
running host of both slots.  And when host 0 of thread 1 was retired in the
round with barrier 10 after its event of time 5 had been popped, and then
received a local event of time 3, host 0 is after the rotation of `pop 20` in
the caller's `unprocessedHosts` with a head event below the barrier, but
`pop 20` stops at the assertion of `popFromThread`. -/
theorem pop_stops_on_own_due_host :
    (ContractRun (doubleAddRun.getD schedulerpolicyhoststeal_new) (max 0 10) ∧
      QueuesMonotone (doubleAddRun.getD schedulerpolicyhoststeal_new) ∧
      (doubleAddRun.getD schedulerpolicyhoststeal_new).threadToThreadDataMap 2 = some 1 ∧
      candidates (roundStart (doubleAddRun.getD schedulerpolicyhoststeal_new) 1 10) 1 = [0] ∧
      headDue (doubleAddRun.getD schedulerpolicyhoststeal_new) 10 0 = true ∧
      ((doubleAddRun.getD schedulerpolicyhoststeal_new).hostToQueueDataMap 0).map
        (fun q => (q.pq, q.lastEventTime)) = some ([localEvent 1 2 0], 1) ∧
      pop (doubleAddRun.getD schedulerpolicyhoststeal_new) 2 10 = .aborted) ∧
    (ReachableOnce (lateRotationRun.getD schedulerpolicyhoststeal_new) ∧
      candidates (roundStart (lateRotationRun.getD schedulerpolicyhoststeal_new) 0 20) 0 = [0] ∧
      headDue (lateRotationRun.getD schedulerpolicyhoststeal_new) 20 0 = true ∧
      ((lateRotationRun.getD schedulerpolicyhoststeal_new).hostToQueueDataMap 0).map
        (fun q => (q.pq, q.lastEventTime)) = some ([localEvent 1 3 0], 5) ∧
      pop (lateRotationRun.getD schedulerpolicyhoststeal_new) 1 20 = .aborted) :=
  ⟨⟨doubleAddRun_contract, (ContractRun_invariant _ _ doubleAddRun_contract).1, rfl, rfl,
      by decide, by decide, rfl⟩,
    ⟨lateRotationRun_reachable, rfl, by decide, by decide, rfl⟩⟩

/-- The attempt of `pop` on the caller's own hosts: when one of them qualifies
and the assertion holds, `pop` returns the head event of the first one that
does, and no other slot changes. -/
theorem pop_own_first (d : HostStealPolicyData) (self : Thread) (b t : Nat)
    (hsafe : PopSafe d self t) (hmono : QueuesMonotone d)
    (hdue : ∃ host ∈ candidates (roundStart d t b) t, headDue d b host = true) :
    ∃ d1 ev h pre post qdata evs, pop d self b = .returned d1 (some ev) ∧
      candidates (roundStart d t b) t = pre ++ h :: post ∧
      (∀ x ∈ pre, headDue d b x = false) ∧
      d.hostToQueueDataMap h = some qdata ∧ qdata.pq = ev :: evs ∧ ev.time < b ∧
      ScanEffect (roundStart d t b) d1 t t pre (some h) post ∧
      d1.hostToQueueDataMap =
        Function.update d.hostToQueueDataMap h (some (poppedQueue qdata ev evs)) := by
  have hmap : d.threadToThreadDataMap self = some t := by
    obtain ⟨hmap, _, _, _⟩ := hsafe
    exact hmap
  have hlt : t < d.threadList.length := by
    obtain ⟨_, _, hplaced, _⟩ := hsafe
    exact hplaced.map_lt self t hmap
  have htd : d.threadList[t]? = some d.threadList[t] := List.getElem?_eq_getElem hlt
  have hf := roundStart_fields d t b
  have hlt' : t < (roundStart d t b).threadList.length := by
    rw [hf.2.2.2.2]
    exact hlt
  have htd' : (roundStart d t b).threadList[t]? = some (roundStart d t b).threadList[t] :=
    List.getElem?_eq_getElem hlt'
  have hcand : candidates (roundStart d t b) t =
      scanSequence (roundStart d t b).threadList[t] (roundStart d t b).threadList[t] := by
    unfold candidates scanSequence
    rw [htd']
  obtain ⟨hnone, hsome⟩ := popFromThread_scan (roundStart d t b) self t t b _ _
    (PopSafe_roundStart d self t b hsafe) htd' htd'
  rw [← hcand] at hnone hsome
  cases hfd : firstDue (roundStart d t b) b (candidates (roundStart d t b) t) with
  | none =>
    exfalso
    obtain ⟨host, hmem, hh⟩ := hdue
    have := (firstDue_spec (roundStart d t b) b _).1 hfd host hmem
    rw [headDue_congr d (roundStart d t b) b hf.1, hh] at this
    exact absurd this (by simp)
  | some triple =>
    obtain ⟨pre, h, post⟩ := triple
    obtain ⟨h1, h2, h3⟩ := (firstDue_spec (roundStart d t b) b _).2 pre h post hfd
    obtain ⟨qdata, ev, evs, hq, hpq, hltb⟩ := headDue_true (roundStart d t b) b h h2
    have hassert : qdata.lastEventTime ≤ ev.time :=
      hmono h qdata ev (by rw [← hf.1]; exact hq) (by rw [hpq]; exact List.mem_cons_self _ _)
    obtain ⟨d1, hp, heff, hq1⟩ := (hsome pre h post hfd qdata ev evs hq hpq).1 hassert
    refine ⟨d1, ev, h, pre, post, qdata, evs, ?_, h1, ?_, by rw [← hf.1]; exact hq, hpq, hltb,
      heff, by rw [hq1, hf.1]⟩
    · rw [pop_eq_popAfterRoundStart d self b t _ hmap htd]
      unfold popAfterRoundStart
      rw [hp]
    · intro x hx
      rw [← headDue_congr d (roundStart d t b) b hf.1]
      exact h3 x hx

theorem stealStart_contract :
    ContractRun (stealStart.getD schedulerpolicyhoststeal_new) (max 0 10) :=
  ContractRun.popReturned _ _ 0 1 10 (some (localEvent 0 1 0))
    (ContractRun.push _ _ 0 1 (localEvent 5 2 1) 1 1 0
      (ContractRun.push _ _ 0 1 (localEvent 0 1 0) 0 0 0
        (ContractRun.addHost _ 0 1 2 2
          (ContractRun.addHost _ 0 1 1 1
            (ContractRun.addHost _ 0 1 0 1 ContractRun.init)))
        (Nat.le_refl 0)
        (fun _ qdata hq => by
          have h : some (HostStealQueueData.mk [] 0 0 0) = some qdata := hq
          rw [← Option.some.inj h]
          decide)
        rfl)
      (Nat.le_refl 0)
      (fun _ qdata hq => by
        have h : some (HostStealQueueData.mk [] 0 0 0) = some qdata := hq
        rw [← Option.some.inj h]
        decide)
      rfl)
    rfl

/-- C23 (amended; own hosts first): in a state reached with each host added
once and in which no queued event is earlier than the `lastEventTime` of its
queue (as the caller contract of `push` guarantees, so that the assertion of
`popFromThread` holds), if after any rotation the caller's running host or a
host in its `unprocessedHosts` has a head event with time below `b`, then
`pop b` returns an event with time below `b` from the queue of one of these
hosts, the first that has one, which is then the caller's running host, and
the slot of every other worker is left exactly as it was. -/
theorem own_hosts_first (d : HostStealPolicyData) (self : Thread) (b t : Nat)
    (hr : ReachableOnce d) (hmap : d.threadToThreadDataMap self = some t)
    (hmono : QueuesMonotone d)
    (hdue : ∃ host ∈ candidates (roundStart d t b) t, headDue d b host = true) :
    ∃ d1 ev h, pop d self b = .returned d1 (some ev) ∧
      h ∈ candidates (roundStart d t b) t ∧
      (∃ qdata evs, d.hostToQueueDataMap h = some qdata ∧ qdata.pq = ev :: evs ∧
        d1.hostToQueueDataMap =
          Function.update d.hostToQueueDataMap h (some (poppedQueue qdata ev evs))) ∧
      ev.time < b ∧
      (∃ pre post, candidates (roundStart d t b) t = pre ++ h :: post ∧
        ∀ x ∈ pre, headDue d b x = false) ∧
      runningHostOf d1 self = some h ∧
      (∀ k, k ≠ t → d1.threadList[k]? = d.threadList[k]?) := by
  obtain ⟨d1, ev, h, pre, post, qdata, evs, hp, hc, hpre, hq, hpq, hlt, heff, hq1⟩ :=
    pop_own_first d self b t (PopSafe_of_reachableOnce d self t hr hmap) hmono hdue
  obtain ⟨_, _, td1, _, _, _, ht1, _, _, hrun1, _, _, hframe, _, _, hm1⟩ := heff
  refine ⟨d1, ev, h, hp, by rw [hc]; simp, ⟨qdata, evs, hq, hpq, hq1⟩, hlt, ⟨pre, post, hc, hpre⟩,
    ?_, ?_⟩
  · rw [runningHostOf_eq d1 self t td1
      (by rw [hm1, (roundStart_fields d t b).2.2.1]; exact hmap) ht1]
    exact hrun1
  · intro k hk
    rw [hframe k hk hk, roundStart_frame d t b k hk]

/-- C23 (amended) on the steal scenario: thread 1 runs host 0, whose queue is
empty, and has host 1 with an event of time 2 unprocessed; its `pop 10` returns
that event and leaves the slot of thread 2 alone. -/
theorem own_hosts_first_witness :
    ∃ d1 ev h, pop (stealStart.getD schedulerpolicyhoststeal_new) 1 10 =
        .returned d1 (some ev) ∧
      h ∈ candidates (roundStart (stealStart.getD schedulerpolicyhoststeal_new) 0 10) 0 ∧
      (∃ qdata evs,
        (stealStart.getD schedulerpolicyhoststeal_new).hostToQueueDataMap h = some qdata ∧
        qdata.pq = ev :: evs ∧
        d1.hostToQueueDataMap =
          Function.update (stealStart.getD schedulerpolicyhoststeal_new).hostToQueueDataMap h
            (some (poppedQueue qdata ev evs))) ∧
      ev.time < 10 ∧
      (∃ pre post,
        candidates (roundStart (stealStart.getD schedulerpolicyhoststeal_new) 0 10) 0 =
          pre ++ h :: post ∧
        ∀ x ∈ pre, headDue (stealStart.getD schedulerpolicyhoststeal_new) 10 x = false) ∧
      runningHostOf d1 1 = some h ∧
      (∀ k, k ≠ 0 →
        d1.threadList[k]? = (stealStart.getD schedulerpolicyhoststeal_new).threadList[k]?) :=
  own_hosts_first (stealStart.getD schedulerpolicyhoststeal_new) 1 10 0 stealStart_reachable rfl
    (ContractRun_invariant _ _ stealStart_contract).1 ⟨1, by decide, by decide⟩

theorem map_set_same {α β : Type} (f : α → β) (l : List α) (i : Nat) (a a1 : α)
    (hi : l[i]? = some a) (hf : f a1 = f a) : (l.set i a1).map f = l.map f := by
  rw [List.map_set]
  apply List.ext_getElem?
  intro n
  rw [List.getElem?_set]
  by_cases hn : i = n
  · subst hn
    have hlt : i < (l.map f).length := by
      rw [List.length_map]
      exact (List.getElem?_eq_some.1 hi).1
    simp only [if_true, hlt]
    rw [List.getElem?_map, hi, hf]
    rfl
  · simp only [hn, if_false]

theorem getHosts_slotView (d : HostStealPolicyData) (self : Thread) :
    (getHosts d self).2.threadList.map slotView = d.threadList.map slotView := by
  unfold getHosts
  split
  · rfl
  · split
    · rfl
    · rename_i tdata ht
      split
      · rfl
      · split
        · rfl
        · rw [setThread_threadList]
          exact map_set_same slotView d.threadList _ tdata _ ht rfl

theorem getHostsCopy_eq (tdata : HostStealThreadData) :
    getHostsCopy tdata = tdata.processedHosts ++ tdata.unprocessedHosts := by
  unfold getHostsCopy
  generalize tdata.processedHosts = acc
  induction tdata.unprocessedHosts generalizing acc with
  | nil => simp
  | cons x xs ih =>
    simp only [List.foldl_cons]
    rw [ih]
    simp

/-- C35 (the three branches of get_assigned_hosts agree): for a caller with a
slot, `getHosts` returns `processedHosts` followed by `unprocessedHosts`, in
their order, in each of its three branches: the shortcut for an empty
`unprocessedHosts` returns `processedHosts`, the shortcut for an empty
`processedHosts` returns `unprocessedHosts`, and both are what the copying
branch would give.  The call changes no list of any slot: only the cache
`allHosts` of the caller's slot is written, and only in the copying branch. -/
theorem getHosts_branches_agree (d : HostStealPolicyData) (self : Thread) (t : Nat)
    (td : HostStealThreadData) (hmap : d.threadToThreadDataMap self = some t)
    (ht : d.threadList[t]? = some td) :
    (getHosts d self).1 = some (td.processedHosts ++ td.unprocessedHosts) ∧
    (getHosts d self).1 = some (getHostsCopy td) ∧
    (td.unprocessedHosts = [] →
      (getHosts d self).1 = some td.processedHosts ∧ (getHosts d self).2 = d ∧
      td.processedHosts = getHostsCopy td) ∧
    (td.unprocessedHosts ≠ [] → td.processedHosts = [] →
      (getHosts d self).1 = some td.unprocessedHosts ∧ (getHosts d self).2 = d ∧
      td.unprocessedHosts = getHostsCopy td) ∧
    (td.unprocessedHosts ≠ [] → td.processedHosts ≠ [] →
      (getHosts d self).2 = setThread d t { td with allHosts := some (getHostsCopy td) }) ∧
    (getHosts d self).2.threadList.map slotView = d.threadList.map slotView ∧
    (getHosts d self).2.hostToQueueDataMap = d.hostToQueueDataMap ∧
    (getHosts d self).2.hostToThreadMap = d.hostToThreadMap := by
  have hres := getHosts_result d self t td hmap ht
  have hf := getHosts_fields d self
  refine ⟨hres, by rw [getHostsCopy_eq]; exact hres, ?_, ?_, ?_, getHosts_slotView d self,
    hf.1, hf.2.1⟩
  · intro hu
    refine ⟨by rw [hres, hu, List.append_nil], ?_, by rw [getHostsCopy_eq, hu, List.append_nil]⟩
    unfold getHosts
    simp only [hmap, ht, hu, if_true]
  · intro hu hp
    refine ⟨by rw [hres, hp, List.nil_append], ?_, by rw [getHostsCopy_eq, hp, List.nil_append]⟩
    unfold getHosts
    simp only [hmap, ht, hu, if_false, hp, if_true]
  · intro hu hp
    unfold getHosts
    simp only [hmap, ht, hu, if_false, hp, getHostsCopy_eq]

/-- C35 on the state in which thread 2 has retired its host 2 and taken host 1
from thread 1 without an event: it has two processed hosts and none
unprocessed, and gets `[2, 1]`. -/
theorem getHosts_branches_agree_witness :
    (getHosts (emptyStealRun.getD schedulerpolicyhoststeal_new) 2).1 = some ([2, 1] ++ []) :=
  (getHosts_branches_agree (emptyStealRun.getD schedulerpolicyhoststeal_new) 2 1
    { allHosts := none, unprocessedHosts := [], processedHosts := [2, 1],
      runningHost := none, currentBarrier := 10, tnumber := 1, isStealable := true }
    rfl rfl).1

/-- C34 (queue locality of push and pop): a `push` changes the queue of its
destination only, where it adds the (adjusted) event, and leaves every slot
(so every worker's `unprocessedHosts`, `processedHosts`, `runningHost`,
`currentBarrier` and `isStealable`) and every owner entry as they were; a
`pop` that returns an event took it from the head of the queue of one host,
the caller's running host afterwards, and changes no other queue; a `pop`
that returns NULL, or spins, changes no queue at all. -/
theorem queue_locality :
    (∀ (d d1 : HostStealPolicyData) (self : Thread) (event : Event) (srcHost dstHost : Host)
        (b : Nat), push d self event srcHost dstHost b = some d1 →
      (∃ qdata qdata1, d.hostToQueueDataMap dstHost = some qdata ∧
        d1.hostToQueueDataMap dstHost = some qdata1 ∧
        qdata1.pq = priorityqueue_push qdata.pq (adjustEventTime event srcHost dstHost b) ∧
        qdata1.lastEventTime = qdata.lastEventTime) ∧
      (∀ host, host ≠ dstHost → d1.hostToQueueDataMap host = d.hostToQueueDataMap host) ∧
      d1.threadList = d.threadList ∧ d1.hostToThreadMap = d.hostToThreadMap ∧
      d1.threadToThreadDataMap = d.threadToThreadDataMap ∧ d1.threadCount = d.threadCount) ∧
    (∀ (d d1 : HostStealPolicyData) (self : Thread) (b : Nat) (ev : Event),
      pop d self b = .returned d1 (some ev) →
      ∃ host qdata rest, runningHostOf d1 self = some host ∧
        d.hostToQueueDataMap host = some qdata ∧ qdata.pq = ev :: rest ∧
        d1.hostToQueueDataMap host = some (poppedQueue qdata ev rest) ∧
        (poppedQueue qdata ev rest).pq = rest ∧
        ∀ host1, host1 ≠ host → d1.hostToQueueDataMap host1 = d.hostToQueueDataMap host1) ∧
    (∀ (d d1 : HostStealPolicyData) (self : Thread) (b : Nat),
      pop d self b = .returned d1 none → d1.hostToQueueDataMap = d.hostToQueueDataMap) ∧
    (∀ (d d1 : HostStealPolicyData) (self : Thread) (b : Nat),
      pop d self b = .spinning d1 → d1.hostToQueueDataMap = d.hostToQueueDataMap) := by
  refine ⟨?_, ?_, ?_, ?_⟩
  · intro d d1 self event srcHost dstHost b hp
    obtain ⟨qdata, hq, hq1, hl, hc, hm, ho⟩ :=
      push_hostToQueueDataMap d d1 self event srcHost dstHost b hp
    refine ⟨⟨qdata, ⟨priorityqueue_push qdata.pq (adjustEventTime event srcHost dstHost b),
      qdata.lastEventTime, qdata.nPushed + 1, qdata.nPopped⟩, hq,
      by rw [hq1, Function.update_same], rfl, rfl⟩, ?_, hl, ho, hm, hc⟩
    intro host hne
    rw [hq1, Function.update_noteq hne]
  · intro d d1 self b ev hp
    obtain ⟨t, host, qdata, rest, tdata1, _, hmap1, htd1, hrun1, hq, hpq, _, _, hq1⟩ :=
      (pop_queue_effect d self b).2.2 d1 ev hp
    refine ⟨host, qdata, rest, ?_, hq, hpq, by rw [hq1, Function.update_same], rfl, ?_⟩
    · rw [runningHostOf_eq d1 self t tdata1 hmap1 htd1]
      exact hrun1
    · intro host1 hne
      rw [hq1, Function.update_noteq hne]
  · intro d d1 self b hp
    exact (pop_queue_effect d self b).1 d1 hp
  · intro d d1 self b hp
    exact (pop_queue_effect d self b).2.1 d1 hp

/-- C34 on the scenario "contract kept": the last push, from host 1 to host 0,
left the queue of host 1 and all slots as they were. -/
theorem queue_locality_witness :
    (∀ host, host ≠ 0 →
      (contractRun.getD schedulerpolicyhoststeal_new).hostToQueueDataMap host =
        ((thenPush (thenPop (thenPush (thenAddHost (thenAddHost
          (some schedulerpolicyhoststeal_new) 1 0 1) 1 1 2) 1 (localEvent 0 5 0) 0 0 0) 1 10)
          1 (localEvent 1 7 0) 0 0 10).getD schedulerpolicyhoststeal_new).hostToQueueDataMap
          host) :=
  (queue_locality.1
    ((thenPush (thenPop (thenPush (thenAddHost (thenAddHost
      (some schedulerpolicyhoststeal_new) 1 0 1) 1 1 2) 1 (localEvent 0 5 0) 0 0 0) 1 10)
      1 (localEvent 1 7 0) 0 0 10).getD schedulerpolicyhoststeal_new)
    (contractRun.getD schedulerpolicyhoststeal_new) 2 (Event.mk 2 2 1 0) 1 0 10 rfl).2.1

/-- An iteration of the loop of `popFromThread` that goes round again has taken
the first pending host away and added none. -/
theorem popFromThreadIter_again_pending (d d1 : HostStealPolicyData) (self : Thread)
    (t src b : Nat) (h : popFromThreadIter d self t src b = .again d1) :
    ∃ host, pending d t src = host :: pending d1 t src := by
  obtain ⟨d0, host, _, td0, hsel, _, _, ht0, rfl⟩ := popFromThreadIter_again d d1 self t src b h
  have hslots : ∃ td sd, d.threadList[t]? = some td ∧ d.threadList[src]? = some sd := by
    rcases hsel with ⟨td, sd, ht, hs, _, _⟩ | ⟨td, sd, _, _, ht, hs, _, _, _, _⟩
    · exact ⟨td, sd, ht, hs⟩
    · exact ⟨td, sd, ht, hs⟩
  obtain ⟨td, sd, ht, hs⟩ := hslots
  obtain ⟨rest, hseq, heff⟩ := Selected_scan d d0 t src host hsel td sd ht hs
  have heff1 := ScanEffect_retire d d0 t src [] host rest td0 heff ht0
    { td0 with processedHosts := td0.processedHosts ++ [host], runningHost := none } rfl rfl rfl
  obtain ⟨td', sd', td1, sd1, ht', hs', ht1, hs1, _, hrun1, hun1, _⟩ := heff1
  refine ⟨host, ?_⟩
  have hp : pending d t src = scanSequence td sd := by
    unfold pending
    rw [ht, hs]
  have hp1 : pending (setThread d0 t
      { td0 with processedHosts := td0.processedHosts ++ [host], runningHost := none }) t src =
      rest := by
    unfold pending
    rw [ht1, hs1]
    simp only [scanSequence, hrun1, hun1, Option.toList, List.nil_append]
  rw [hp, hp1, hseq]

theorem popFromThreadBodyRuns_le (self : Thread) (t src b : Nat) :
    ∀ (fuel : Nat) (d : HostStealPolicyData),
      popFromThreadBodyRuns self t src b fuel d ≤ (pending d t src).length := by
  intro fuel
  induction fuel with
  | zero =>
    intro d
    simp [popFromThreadBodyRuns]
  | succ n ih =>
    intro d
    unfold popFromThreadBodyRuns
    split
    · exact Nat.zero_le _
    · rename_i hne
      split
      · rename_i d1 hiter
        obtain ⟨host, hp⟩ := popFromThreadIter_again_pending d d1 self t src b hiter
        rw [hp, List.length_cons]
        have := ih d1
        omega
      · cases hp : pending d t src with
        | nil => exact absurd hp hne
        | cons x xs => simp

theorem popFromThreadLoop_ne_outOfFuel (self : Thread) (t src b : Nat) :
    ∀ (fuel : Nat) (d : HostStealPolicyData), (pending d t src).length < fuel →
      popFromThreadLoop self t src b fuel d ≠ .outOfFuel := by
  intro fuel
  induction fuel with
  | zero =>
    intro d h
    omega
  | succ n ih =>
    intro d hlen
    unfold popFromThreadLoop
    split
    · simp
    · rename_i d1 hiter
      obtain ⟨host, hp⟩ := popFromThreadIter_again_pending d d1 self t src b hiter
      rw [hp, List.length_cons] at hlen
      exact ih d1 (by omega)
    · simp

theorem pending_length (d : HostStealPolicyData) (t src : Nat) (sd : HostStealThreadData)
    (hs : d.threadList[src]? = some sd) :
    (pending d t src).length < sd.unprocessedHosts.length + 2 := by
  unfold pending
  rw [hs]
  split
  · rename_i td sd1 _ h
    injection h with h
    subst h
    exact scanSequence_length td sd
  · simp

theorem popFromThread_ne_outOfFuel (d : HostStealPolicyData) (self : Thread) (t src b : Nat) :
    popFromThread d self t src b ≠ .outOfFuel := by
  unfold popFromThread
  split
  · simp
  · rename_i sd hs
    exact popFromThreadLoop_ne_outOfFuel self t src b _ d (pending_length d t src sd hs)

theorem stealLoop_ne_outOfFuel (self : Thread) (t tnumber n b : Nat) :
    ∀ (l : List Nat) (d : HostStealPolicyData),
      stealLoop self t tnumber n b l d ≠ .outOfFuel := by
  intro l
  induction l with
  | nil =>
    intro d
    simp [stealLoop]
  | cons i rest ih =>
    intro d
    unfold stealLoop
    simp only []
    split
    · simp
    · split
      · simp
      · split
        · exact ih d
        · have hp := popFromThread_ne_outOfFuel d self t ((i + tnumber) % n) b
          cases hres : popFromThread d self t ((i + tnumber) % n) b with
          | returned d1 r =>
            cases r with
            | none => exact ih _
            | some ev => simp
          | spinning d1 => simp
          | aborted => simp
          | outOfFuel => exact absurd hres hp

theorem pop_ne_outOfFuel (d : HostStealPolicyData) (self : Thread) (b : Nat) :
    pop d self b ≠ .outOfFuel := by
  unfold pop
  split
  · simp
  · rename_i t _
    split
    · simp
    · rename_i tdata _
      have hp := popFromThread_ne_outOfFuel (roundStart d t b) self t t b
      cases hres : popFromThread (roundStart d t b) self t t b with
      | returned d1 r =>
        cases r with
        | none => exact stealLoop_ne_outOfFuel _ _ _ _ _ _ _
        | some ev => simp
      | spinning d1 => simp
      | aborted => simp
      | outOfFuel => exact absurd hres hp

/-- The three outcomes of `popFromThread` in a safe state: no host of the scan
sequence is due and NULL is returned; or the head event of the first due host
is returned; or that event is earlier than the `lastEventTime` of its queue
and the assertion fails. -/
theorem popFromThread_trichotomy (d : HostStealPolicyData) (self : Thread) (t src b : Nat)
    (td sd : HostStealThreadData) (hsafe : PopSafe d self t)
    (ht : d.threadList[t]? = some td) (hs : d.threadList[src]? = some sd) :
    (firstDue d b (scanSequence td sd) = none ∧
      ∃ d1, popFromThread d self t src b = .returned d1 none ∧
        ScanEffect d d1 t src (scanSequence td sd) none [] ∧
        d1.hostToQueueDataMap = d.hostToQueueDataMap ∧ PopSafe d1 self t) ∨
    (∃ pre h post qdata ev evs, firstDue d b (scanSequence td sd) = some (pre, h, post) ∧
      d.hostToQueueDataMap h = some qdata ∧ qdata.pq = ev :: evs ∧ ev.time < b ∧
      qdata.lastEventTime ≤ ev.time ∧
      ∃ d1, popFromThread d self t src b = .returned d1 (some ev) ∧
        ScanEffect d d1 t src pre (some h) post ∧
        d1.hostToQueueDataMap =
          Function.update d.hostToQueueDataMap h (some (poppedQueue qdata ev evs))) ∨
    (∃ pre h post qdata ev evs, firstDue d b (scanSequence td sd) = some (pre, h, post) ∧
      d.hostToQueueDataMap h = some qdata ∧ qdata.pq = ev :: evs ∧ ev.time < b ∧
      ev.time < qdata.lastEventTime ∧ popFromThread d self t src b = .aborted) := by
  have key := popFromThread_scan d self t src b td sd hsafe ht hs
  cases hfd : firstDue d b (scanSequence td sd) with
  | none => exact Or.inl ⟨rfl, key.1 hfd⟩
  | some p =>
    obtain ⟨pre, h, post⟩ := p
    obtain ⟨_, hdue, _⟩ := (firstDue_spec d b (scanSequence td sd)).2 pre h post hfd
    obtain ⟨qdata, ev, evs, hq, hpq, hlt⟩ := headDue_true d b h hdue
    have k2 := key.2 pre h post hfd qdata ev evs hq hpq
    by_cases hle : qdata.lastEventTime ≤ ev.time
    · exact Or.inr (Or.inl ⟨pre, h, post, qdata, ev, evs, rfl, hq, hpq, hlt, hle, k2.1 hle⟩)
    · exact Or.inr (Or.inr ⟨pre, h, post, qdata, ev, evs, rfl, hq, hpq, hlt,
        Nat.lt_of_not_le hle, k2.2 (Nat.lt_of_not_le hle)⟩)

theorem HeadsMonotone_of_queues (d d1 : HostStealPolicyData) (h : HeadsMonotone d)
    (hq : d1.hostToQueueDataMap = d.hostToQueueDataMap) : HeadsMonotone d1 := by
  intro host qdata ev evs h1 h2
  rw [hq] at h1
  exact h host qdata ev evs h1 h2

theorem HeadsMonotone_of_monotone (d : HostStealPolicyData) (h : QueuesMonotone d) :
    HeadsMonotone d := by
  intro host qdata ev evs h1 h2
  exact h host qdata ev h1 (by rw [h2]; exact List.mem_cons_self _ _)

/-- With every other slot at the barrier, `pop` does not enter the spin loop. -/
theorem pop_ne_spinning (d d1 : HostStealPolicyData) (self : Thread) (b t : Nat)
    (hmap : d.threadToThreadDataMap self = some t) (hb : OthersAtBarrier d t b) :
    pop d self b ≠ .spinning d1 := by
  intro hp
  cases htd : d.threadList[t]? with
  | none =>
    simp only [pop, hmap, htd] at hp
    exact absurd hp (by simp)
  | some tdata =>
    obtain ⟨s, cb, st, hflag, hlt, hne, _⟩ := (pop_roundFlags d self b t tdata hmap htd).2 d1 hp
    rw [roundFlags_roundStart d t b tdata htd] at hflag
    have hflag1 : (roundFlags d)[s]? = some (cb, st) := by
      split at hflag
      · rw [List.getElem?_set_ne (fun hh => hne hh.symm)] at hflag
        exact hflag
      · exact hflag
    unfold roundFlags at hflag1
    rw [List.getElem?_map] at hflag1
    cases hsd : d.threadList[s]? with
    | none =>
      rw [hsd] at hflag1
      exact absurd hflag1 (by simp)
    | some sd =>
      rw [hsd] at hflag1
      simp only [Option.map_some', Option.some.injEq, Prod.mk.injEq] at hflag1
      have := hb s sd hne hsd
      omega

theorem unprocessedOf_congr (d d1 : HostStealPolicyData) (k : Nat)
    (h : d1.threadList[k]? = d.threadList[k]?) : unprocessedOf d1 k = unprocessedOf d k := by
  unfold unprocessedOf
  rw [h]

theorem bind_unprocessedOf_congr (d d1 : HostStealPolicyData) :
    ∀ (slots : List Nat), (∀ k ∈ slots, d1.threadList[k]? = d.threadList[k]?) →
      slots.flatMap (unprocessedOf d1) = slots.flatMap (unprocessedOf d) := by
  intro slots
  induction slots with
  | nil =>
    intro _
    rfl
  | cons s rest ih =>
    intro h
    rw [List.flatMap_cons, List.flatMap_cons, ih (fun k hk => h k (List.mem_cons_of_mem _ hk)),
      unprocessedOf_congr d d1 s (h s (List.mem_cons_self _ _))]

theorem DrainEffect_nil (d : HostStealPolicyData) (t : Nat) (td : HostStealThreadData)
    (ht : d.threadList[t]? = some td) (hrun : td.runningHost = none) :
    DrainEffect d d t [] :=
  ⟨td, td, ht, ht, by simp, hrun, rfl, fun k hk => absurd hk (List.not_mem_nil k),
    fun _ _ _ => rfl, rfl, rfl, rfl, rfl⟩

/-- A victim whose list is empty is drained already. -/
theorem DrainEffect_skip (d : HostStealPolicyData) (t s : Nat) (td : HostStealThreadData)
    (ht : d.threadList[t]? = some td) (hrun : td.runningHost = none)
    (hs : unprocessedOf d s = []) : DrainEffect d d t [s] := by
  refine ⟨td, td, ht, ht, ?_, hrun, rfl, ?_, fun _ _ _ => rfl, rfl, rfl, rfl, rfl⟩
  · rw [List.flatMap_cons, hs]
    simp
  · intro k hk
    rw [List.mem_singleton] at hk
    rw [hk]
    exact hs

/-- A scan of the victim `s` that found nothing has drained it. -/
theorem DrainEffect_of_scan (d d1 : HostStealPolicyData) (t s : Nat)
    (td sd : HostStealThreadData) (ht : d.threadList[t]? = some td)
    (hs : d.threadList[s]? = some sd) (hrun : td.runningHost = none) (hst : s ≠ t)
    (hq : d1.hostToQueueDataMap = d.hostToQueueDataMap)
    (h : ScanEffect d d1 t s (scanSequence td sd) none []) : DrainEffect d d1 t [s] := by
  obtain ⟨td0, sd0, td1, sd1, ht0, hs0, ht1, hs1, hproc, hrun1, hun1, hframe, hother, hlen,
    hcount, hmap⟩ := h
  rw [ht] at ht0
  rw [hs] at hs0
  injection ht0 with ht0
  injection hs0 with hs0
  subst ht0 hs0
  have hseq : scanSequence td sd = unprocessedOf d s := by
    unfold unprocessedOf
    rw [hs]
    simp [scanSequence, hrun]
  refine ⟨td, td1, ht, ht1, ?_, hrun1, (hframe hst).1, ?_, ?_, hlen, hcount, hmap, hq⟩
  · rw [hproc, hseq, List.flatMap_cons]
    simp
  · intro k hk
    rw [List.mem_singleton] at hk
    rw [hk]
    unfold unprocessedOf
    rw [hs1]
    exact hun1
  · intro k hkt hk
    exact hother k hkt (fun hh => hk (by rw [hh]; exact List.mem_singleton_self _))

theorem DrainEffect_trans (d d1 d2 : HostStealPolicyData) (t : Nat) (l1 l2 : List Nat)
    (h1 : DrainEffect d d1 t l1) (h2 : DrainEffect d1 d2 t l2)
    (hne : ∀ k ∈ l2, k ≠ t) (hdisj : ∀ k ∈ l1, k ∉ l2) (hne1 : ∀ k ∈ l1, k ≠ t) :
    DrainEffect d d2 t (l1 ++ l2) := by
  obtain ⟨td, td1, ht, ht1, a1, _, a3, a4, a5, a6, a7, a8, a9⟩ := h1
  obtain ⟨td1', td2, ht1', ht2, b1, b2, b3, b4, b5, b6, b7, b8, b9⟩ := h2
  rw [ht1] at ht1'
  injection ht1' with ht1'
  subst ht1'
  refine ⟨td, td2, ht, ht2, ?_, b2, by rw [b3, a3], ?_, ?_, by rw [b6, a6], by rw [b7, a7],
    by rw [b8, a8], by rw [b9, a9]⟩
  · rw [b1, a1, List.flatMap_append, List.append_assoc]
    congr 2
    refine bind_unprocessedOf_congr d d1 l2 ?_
    intro k hk
    exact a5 k (hne k hk) (fun hh => hdisj k hh hk)
  · intro k hk
    rcases List.mem_append.1 hk with hk1 | hk2
    · by_cases hk2 : k ∈ l2
      · exact b4 k hk2
      · rw [unprocessedOf_congr d1 d2 k (b5 k (hne1 k hk1) hk2)]
        exact a4 k hk1
    · exact b4 k hk2
  · intro k hkt hk
    rw [b5 k hkt (fun hh => hk (List.mem_append_right _ hh)),
      a5 k hkt (fun hh => hk (List.mem_append_left _ hh))]

theorem stealLoop_cons (self : Thread) (t tnumber n b i : Nat) (rest : List Nat)
    (d : HostStealPolicyData) (sd : HostStealThreadData)
    (hs : d.threadList[(i + tnumber) % n]? = some sd) :
    stealLoop self t tnumber n b (i :: rest) d =
      if b > sd.currentBarrier then
        .spinning (setThread d ((i + tnumber) % n) { sd with isStealable := false })
      else if sd.unprocessedHosts = [] then stealLoop self t tnumber n b rest d
      else
        match popFromThread d self t ((i + tnumber) % n) b with
        | .returned data1 (some nextEvent) => .returned data1 (some nextEvent)
        | .returned data1 none => stealLoop self t tnumber n b rest data1
        | other => other := by
  rw [stealLoop]
  simp only [hs]

/-- The steal loop in a safe state whose caller runs no host: when it returns
NULL it has drained the victims it went through, and it fails no assertion
when the head of every queue respects the `lastEventTime`. -/
theorem stealLoop_drain (self : Thread) (t tnumber n b : Nat) :
    ∀ (l : List Nat) (d : HostStealPolicyData) (td : HostStealThreadData),
      PopSafe d self t → d.threadList.length = n → d.threadList[t]? = some td →
      td.runningHost = none → (∀ i ∈ l, (i + tnumber) % n ≠ t) →
      (l.map (fun i => (i + tnumber) % n)).Nodup →
      (∀ d1, stealLoop self t tnumber n b l d = .returned d1 none →
        DrainEffect d d1 t (l.map (fun i => (i + tnumber) % n))) ∧
      (HeadsMonotone d → stealLoop self t tnumber n b l d ≠ .aborted) := by
  intro l
  induction l with
  | nil =>
    intro d td _ _ ht hrun _ _
    constructor
    · intro d1 h
      simp only [stealLoop] at h
      injection h with h _
      subst h
      exact DrainEffect_nil d t td ht hrun
    · intro _
      simp [stealLoop]
  | cons i rest ih =>
    intro d td hsafe hlen ht hrun hne hnodup
    have hnpos : 0 < n := by
      have := (List.getElem?_eq_some.1 ht).1
      omega
    have hslt : (i + tnumber) % n < d.threadList.length := by
      rw [hlen]
      exact Nat.mod_lt _ hnpos
    have hst : (i + tnumber) % n ≠ t := hne i (List.mem_cons_self _ _)
    have hne' : ∀ j ∈ rest, (j + tnumber) % n ≠ t :=
      fun j hj => hne j (List.mem_cons_of_mem _ hj)
    rw [List.map_cons, List.nodup_cons] at hnodup
    obtain ⟨hnotin, hnodup'⟩ := hnodup
    have hne'' : ∀ k ∈ rest.map (fun i => (i + tnumber) % n), k ≠ t := by
      intro k hk
      obtain ⟨j, hj, rfl⟩ := List.mem_map.1 hk
      exact hne' j hj
    have hsd : d.threadList[(i + tnumber) % n]? = some (d.threadList[(i + tnumber) % n]) :=
      List.getElem?_eq_getElem hslt
    generalize d.threadList[(i + tnumber) % n] = sd at hsd
    rw [stealLoop_cons self t tnumber n b i rest d sd hsd, List.map_cons]
    have hcombine : ∀ d0 d1, DrainEffect d d0 t [(i + tnumber) % n] →
        DrainEffect d0 d1 t (rest.map (fun i => (i + tnumber) % n)) →
        DrainEffect d d1 t ((i + tnumber) % n :: rest.map (fun i => (i + tnumber) % n)) := by
      intro d0 d1 h1 h2
      refine DrainEffect_trans d d0 d1 t [(i + tnumber) % n] _ h1 h2 hne'' ?_ ?_
      · intro k hk
        rw [List.mem_singleton] at hk
        rw [hk]
        exact hnotin
      · intro k hk
        rw [List.mem_singleton] at hk
        rw [hk]
        exact hst
    by_cases hb : b > sd.currentBarrier
    · simp only [hb, if_true]
      exact ⟨fun d1 h => absurd h (by simp), fun _ => by simp⟩
    · simp only [hb, if_false]
      by_cases hemp : sd.unprocessedHosts = []
      · simp only [hemp, if_true]
        have key := ih d td hsafe hlen ht hrun hne' hnodup'
        refine ⟨fun d1 h => ?_, key.2⟩
        refine hcombine d d1 (DrainEffect_skip d t _ td ht hrun ?_) (key.1 d1 h)
        unfold unprocessedOf
        rw [hsd]
        exact hemp
      · simp only [hemp, if_false]
        rcases popFromThread_trichotomy d self t ((i + tnumber) % n) b td sd hsafe ht hsd with
          ⟨_, d0, hpop, heff, hq, hsafe0⟩ | ⟨_, _, _, _, ev, _, _, _, _, _, _, d0, hpop, _, _⟩ |
          ⟨_, h, _, qdata, ev, evs, _, hqd, hpq, _, hlt, hpop⟩
        · rw [hpop]
          simp only []
          have hdrain := DrainEffect_of_scan d d0 t _ td sd ht hsd hrun hst hq heff
          obtain ⟨td', td0, ht', ht0, _, hrun0, _, _, _, hlen0, _, _, _⟩ := hdrain
          have key := ih d0 td0 hsafe0 (by rw [hlen0, hlen]) ht0 hrun0 hne' hnodup'
          refine ⟨fun d1 h => ?_, fun hm => key.2 (HeadsMonotone_of_queues d d0 hm hq)⟩
          exact hcombine d0 d1
            (DrainEffect_of_scan d d0 t _ td sd ht hsd hrun hst hq heff) (key.1 d1 h)
        · rw [hpop]
          simp only []
          exact ⟨fun d1 h => absurd h (by simp), fun _ => by simp⟩
        · rw [hpop]
          simp only []
          refine ⟨fun d1 h => absurd h (by simp), fun hm => ?_⟩
          have := hm h qdata ev evs hqd hpq
          omega

/-- A loop of `popFromThread` that returns NULL has retired every pending host,
in order, whatever the state it started in. -/
theorem popFromThreadLoop_none_scan (self : Thread) (t src b : Nat) :
    ∀ (fuel : Nat) (d d1 : HostStealPolicyData),
      popFromThreadLoop self t src b fuel d = .returned d1 none →
      ∃ td sd, d.threadList[t]? = some td ∧ d.threadList[src]? = some sd ∧
        ScanEffect d d1 t src (scanSequence td sd) none [] ∧
        d1.hostToQueueDataMap = d.hostToQueueDataMap := by
  intro fuel
  induction fuel with
  | zero =>
    intro d d1 h
    simp [popFromThreadLoop] at h
  | succ n ih =>
    intro d d1 h
    unfold popFromThreadLoop at h
    split at h
    · rename_i d2 r hiter
      injection h with h1 h2
      subst h1 h2
      obtain ⟨hd, td, sd, ht, hs, hrun, hun⟩ :=
        popFromThreadIter_done_none d d2 self t src b hiter
      subst hd
      refine ⟨td, sd, ht, hs, ?_, rfl⟩
      have hseq : scanSequence td sd = [] := by simp [scanSequence, hrun, hun]
      rw [hseq]
      exact ⟨td, sd, td, sd, ht, hs, ht, hs, by simp, hrun, hun, fun _ => ⟨rfl, rfl, rfl⟩,
        fun _ _ _ => rfl, rfl, rfl, rfl⟩
    · rename_i d2 hiter
      obtain ⟨d0, host, _, td0, hsel, _, _, ht0, hd2⟩ :=
        popFromThreadIter_again d d2 self t src b hiter
      have hslots : ∃ td sd, d.threadList[t]? = some td ∧ d.threadList[src]? = some sd := by
        rcases hsel with ⟨td, sd, ht, hs, _, _⟩ | ⟨td, sd, _, _, ht, hs, _, _, _, _⟩
        · exact ⟨td, sd, ht, hs⟩
        · exact ⟨td, sd, ht, hs⟩
      obtain ⟨td, sd, ht, hs⟩ := hslots
      obtain ⟨rest, hseq, heff⟩ := Selected_scan d d0 t src host hsel td sd ht hs
      have heff1 := ScanEffect_retire d d0 t src [] host rest td0 heff ht0
        { td0 with processedHosts := td0.processedHosts ++ [host], runningHost := none }
        rfl rfl rfl
      rw [← hd2] at heff1
      obtain ⟨td2, sd2, ht2, hs2, heff2, hq2⟩ := ih d2 d1 h
      have hseq2 : scanSequence td2 sd2 = rest := by
        obtain ⟨_, _, td2', sd2', _, _, ht2', hs2', _, hrun2, hun2, _⟩ := heff1
        rw [ht2] at ht2'
        rw [hs2] at hs2'
        injection ht2' with ht2'
        injection hs2' with hs2'
        subst ht2' hs2'
        simp [scanSequence, hrun2, hun2]
      rw [hseq2] at heff2
      refine ⟨td, sd, ht, hs, ?_, ?_⟩
      · rw [hseq]
        exact ScanEffect_trans d d2 d1 t src ([] ++ [host]) rest none none rest [] heff1 heff2
      · rw [hq2, hd2, setThread_hostToQueueDataMap, (Selected_fields d d0 t src host hsel).1]
    · exact absurd h (by simp)

theorem popFromThread_none_scan (d d1 : HostStealPolicyData) (self : Thread) (t src b : Nat)
    (h : popFromThread d self t src b = .returned d1 none) :
    ∃ td sd, d.threadList[t]? = some td ∧ d.threadList[src]? = some sd ∧
      ScanEffect d d1 t src (scanSequence td sd) none [] ∧
      d1.hostToQueueDataMap = d.hostToQueueDataMap := by
  unfold popFromThread at h
  split at h
  · exact absurd h (by simp)
  · exact popFromThreadLoop_none_scan self t src b _ d d1 h

/-- A steal loop that returns NULL has drained the victims it went through,
whatever the state it started in. -/
theorem stealLoop_none_drain (self : Thread) (t tnumber n b : Nat) :
    ∀ (l : List Nat) (d : HostStealPolicyData) (td : HostStealThreadData),
      d.threadList[t]? = some td → td.runningHost = none →
      (∀ i ∈ l, (i + tnumber) % n ≠ t) → (l.map (fun i => (i + tnumber) % n)).Nodup →
      ∀ d1, stealLoop self t tnumber n b l d = .returned d1 none →
        DrainEffect d d1 t (l.map (fun i => (i + tnumber) % n)) := by
  intro l
  induction l with
  | nil =>
    intro d td ht hrun _ _ d1 h
    simp only [stealLoop] at h
    injection h with h _
    subst h
    exact DrainEffect_nil d t td ht hrun
  | cons i rest ih =>
    intro d td ht hrun hne hnodup d1 h
    have hst : (i + tnumber) % n ≠ t := hne i (List.mem_cons_self _ _)
    have hne' : ∀ j ∈ rest, (j + tnumber) % n ≠ t :=
      fun j hj => hne j (List.mem_cons_of_mem _ hj)
    rw [List.map_cons, List.nodup_cons] at hnodup
    obtain ⟨hnotin, hnodup'⟩ := hnodup
    have hne'' : ∀ k ∈ rest.map (fun i => (i + tnumber) % n), k ≠ t := by
      intro k hk
      obtain ⟨j, hj, rfl⟩ := List.mem_map.1 hk
      exact hne' j hj
    have hcombine : ∀ d0 d1, DrainEffect d d0 t [(i + tnumber) % n] →
        DrainEffect d0 d1 t (rest.map (fun i => (i + tnumber) % n)) →
        DrainEffect d d1 t ((i + tnumber) % n :: rest.map (fun i => (i + tnumber) % n)) := by
      intro d0 d1 h1 h2
      refine DrainEffect_trans d d0 d1 t [(i + tnumber) % n] _ h1 h2 hne'' ?_ ?_
      · intro k hk
        rw [List.mem_singleton] at hk
        rw [hk]
        exact hnotin
      · intro k hk
        rw [List.mem_singleton] at hk
        rw [hk]
        exact hst
    cases hsd : d.threadList[(i + tnumber) % n]? with
    | none =>
      rw [stealLoop] at h
      simp only [hsd] at h
      exact absurd h (by simp)
    | some sd =>
      rw [stealLoop_cons self t tnumber n b i rest d sd hsd] at h
      rw [List.map_cons]
      by_cases hb : b > sd.currentBarrier
      · simp only [hb, if_true] at h
        exact absurd h (by simp)
      · simp only [hb, if_false] at h
        by_cases hemp : sd.unprocessedHosts = []
        · simp only [hemp, if_true] at h
          refine hcombine d d1 (DrainEffect_skip d t _ td ht hrun ?_)
            (ih d td ht hrun hne' hnodup' d1 h)
          unfold unprocessedOf
          rw [hsd]
          exact hemp
        · simp only [hemp, if_false] at h
          cases hres : popFromThread d self t ((i + tnumber) % n) b with
          | returned d0 r =>
            rw [hres] at h
            cases r with
            | some ev => exact absurd h (by simp)
            | none =>
              simp only [] at h
              obtain ⟨td', sd', ht', hs', heff, hq⟩ :=
                popFromThread_none_scan d d0 self t _ b hres
              rw [ht] at ht'
              rw [hsd] at hs'
              injection ht' with ht'
              injection hs' with hs'
              subst ht' hs'
              have hdrain := DrainEffect_of_scan d d0 t _ td sd ht hsd hrun hst hq heff
              obtain ⟨_, td0, _, ht0, _, hrun0, _⟩ := hdrain
              exact hcombine d0 d1
                (DrainEffect_of_scan d d0 t _ td sd ht hsd hrun hst hq heff)
                (ih d0 td0 ht0 hrun0 hne' hnodup' d1 h)
          | spinning d0 =>
            rw [hres] at h
            exact absurd h (by simp)
          | aborted =>
            rw [hres] at h
            exact absurd h (by simp)
          | outOfFuel =>
            rw [hres] at h
            exact absurd h (by simp)

theorem drainStart_reachable :
    ReachableOnce (drainStart.getD schedulerpolicyhoststeal_new) :=
  ReachableBy.popReturned _ _ 2 10 (some (localEvent 1 3 2))
    (ReachableBy.popReturned _ _ 1 10 (some (localEvent 0 1 0))
      (ReachableBy.push _ _ 1 (localEvent 1 3 2) 2 2 0
        (ReachableBy.push _ _ 1 (localEvent 0 1 0) 0 0 0
          (ReachableBy.addHost _ 1 2 2
            (ReachableBy.addHost _ 1 1 1
              (ReachableBy.addHost _ 1 0 1 ReachableBy.init (fun _ => rfl))
              (fun _ => rfl))
            (fun _ => rfl))
          rfl) rfl) rfl) rfl

theorem roundStart_same (d : HostStealPolicyData) (t b : Nat) (td : HostStealThreadData)
    (htd : d.threadList[t]? = some td) (hb : b ≤ td.currentBarrier) : roundStart d t b = d := by
  unfold roundStart
  rw [htd]
  simp only [gt_iff_lt, Nat.not_lt.2 hb, if_false]

theorem stealOrder_ne (t n : Nat) (ht : t < n) :
    ∀ i ∈ List.range' 1 (n - 1), (i + t) % n ≠ t := by
  intro i hi
  rw [List.mem_range'_1] at hi
  exact steal_index_ne i t n hi.1 (by omega) ht

/-- C33 (a null pop drains every worker): in a reachable state in which the
`currentBarrier` of every worker is at least `b`, when the `pop b` of the
worker with slot `t` returns NULL, then afterwards that worker runs no host,
the `unprocessedHosts` of every slot is empty, and the `processedHosts` of slot
`t` is what it was, followed by the caller's own scan sequence (its running
host, then its `unprocessedHosts`), followed by the `unprocessedHosts` of each
victim in the cyclic order of the steal loop; the round start of the next
larger barrier makes exactly this list the `unprocessedHosts` of slot `t`. -/
theorem null_pop_drains (d d1 : HostStealPolicyData) (self : Thread) (b t : Nat)
    (td : HostStealThreadData) (hr : Reachable d)
    (hmap : d.threadToThreadDataMap self = some t) (htd : d.threadList[t]? = some td)
    (hb : ∀ e ∈ roundFlags d, b ≤ e.1) (hp : pop d self b = .returned d1 none) :
    runningHostOf d1 self = none ∧
    (∀ k, unprocessedOf d1 k = []) ∧
    ∃ td1, d1.threadList[t]? = some td1 ∧
      td1.processedHosts = td.processedHosts ++ scanSequence td td ++
        (stealOrder t d.threadCount).flatMap (unprocessedOf d) ∧
      ∀ b2, b2 > td1.currentBarrier →
        ∃ td2, (roundStart d1 t b2).threadList[t]? = some td2 ∧
          td2.unprocessedHosts = td1.processedHosts ∧ td2.processedHosts = [] := by
  have hidx := Indexed_of_reachable false d hr
  have htn : td.tnumber = t := hidx.tnumber_eq t td htd
  have hcount : d.threadCount = d.threadList.length := hidx.count_eq
  have htlt : t < d.threadCount := by
    rw [hcount]
    exact (List.getElem?_eq_some.1 htd).1
  have hown : b ≤ td.currentBarrier := by
    refine hb (td.currentBarrier, td.isStealable) ?_
    unfold roundFlags
    exact List.mem_map.2 ⟨td, List.getElem?_mem htd, rfl⟩
  rw [pop_eq_popAfterRoundStart d self b t td hmap htd, roundStart_same d t b td htd hown,
    htn] at hp
  unfold popAfterRoundStart at hp
  cases hres : popFromThread d self t t b with
  | returned d0 r =>
    rw [hres] at hp
    cases r with
    | some ev => exact absurd hp (by simp)
    | none =>
      simp only [] at hp
      obtain ⟨td', sd', ht', hs', heff, _⟩ := popFromThread_none_scan d d0 self t t b hres
      rw [htd] at ht' hs'
      injection ht' with ht'
      injection hs' with hs'
      subst ht' hs'
      obtain ⟨td', sd', td0, sd0, ht', _, ht0, hs0, hproc0, hrun0, hun0, _, hother0, hlen0,
        hcount0, hmap0⟩ := heff
      rw [htd] at ht'
      injection ht' with ht'
      subst ht'
      rw [ht0] at hs0
      injection hs0 with hs0
      subst hs0
      rw [hcount0] at hp
      have hnodup : ((List.range' 1 (d.threadCount - 1)).map
          (fun i => (i + t) % d.threadCount)).Nodup := (stealOrder_spec t d.threadCount htlt).2.2.1
      have hdrain := stealLoop_none_drain self t t d.threadCount b
        (List.range' 1 (d.threadCount - 1)) d0 td0 ht0 hrun0
        (stealOrder_ne t d.threadCount htlt) hnodup d1 hp
      obtain ⟨td0', td1, ht0', ht1, hproc1, hrun1, hun1, hempty, _, hlen1, _, hmap1, _⟩ := hdrain
      rw [ht0] at ht0'
      injection ht0' with ht0'
      subst ht0'
      have hmap1' : d1.threadToThreadDataMap self = some t := by
        rw [hmap1, hmap0]
        exact hmap
      refine ⟨?_, ?_, td1, ht1, ?_, ?_⟩
      · rw [runningHostOf_eq d1 self t td1 hmap1' ht1]
        exact hrun1
      · intro k
        by_cases hkt : k = t
        · subst hkt
          unfold unprocessedOf
          rw [ht1]
          simp only []
          rw [hun1]
          exact hun0
        · by_cases hkn : k < d.threadCount
          · exact hempty k ((stealOrder_spec t d.threadCount htlt).2.2.2 k |>.2 ⟨hkn, hkt⟩)
          · unfold unprocessedOf
            have hnone : d1.threadList[k]? = none := by
              rw [List.getElem?_eq_none_iff, hlen1, hlen0, ← hcount]
              omega
            rw [hnone]
      · rw [hproc1, hproc0]
        congr 1
        refine bind_unprocessedOf_congr d d0 _ ?_
        intro k hk
        have hk' := (stealOrder_spec t d.threadCount htlt).2.2.2 k |>.1 hk
        exact hother0 k hk'.2 hk'.2
      · intro b2 hb2
        refine ⟨rotate td1 b2, ?_, ?_, ?_⟩
        · unfold roundStart
          rw [ht1]
          simp only [hb2, if_true]
          rw [setThread_threadList, List.getElem?_set_self (List.getElem?_eq_some.1 ht1).1]
        · rw [rotate_eq, hun1, hun0]
          rfl
        · rw [rotate_eq]
  | spinning d0 =>
    rw [hres] at hp
    exact absurd hp (by simp)
  | aborted =>
    rw [hres] at hp
    exact absurd hp (by simp)
  | outOfFuel =>
    rw [hres] at hp
    exact absurd hp (by simp)

/-- C33 on the scenario "drain": thread 2, whose slot is at position 1, pops
with barrier 10 once more; it retires its running host 2, takes host 1 from
thread 1 and finds no event, so its `processedHosts` becomes `[2, 1]` and no
slot has an unprocessed host left. -/
theorem null_pop_drains_witness :
    runningHostOf ((thenPop drainStart 2 10).getD schedulerpolicyhoststeal_new) 2 = none ∧
    (∀ k, unprocessedOf ((thenPop drainStart 2 10).getD schedulerpolicyhoststeal_new) k = []) ∧
    ∃ td1, ((thenPop drainStart 2 10).getD schedulerpolicyhoststeal_new).threadList[1]? =
        some td1 ∧
      td1.processedHosts = [] ++ [2] ++ [1] :=
  have key := null_pop_drains (drainStart.getD schedulerpolicyhoststeal_new)
    ((thenPop drainStart 2 10).getD schedulerpolicyhoststeal_new) 2 10 1
    ((drainStart.getD schedulerpolicyhoststeal_new).threadList.getD 1 hoststealthreaddata_new)
    (Reachable_of_once _ drainStart_reachable) rfl rfl (by decide) rfl
  ⟨key.1, key.2.1, key.2.2.elim (fun td1 h => ⟨td1, h.1, h.2.1⟩)⟩

/-- In a state reached with each host added once, in which the head of every
queue respects the `lastEventTime` and every other slot is at the barrier,
`pop` returns. -/
theorem pop_total (d : HostStealPolicyData) (self : Thread) (b t : Nat)
    (hr : ReachableOnce d) (hmono : HeadsMonotone d)
    (hmap : d.threadToThreadDataMap self = some t) (hb : OthersAtBarrier d t b) :
    ∃ d1 r, pop d self b = .returned d1 r := by
  have hsafe := PopSafe_of_reachableOnce d self t hr hmap
  have hidx := Indexed_of_reachable true d hr
  have htl : t < d.threadList.length := (OwnerInv_of_reachableOnce d hr).1.map_lt self t hmap
  have htd : d.threadList[t]? = some (d.threadList[t]) := List.getElem?_eq_getElem htl
  generalize d.threadList[t] = td at htd
  have htn : td.tnumber = t := hidx.tnumber_eq t td htd
  have hf := roundStart_fields d t b
  have hsafe0 := PopSafe_roundStart d self t b hsafe
  have hmono0 : HeadsMonotone (roundStart d t b) := HeadsMonotone_of_queues d _ hmono hf.1
  have htl0 : t < (roundStart d t b).threadList.length := by
    rw [hf.2.2.2.2]
    exact htl
  have htd0 : (roundStart d t b).threadList[t]? = some ((roundStart d t b).threadList[t]) :=
    List.getElem?_eq_getElem htl0
  generalize (roundStart d t b).threadList[t] = td0 at htd0
  have hpop := pop_eq_popAfterRoundStart d self b t td hmap htd
  rw [htn] at hpop
  unfold popAfterRoundStart at hpop
  rcases popFromThread_trichotomy (roundStart d t b) self t t b td0 td0 hsafe0 htd0 htd0 with
    ⟨_, d', hres, heff, hq, hsafe'⟩ | ⟨_, _, _, _, ev, _, _, _, _, _, _, d', hres, _, _⟩ |
    ⟨_, h, _, qdata, ev, evs, _, hqd, hpq, _, hlt, _⟩
  · rw [hres] at hpop
    simp only [] at hpop
    obtain ⟨_, _, td', _, _, _, ht', _, _, hrun', _, _, _, hlen', hcount', _⟩ := heff
    have hn : d'.threadList.length = d'.threadCount := by
      rw [hlen', hcount', hf.2.2.2.2, hf.2.2.2.1, hidx.count_eq]
    have htlt : t < d'.threadCount := by
      rw [← hn]
      exact (List.getElem?_eq_some.1 ht').1
    have hnab := (stealLoop_drain self t t d'.threadCount b
      (List.range' 1 (d'.threadCount - 1)) d' td' hsafe' hn ht' hrun'
      (stealOrder_ne t d'.threadCount htlt) (stealOrder_spec t d'.threadCount htlt).2.2.1).2
      (HeadsMonotone_of_queues _ d' hmono0 hq)
    cases hsl : stealLoop self t t d'.threadCount b (List.range' 1 (d'.threadCount - 1)) d' with
    | returned d1 r => exact ⟨d1, r, by rw [hpop, hsl]⟩
    | spinning d1 =>
      rw [hsl] at hpop
      exact absurd hpop (pop_ne_spinning d d1 self b t hmap hb)
    | aborted => exact absurd hsl hnab
    | outOfFuel => exact absurd hsl (stealLoop_ne_outOfFuel _ _ _ _ _ _ _)
  · rw [hres] at hpop
    exact ⟨d', some ev, hpop⟩
  · have := hmono0 h qdata ev evs hqd hpq
    omega

theorem OthersAtBarrier_of_flags (d : HostStealPolicyData) (t b : Nat)
    (h : ∀ e ∈ (roundFlags d).eraseIdx t, b ≤ e.1) : OthersAtBarrier d t b := by
  intro k td hk hkd
  refine h (td.currentBarrier, td.isStealable) ?_
  rw [List.mem_eraseIdx_iff_getElem?]
  refine ⟨k, hk, ?_⟩
  unfold roundFlags
  rw [List.getElem?_map, hkd]
  rfl

theorem pending_length_eq (d : HostStealPolicyData) (t src : Nat) (td sd : HostStealThreadData)
    (ht : d.threadList[t]? = some td) (hs : d.threadList[src]? = some sd) :
    (pending d t src).length =
      sd.unprocessedHosts.length + (if td.runningHost.isSome then 1 else 0) := by
  unfold pending
  rw [ht, hs]
  simp only [scanSequence]
  cases td.runningHost with
  | none => simp
  | some x =>
    simp only [Option.toList, List.singleton_append, List.length_cons, Option.isSome_some,
      if_true]

/-- C32 (`pop_from` terminates): the hosts pending for the loop of
`popFromThread` are the running host of the slot, if set, and the host list, so
their number is the length of the list plus one if a running host is set; an
iteration that does not return takes the first pending host away and adds
none; hence the loop body is entered at most that many times, and neither
`popFromThread` nor `pop` ever exhausts the iteration bound of the model,
for any slot, list and barrier.  When every other worker's `currentBarrier` is
at least the barrier, `pop` does not spin: it returns or stops at a failed
assertion, and it returns in every state reached with each host added once
in which the head of every queue respects the `lastEventTime`. -/
theorem pop_from_terminates :
    (∀ (d : HostStealPolicyData) (t src : Nat) (td sd : HostStealThreadData),
      d.threadList[t]? = some td → d.threadList[src]? = some sd →
      (pending d t src).length =
        sd.unprocessedHosts.length + (if td.runningHost.isSome then 1 else 0)) ∧
    (∀ (d d1 : HostStealPolicyData) (self : Thread) (t src b : Nat),
      popFromThreadIter d self t src b = .again d1 →
      ∃ host, pending d t src = host :: pending d1 t src) ∧
    (∀ (d : HostStealPolicyData) (self : Thread) (t src b fuel : Nat),
      popFromThreadBodyRuns self t src b fuel d ≤ (pending d t src).length) ∧
    (∀ (d : HostStealPolicyData) (self : Thread) (t src b : Nat),
      popFromThread d self t src b ≠ .outOfFuel) ∧
    (∀ (d : HostStealPolicyData) (self : Thread) (b : Nat), pop d self b ≠ .outOfFuel) ∧
    (∀ (d : HostStealPolicyData) (self : Thread) (b : Nat),
      d.threadToThreadDataMap self = none → pop d self b = .returned d none) ∧
    (∀ (d : HostStealPolicyData) (self : Thread) (b t : Nat),
      d.threadToThreadDataMap self = some t → OthersAtBarrier d t b →
      (∃ d1 r, pop d self b = .returned d1 r) ∨ pop d self b = .aborted) ∧
    (∀ (d : HostStealPolicyData) (self : Thread) (b t : Nat), ReachableOnce d →
      HeadsMonotone d → d.threadToThreadDataMap self = some t → OthersAtBarrier d t b →
      ∃ d1 r, pop d self b = .returned d1 r) := by
  refine ⟨pending_length_eq, popFromThreadIter_again_pending, ?_, popFromThread_ne_outOfFuel,
    pop_ne_outOfFuel, ?_, ?_, ?_⟩
  · intro d self t src b fuel
    exact popFromThreadBodyRuns_le self t src b fuel d
  · intro d self b hmap
    simp only [pop, hmap]
  · intro d self b t hmap hb
    cases hp : pop d self b with
    | returned d1 r => exact Or.inl ⟨d1, r, rfl⟩
    | spinning d1 => exact absurd hp (pop_ne_spinning d d1 self b t hmap hb)
    | aborted => exact Or.inr rfl
    | outOfFuel => exact absurd hp (pop_ne_outOfFuel d self b)
  · intro d self b t hr hmono hmap hb
    exact pop_total d self b t hr hmono hmap hb

/-- C32 on the scenario "steal": thread 2 pops with barrier 10 when thread 1
is already in that round, and the call returns. -/
theorem pop_from_terminates_witness :
    ∃ d1 r, pop (stealStart.getD schedulerpolicyhoststeal_new) 2 10 = .returned d1 r :=
  pop_from_terminates.2.2.2.2.2.2.2 (stealStart.getD schedulerpolicyhoststeal_new) 2 10 1
    stealStart_reachable
    (HeadsMonotone_of_monotone _ (ContractRun_invariant _ _ stealStart_contract).1) rfl
    (OthersAtBarrier_of_flags _ 1 10 (by decide))

theorem roundStart_running (d : HostStealPolicyData) (t b : Nat) (td : HostStealThreadData)
    (htd : d.threadList[t]? = some td) :
    ∃ td0, (roundStart d t b).threadList[t]? = some td0 ∧ td0.runningHost = td.runningHost := by
  unfold roundStart
  rw [htd]
  simp only []
  split
  · refine ⟨rotate td b, ?_, by rw [rotate_eq]⟩
    rw [setThread_threadList, List.getElem?_set_self (List.getElem?_eq_some.1 htd).1]
  · exact ⟨td, htd, rfl⟩

/-- A `pop` of a worker whose running host has a due head event returns that
event and keeps the running host. -/
theorem pop_running_due (d : HostStealPolicyData) (self : Thread) (b t : Nat)
    (td : HostStealThreadData) (h : Host) (qdata : HostStealQueueData) (ev : Event)
    (evs : List Event) (hsafe : PopSafe d self t) (htd : d.threadList[t]? = some td)
    (hrun : td.runningHost = some h) (hq : d.hostToQueueDataMap h = some qdata)
    (hpq : qdata.pq = ev :: evs) (hlt : ev.time < b) (hle : qdata.lastEventTime ≤ ev.time) :
    ∃ d1 td1, pop d self b = .returned d1 (some ev) ∧
      d1.hostToQueueDataMap =
        Function.update d.hostToQueueDataMap h (some (poppedQueue qdata ev evs)) ∧
      d1.threadList[t]? = some td1 ∧ td1.runningHost = some h ∧
      d1.threadToThreadDataMap = d.threadToThreadDataMap := by
  have hmap : d.threadToThreadDataMap self = some t := by
    obtain ⟨hmap, _, _, _⟩ := hsafe
    exact hmap
  have hf := roundStart_fields d t b
  obtain ⟨td0, htd0, hrun0⟩ := roundStart_running d t b td htd
  rw [hrun] at hrun0
  have hq0 : (roundStart d t b).hostToQueueDataMap h = some qdata := by
    rw [hf.1]
    exact hq
  have hseq : scanSequence td0 td0 = h :: td0.unprocessedHosts := by
    simp [scanSequence, hrun0]
  have hfd : firstDue (roundStart d t b) b (scanSequence td0 td0) =
      some ([], h, td0.unprocessedHosts) := by
    rw [hseq]
    simp only [firstDue, headDue_of_head _ b h qdata ev evs hq0 hpq hlt, if_true]
  obtain ⟨d1, hp, heff, hq1⟩ :=
    ((popFromThread_scan (roundStart d t b) self t t b td0 td0
      (PopSafe_roundStart d self t b hsafe) htd0 htd0).2 [] h td0.unprocessedHosts hfd
      qdata ev evs hq0 hpq).1 hle
  obtain ⟨_, _, td1, _, _, _, ht1, _, _, hrun1, _, _, _, _, _, hmap1⟩ := heff
  refine ⟨d1, td1, ?_, by rw [hq1, hf.1], ht1, hrun1, by rw [hmap1, hf.2.2.1]⟩
  rw [pop_eq_popAfterRoundStart d self b t td hmap htd]
  unfold popAfterRoundStart
  rw [hp]

theorem stickyRun_reachable :
    ReachableOnce (stickyRun.getD schedulerpolicyhoststeal_new) :=
  ReachableBy.push _ _ 1 (localEvent 2 1 1) 1 1 0
    (ReachableBy.push _ _ 1 (localEvent 1 7 0) 0 0 0
      (ReachableBy.push _ _ 1 (localEvent 0 5 0) 0 0 0
        (ReachableBy.addHost _ 1 1 1
          (ReachableBy.addHost _ 1 0 1 ReachableBy.init (fun _ => rfl))
          (fun _ => rfl))
        rfl) rfl) rfl

/-- In a list sorted by time, the events after the leading ones with time below
`b` all have time at least `b`. -/
theorem dropWhile_sorted_ge (b : Nat) :
    ∀ (l : List Event), l.Pairwise (fun x y => x.time ≤ y.time) →
      ∀ e ∈ l.dropWhile (fun e => decide (e.time < b)), b ≤ e.time := by
  intro l
  induction l with
  | nil =>
    intro _ e he
    simp at he
  | cons x xs ih =>
    intro hs e he
    rw [List.pairwise_cons] at hs
    by_cases hx : x.time < b
    · rw [List.dropWhile_cons_of_pos (by simpa using hx)] at he
      exact ih hs.2 e he
    · rw [List.dropWhile_cons_of_neg (by simpa using hx)] at he
      rcases List.mem_cons.1 he with he | he
      · rw [he]
        omega
      · have := hs.1 e he
        omega

/-- The following calls of `pop` serve the running host as long as its head
event is due. -/
theorem popRepeat_running (self : Thread) (b t : Nat) (h : Host) :
    ∀ (due rest : List Event) (d : HostStealPolicyData) (td : HostStealThreadData)
      (qdata : HostStealQueueData), ReachableOnce d → d.threadToThreadDataMap self = some t →
      d.threadList[t]? = some td → td.runningHost = some h →
      d.hostToQueueDataMap h = some qdata → qdata.pq = due ++ rest →
      (∀ e ∈ due, e.time < b) → (∀ e ∈ qdata.pq, qdata.lastEventTime ≤ e.time) →
      ∃ d2 td2 qdata2, popRepeat self b due.length d = some (due.map some, d2) ∧
        ReachableOnce d2 ∧ d2.threadToThreadDataMap self = some t ∧
        d2.threadList[t]? = some td2 ∧ td2.runningHost = some h ∧
        d2.hostToQueueDataMap h = some qdata2 ∧ qdata2.pq = rest ∧
        ∀ host, host ≠ h → d2.hostToQueueDataMap host = d.hostToQueueDataMap host := by
  intro due
  induction due with
  | nil =>
    intro rest d td qdata hr hmap htd hrun hq hpq _ _
    exact ⟨d, td, qdata, rfl, hr, hmap, htd, hrun, hq, hpq, fun _ _ => rfl⟩
  | cons e due ih =>
    intro rest d td qdata hr hmap htd hrun hq hpq hdue hmono
    rw [List.cons_append] at hpq
    have hsorted := QueuesSorted_of_reachable true d hr h qdata hq
    rw [hpq, List.pairwise_cons] at hsorted
    obtain ⟨d1, td1, hp, hq1, htd1, hrun1, hmap1⟩ :=
      pop_running_due d self b t td h qdata e (due ++ rest)
        (PopSafe_of_reachableOnce d self t hr hmap) htd hrun hq hpq
        (hdue e (List.mem_cons_self _ _))
        (hmono e (by rw [hpq]; exact List.mem_cons_self _ _))
    have hr1 : ReachableOnce d1 := ReachableBy.popReturned d d1 self b (some e) hr hp
    have hqh1 : d1.hostToQueueDataMap h = some (poppedQueue qdata e (due ++ rest)) := by
      rw [hq1, Function.update_same]
    obtain ⟨d2, td2, qdata2, hrep, hr2, hmap2, htd2, hrun2, hq2, hpq2, hother2⟩ :=
      ih rest d1 td1 (poppedQueue qdata e (due ++ rest)) hr1 (by rw [hmap1]; exact hmap)
        htd1 hrun1 hqh1 rfl (fun x hx => hdue x (List.mem_cons_of_mem _ hx))
        (fun x hx => hsorted.1 x hx)
    refine ⟨d2, td2, qdata2, ?_, hr2, hmap2, htd2, hrun2, hq2, hpq2, ?_⟩
    · simp only [List.length_cons, popRepeat, hp, hrep, List.map_cons]
    · intro host hne
      rw [hother2 host hne, hq1, Function.update_noteq hne]

/-- In a list sorted by time, the leading events with time below `b` are all
the events with time below `b`. -/
theorem takeWhile_sorted_eq_filter (b : Nat) (l : List Event)
    (hs : l.Pairwise (fun x y => x.time ≤ y.time)) :
    l.takeWhile (fun e => decide (e.time < b)) = l.filter (fun e => decide (e.time < b)) := by
  have hsplit := List.takeWhile_append_dropWhile (fun e => decide (e.time < b)) l
  have h1 : (l.takeWhile (fun e => decide (e.time < b))).filter (fun e => decide (e.time < b)) =
      l.takeWhile (fun e => decide (e.time < b)) := by
    rw [List.filter_eq_self]
    intro e he
    have hpe := List.mem_takeWhile_imp he
    exact hpe
  have h2 : (l.dropWhile (fun e => decide (e.time < b))).filter (fun e => decide (e.time < b)) =
      [] := by
    rw [List.filter_eq_nil_iff]
    intro e he
    have := dropWhile_sorted_ge b l hs e he
    simp only [decide_eq_true_eq]
    omega
  calc l.takeWhile (fun e => decide (e.time < b))
      = (l.takeWhile (fun e => decide (e.time < b))).filter (fun e => decide (e.time < b)) ++
          (l.dropWhile (fun e => decide (e.time < b))).filter (fun e => decide (e.time < b)) := by
        rw [h1, h2, List.append_nil]
    _ = (l.takeWhile (fun e => decide (e.time < b)) ++
          l.dropWhile (fun e => decide (e.time < b))).filter (fun e => decide (e.time < b)) := by
        rw [List.filter_append]
    _ = l.filter (fun e => decide (e.time < b)) := by rw [hsplit]

/-- C31 (the running host is sticky): in a state reached with each host added
once, after `pop b` has returned an event of host `h`, `h` is the caller's
running host, and the caller's following calls of `pop b`, as many as `h` has
remaining events with time below `b`, return exactly these events in queue
order; `h` is still the running host then, its queue holds the events with
time at least `b`, and the queue of every other host is as it was after the
first call, so no event of another host has been returned in between.  The
order across hosts is not the time order: in the scenario "sticky running
host" three calls return the events of times 5 and 7 of host 0 before the
event of time 1 of host 1. -/
theorem running_host_sticky (d d1 : HostStealPolicyData) (self : Thread) (b : Nat) (ev : Event)
    (hr : ReachableOnce d) (hp : pop d self b = .returned d1 (some ev)) :
    (∃ h qdata evs, runningHostOf d1 self = some h ∧
      d.hostToQueueDataMap h = some qdata ∧ qdata.pq = ev :: evs ∧
      ∃ d2 qdata2,
        popRepeat self b (evs.filter (fun e => decide (e.time < b))).length d1 =
          some ((evs.filter (fun e => decide (e.time < b))).map some, d2) ∧
        runningHostOf d2 self = some h ∧
        d2.hostToQueueDataMap h = some qdata2 ∧
        qdata2.pq = evs.dropWhile (fun e => decide (e.time < b)) ∧
        (∀ e ∈ qdata2.pq, b ≤ e.time) ∧
        ∀ host, host ≠ h → d2.hostToQueueDataMap host = d1.hostToQueueDataMap host) ∧
    (popRepeat 1 10 3 (stickyRun.getD schedulerpolicyhoststeal_new)).map Prod.fst =
      some [some (localEvent 0 5 0), some (localEvent 1 7 0), some (localEvent 2 1 1)] := by
  refine ⟨?_, rfl⟩
  obtain ⟨t, h, qdata, evs, td1, hmap, hmap1, htd1, hrun1, hq, hpq, _, _, hq1⟩ :=
    (pop_queue_effect d self b).2.2 d1 ev hp
  have hsorted := QueuesSorted_of_reachable true d hr h qdata hq
  rw [hpq, List.pairwise_cons] at hsorted
  have hr1 : ReachableOnce d1 := ReachableBy.popReturned d d1 self b (some ev) hr hp
  have hqh1 : d1.hostToQueueDataMap h = some (poppedQueue qdata ev evs) := by
    rw [hq1, Function.update_same]
  obtain ⟨d2, td2, qdata2, hrep, _, hmap2, htd2, hrun2, hq2, hpq2, hother2⟩ :=
    popRepeat_running self b t h (evs.takeWhile (fun e => decide (e.time < b)))
      (evs.dropWhile (fun e => decide (e.time < b))) d1 td1 (poppedQueue qdata ev evs)
      hr1 hmap1 htd1 hrun1 hqh1 (List.takeWhile_append_dropWhile _ evs).symm
      (fun e he => by
        have hpe := List.mem_takeWhile_imp he
        simpa using hpe)
      (fun e he => hsorted.1 e he)
  rw [takeWhile_sorted_eq_filter b evs hsorted.2] at hrep
  refine ⟨h, qdata, evs, ?_, hq, hpq, d2, qdata2, hrep, ?_, hq2, hpq2, ?_, hother2⟩
  · rw [runningHostOf_eq d1 self t td1 hmap1 htd1]
    exact hrun1
  · rw [runningHostOf_eq d2 self t td2 hmap2 htd2]
    exact hrun2
  · intro e he
    rw [hpq2] at he
    exact dropWhile_sorted_ge b evs hsorted.2 e he

/-- C31 on the scenario "sticky running host": the first `pop 10` of thread 1
returns the event of time 5 of host 0, so the one following call returns its
event of time 7, although host 1 holds an event of time 1. -/
theorem running_host_sticky_witness :
    ((popRepeat 1 10 1 ((thenPop stickyRun 1 10).getD schedulerpolicyhoststeal_new)).map
      Prod.fst = some [some (localEvent 1 7 0)]) :=
  (running_host_sticky (stickyRun.getD schedulerpolicyhoststeal_new)
    ((thenPop stickyRun 1 10).getD schedulerpolicyhoststeal_new) 1 10 (localEvent 0 5 0)
    stickyRun_reachable rfl).1.elim
    (fun h hh => hh.elim (fun qdata hq => hq.elim (fun evs he =>
      he.2.2.2.elim (fun d2 hd => hd.elim (fun qdata2 hfin => by
        have hq0 : (stickyRun.getD schedulerpolicyhoststeal_new).hostToQueueDataMap h =
            some qdata := he.2.1
        have hrun : runningHostOf ((thenPop stickyRun 1 10).getD schedulerpolicyhoststeal_new) 1 =
            some h := he.1
        have hh0 : h = 0 := by
          have : (some 0 : Option Host) = some h := hrun
          exact (Option.some.inj this).symm
        subst hh0
        have hqd : some (HostStealQueueData.mk [localEvent 0 5 0, localEvent 1 7 0] 0 2 0) =
            some qdata := hq0
        have hqd1 := Option.some.inj hqd
        subst hqd1
        have hevs : [localEvent 0 5 0, localEvent 1 7 0] = localEvent 0 5 0 :: evs := he.2.2.1
        have hevs1 : evs = [localEvent 1 7 0] := (List.cons.inj hevs).2.symm
        subst hevs1
        rfl)))))

end HostSteal

namespace Descriptor

/-- C27 (supportsSaRestart by descriptor type): `legacyfile_supportsSaRestart`
returns true exactly for `DT_TCPSOCKET` and `DT_UDPSOCKET`, false exactly for
`DT_TIMER`, `DT_EPOLL`, `DT_FILE` and `DT_EVENTD`, and reaches a `panic`, returning
no value, exactly for `DT_NONE` and for a value outside the enumeration; the
result depends on the type only. -/
theorem supportsSaRestart_by_type (legacyDesc : LegacyFile) :
    (legacyfile_supportsSaRestart legacyDesc = .ok true ↔
      (legacyDesc.type = .DT_TCPSOCKET ∨ legacyDesc.type = .DT_UDPSOCKET)) ∧
    (legacyfile_supportsSaRestart legacyDesc = .ok false ↔
      (legacyDesc.type = .DT_TIMER ∨ legacyDesc.type = .DT_EPOLL ∨
        legacyDesc.type = .DT_FILE ∨ legacyDesc.type = .DT_EVENTD)) ∧
    ((∃ msg, legacyfile_supportsSaRestart legacyDesc = .error msg) ↔
      (legacyDesc.type = .DT_NONE ∨ ∃ value, legacyDesc.type = .outside value)) ∧
    (∀ other : LegacyFile, other.type = legacyDesc.type →
      legacyfile_supportsSaRestart other = legacyfile_supportsSaRestart legacyDesc) := by
  refine ⟨?_, ?_, ?_, ?_⟩
  · unfold legacyfile_supportsSaRestart
    cases legacyDesc.type <;> simp
  · unfold legacyfile_supportsSaRestart
    cases legacyDesc.type <;> simp
  · unfold legacyfile_supportsSaRestart
    cases legacyDesc.type <;> simp
  · intro other h
    unfold legacyfile_supportsSaRestart
    rw [h]

/-- C27 at a TCP socket. -/
theorem supportsSaRestart_by_type_witness :
    legacyfile_supportsSaRestart (newDescriptor .DT_TCPSOCKET) = .ok true :=
  (supportsSaRestart_by_type (newDescriptor .DT_TCPSOCKET)).1.2 (Or.inl rfl)

/-- Callbacks that leave the status alone: the loop leaves the status alone. -/
theorem handleStatusChangeLoop_status (api : StatusListenerApi) (oldStatus : Nat)
    (hquiet : ∀ l s c x, (api.onStatusChanged l s c x).status = x.status) :
    ∀ (items : List StatusListener) (descriptor : LegacyFile),
      (handleStatusChangeLoop api oldStatus items descriptor).1.status = descriptor.status := by
  intro items
  induction items with
  | nil =>
    intro descriptor
    rfl
  | cons l items ih =>
    intro descriptor
    unfold handleStatusChangeLoop
    simp only []
    split
    · rfl
    · split
      · simp only []
        rw [ih, hquiet]
      · exact ih descriptor

theorem handleStatusChange_status (api : StatusListenerApi) (descriptor : LegacyFile)
    (oldStatus : Nat) (hquiet : ∀ l s c x, (api.onStatusChanged l s c x).status = x.status) :
    (legacyfile_handleStatusChange api descriptor oldStatus).1.status = descriptor.status := by
  unfold legacyfile_handleStatusChange
  split
  · rfl
  · exact handleStatusChangeLoop_status api oldStatus hquiet _ descriptor

/-- No bit differs from the old status: no listener is called and the descriptor
is returned as it is. -/
theorem handleStatusChange_same (api : StatusListenerApi) (descriptor : LegacyFile) :
    legacyfile_handleStatusChange api descriptor descriptor.status = (descriptor, []) := by
  unfold legacyfile_handleStatusChange
  simp only [Nat.xor_self, if_true]

/-- The status that `legacyfile_adjustStatus` stores before it tells the listeners. -/
theorem adjustStatus_status (statusBits : Nat) (api : StatusListenerApi)
    (descriptor : LegacyFile) (status : Nat) (doSetBits : Bool)
    (hquiet : ∀ l s c x, (api.onStatusChanged l s c x).status = x.status) :
    (legacyfile_adjustStatus statusBits api descriptor status doSetBits).1.status =
      if doSetBits then descriptor.status ||| status
      else descriptor.status &&& statusComplement statusBits status := by
  unfold legacyfile_adjustStatus
  simp only []
  rw [handleStatusChange_status api _ _ hquiet]
  cases doSetBits <;> rfl

theorem testBit_clear (statusBits old status i : Nat) (hold : old < 2 ^ statusBits) :
    (old &&& statusComplement statusBits status).testBit i =
      (old.testBit i && !status.testBit i) := by
  unfold statusComplement
  rw [Nat.testBit_land, Nat.testBit_xor, Nat.testBit_two_pow_sub_one]
  by_cases hi : i < statusBits
  · simp [hi]
  · have hlt : old < 2 ^ i :=
      Nat.lt_of_lt_of_le hold (Nat.pow_le_pow_right (by decide) (Nat.le_of_not_lt hi))
    rw [Nat.testBit_lt_two_pow hlt]
    simp

/-- No bit flips: no listener is called. -/
theorem adjustStatus_no_flip (statusBits : Nat) (api : StatusListenerApi)
    (descriptor : LegacyFile) (status : Nat) (doSetBits : Bool)
    (hsame : (if doSetBits then descriptor.status ||| status
      else descriptor.status &&& statusComplement statusBits status) = descriptor.status) :
    legacyfile_adjustStatus statusBits api descriptor status doSetBits = (descriptor, []) := by
  unfold legacyfile_adjustStatus
  simp only []
  cases doSetBits with
  | true =>
    simp only [if_true] at hsame ⊢
    rw [hsame]
    exact handleStatusChange_same api descriptor
  | false =>
    simp only [Bool.false_eq_true, if_false] at hsame ⊢
    rw [hsame]
    exact handleStatusChange_same api descriptor

/-- C28 (adjustStatus sets or clears exactly the given bits): with listener
callbacks that do not change the status, and a status that fits the width of
its type, after `legacyfile_adjustStatus(d, bits, doSetBits)` the status is
`old | bits` when `doSetBits` is true and `old & ~bits` when it is false: a bit
of `bits` is set, respectively cleared, every bit outside `bits` is as before,
a second application of the same adjustment leaves the descriptor unchanged
and calls no listener, and a call that flips no bit calls no listener and
leaves the descriptor unchanged. -/
theorem adjustStatus_sets_or_clears (statusBits : Nat) (api : StatusListenerApi)
    (descriptor : LegacyFile) (bits : Nat)
    (hquiet : ∀ l s c x, (api.onStatusChanged l s c x).status = x.status)
    (hold : descriptor.status < 2 ^ statusBits) :
    (legacyfile_adjustStatus statusBits api descriptor bits true).1.status =
      descriptor.status ||| bits ∧
    (legacyfile_adjustStatus statusBits api descriptor bits false).1.status =
      descriptor.status &&& statusComplement statusBits bits ∧
    (∀ i, (legacyfile_adjustStatus statusBits api descriptor bits true).1.status.testBit i =
      (descriptor.status.testBit i || bits.testBit i)) ∧
    (∀ i, (legacyfile_adjustStatus statusBits api descriptor bits false).1.status.testBit i =
      (descriptor.status.testBit i && !bits.testBit i)) ∧
    (∀ doSetBits i, bits.testBit i = false →
      (legacyfile_adjustStatus statusBits api descriptor bits doSetBits).1.status.testBit i =
        descriptor.status.testBit i) ∧
    (∀ doSetBits,
      legacyfile_adjustStatus statusBits api
        (legacyfile_adjustStatus statusBits api descriptor bits doSetBits).1 bits doSetBits =
      ((legacyfile_adjustStatus statusBits api descriptor bits doSetBits).1, [])) ∧
    (∀ doSetBits,
      (if doSetBits then descriptor.status ||| bits
        else descriptor.status &&& statusComplement statusBits bits) = descriptor.status →
      legacyfile_adjustStatus statusBits api descriptor bits doSetBits = (descriptor, [])) := by
  have hset := adjustStatus_status statusBits api descriptor bits true hquiet
  have hclear := adjustStatus_status statusBits api descriptor bits false hquiet
  simp only [if_true] at hset
  simp only [Bool.false_eq_true, if_false] at hclear
  have hbitSet : ∀ i, (legacyfile_adjustStatus statusBits api descriptor bits true).1.status.testBit
      i = (descriptor.status.testBit i || bits.testBit i) := by
    intro i
    rw [hset, Nat.testBit_lor]
  have hbitClear : ∀ i,
      (legacyfile_adjustStatus statusBits api descriptor bits false).1.status.testBit i =
        (descriptor.status.testBit i && !bits.testBit i) := by
    intro i
    rw [hclear, testBit_clear statusBits _ bits i hold]
  refine ⟨hset, hclear, hbitSet, hbitClear, ?_, ?_, ?_⟩
  · intro doSetBits i hi
    cases doSetBits with
    | true => rw [hbitSet, hi, Bool.or_false]
    | false => rw [hbitClear, hi, Bool.not_false, Bool.and_true]
  · intro doSetBits
    apply adjustStatus_no_flip
    cases doSetBits with
    | true =>
      simp only [if_true]
      rw [hset]
      apply Nat.eq_of_testBit_eq
      intro i
      simp [Nat.testBit_lor]
    | false =>
      simp only [Bool.false_eq_true, if_false]
      rw [hclear]
      apply Nat.eq_of_testBit_eq
      intro i
      simp [Nat.testBit_land]
  · intro doSetBits hsame
    exact adjustStatus_no_flip statusBits api descriptor bits doSetBits hsame

/-- C28 on a 32-bit status `0b0101` with one listener and the bits `0b0110`:
setting gives `0b0111`, clearing gives `0b0001`. -/
theorem adjustStatus_sets_or_clears_witness :
    (legacyfile_adjustStatus 32 quietApi (LegacyFile.mk .DT_FILE 5 0 [1] 1 0) 6 true).1.status =
      5 ||| 6 ∧
    (legacyfile_adjustStatus 32 quietApi (LegacyFile.mk .DT_FILE 5 0 [1] 1 0) 6 false).1.status =
      5 &&& statusComplement 32 6 ∧
    (legacyfile_adjustStatus 32 quietApi (LegacyFile.mk .DT_FILE 5 0 [1] 1 0) 6 true).1.status
      = 7 ∧
    (legacyfile_adjustStatus 32 quietApi (LegacyFile.mk .DT_FILE 5 0 [1] 1 0) 6 false).1.status
      = 1 ∧
    (legacyfile_adjustStatus 32 quietApi (LegacyFile.mk .DT_FILE 5 0 [1] 1 0) 6 true).2 =
      [ListenerCall.mk 1 7 2] ∧
    (legacyfile_adjustStatus 32 quietApi (LegacyFile.mk .DT_FILE 5 0 [1] 1 0) 4 true).2 = [] :=
  ⟨(adjustStatus_sets_or_clears 32 quietApi (LegacyFile.mk .DT_FILE 5 0 [1] 1 0) 6
      (fun _ _ _ _ => rfl) (by decide)).1,
   (adjustStatus_sets_or_clears 32 quietApi (LegacyFile.mk .DT_FILE 5 0 [1] 1 0) 6
      (fun _ _ _ _ => rfl) (by decide)).2.1,
   by decide, by decide, by decide, by decide⟩

/-- Callbacks that keep a property of the descriptor: the loop keeps it. -/
theorem handleStatusChangeLoop_invariant (api : StatusListenerApi) (oldStatus : Nat)
    (P : LegacyFile → Prop) (hP : ∀ l s c x, P x → P (api.onStatusChanged l s c x)) :
    ∀ (items : List StatusListener) (descriptor : LegacyFile), P descriptor →
      P (handleStatusChangeLoop api oldStatus items descriptor).1 := by
  intro items
  induction items with
  | nil =>
    intro descriptor h
    exact h
  | cons l items ih =>
    intro descriptor h
    unfold handleStatusChangeLoop
    simp only []
    split
    · exact h
    · split
      · exact ih _ (hP _ _ _ _ h)
      · exact ih _ h

theorem handleStatusChange_invariant (api : StatusListenerApi) (descriptor : LegacyFile)
    (oldStatus : Nat) (P : LegacyFile → Prop)
    (hP : ∀ l s c x, P x → P (api.onStatusChanged l s c x)) (h : P descriptor) :
    P (legacyfile_handleStatusChange api descriptor oldStatus).1 := by
  unfold legacyfile_handleStatusChange
  split
  · exact h
  · exact handleStatusChangeLoop_invariant api oldStatus P hP _ descriptor h

theorem or_and_self_ne_zero (a c : Nat) (hc : c ≠ 0) : (a ||| c) &&& c ≠ 0 := by
  intro h
  apply hc
  apply Nat.eq_of_testBit_eq
  intro i
  have hi := congrArg (fun n => n.testBit i) h
  simp only [Nat.testBit_land, Nat.testBit_lor, Nat.zero_testBit] at hi
  rw [Nat.zero_testBit]
  cases hci : c.testBit i with
  | false => rfl
  | true =>
    rw [hci] at hi
    simp at hi

/-- After `legacyfile_adjustStatus(descriptor, STATUS_FILE_CLOSED, TRUE)` the
descriptor is closed, when the listeners do not reopen it. -/
theorem adjustStatus_closed (statusBits : Nat) (api : StatusListenerApi) (closed : Nat)
    (descriptor : LegacyFile) (hc : closed ≠ 0)
    (hkeep : ∀ l s c x, isClosed closed x → isClosed closed (api.onStatusChanged l s c x)) :
    isClosed closed (legacyfile_adjustStatus statusBits api descriptor closed true).1 := by
  unfold legacyfile_adjustStatus
  simp only [if_true]
  refine handleStatusChange_invariant api _ _ (isClosed closed) hkeep ?_
  exact or_and_self_ne_zero descriptor.status closed hc

theorem close_of_closed (statusBits : Nat) (api : StatusListenerApi)
    (funcTable : LegacyFileFunctionTable) (closed : Nat) (descriptor : LegacyFile) (host : Nat)
    (h : isClosed closed descriptor) :
    legacyfile_close statusBits api funcTable closed descriptor host =
      { descriptor := descriptor, listenerCalls := [], vtableCloses := [] } := by
  unfold isClosed at h
  unfold legacyfile_close
  rw [if_pos h]

theorem close_of_open (statusBits : Nat) (api : StatusListenerApi)
    (funcTable : LegacyFileFunctionTable) (closed : Nat) (descriptor : LegacyFile) (host : Nat)
    (h : ¬ isClosed closed descriptor) :
    legacyfile_close statusBits api funcTable closed descriptor host =
      { descriptor :=
          funcTable.close (legacyfile_adjustStatus statusBits api descriptor closed true).1 host,
        listenerCalls := (legacyfile_adjustStatus statusBits api descriptor closed true).2,
        vtableCloses :=
          [((legacyfile_adjustStatus statusBits api descriptor closed true).1, host)] } := by
  unfold isClosed at h
  unfold legacyfile_close
  rw [if_neg h]

/-- Once the descriptor is closed, no call of a run reaches the vtable `close`. -/
theorem closeRun_of_closed (statusBits : Nat) (api : StatusListenerApi)
    (funcTable : LegacyFileFunctionTable) (closed : Nat) :
    ∀ (calls : List (Nat × (LegacyFile → LegacyFile))) (descriptor : LegacyFile),
      (∀ c ∈ calls, ∀ x, isClosed closed x → isClosed closed (c.2 x)) →
      isClosed closed descriptor →
      (closeRun statusBits api funcTable closed calls descriptor).2 = [] := by
  intro calls
  induction calls with
  | nil =>
    intro descriptor _ _
    rfl
  | cons c calls ih =>
    intro descriptor hact h
    obtain ⟨host, activity⟩ := c
    unfold closeRun
    simp only []
    rw [close_of_closed statusBits api funcTable closed descriptor host h]
    simp only [List.nil_append]
    exact ih _ (fun c hc => hact c (List.mem_cons_of_mem _ hc))
      (hact (host, activity) (List.mem_cons_self _ _) descriptor h)

/-- C37 (close is idempotent): `legacyfile_close` on a descriptor whose status
has `STATUS_FILE_CLOSED` set makes no listener callback, does not call the
vtable `close` and returns the descriptor as it is; on a descriptor that is
not closed it calls the vtable `close` exactly once, on the descriptor that
`legacyfile_adjustStatus(descriptor, STATUS_FILE_CLOSED, TRUE)` has left, in
which (for listeners that leave the status alone) the bits of
`STATUS_FILE_CLOSED` are set and every other bit is as before.  Hence in a
sequence of `close` calls, with any activity in between, the vtable `close`
runs at most once (not at all when the descriptor was closed at the start,
and in the first call otherwise), as long as neither the listeners, nor the
vtable `close`, nor the activity in between reopens a closed descriptor.
`STATUS_FILE_CLOSED` is any non-zero constant. -/
theorem close_idempotent (statusBits : Nat) (api : StatusListenerApi)
    (funcTable : LegacyFileFunctionTable) (closed : Nat) (hc : closed ≠ 0) :
    (∀ (descriptor : LegacyFile) (host : Nat), isClosed closed descriptor →
      legacyfile_close statusBits api funcTable closed descriptor host =
        { descriptor := descriptor, listenerCalls := [], vtableCloses := [] }) ∧
    (∀ (descriptor : LegacyFile) (host : Nat), ¬ isClosed closed descriptor →
      (legacyfile_close statusBits api funcTable closed descriptor host).vtableCloses =
        [((legacyfile_adjustStatus statusBits api descriptor closed true).1, host)] ∧
      (legacyfile_close statusBits api funcTable closed descriptor host).descriptor =
        funcTable.close (legacyfile_adjustStatus statusBits api descriptor closed true).1 host ∧
      ((∀ l s c x, (api.onStatusChanged l s c x).status = x.status) →
        (legacyfile_adjustStatus statusBits api descriptor closed true).1.status =
          descriptor.status ||| closed ∧
        (∀ i, closed.testBit i = false →
          (legacyfile_adjustStatus statusBits api descriptor closed true).1.status.testBit i =
            descriptor.status.testBit i) ∧
        isClosed closed (legacyfile_adjustStatus statusBits api descriptor closed true).1)) ∧
    (∀ (calls : List (Nat × (LegacyFile → LegacyFile))) (descriptor : LegacyFile),
      (∀ l s c x, isClosed closed x → isClosed closed (api.onStatusChanged l s c x)) →
      (∀ x host, isClosed closed x → isClosed closed (funcTable.close x host)) →
      (∀ c ∈ calls, ∀ x, isClosed closed x → isClosed closed (c.2 x)) →
      (closeRun statusBits api funcTable closed calls descriptor).2.length ≤ 1 ∧
      (isClosed closed descriptor →
        (closeRun statusBits api funcTable closed calls descriptor).2 = []) ∧
      (¬ isClosed closed descriptor → ∀ host activity rest, calls = (host, activity) :: rest →
        (closeRun statusBits api funcTable closed calls descriptor).2 =
          [((legacyfile_adjustStatus statusBits api descriptor closed true).1, host)])) := by
  refine ⟨?_, ?_, ?_⟩
  · intro descriptor host h
    exact close_of_closed statusBits api funcTable closed descriptor host h
  · intro descriptor host h
    rw [close_of_open statusBits api funcTable closed descriptor host h]
    refine ⟨rfl, rfl, ?_⟩
    intro hquiet
    have hst := adjustStatus_status statusBits api descriptor closed true hquiet
    simp only [if_true] at hst
    refine ⟨hst, ?_, ?_⟩
    · intro i hi
      rw [hst, Nat.testBit_lor, hi, Bool.or_false]
    · unfold isClosed legacyfile_getStatus
      rw [hst]
      exact or_and_self_ne_zero descriptor.status closed hc
  · intro calls descriptor hlisten hclose hact
    have hopen : ¬ isClosed closed descriptor → ∀ host activity rest,
        calls = (host, activity) :: rest →
        (closeRun statusBits api funcTable closed calls descriptor).2 =
          [((legacyfile_adjustStatus statusBits api descriptor closed true).1, host)] := by
      intro h host activity rest hcalls
      subst hcalls
      unfold closeRun
      simp only []
      rw [close_of_open statusBits api funcTable closed descriptor host h]
      simp only []
      rw [closeRun_of_closed statusBits api funcTable closed rest _
        (fun c hcm => hact c (List.mem_cons_of_mem _ hcm))
        (hact (host, activity) (List.mem_cons_self _ _) _
          (hclose _ host (adjustStatus_closed statusBits api closed descriptor hc hlisten)))]
      rfl
    refine ⟨?_, closeRun_of_closed statusBits api funcTable closed calls descriptor hact, hopen⟩
    by_cases h : isClosed closed descriptor
    · rw [closeRun_of_closed statusBits api funcTable closed calls descriptor hact h]
      exact Nat.zero_le _
    · cases calls with
      | nil => exact Nat.zero_le _
      | cons c rest =>
        obtain ⟨host, activity⟩ := c
        rw [hopen h host activity rest rfl]
        exact Nat.le_refl _

/-- C37 with `STATUS_FILE_CLOSED = 8` on an open file with status `0b0101`:
three calls of `close` in a row reach the vtable `close` once, with the status
`0b1101`. -/
theorem close_idempotent_witness :
    (closeRun 32 quietApi plainTable 8 [(0, id), (0, id), (0, id)]
      (LegacyFile.mk .DT_FILE 5 0 [1] 1 0)).2 = [(LegacyFile.mk .DT_FILE 13 0 [1] 1 0, 0)] :=
  ((close_idempotent 32 quietApi plainTable 8 (by decide)).2.2 [(0, id), (0, id), (0, id)]
    (LegacyFile.mk .DT_FILE 5 0 [1] 1 0) (fun _ _ _ _ h => h) (fun _ _ h => h)
    (fun c hc x h => by
      simp only [List.mem_cons, List.mem_singleton, List.not_mem_nil, or_false, or_self] at hc
      rw [hc]
      exact h)).2.2 (by unfold isClosed legacyfile_getStatus; decide) 0 id [(0, id), (0, id)] rfl

/-- A call of `legacyfile_unrefWeak` that passes the assertion: what it needs,
what it does, and that the assertion makes no other difference. -/
theorem unrefWeak_checked (s s1 : Lifetime) (h : legacyfile_unrefWeak true s = some s1) :
    s.freed = false ∧ 0 ≤ s.descriptor.refCountWeak - 1 ∧
    (∀ debug, legacyfile_unrefWeak debug s = some s1) ∧
    s1 = (if s.descriptor.refCountStrong > 0 ∨ s.descriptor.refCountWeak - 1 > 0 then
        s.setWeak (s.descriptor.refCountWeak - 1)
      else legacyfile_free (s.setWeak (s.descriptor.refCountWeak - 1))) := by
  unfold legacyfile_unrefWeak at h
  by_cases hf : s.freed = true
  · rw [if_pos hf] at h
    exact absurd h (by simp)
  · rw [if_neg hf] at h
    by_cases hi : (!inInt (s.descriptor.refCountWeak - 1)) = true
    · rw [if_pos hi] at h
      exact absurd h (by simp)
    · rw [if_neg hi] at h
      simp only [Lifetime.setWeak, Bool.true_and] at h
      by_cases hw : (!decide (s.descriptor.refCountWeak - 1 ≥ 0)) = true
      · rw [if_pos hw] at h
        exact absurd h (by simp)
      · rw [if_neg hw] at h
        refine ⟨by simpa using hf, by simpa using hw, ?_, ?_⟩
        · intro debug
          unfold legacyfile_unrefWeak
          rw [if_neg hf, if_neg hi]
          cases debug with
          | true =>
            simp only [Lifetime.setWeak, Bool.true_and]
            rw [if_neg hw]
            exact h
          | false =>
            simp only [Lifetime.setWeak, Bool.false_and]
            exact h
        · simp only [Lifetime.setWeak]
          split at h
          · rename_i hc
            rw [if_pos hc]
            exact (Option.some.inj h).symm
          · rename_i hc
            rw [if_neg hc]
            exact (Option.some.inj h).symm

/-- The weak references that a cleanup function gives up, when every assertion
holds: the weak count goes down by their number and stays non-negative, and
as long as the object is not freed the log is unchanged and the count is
still positive. -/
theorem cleanupReleases_checked :
    ∀ (k : Nat) (s s2 : Lifetime), s.descriptor.refCountStrong = 0 →
      cleanupReleases true k s = some s2 →
      (∀ debug, cleanupReleases debug k s = some s2) ∧
      s2.descriptor = { s.descriptor with refCountWeak := s.descriptor.refCountWeak - k } ∧
      (k = 0 ∨ 0 ≤ s.descriptor.refCountWeak - k) ∧
      (s2.freed = false → s2.calls = s.calls ∧ (k = 0 ∨ 0 < s.descriptor.refCountWeak - k)) := by
  intro k
  induction k with
  | zero =>
    intro s s2 _ h
    simp only [cleanupReleases] at h
    have hs := Option.some.inj h
    subst hs
    refine ⟨fun _ => rfl, ?_, Or.inl rfl, fun _ => ⟨rfl, Or.inl rfl⟩⟩
    simp
  | succ k ih =>
    intro s s2 hstrong h
    simp only [cleanupReleases] at h
    cases h1 : legacyfile_unrefWeak true s with
    | none =>
      rw [h1] at h
      exact absurd h (by simp)
    | some s1 =>
      rw [h1, Option.some_bind] at h
      obtain ⟨_, hw, hdebug, hs1⟩ := unrefWeak_checked s s1 h1
      by_cases hpos : s.descriptor.refCountWeak - 1 > 0
      · rw [if_pos (Or.inr hpos)] at hs1
        have hstrong1 : s1.descriptor.refCountStrong = 0 := by
          rw [hs1]
          exact hstrong
        obtain ⟨a1, a2, a3, a4⟩ := ih s1 s2 hstrong1 h
        have hw1 : s1.descriptor.refCountWeak = s.descriptor.refCountWeak - 1 := by
          rw [hs1]
          rfl
        refine ⟨?_, ?_, Or.inr ?_, ?_⟩
        · intro debug
          simp only [cleanupReleases]
          rw [hdebug debug, Option.some_bind]
          exact a1 debug
        · rw [a2, hs1]
          simp only [Lifetime.setWeak, Nat.cast_add, Nat.cast_one]
          congr 1
          omega
        · rw [hw1] at a3
          push_cast
          omega
        · intro hfree
          obtain ⟨b1, b2⟩ := a4 hfree
          refine ⟨by rw [b1, hs1]; rfl, Or.inr ?_⟩
          rw [hw1] at b2
          push_cast
          omega
      · have hcond : ¬ (s.descriptor.refCountStrong > 0 ∨ s.descriptor.refCountWeak - 1 > 0) := by
          rw [hstrong]
          intro hc
          rcases hc with hc | hc
          · exact absurd hc (by decide)
          · exact hpos hc
        rw [if_neg hcond] at hs1
        have hfreed1 : s1.freed = true := by
          rw [hs1]
          simp [Lifetime.freed, legacyfile_free, Lifetime.log]
        cases k with
        | zero =>
          simp only [cleanupReleases] at h
          have hs := Option.some.inj h
          subst hs
          refine ⟨?_, ?_, Or.inr ?_, ?_⟩
          · intro debug
            simp only [cleanupReleases]
            rw [hdebug debug, Option.some_bind]
          · rw [hs1]
            simp [legacyfile_free, Lifetime.log, Lifetime.setWeak]
          · push_cast
            omega
          · intro hfree
            rw [hfreed1] at hfree
            exact absurd hfree (by simp)
        | succ k =>
          simp only [cleanupReleases] at h
          have hnone : legacyfile_unrefWeak true s1 = none := by
            unfold legacyfile_unrefWeak
            rw [if_pos hfreed1]
          rw [hnone] at h
          exact absurd h (by simp)

theorem expectedCalls_strong (funcTable : LegacyFileFunctionTable) (descriptor : LegacyFile)
    (hs : descriptor.refCountStrong ≠ 0) : expectedCalls funcTable descriptor = [] := by
  unfold expectedCalls
  rw [if_neg hs]

theorem expectedCalls_weak (funcTable : LegacyFileFunctionTable) (descriptor : LegacyFile)
    (hs : descriptor.refCountStrong = 0) (hw : descriptor.refCountWeak ≠ 0) :
    expectedCalls funcTable descriptor = cleanupLog funcTable := by
  unfold expectedCalls
  rw [if_pos hs, if_neg hw, List.append_nil]

theorem expectedCalls_zero (funcTable : LegacyFileFunctionTable) (descriptor : LegacyFile)
    (hs : descriptor.refCountStrong = 0) (hw : descriptor.refCountWeak = 0) :
    expectedCalls funcTable descriptor = cleanupLog funcTable ++ [.free] := by
  unfold expectedCalls
  rw [if_pos hs, if_pos hw]

theorem free_not_mem_cleanupLog (funcTable : LegacyFileFunctionTable) :
    VtableCall.free ∉ cleanupLog funcTable := by
  unfold cleanupLog
  split <;> simp

theorem free_mem_expectedCalls (funcTable : LegacyFileFunctionTable) (descriptor : LegacyFile) :
    VtableCall.free ∈ expectedCalls funcTable descriptor ↔
      descriptor.refCountStrong = 0 ∧ descriptor.refCountWeak = 0 := by
  by_cases hs : descriptor.refCountStrong = 0
  · by_cases hw : descriptor.refCountWeak = 0
    · rw [expectedCalls_zero funcTable descriptor hs hw]
      simp [hs, hw]
    · rw [expectedCalls_weak funcTable descriptor hs hw]
      simp [hs, hw, free_not_mem_cleanupLog]
  · rw [expectedCalls_strong funcTable descriptor hs]
    simp [hs]

theorem LifeInv_not_freed (funcTable : LegacyFileFunctionTable) (s : Lifetime)
    (h : LifeInv funcTable s) (hf : ¬ s.freed = true) :
    ¬ (s.descriptor.refCountStrong = 0 ∧ s.descriptor.refCountWeak = 0) := by
  intro hc
  apply hf
  unfold Lifetime.freed
  rw [h.2.2]
  simpa using (free_mem_expectedCalls funcTable s.descriptor).2 hc

theorem ref_checked (funcTable : LegacyFileFunctionTable) (s s1 : Lifetime)
    (hinv : LifeInv funcTable s) (h : legacyfile_ref true s = some s1) :
    LifeInv funcTable s1 ∧ ∀ debug, legacyfile_ref debug s = some s1 := by
  unfold legacyfile_ref at h
  by_cases hf : s.freed = true
  · rw [if_pos hf] at h
    exact absurd h (by simp)
  · rw [if_neg hf] at h
    simp only [Bool.true_and] at h
    by_cases hp : (!decide (s.descriptor.refCountStrong > 0)) = true
    · rw [if_pos hp] at h
      exact absurd h (by simp)
    · rw [if_neg hp] at h
      by_cases hi : (!inInt (s.descriptor.refCountStrong + 1)) = true
      · rw [if_pos hi] at h
        exact absurd h (by simp)
      · rw [if_neg hi] at h
        have hs1 := (Option.some.inj h).symm
        have hpos : s.descriptor.refCountStrong > 0 := by simpa using hp
        obtain ⟨_, h2, h3⟩ := hinv
        constructor
        · rw [hs1]
          refine ⟨?_, h2, ?_⟩
          · simp only [Lifetime.setStrong]
            omega
          · have e1 : expectedCalls funcTable s.descriptor = [] :=
              expectedCalls_strong funcTable _ (by omega)
            have e2 : expectedCalls funcTable
                (s.setStrong (s.descriptor.refCountStrong + 1)).descriptor = [] :=
              expectedCalls_strong funcTable
                (s.setStrong (s.descriptor.refCountStrong + 1)).descriptor
                (by simp only [Lifetime.setStrong]; omega)
            rw [e2, ← e1, ← h3]
            rfl
        · intro debug
          unfold legacyfile_ref
          rw [if_neg hf]
          cases debug with
          | true =>
            simp only [Bool.true_and]
            rw [if_neg hp, if_neg hi, hs1]
          | false =>
            simp only [Bool.false_and]
            rw [if_neg hi, hs1]
            simp

theorem refWeak_checked (funcTable : LegacyFileFunctionTable) (s s1 : Lifetime)
    (hinv : LifeInv funcTable s) (h : legacyfile_refWeak s = some s1) :
    LifeInv funcTable s1 ∧ s1 = s.setWeak (s.descriptor.refCountWeak + 1) := by
  unfold legacyfile_refWeak at h
  by_cases hf : s.freed = true
  · rw [if_pos hf] at h
    exact absurd h (by simp)
  · rw [if_neg hf] at h
    by_cases hi : (!inInt (s.descriptor.refCountWeak + 1)) = true
    · rw [if_pos hi] at h
      exact absurd h (by simp)
    · rw [if_neg hi] at h
      have hs1 := (Option.some.inj h).symm
      have hnf := LifeInv_not_freed funcTable s hinv hf
      obtain ⟨h1, h2, h3⟩ := hinv
      refine ⟨?_, hs1⟩
      rw [hs1]
      refine ⟨h1, ?_, ?_⟩
      · simp only [Lifetime.setWeak]
        omega
      · have e : expectedCalls funcTable (s.setWeak (s.descriptor.refCountWeak + 1)).descriptor =
            expectedCalls funcTable s.descriptor := by
          by_cases hs : s.descriptor.refCountStrong = 0
          · have hw : s.descriptor.refCountWeak ≠ 0 := fun hw => hnf ⟨hs, hw⟩
            rw [expectedCalls_weak funcTable s.descriptor hs hw,
              expectedCalls_weak funcTable (s.setWeak (s.descriptor.refCountWeak + 1)).descriptor
                hs (by simp only [Lifetime.setWeak]; omega)]
          · rw [expectedCalls_strong funcTable s.descriptor hs,
              expectedCalls_strong funcTable (s.setWeak (s.descriptor.refCountWeak + 1)).descriptor
                hs]
        rw [e, ← h3]
        rfl

theorem unrefWeak_inv (funcTable : LegacyFileFunctionTable) (s s1 : Lifetime)
    (hinv : LifeInv funcTable s) (h : legacyfile_unrefWeak true s = some s1) :
    LifeInv funcTable s1 := by
  obtain ⟨_, hw, _, hs1⟩ := unrefWeak_checked s s1 h
  obtain ⟨h1, h2, h3⟩ := hinv
  by_cases hc : s.descriptor.refCountStrong > 0 ∨ s.descriptor.refCountWeak - 1 > 0
  · rw [if_pos hc] at hs1
    rw [hs1]
    refine ⟨h1, hw, ?_⟩
    have e : expectedCalls funcTable (s.setWeak (s.descriptor.refCountWeak - 1)).descriptor =
        expectedCalls funcTable s.descriptor := by
      by_cases hs : s.descriptor.refCountStrong = 0
      · rw [expectedCalls_weak funcTable s.descriptor hs (by omega),
          expectedCalls_weak funcTable (s.setWeak (s.descriptor.refCountWeak - 1)).descriptor hs
            (by simp only [Lifetime.setWeak]; omega)]
      · rw [expectedCalls_strong funcTable s.descriptor hs,
          expectedCalls_strong funcTable (s.setWeak (s.descriptor.refCountWeak - 1)).descriptor
            hs]
    rw [e, ← h3]
    rfl
  · rw [if_neg hc] at hs1
    have hs : s.descriptor.refCountStrong = 0 := by omega
    have hw1 : s.descriptor.refCountWeak - 1 = 0 := by omega
    rw [hs1]
    refine ⟨h1, hw, ?_⟩
    rw [expectedCalls_zero funcTable
      (legacyfile_free (s.setWeak (s.descriptor.refCountWeak - 1))).descriptor hs hw1]
    simp only [legacyfile_free, Lifetime.log, Lifetime.setWeak]
    rw [h3, expectedCalls_weak funcTable s.descriptor hs (by omega)]

theorem cleanupLog_none (funcTable : LegacyFileFunctionTable) (h : funcTable.cleanup = none) :
    cleanupLog funcTable = [] := by
  unfold cleanupLog
  rw [h]
  rfl

theorem cleanupLog_some (funcTable : LegacyFileFunctionTable) (f : LegacyFile → Nat)
    (h : funcTable.cleanup = some f) :
    cleanupLog funcTable = [.cleanupBegin, .cleanupEnd] := by
  unfold cleanupLog
  rw [h]
  rfl

/-- The cleanup of a descriptor without strong references and with an empty
log, when every assertion holds. -/
theorem cleanup_checked (funcTable : LegacyFileFunctionTable) (s s3 : Lifetime)
    (hstrong : s.descriptor.refCountStrong = 0) (hcalls : s.calls = [])
    (hw : 0 ≤ s.descriptor.refCountWeak) (h : legacyfile_cleanup true funcTable s = some s3) :
    (∀ debug, legacyfile_cleanup debug funcTable s = some s3) ∧
    s3.descriptor.refCountStrong = 0 ∧ 0 ≤ s3.descriptor.refCountWeak ∧
    (s3.freed = false → s3.calls = cleanupLog funcTable ∧
      (0 < s.descriptor.refCountWeak → 0 < s3.descriptor.refCountWeak)) ∧
    (s.descriptor.refCountWeak = 0 →
      s3.descriptor = s.descriptor ∧ s3.calls = cleanupLog funcTable) := by
  unfold legacyfile_cleanup at h
  cases hc : funcTable.cleanup with
  | none =>
    rw [hc] at h
    simp only [] at h
    have hs := Option.some.inj h
    subst hs
    refine ⟨?_, hstrong, hw, ?_, ?_⟩
    · intro debug
      unfold legacyfile_cleanup
      rw [hc]
    · intro _
      exact ⟨by rw [hcalls, cleanupLog_none funcTable hc], fun hh => hh⟩
    · intro _
      exact ⟨rfl, by rw [hcalls, cleanupLog_none funcTable hc]⟩
  | some f =>
    rw [hc] at h
    simp only [] at h
    cases hr : cleanupReleases true (f s.descriptor) (s.log .cleanupBegin) with
    | none =>
      rw [hr] at h
      exact absurd h (by simp)
    | some s4 =>
      rw [hr, Option.map_some'] at h
      have hs := Option.some.inj h
      subst hs
      obtain ⟨a1, a2, a3, a4⟩ :=
        cleanupReleases_checked (f s.descriptor) (s.log .cleanupBegin) s4 hstrong hr
      have hd : (s4.log .cleanupEnd).descriptor = s4.descriptor := rfl
      have hw0 : (s.log .cleanupBegin).descriptor.refCountWeak = s.descriptor.refCountWeak := rfl
      rw [hw0] at a3 a4
      have hw4 : s4.descriptor.refCountWeak = s.descriptor.refCountWeak - (f s.descriptor) := by
        rw [a2]
        rfl
      refine ⟨?_, ?_, ?_, ?_, ?_⟩
      · intro debug
        unfold legacyfile_cleanup
        rw [hc]
        simp only []
        rw [a1 debug, Option.map_some']
      · rw [hd, a2]
        exact hstrong
      · rw [hd, hw4]
        rcases a3 with h0 | h0
        · rw [h0]
          simpa using hw
        · exact h0
      · intro hfree
        have hfree4 : s4.freed = false := by
          simp only [Lifetime.freed, Lifetime.log, List.mem_append, List.mem_singleton,
            decide_eq_false_iff_not, not_or] at hfree
          simp only [Lifetime.freed, decide_eq_false_iff_not]
          exact hfree.1
        obtain ⟨b1, b2⟩ := a4 hfree4
        constructor
        · rw [cleanupLog_some funcTable f hc]
          simp only [Lifetime.log, b1, hcalls, List.nil_append, List.singleton_append]
        · intro hpos
          rw [hd, hw4]
          rcases b2 with h0 | h0
          · rw [h0]
            simpa using hpos
          · exact h0
      · intro hzero
        have hk : f s.descriptor = 0 := by
          rcases a3 with h0 | h0
          · exact h0
          · rw [hzero] at h0
            omega
        rw [hk] at hr
        simp only [cleanupReleases] at hr
        have hs4 := Option.some.inj hr
        subst hs4
        constructor
        · rfl
        · rw [cleanupLog_some funcTable f hc]
          simp only [Lifetime.log, hcalls, List.nil_append, List.singleton_append]

theorem refWeak_some (s s1 : Lifetime) (h : legacyfile_refWeak s = some s1) :
    s1 = s.setWeak (s.descriptor.refCountWeak + 1) := by
  unfold legacyfile_refWeak at h
  split at h
  · exact absurd h (by simp)
  · split at h
    · exact absurd h (by simp)
    · exact (Option.some.inj h).symm

/-- The three ways through `legacyfile_unref` once the object is known to be
alive and the decrement to be in range. -/
theorem unref_eq (debug : Bool) (funcTable : LegacyFileFunctionTable) (s : Lifetime)
    (hf : ¬ s.freed = true) (hi : ¬ (!inInt (s.descriptor.refCountStrong - 1)) = true)
    (hge : 0 ≤ s.descriptor.refCountStrong - 1) :
    legacyfile_unref debug funcTable s =
      if s.descriptor.refCountStrong - 1 > 0 then
        some (s.setStrong (s.descriptor.refCountStrong - 1))
      else if s.descriptor.refCountWeak > 0 then
        (legacyfile_refWeak (s.setStrong (s.descriptor.refCountStrong - 1))).bind (fun s2 =>
          (legacyfile_cleanup debug funcTable s2).bind (legacyfile_unrefWeak debug))
      else
        (legacyfile_cleanup debug funcTable
          (s.setStrong (s.descriptor.refCountStrong - 1))).map legacyfile_free := by
  unfold legacyfile_unref
  rw [if_neg hf, if_neg hi]
  have hassert : ¬ (debug && !decide
      ((s.setStrong (s.descriptor.refCountStrong - 1)).descriptor.refCountStrong ≥ 0)) = true := by
    have : (s.setStrong (s.descriptor.refCountStrong - 1)).descriptor.refCountStrong =
        s.descriptor.refCountStrong - 1 := rfl
    rw [this]
    simp only [ge_iff_le, hge, decide_True, Bool.not_true, Bool.and_false, Bool.false_eq_true,
      not_false_eq_true]
  simp only []
  rw [if_neg hassert]
  rfl

theorem unref_checked (funcTable : LegacyFileFunctionTable) (s s1 : Lifetime)
    (hinv : LifeInv funcTable s) (h : legacyfile_unref true funcTable s = some s1) :
    LifeInv funcTable s1 ∧ ∀ debug, legacyfile_unref debug funcTable s = some s1 := by
  have hf : ¬ s.freed = true := by
    intro hf
    unfold legacyfile_unref at h
    rw [if_pos hf] at h
    exact absurd h (by simp)
  have hi : ¬ (!inInt (s.descriptor.refCountStrong - 1)) = true := by
    intro hi
    unfold legacyfile_unref at h
    rw [if_neg hf, if_pos hi] at h
    exact absurd h (by simp)
  have hge : 0 ≤ s.descriptor.refCountStrong - 1 := by
    by_contra hlt
    unfold legacyfile_unref at h
    rw [if_neg hf, if_neg hi] at h
    simp only [Lifetime.setStrong, Bool.true_and] at h
    rw [if_pos (by simpa using hlt)] at h
    exact absurd h (by simp)
  rw [unref_eq true funcTable s hf hi hge] at h
  obtain ⟨_, h2, h3⟩ := hinv
  have hcalls : s.calls = [] := by
    rw [h3]
    exact expectedCalls_strong funcTable s.descriptor (by omega)
  by_cases hpos : s.descriptor.refCountStrong - 1 > 0
  · rw [if_pos hpos] at h
    have hs1 := (Option.some.inj h).symm
    constructor
    · rw [hs1]
      refine ⟨hge, h2, ?_⟩
      rw [expectedCalls_strong funcTable
        (s.setStrong (s.descriptor.refCountStrong - 1)).descriptor
        (by simp only [Lifetime.setStrong]; omega)]
      exact hcalls
    · intro debug
      rw [unref_eq debug funcTable s hf hi hge, if_pos hpos, hs1]
  · rw [if_neg hpos] at h
    have hzero : (s.setStrong (s.descriptor.refCountStrong - 1)).descriptor.refCountStrong = 0 := by
      simp only [Lifetime.setStrong]
      omega
    by_cases hwpos : s.descriptor.refCountWeak > 0
    · rw [if_pos hwpos] at h
      cases hrw : legacyfile_refWeak (s.setStrong (s.descriptor.refCountStrong - 1)) with
      | none =>
        rw [hrw] at h
        exact absurd h (by simp)
      | some s2 =>
        rw [hrw, Option.some_bind] at h
        have hs2 := refWeak_some _ s2 hrw
        cases hcl : legacyfile_cleanup true funcTable s2 with
        | none =>
          rw [hcl] at h
          exact absurd h (by simp)
        | some s3 =>
          rw [hcl, Option.some_bind] at h
          have hstrong2 : s2.descriptor.refCountStrong = 0 := by
            rw [hs2]
            exact hzero
          have hweak2 : s2.descriptor.refCountWeak = s.descriptor.refCountWeak + 1 := by
            rw [hs2]
            rfl
          have hcalls2 : s2.calls = [] := by
            rw [hs2]
            exact hcalls
          obtain ⟨c1, c2, c3, c4, _⟩ :=
            cleanup_checked funcTable s2 s3 hstrong2 hcalls2 (by omega) hcl
          obtain ⟨hfree3, _, u1, _⟩ := unrefWeak_checked s3 s1 h
          obtain ⟨d1, d2⟩ := c4 hfree3
          have hinv3 : LifeInv funcTable s3 := by
            refine ⟨by omega, c3, ?_⟩
            rw [expectedCalls_weak funcTable s3.descriptor c2 (by have := d2 (by omega); omega)]
            exact d1
          refine ⟨unrefWeak_inv funcTable s3 s1 hinv3 h, ?_⟩
          intro debug
          rw [unref_eq debug funcTable s hf hi hge, if_neg hpos, if_pos hwpos, hrw,
            Option.some_bind, c1 debug, Option.some_bind]
          exact u1 debug
    · rw [if_neg hwpos] at h
      have hw0 : s.descriptor.refCountWeak = 0 := by omega
      cases hcl : legacyfile_cleanup true funcTable
          (s.setStrong (s.descriptor.refCountStrong - 1)) with
      | none =>
        rw [hcl] at h
        exact absurd h (by simp)
      | some s3 =>
        rw [hcl, Option.map_some'] at h
        have hs1 := (Option.some.inj h).symm
        obtain ⟨c1, _, _, _, c5⟩ :=
          cleanup_checked funcTable _ s3 hzero hcalls (by simp only [Lifetime.setStrong]; omega)
            hcl
        obtain ⟨e1, e2⟩ := c5 hw0
        constructor
        · rw [hs1]
          have hd : (legacyfile_free s3).descriptor = s3.descriptor := rfl
          refine ⟨?_, ?_, ?_⟩
          · rw [hd, e1, hzero]
          · rw [hd, e1]
            exact h2
          · rw [expectedCalls_zero funcTable (legacyfile_free s3).descriptor
              (by rw [hd, e1]; exact hzero) (by rw [hd, e1]; exact hw0)]
            simp only [legacyfile_free, Lifetime.log, e2]
        · intro debug
          rw [unref_eq debug funcTable s hf hi hge, if_neg hpos, if_neg hwpos, c1 debug,
            Option.map_some', hs1]

theorem refCall_checked (funcTable : LegacyFileFunctionTable) (call : RefCall)
    (s s1 : Lifetime) (hinv : LifeInv funcTable s) (h : refCall true funcTable call s = some s1) :
    LifeInv funcTable s1 ∧ ∀ debug, refCall debug funcTable call s = some s1 := by
  cases call with
  | ref => exact ref_checked funcTable s s1 hinv h
  | unref => exact unref_checked funcTable s s1 hinv h
  | refWeak => exact ⟨(refWeak_checked funcTable s s1 hinv h).1, fun _ => h⟩
  | unrefWeak => exact ⟨unrefWeak_inv funcTable s s1 hinv h, (unrefWeak_checked s s1 h).2.2.1⟩

theorem refRun_checked (funcTable : LegacyFileFunctionTable) :
    ∀ (calls : List RefCall) (s s1 : Lifetime), LifeInv funcTable s →
      refRun true funcTable calls s = some s1 →
      LifeInv funcTable s1 ∧ ∀ debug, refRun debug funcTable calls s = some s1 := by
  intro calls
  induction calls with
  | nil =>
    intro s s1 hinv h
    simp only [refRun] at h
    have hs := Option.some.inj h
    subst hs
    exact ⟨hinv, fun _ => rfl⟩
  | cons call calls ih =>
    intro s s1 hinv h
    simp only [refRun] at h
    cases hc : refCall true funcTable call s with
    | none =>
      rw [hc] at h
      exact absurd h (by simp)
    | some s2 =>
      rw [hc, Option.some_bind] at h
      obtain ⟨hinv2, hdebug⟩ := refCall_checked funcTable call s s2 hinv hc
      obtain ⟨hinv1, hrest⟩ := ih s2 s1 hinv2 h
      refine ⟨hinv1, fun debug => ?_⟩
      simp only [refRun]
      rw [hdebug debug, Option.some_bind]
      exact hrest debug

theorem refRun_append (debug : Bool) (funcTable : LegacyFileFunctionTable) :
    ∀ (pre post : List RefCall) (s : Lifetime),
      refRun debug funcTable (pre ++ post) s =
        (refRun debug funcTable pre s).bind (refRun debug funcTable post) := by
  intro pre
  induction pre with
  | nil =>
    intro post s
    simp [refRun]
  | cons call pre ih =>
    intro post s
    simp only [List.cons_append, refRun]
    cases refCall debug funcTable call s with
    | none => rfl
    | some s1 =>
      rw [Option.some_bind, Option.some_bind]
      exact ih post s1

theorem LifeInv_start (funcTable : LegacyFileFunctionTable) (type : LegacyFileType) :
    LifeInv funcTable (lifetimeStart type) := by
  have h1 : (lifetimeStart type).descriptor.refCountStrong = 1 := rfl
  have h2 : (lifetimeStart type).descriptor.refCountWeak = 0 := rfl
  refine ⟨by rw [h1]; decide, by rw [h2], ?_⟩
  rw [expectedCalls_strong funcTable (lifetimeStart type).descriptor (by rw [h1]; decide)]
  rfl

/-- No call on a freed descriptor is part of a run. -/
theorem refCall_freed (debug : Bool) (funcTable : LegacyFileFunctionTable) (call : RefCall)
    (s : Lifetime) (h : s.freed = true) : refCall debug funcTable call s = none := by
  cases call with
  | ref =>
    simp only [refCall]
    unfold legacyfile_ref
    rw [if_pos h]
  | unref =>
    simp only [refCall]
    unfold legacyfile_unref
    rw [if_pos h]
  | refWeak =>
    simp only [refCall]
    unfold legacyfile_refWeak
    rw [if_pos h]
  | unrefWeak =>
    simp only [refCall]
    unfold legacyfile_unrefWeak
    rw [if_pos h]

theorem expectedCalls_counts (funcTable : LegacyFileFunctionTable) (descriptor : LegacyFile) :
    ((expectedCalls funcTable descriptor).count .cleanupBegin =
      if descriptor.refCountStrong = 0 ∧ funcTable.cleanup.isSome then 1 else 0) ∧
    ((expectedCalls funcTable descriptor).count .cleanupEnd =
      if descriptor.refCountStrong = 0 ∧ funcTable.cleanup.isSome then 1 else 0) ∧
    ((expectedCalls funcTable descriptor).count .free =
      if descriptor.refCountStrong = 0 ∧ descriptor.refCountWeak = 0 then 1 else 0) ∧
    expectedCalls funcTable descriptor <+: cleanupLog funcTable ++ [.free] := by
  unfold expectedCalls cleanupLog
  by_cases hs : descriptor.refCountStrong = 0
  · by_cases hw : descriptor.refCountWeak = 0
    · cases funcTable.cleanup <;> simp [hs, hw]
    · cases funcTable.cleanup <;> simp [hs, hw]
  · simp [hs]

/-- C36 (amended; descriptor lifetime under strong and weak counts): take any
sequence of `ref`, `unref`, `refWeak` and `unrefWeak` calls on a descriptor
fresh from `legacyfile_init` that passes every assertion of the code: the
strong count is positive when `ref` is called (the assertion of
`legacyfile_ref`), neither count goes below zero, and no call is made on the
freed object.  Then the run is the same whether or not the assertions are
compiled in; both counts are non-negative; and the vtable calls made so far are
exactly those that the counts account for: none while the strong count is
positive; once it is 0, one run of the vtable `cleanup` (begun and finished),
if the table has one; and after that one vtable `free` if and only if the weak
count is 0 as well.  So `cleanup` runs at most once, at the `unref` that
brings the strong count to 0, `free` runs at most once, only when both counts
are 0 and after `cleanup` has finished, and no further call is possible then.
This holds after every prefix of the sequence. -/
theorem descriptor_lifetime (funcTable : LegacyFileFunctionTable) (type : LegacyFileType)
    (calls : List RefCall) (s : Lifetime)
    (h : refRun true funcTable calls (lifetimeStart type) = some s) :
    (∀ debug, refRun debug funcTable calls (lifetimeStart type) = some s) ∧
    0 ≤ s.descriptor.refCountStrong ∧ 0 ≤ s.descriptor.refCountWeak ∧
    s.calls = expectedCalls funcTable s.descriptor ∧
    (s.calls.count .cleanupBegin =
      if s.descriptor.refCountStrong = 0 ∧ funcTable.cleanup.isSome then 1 else 0) ∧
    (s.calls.count .cleanupEnd =
      if s.descriptor.refCountStrong = 0 ∧ funcTable.cleanup.isSome then 1 else 0) ∧
    (s.calls.count .free =
      if s.descriptor.refCountStrong = 0 ∧ s.descriptor.refCountWeak = 0 then 1 else 0) ∧
    s.calls <+: cleanupLog funcTable ++ [.free] ∧
    (s.freed = true → ∀ debug call, refCall debug funcTable call s = none) ∧
    (∀ pre post, calls = pre ++ post →
      ∃ s0, refRun true funcTable pre (lifetimeStart type) = some s0 ∧
        refRun true funcTable post s0 = some s ∧
        s0.calls = expectedCalls funcTable s0.descriptor) := by
  obtain ⟨⟨h1, h2, h3⟩, hdebug⟩ :=
    refRun_checked funcTable calls (lifetimeStart type) s (LifeInv_start funcTable type) h
  have hc := expectedCalls_counts funcTable s.descriptor
  rw [← h3] at hc
  refine ⟨hdebug, h1, h2, h3, hc.1, hc.2.1, hc.2.2.1, hc.2.2.2, ?_, ?_⟩
  · intro hfreed debug call
    exact refCall_freed debug funcTable call s hfreed
  · intro pre post hsplit
    rw [hsplit, refRun_append] at h
    cases hpre : refRun true funcTable pre (lifetimeStart type) with
    | none =>
      rw [hpre] at h
      exact absurd h (by simp)
    | some s0 =>
      rw [hpre, Option.some_bind] at h
      exact ⟨s0, rfl, h,
        (refRun_checked funcTable pre (lifetimeStart type) s0 (LifeInv_start funcTable type)
          hpre).1.2.2⟩

/-- C36 on a full lifetime: with a weak and a second strong reference taken and
all three given back, the cleanup runs at the last `unref` and the free at the
`unrefWeak` after it. -/
theorem descriptor_lifetime_witness :
    refRun false cleanupTable [.refWeak, .ref, .unref, .unref, .unrefWeak]
        (lifetimeStart .DT_FILE) =
      some { descriptor := LegacyFile.mk .DT_FILE 0 0 [] 0 0,
             calls := [.cleanupBegin, .cleanupEnd, .free] } :=
  (descriptor_lifetime cleanupTable .DT_FILE [.refWeak, .ref, .unref, .unref, .unrefWeak]
    { descriptor := LegacyFile.mk .DT_FILE 0 0 [] 0 0,
      calls := [.cleanupBegin, .cleanupEnd, .free] } (by decide)).1 false

/-- C36 as stated fails: without the assertions, the calls `refWeak`, `unref`,
`ref`, `unref` on a fresh descriptor keep both counts non-negative (they are
(1,1), (0,1), (1,1), (0,1) after the four calls), and the vtable `cleanup` runs
twice, once at each `unref`; the `free` never runs.  With the assertions the
`ref` stops the run. -/
theorem descriptor_lifetime_counterexample :
    refCounts false cleanupTable [.refWeak, .unref, .ref, .unref] (lifetimeStart .DT_FILE) =
      [(1, 1), (0, 1), (1, 1), (0, 1)] ∧
    (refRun false cleanupTable [.refWeak, .unref, .ref, .unref] (lifetimeStart .DT_FILE)).map
      (fun s => s.calls) =
      some [.cleanupBegin, .cleanupEnd, .cleanupBegin, .cleanupEnd] ∧
    refRun true cleanupTable [.refWeak, .unref, .ref, .unref] (lifetimeStart .DT_FILE) = none ∧
    refRun true cleanupTable [.refWeak, .unref] (lifetimeStart .DT_FILE) =
      some { descriptor := LegacyFile.mk .DT_FILE 0 0 [] 0 1,
             calls := [.cleanupBegin, .cleanupEnd] } := by
  refine ⟨by decide, by decide, by decide, by decide⟩

end Descriptor

namespace ShimTls

theorem sizeofStorage_ge (S : Nat) : 1024 ≤ sizeofStorage S := by
  unfold sizeofStorage BYTES_PER_THREAD
  omega

theorem sizeofStorage_eq (S : Nat) (h : 16 ∣ S) : sizeofStorage S = BYTES_PER_THREAD S := by
  unfold sizeofStorage BYTES_PER_THREAD
  omega

/-- What the block `if (!_tls)` does when it does not end the process. -/
theorem mapStorage_ok (st st1 : ShimState) (thread : Nat) (raw_rv : Int)
    (h : mapStorage st thread raw_rv = .ok st1) :
    st1.nextByteOffset = st.nextByteOffset ∧ st1.vars = st.vars ∧
    (st.tls thread ≠ 0 → st1 = st) ∧ (∀ th, th ≠ thread → st1.tls th = st.tls th) := by
  unfold mapStorage at h
  split at h
  · split at h
    · exact absurd h (by simp)
    · rename_i h0 _
      injection h with h
      subst h
      refine ⟨rfl, rfl, fun hne => absurd h0 hne, ?_⟩
      intro th hth
      simp only [Function.update_noteq hth]
  · injection h with h
    subst h
    exact ⟨rfl, rfl, fun _ => rfl, fun _ _ => rfl⟩

/-- The block `if (!_tls)` ends the process exactly when the thread has no
storage and the `mmap` fails. -/
theorem mapStorage_error (st : ShimState) (thread : Nat) (raw_rv : Int) :
    (st.tls thread = 0 ∧ raw_rv ≤ -1 ∧ raw_rv ≥ -4095 →
      mapStorage st thread raw_rv = .error .mmapFailed) ∧
    (¬ (st.tls thread = 0 ∧ raw_rv ≤ -1 ∧ raw_rv ≥ -4095) →
      ∃ st1, mapStorage st thread raw_rv = .ok st1) := by
  unfold mapStorage
  constructor
  · intro h
    rw [if_pos h.1, if_pos h.2]
  · intro h
    by_cases h0 : st.tls thread = 0
    · rw [if_pos h0, if_neg (fun hc => h ⟨h0, hc⟩)]
      exact ⟨_, rfl⟩
    · rw [if_neg h0]
      exact ⟨_, rfl⟩

theorem initVar_initd (S : Nat) (st : ShimState) (v sz : Nat)
    (h : (st.vars v)._initd = true) : initVar S st v sz = .ok st := by
  unfold initVar
  rw [if_pos h]

/-- The block `if (!v->_initd)` for a variable that is not initialised, when the
additions do not wrap around. -/
theorem initVar_fresh (S : Nat) (st : ShimState) (v sz : Nat)
    (h : (st.vars v)._initd = false) (hbelow : st.nextByteOffset < sizeofStorage S)
    (hsz : NoWrap S sz) :
    initVar S st v sz =
      if st.nextByteOffset + sz + (16 - (st.nextByteOffset + sz) % 16) ≥ sizeofStorage S then
        .error .limitExceeded
      else
        .ok { st with
          nextByteOffset := st.nextByteOffset + sz + (16 - (st.nextByteOffset + sz) % 16),
          vars := Function.update st.vars v
            { _offset := st.nextByteOffset, _initd := true } } := by
  unfold NoWrap at hsz
  unfold initVar
  rw [if_neg (by rw [h]; simp)]
  have h1 : (st.nextByteOffset + sz) % 2 ^ 64 = st.nextByteOffset + sz :=
    Nat.mod_eq_of_lt (by omega)
  have h2 : (st.nextByteOffset + sz + (16 - (st.nextByteOffset + sz) % 16)) % 2 ^ 64 =
      st.nextByteOffset + sz + (16 - (st.nextByteOffset + sz) % 16) :=
    Nat.mod_eq_of_lt (by omega)
  simp only [h1, h2]

theorem TlsInv_of_fields (S : Nat) (st st1 : ShimState) (log : List Alloc)
    (hn : st1.nextByteOffset = st.nextByteOffset) (hv : st1.vars = st.vars)
    (h : TlsInv S st log) : TlsInv S st1 log := by
  obtain ⟨h1, h2, h3, h4, h5, h6⟩ := h
  exact ⟨by rw [hn]; exact h1, by rw [hn]; exact h2, by rw [hn]; exact h3, h4,
    by rw [hv]; exact h5, by rw [hv]; exact h6⟩

theorem TlsInv_start (S : Nat) : TlsInv S shimStart [] := by
  refine ⟨rfl, ?_, ?_, List.Pairwise.nil, ?_, ?_⟩
  · have := sizeofStorage_ge S
    show 0 < sizeofStorage S
    omega
  · intro a ha
    exact absurd ha (List.not_mem_nil a)
  · intro v hv
    exact absurd hv (by simp [shimStart])
  · intro a ha
    exact absurd ha (List.not_mem_nil a)

/-- The block `if (!v->_initd)` keeps the invariant of the allocator, and a new
variable gets the bytes from the old next offset on. -/
theorem initVar_inv (S : Nat) (st st2 : ShimState) (log : List Alloc) (v sz : Nat)
    (hinv : TlsInv S st log) (hsz : NoWrap S sz) (h : initVar S st v sz = .ok st2) :
    TlsInv S st2
      (if (st.vars v)._initd then log
       else log ++ [{ var := v, offset := (st2.vars v)._offset, size := sz }]) ∧
    st2.tls = st.tls := by
  cases hi : (st.vars v)._initd with
  | true =>
    rw [initVar_initd S st v sz hi] at h
    injection h with h
    subst h
    simp only [if_true]
    exact ⟨hinv, trivial⟩
  | false =>
    obtain ⟨h1, h2, h3, h4, h5, h6⟩ := hinv
    rw [initVar_fresh S st v sz hi h2 hsz] at h
    split at h
    · exact absurd h (by simp)
    · rename_i hlim
      injection h with h
      subst h
      simp only [Bool.false_eq_true, if_false, Function.update_same]
      refine ⟨⟨?_, ?_, ?_, ?_, ?_, ?_⟩, trivial⟩
      · show (st.nextByteOffset + sz + (16 - (st.nextByteOffset + sz) % 16)) % 16 = 0
        omega
      · show st.nextByteOffset + sz + (16 - (st.nextByteOffset + sz) % 16) < sizeofStorage S
        omega
      · intro a ha
        show a.offset % 16 = 0 ∧
          a.offset + a.size < st.nextByteOffset + sz + (16 - (st.nextByteOffset + sz) % 16)
        rcases List.mem_append.1 ha with ha | ha
        · have := h3 a ha
          omega
        · rw [List.mem_singleton] at ha
          subst ha
          simp only []
          omega
      · rw [List.pairwise_append]
        refine ⟨h4, List.pairwise_singleton _ _, ?_⟩
        intro a ha b hb
        rw [List.mem_singleton] at hb
        subst hb
        exact (h3 a ha).2
      · intro w hw
        by_cases hwv : w = v
        · exact ⟨_, List.mem_append_right _ (List.mem_singleton_self _), hwv.symm⟩
        · simp only [Function.update_noteq hwv] at hw
          obtain ⟨a, ha, hav⟩ := h5 w hw
          exact ⟨a, List.mem_append_left _ ha, hav⟩
      · intro a ha
        rcases List.mem_append.1 ha with ha | ha
        · have hne : a.var ≠ v := by
            intro hc
            have := h6 a ha
            rw [hc] at this
            rw [this] at hi
            exact absurd hi (by simp)
          simp only [Function.update_noteq hne]
          exact h6 a ha
        · rw [List.mem_singleton] at ha
          subst ha
          simp only [Function.update_same]

theorem shimtlsvar_ptr_inv (S : Nat) (st st2 : ShimState) (log : List Alloc)
    (thread : Nat) (raw_rv : Int) (v sz ptr : Nat) (hinv : TlsInv S st log) (hsz : NoWrap S sz)
    (h : shimtlsvar_ptr S st thread raw_rv v sz = .ok (st2, ptr)) :
    TlsInv S st2
      (if (st.vars v)._initd then log
       else log ++ [{ var := v, offset := (st2.vars v)._offset, size := sz }]) := by
  unfold shimtlsvar_ptr at h
  cases hm : mapStorage st thread raw_rv with
  | error e =>
    rw [hm] at h
    exact absurd h (by simp)
  | ok st1 =>
    rw [hm] at h
    simp only [] at h
    cases hv : initVar S st1 v sz with
    | error e =>
      rw [hv] at h
      exact absurd h (by simp)
    | ok st2' =>
      rw [hv] at h
      simp only [Except.ok.injEq, Prod.mk.injEq] at h
      obtain ⟨h1, _⟩ := h
      subst h1
      obtain ⟨hn, hvars, _, _⟩ := mapStorage_ok st st1 thread raw_rv hm
      have := (initVar_inv S st1 st2' log v sz (TlsInv_of_fields S st st1 log hn hvars hinv)
        hsz hv).1
      rw [hvars] at this
      exact this

theorem shimRun_inv (S : Nat) :
    ∀ (calls : List TlsCall) (st st2 : ShimState) (log log2 : List Alloc), TlsInv S st log →
      (∀ c ∈ calls, NoWrap S c.sz) → shimRun S calls (st, log) = .ok (st2, log2) →
      TlsInv S st2 log2 := by
  intro calls
  induction calls with
  | nil =>
    intro st st2 log log2 hinv _ h
    simp only [shimRun, Except.ok.injEq, Prod.mk.injEq] at h
    obtain ⟨h1, h2⟩ := h
    subst h1 h2
    exact hinv
  | cons c calls ih =>
    intro st st2 log log2 hinv hsz h
    simp only [shimRun] at h
    cases hc : shimtlsvar_ptr S st c.thread c.raw_rv c.var c.sz with
    | error e =>
      rw [hc] at h
      exact absurd h (by simp)
    | ok r =>
      obtain ⟨st1, ptr⟩ := r
      rw [hc] at h
      simp only [] at h
      exact ih st1 st2 _ log2
        (shimtlsvar_ptr_inv S st st1 log c.thread c.raw_rv c.var c.sz ptr hinv
          (hsz c (List.mem_cons_self _ _)) hc)
        (fun c' hc' => hsz c' (List.mem_cons_of_mem _ hc')) h

/-- An initialising call by a thread whose storage is mapped, when the additions
do not wrap around: it ends the process at the limit exactly when the aligned
next offset would reach the size of the storage, and otherwise stores the old
next offset in the variable and returns the address at that offset. -/
theorem shimtlsvar_ptr_limit (S : Nat) (st st1 : ShimState) (thread : Nat) (raw_rv : Int)
    (v sz : Nat) (hm : mapStorage st thread raw_rv = .ok st1)
    (hi : (st.vars v)._initd = false) (hbelow : st.nextByteOffset < sizeofStorage S)
    (hsz : NoWrap S sz) :
    (st.nextByteOffset + sz + (16 - (st.nextByteOffset + sz) % 16) ≥ sizeofStorage S →
      shimtlsvar_ptr S st thread raw_rv v sz = .error .limitExceeded) ∧
    (st.nextByteOffset + sz + (16 - (st.nextByteOffset + sz) % 16) < sizeofStorage S →
      ∃ st2, shimtlsvar_ptr S st thread raw_rv v sz =
          .ok (st2, (st1.tls thread + st.nextByteOffset) % 2 ^ 64) ∧
        st2.vars v = { _offset := st.nextByteOffset, _initd := true } ∧
        st2.nextByteOffset = st.nextByteOffset + sz + (16 - (st.nextByteOffset + sz) % 16)) := by
  obtain ⟨hn, hv, _, _⟩ := mapStorage_ok st st1 thread raw_rv hm
  have hfresh := initVar_fresh S st1 v sz (by rw [hv]; exact hi) (by rw [hn]; exact hbelow) hsz
  rw [hn] at hfresh
  constructor
  · intro hge
    unfold shimtlsvar_ptr
    rw [hm]
    simp only []
    rw [hfresh, if_pos hge]
  · intro hlt
    refine ⟨{ st1 with
      nextByteOffset := st.nextByteOffset + sz + (16 - (st.nextByteOffset + sz) % 16),
      vars := Function.update st1.vars v { _offset := st.nextByteOffset, _initd := true } },
      ?_, ?_, ?_⟩
    · unfold shimtlsvar_ptr
      rw [hm]
      simp only []
      rw [hfresh, if_neg (Nat.not_le.2 hlt)]
      simp only [Function.update_same]
    · simp only [Function.update_same]
    · rfl

/-- The size check is passed after a wrap-around: a first variable of size
`2 ^ 64 - 1` and a second of size 8 are both given offset 0. -/
theorem shimRun_wraps (S : Nat) :
    (shimRun S [TlsCall.mk 1 4096 0 (2 ^ 64 - 1), TlsCall.mk 1 4096 1 8] (shimStart, [])).map
        Prod.snd = .ok [Alloc.mk 0 0 (2 ^ 64 - 1), Alloc.mk 1 0 8] := by
  have hS := sizeofStorage_ge S
  have h0 : ¬ sizeofStorage S ≤ 0 := by omega
  have h16 : ¬ sizeofStorage S ≤ 16 := by omega
  simp [shimRun, shimtlsvar_ptr, mapStorage, initVar, shimStart, Function.update, h0, h16,
    Except.map]

/-- C38 (offsets of the shim's thread-local variables): for every sequence of
`shimtlsvar_ptr` calls that returns and in which no addition wraps around
(every `sz` is at most `2 ^ 64 - 16` less the size of the storage),
`_nextByteOffset` is a multiple of 16 below the size of the storage, every
initialised variable has an allocation at the offset stored in it, which is a
multiple of 16, the bytes `[offset, offset + sz)` of every allocation end
before the size of the storage (which is `BYTES_PER_THREAD` when
`SHIM_SIGNAL_STACK_SIZE` is a multiple of 16), the allocations lie one after
the other, so those of two variables do not overlap, and no variable has two;
and an initialising call that would bring the aligned next offset to the size
of the storage or beyond ends the process instead of returning.  But the
additions are on `size_t`: after a first call with `sz = 2 ^ 64 - 1` the
next offset has wrapped around to 0, the size check is passed, and a second
variable is given offset 0 as well. -/
theorem tls_offsets (S : Nat) :
    (∀ (calls : List TlsCall) (st : ShimState) (log : List Alloc),
      (∀ c ∈ calls, NoWrap S c.sz) → shimRun S calls (shimStart, []) = .ok (st, log) →
      st.nextByteOffset % 16 = 0 ∧ st.nextByteOffset < sizeofStorage S ∧
      (∀ a ∈ log, a.offset % 16 = 0 ∧ a.offset + a.size < sizeofStorage S) ∧
      log.Pairwise (fun a b => a.offset + a.size < b.offset) ∧
      (∀ a ∈ log, ∀ b ∈ log, a.var ≠ b.var →
        a.offset + a.size ≤ b.offset ∨ b.offset + b.size ≤ a.offset) ∧
      (log.map Alloc.var).Nodup ∧
      (∀ v, (st.vars v)._initd = true →
        ∃ a ∈ log, a.var = v ∧ (st.vars v)._offset = a.offset)) ∧
    (∀ (st st1 : ShimState) (thread : Nat) (raw_rv : Int) (v sz : Nat),
      mapStorage st thread raw_rv = .ok st1 → (st.vars v)._initd = false →
      st.nextByteOffset < sizeofStorage S → NoWrap S sz →
      st.nextByteOffset + sz + (16 - (st.nextByteOffset + sz) % 16) ≥ sizeofStorage S →
      shimtlsvar_ptr S st thread raw_rv v sz = .error .limitExceeded) ∧
    (16 ∣ S → sizeofStorage S = BYTES_PER_THREAD S) ∧
    (shimRun S [TlsCall.mk 1 4096 0 (2 ^ 64 - 1), TlsCall.mk 1 4096 1 8] (shimStart, [])).map
        Prod.snd = .ok [Alloc.mk 0 0 (2 ^ 64 - 1), Alloc.mk 1 0 8] := by
  refine ⟨?_, ?_, sizeofStorage_eq S, shimRun_wraps S⟩
  · intro calls st log hsz hrun
    obtain ⟨h1, h2, h3, h4, h5, h6⟩ :=
      shimRun_inv S calls shimStart st [] log (TlsInv_start S) hsz hrun
    refine ⟨h1, h2, ?_, h4, ?_, ?_, ?_⟩
    · intro a ha
      have := h3 a ha
      omega
    · have hsym : log.Pairwise (fun a b =>
          a.offset + a.size ≤ b.offset ∨ b.offset + b.size ≤ a.offset) :=
        h4.imp (fun hab => Or.inl (Nat.le_of_lt hab))
      intro a ha b hb hne
      refine hsym.forall (fun x y hxy => hxy.symm) ha hb ?_
      intro hab
      exact hne (by rw [hab])
    · unfold List.Nodup
      rw [List.pairwise_map]
      refine h4.imp_of_mem ?_
      intro a b ha hb hab hvar
      have e1 := h6 a ha
      have e2 := h6 b hb
      rw [hvar, e2] at e1
      have : b.offset = a.offset := by
        injection e1
      omega
    · intro v hv
      obtain ⟨a, ha, hav⟩ := h5 v hv
      refine ⟨a, ha, hav, ?_⟩
      have := h6 a ha
      rw [hav] at this
      rw [this]
  · intro st st1 thread raw_rv v sz hm hi hbelow hsz hge
    exact (shimtlsvar_ptr_limit S st st1 thread raw_rv v sz hm hi hbelow hsz).1 hge

/-- C38 with `SHIM_SIGNAL_STACK_SIZE = 4096`: thread 1 initialises variable 0
with 8 bytes and variable 1 with 24 bytes, then thread 2 asks for variable 0
with another size; the two allocations are at offsets 0 and 16. -/
theorem tls_offsets_witness :
    ∀ a ∈ [Alloc.mk 0 0 8, Alloc.mk 1 16 24], a.offset % 16 = 0 ∧ a.offset + a.size < 5120 :=
  ((tls_offsets 4096).1
    [TlsCall.mk 1 4096 0 8, TlsCall.mk 1 4096 1 24, TlsCall.mk 2 8192 0 100]
    { tls := Function.update (Function.update (fun _ => 0) 1 4096) 2 8192,
      nextByteOffset := 48,
      vars := Function.update
        (Function.update (fun _ => ShimTlsVar.mk 0 false) 0 (ShimTlsVar.mk 0 true)) 1
        (ShimTlsVar.mk 16 true) }
    [Alloc.mk 0 0 8, Alloc.mk 1 16 24]
    (fun c hc => by
      simp only [List.mem_cons, List.mem_singleton, List.not_mem_nil, or_false] at hc
      rcases hc with rfl | rfl | rfl <;> (unfold NoWrap sizeofStorage BYTES_PER_THREAD; decide))
    (by
      simp [shimRun, shimtlsvar_ptr, mapStorage, initVar, shimStart, sizeofStorage,
        BYTES_PER_THREAD, Function.update])).2.2.1

/-- No call changes a variable that is initialised. -/
theorem shimtlsvar_ptr_var_kept (S : Nat) (st st1 : ShimState) (thread : Nat) (raw_rv : Int)
    (v w sz ptr : Nat) (hi : (st.vars v)._initd = true)
    (h : shimtlsvar_ptr S st thread raw_rv w sz = .ok (st1, ptr)) :
    st1.vars v = st.vars v ∧
    (w = v → st1.nextByteOffset = st.nextByteOffset ∧ st1.vars = st.vars) := by
  unfold shimtlsvar_ptr at h
  cases hm : mapStorage st thread raw_rv with
  | error e =>
    rw [hm] at h
    exact absurd h (by simp)
  | ok st0 =>
    rw [hm] at h
    simp only [] at h
    obtain ⟨hn, hv, _, _⟩ := mapStorage_ok st st0 thread raw_rv hm
    cases hw : (st0.vars w)._initd with
    | true =>
      rw [initVar_initd S st0 w sz hw] at h
      simp only [Except.ok.injEq, Prod.mk.injEq] at h
      obtain ⟨h1, _⟩ := h
      subst h1
      exact ⟨by rw [hv], fun _ => ⟨hn, hv⟩⟩
    | false =>
      have hwv : w ≠ v := by
        intro hc
        rw [hc, hv, hi] at hw
        exact absurd hw (by simp)
      cases hinit : initVar S st0 w sz with
      | error e =>
        rw [hinit] at h
        exact absurd h (by simp)
      | ok st2 =>
        rw [hinit] at h
        simp only [Except.ok.injEq, Prod.mk.injEq] at h
        obtain ⟨h1, _⟩ := h
        subst h1
        refine ⟨?_, fun hc => absurd hc hwv⟩
        unfold initVar at hinit
        rw [if_neg (by rw [hw]; simp)] at hinit
        simp only [] at hinit
        split at hinit
        · exact absurd hinit (by simp)
        · injection hinit with hinit
          rw [← hinit]
          show Function.update st0.vars w _ v = st.vars v
          rw [Function.update_noteq (fun hh => hwv hh.symm), hv]

theorem shimRun_var_kept (S : Nat) (v : Nat) :
    ∀ (calls : List TlsCall) (st st2 : ShimState) (log log2 : List Alloc),
      (st.vars v)._initd = true → shimRun S calls (st, log) = .ok (st2, log2) →
      st2.vars v = st.vars v ∧
      ((∀ c ∈ calls, c.var = v) →
        st2.nextByteOffset = st.nextByteOffset ∧ st2.vars = st.vars ∧ log2 = log) := by
  intro calls
  induction calls with
  | nil =>
    intro st st2 log log2 _ h
    simp only [shimRun, Except.ok.injEq, Prod.mk.injEq] at h
    obtain ⟨h1, h2⟩ := h
    subst h1 h2
    exact ⟨rfl, fun _ => ⟨rfl, rfl, rfl⟩⟩
  | cons c calls ih =>
    intro st st2 log log2 hi h
    simp only [shimRun] at h
    cases hc : shimtlsvar_ptr S st c.thread c.raw_rv c.var c.sz with
    | error e =>
      rw [hc] at h
      exact absurd h (by simp)
    | ok r =>
      obtain ⟨st1, ptr⟩ := r
      rw [hc] at h
      simp only [] at h
      obtain ⟨k1, k2⟩ := shimtlsvar_ptr_var_kept S st st1 c.thread c.raw_rv v c.var c.sz ptr hi hc
      obtain ⟨r1, r2⟩ := ih st1 st2 _ log2 (by rw [k1]; exact hi) h
      refine ⟨by rw [r1, k1], ?_⟩
      intro hall
      have hcv : c.var = v := hall c (List.mem_cons_self _ _)
      obtain ⟨n1, n2⟩ := k2 hcv
      obtain ⟨m1, m2, m3⟩ := r2 (fun c' hc' => hall c' (List.mem_cons_of_mem _ hc'))
      refine ⟨by rw [m1, n1], by rw [m2, n2], ?_⟩
      rw [m3, hcv, hi]
      rfl

/-- C39 (`shimtlsvar_ptr` is stable per variable): when a `ShimTlsVar` is
initialised, a call with that variable and any `sz`, by any thread, returns
the address at the offset stored in the variable within the storage of the
calling thread, and leaves `_nextByteOffset` and every variable as they are;
the only thing it may do is to map the storage of a calling thread that has
none, and it ends the process only if that `mmap` fails.  No later call, for
this or for another variable, changes the variable, and any number of calls
for this variable consumes no storage. -/
theorem shimtlsvar_ptr_stable (S : Nat) (st : ShimState) (v : Nat)
    (hi : (st.vars v)._initd = true) :
    (∀ (thread : Nat) (raw_rv : Int) (sz : Nat),
      ¬ (st.tls thread = 0 ∧ raw_rv ≤ -1 ∧ raw_rv ≥ -4095) →
      ∃ st1, shimtlsvar_ptr S st thread raw_rv v sz =
          .ok (st1, (st1.tls thread + (st.vars v)._offset) % 2 ^ 64) ∧
        st1.nextByteOffset = st.nextByteOffset ∧ st1.vars = st.vars ∧
        (st.tls thread ≠ 0 → st1 = st) ∧ (∀ th, th ≠ thread → st1.tls th = st.tls th)) ∧
    (∀ (thread : Nat) (raw_rv : Int) (sz : Nat),
      st.tls thread = 0 ∧ raw_rv ≤ -1 ∧ raw_rv ≥ -4095 →
      shimtlsvar_ptr S st thread raw_rv v sz = .error .mmapFailed) ∧
    (∀ (calls : List TlsCall) (st2 : ShimState) (log log2 : List Alloc),
      shimRun S calls (st, log) = .ok (st2, log2) →
      st2.vars v = st.vars v ∧
      ((∀ c ∈ calls, c.var = v) →
        st2.nextByteOffset = st.nextByteOffset ∧ st2.vars = st.vars ∧ log2 = log)) := by
  refine ⟨?_, ?_, ?_⟩
  · intro thread raw_rv sz hok
    obtain ⟨st1, hm⟩ := (mapStorage_error st thread raw_rv).2 hok
    obtain ⟨hn, hv, hsame, hother⟩ := mapStorage_ok st st1 thread raw_rv hm
    refine ⟨st1, ?_, hn, hv, hsame, hother⟩
    unfold shimtlsvar_ptr
    rw [hm]
    simp only []
    rw [initVar_initd S st1 v sz (by rw [hv]; exact hi)]
    simp only [hv]
  · intro thread raw_rv sz hfail
    unfold shimtlsvar_ptr
    rw [(mapStorage_error st thread raw_rv).1 hfail]
  · intro calls st2 log log2 hrun
    exact shimRun_var_kept S v calls st st2 log log2 hi hrun

/-- C39 with `SHIM_SIGNAL_STACK_SIZE = 4096`: variable 1 has offset 16 and the
storage of thread 1 is at address 4096; a call of thread 1 for variable 1 with
`sz = 1000` returns the address 4112 and changes nothing. -/
theorem shimtlsvar_ptr_stable_witness :
    ∃ st1, shimtlsvar_ptr 4096
        { tls := Function.update (fun _ => 0) 1 4096, nextByteOffset := 48,
          vars := Function.update (fun _ => ShimTlsVar.mk 0 false) 1 (ShimTlsVar.mk 16 true) }
        1 0 1 1000 = .ok (st1, 4112) ∧ st1.nextByteOffset = 48 :=
  ((shimtlsvar_ptr_stable 4096
    { tls := Function.update (fun _ => 0) 1 4096, nextByteOffset := 48,
      vars := Function.update (fun _ => ShimTlsVar.mk 0 false) 1 (ShimTlsVar.mk 16 true) }
    1 rfl).1 1 0 1000 (by decide)).elim (fun st1 h => ⟨st1, by
      have e := h.2.2.2.1 (by decide)
      subst e
      exact h.1, h.2.1⟩)

end ShimTls
